import Mathlib

/-!
memscrimper: the inter-dump deduplication codec

A shallow embedding of the C++ implementation (namespace `mscr`):
`utils.cpp`, `memdump.cpp`, `interdedup_compress.cpp` and
`interdedup_decompress.cpp`, followed by theorems about it.

Conventions of the embedding.
* A `char` is a `Byte` (`Fin 256`); a `std::string` or a `std::vector<char>` is a
  `List Byte`.
* A `uint32_t` or `uint64_t` is a `Nat`, reduced modulo `2^32` or `2^64` where the
  C++ arithmetic can wrap.
* A `std::set<uint32_t>` is the ascending list of its elements.
* A `std::unordered_map` is an association list; iterating the map visits the list
  in order.  The order of the source dump's `page_map_` is left arbitrary in the
  theorems.
* A `std::istream` is the list of the bytes not yet read plus its failbit.
* A function that reads its input returns `Except Fault _`.
-/

namespace mscr

/-- One `char`. -/
abbrev Byte := Fin 256

/-- The `char` a number is narrowed to (`static_cast<char>`). -/
def toByte (n : Nat) : Byte := ⟨n % 256, Nat.mod_lt _ (by decide)⟩

/-- Ways in which a run of the C++ code yields no value. -/
inductive Fault where
  /-- Undefined behaviour: a variable or buffer is read before it was written, or a
  string is indexed outside its storage. -/
  | undefined
  /-- A loop whose exit condition can never become true. -/
  | diverges
  /-- The function logs an error and returns early (or an `assert` fires). -/
  | aborted
  deriving DecidableEq, Repr

/-- Narrowing to `uint32_t`. -/
def u32 (n : Nat) : Nat := n % 2 ^ 32

/-- Subtraction of two `uint32_t` values. -/
def u32sub (a b : Nat) : Nat := (a % 2 ^ 32 + 2 ^ 32 - b % 2 ^ 32) % 2 ^ 32

/-! ## utils -/

/-- `int_to_byte_LE(number, bytelen)`: `result[i] = number >> (i * 8)`. -/
def int_to_byte_LE (number : Nat) (bytelen : Nat) : List Byte :=
  (List.range bytelen).map (fun i => toByte (number >>> (i * 8)))

/-- `int_to_byte_BE(number, bytelen)`: `result[bytelen - i - 1] = number >> (i * 8)`;
the parameter is a `uint32_t`. -/
def int_to_byte_BE (number : Nat) (bytelen : Nat) : List Byte :=
  (List.range bytelen).map (fun j => toByte (u32 number >>> ((bytelen - j - 1) * 8)))

/-- A `std::istream`: the bytes not yet read, and the failbit. -/
structure istream where
  buf : List Byte
  failbit : Bool
  deriving DecidableEq, Repr

/-- A fresh stream over a string (`std::stringstream f(str)`). -/
def istream.ofBytes (bs : List Byte) : istream := ⟨bs, false⟩

/-- `file->read(&c, 1)`: on success `c` receives the next byte; at the end of the
input (or when the stream has already failed) the failbit is set and `c` keeps
its old value (`none` when `c` was never written). -/
def istream.get (s : istream) (c : Option Byte) : Option Byte × istream :=
  if s.failbit then (c, s)
  else
    match s.buf with
    | [] => (c, ⟨[], true⟩)
    | b :: r => (some b, ⟨r, false⟩)

/-- `file->read(buf, n)` into a buffer of `n` chars whose old content is `old`
(`none`: never written).  A short read stores the bytes that are left, sets the
failbit and leaves the rest of the buffer as it was; the result is the buffer as
the caller reads it afterwards, which is undefined when part of it was never
written. -/
def istream.read (s : istream) (old : Option (List Byte)) (n : Nat) :
    Except Fault (List Byte × istream) :=
  if s.failbit then
    match old with
    | none => if n = 0 then .ok ([], s) else .error .undefined
    | some o => .ok (o, s)
  else if n ≤ s.buf.length then .ok (s.buf.take n, ⟨s.buf.drop n, false⟩)
  else
    match old with
    | none => .error .undefined
    | some o => .ok (s.buf ++ o.drop s.buf.length, ⟨[], true⟩)

/-- The loop of `read_num_LE(file, length)`: `k` iterations are left, `i` is the loop
counter, `c` the local `char` and `number` the `uint64_t` accumulator. -/
def read_num_LE_loop : Nat → Nat → Option Byte → Nat → istream → Except Fault (Nat × istream)
  | 0, _, _, number, s => .ok (number, s)
  | k + 1, i, c, number, s =>
    match s.get c with
    | (none, _) => .error .undefined
    | (some b, s') =>
      read_num_LE_loop k (i + 1) (some b) ((number + (b.val <<< (8 * i)) % 2 ^ 64) % 2 ^ 64) s'

/-- `read_num_LE(file, length)`; the local `char c` starts uninitialised. -/
def read_num_LE (s : istream) (length : Nat) : Except Fault (Nat × istream) :=
  read_num_LE_loop length 0 none 0 s

/-- The loop `while (c != 0) { result += c; file->read(&c, 1); }` of `read_string`.
Once the stream has failed `c` never changes again, so the loop cannot exit; the
fuel given by `read_string` is spent exactly in that case. -/
def read_string_loop : Nat → Option Byte → istream → List Byte →
    Except Fault (List Byte × istream)
  | 0, _, _, _ => .error .diverges
  | fuel + 1, c, s, result =>
    match c with
    | none => .error .undefined
    | some b =>
      if b = 0 then .ok (result, s)
      else
        match s.get c with
        | (c', s') => read_string_loop fuel c' s' (result ++ [b])

/-- `read_string(file)`. -/
def read_string (s : istream) : Except Fault (List Byte × istream) :=
  match s.get none with
  | (c, s') => read_string_loop (s.buf.length + 1) c s' []

/-! ## Sets and maps of the standard library -/

/-- `std::set<uint32_t>::insert`. -/
def set_insert (x : Nat) : List Nat → List Nat
  | [] => [x]
  | y :: ys => if x < y then x :: y :: ys else if x = y then y :: ys else y :: set_insert x ys

/-- `std::set_difference` of two sets: the elements of the first that are not in the
second, in ascending order. -/
def set_difference (a b : List Nat) : List Nat := a.filter (fun x => !b.contains x)

/-- `m.find(k)` / `m.count(k) > 0` / `m.at(k)` on an `unordered_map`. -/
def map_find {K V : Type} [DecidableEq K] : List (K × V) → K → Option V
  | [], _ => none
  | (k', v) :: m, k => if k' = k then some v else map_find m k

/-- `m[k] = v` on an `unordered_map`. -/
def map_set {K V : Type} [DecidableEq K] : List (K × V) → K → V → List (K × V)
  | [], k, v => [(k, v)]
  | (k', v') :: m, k, v => if k' = k then (k, v) :: m else (k', v') :: map_set m k v

/-- `m[k]` read on an `unordered_map`: the default value when the key is absent. -/
def map_get {K V : Type} [DecidableEq K] (m : List (K × V)) (k : K) (dflt : V) : V :=
  (map_find m k).getD dflt

/-! ## interdedup_compress: page-number lists and intervals -/

/-- The loop of `create_pagenr_list` over the set `nums`. -/
def create_pagenr_list_loop : Bool → Nat → List Nat → List Byte
  | _, _, [] => []
  | first, prev, page_num :: rest =>
    let curr := if first then u32 page_num else u32sub (u32sub page_num prev) 1
    (if curr < 128 then int_to_byte_BE (curr ||| 128) 1 else int_to_byte_BE curr 4)
      ++ create_pagenr_list_loop false (u32 page_num) rest

/-- `create_pagenr_list(nums, s_out)`: the bytes appended to `s_out`. -/
def create_pagenr_list (nums : List Nat) : List Byte :=
  int_to_byte_LE (u32 nums.length) 4 ++ create_pagenr_list_loop true 0 nums

/-- The loop of `intervalize` from the second element on; `curr` is the current
interval and `result` the vector built so far. -/
def intervalize_loop : Nat × Nat → List (Nat × Nat) → List Nat → List (Nat × Nat)
  | curr, result, [] => result ++ [curr]
  | curr, result, x :: rest =>
    if u32 (curr.2 + 1) = x then intervalize_loop (curr.1, x) result rest
    else intervalize_loop (x, x) (result ++ [curr]) rest

/-- `intervalize(numbers)`. -/
def intervalize : List Nat → List (Nat × Nat)
  | [] => []
  | x :: rest => intervalize_loop (x, x) [] rest

/-- `create_interval(left, right, islast)`; the empty string when `left` is too big. -/
def create_interval (left right : Nat) (islast : Bool) : List Byte :=
  if left ≥ 1 <<< 29 then []
  else
    let last := if islast then 4 else 0
    if left = right then int_to_byte_LE (u32 (last <<< 29) ||| left) 4
    else
      let delta := u32sub right left
      if delta < 1 <<< 8 then
        int_to_byte_LE (u32 ((last ||| 1) <<< 29) ||| left) 4 ++ int_to_byte_LE delta 1
      else if delta < 1 <<< 16 then
        int_to_byte_LE (u32 ((last ||| 2) <<< 29) ||| left) 4 ++ int_to_byte_LE delta 2
      else
        int_to_byte_LE (u32 ((last ||| 3) <<< 29) ||| left) 4 ++ int_to_byte_LE delta 4

/-- The loop of `create_interval_list`: `i` is the index of the first interval of
`ivs`, `len` the size of the whole vector. -/
def create_interval_list_loop (len : Nat) : Nat → List (Nat × Nat) → List (List Byte)
  | _, [] => []
  | i, iv :: rest =>
    create_interval iv.1 iv.2 (decide (u32 (i + 1) = len))
      :: create_interval_list_loop len (i + 1) rest

/-- `create_interval_list(intervals)`. -/
def create_interval_list (intervals : List (Nat × Nat)) : List (List Byte) :=
  create_interval_list_loop (u32 intervals.length) 0 intervals

/-! ## interdedup_decompress: page-number lists and intervals -/

/-- The loop of `parse_pagenr_list`: `k` entries are left, `first` stands for `i == 0`. -/
def parse_pagenr_list_loop : Nat → Bool → Nat → List Nat → istream →
    Except Fault (List Nat × istream)
  | 0, _, _, pagenr_list, fp => .ok (pagenr_list, fp)
  | k + 1, first, prev, pagenr_list, fp => do
    let (curr1B, fp) ← read_num_LE fp 1
    let (num, fp) ←
      if curr1B &&& 128 = 128 then pure (curr1B &&& 127, fp)
      else do
        let (secByte, fp) ← read_num_LE fp 1
        let (thirdByte, fp) ← read_num_LE fp 1
        let (fourthByte, fp) ← read_num_LE fp 1
        pure (u32 ((curr1B <<< 24) ||| (secByte <<< 16) ||| (thirdByte <<< 8) ||| fourthByte), fp)
    let num := if first then num else u32 (prev + num + 1)
    parse_pagenr_list_loop k false num (pagenr_list ++ [num]) fp

/-- `parse_pagenr_list(fp)`. -/
def parse_pagenr_list (fp : istream) : Except Fault (List Nat × istream) := do
  let (sz, fp) ← read_num_LE fp 4
  parse_pagenr_list_loop sz true 0 [] fp

/-- `parse_interval(fp, &last, &left, &right)`: the values `(last, left, right)`. -/
def parse_interval (fp : istream) : Except Fault ((Bool × Nat × Nat) × istream) := do
  let (left4B, fp) ← read_num_LE fp 4
  let upper3b := (left4B &&& (7 <<< 29)) >>> 29
  let size := upper3b &&& 3
  let last := decide (upper3b >>> 2 = 1)
  let left := left4B &&& ((1 <<< 29) - 1)
  let size := if size = 3 then 4 else size
  if size = 0 then pure ((last, left, left), fp)
  else if size = 1 ∨ size = 2 ∨ size = 4 then do
    let (delta, fp) ← read_num_LE fp size
    pure ((last, left, u32 (left + delta)), fp)
  else .error .undefined

/-- The loop `while (!last)` of `parse_interval_list`.  Every iteration reads at
least one byte or faults, so a fuel of one more than the number of unread bytes
is never used up. -/
def parse_interval_list_loop : Nat → List (Nat × Nat) → istream →
    Except Fault (List (Nat × Nat) × istream)
  | 0, _, _ => .error .diverges
  | fuel + 1, intervals, fp => do
    let ((last, left, right), fp) ← parse_interval fp
    let intervals := intervals ++ [(left, right)]
    if last then pure (intervals, fp) else parse_interval_list_loop fuel intervals fp

/-- `parse_interval_list(fp)`. -/
def parse_interval_list (fp : istream) : Except Fault (List (Nat × Nat) × istream) :=
  parse_interval_list_loop (fp.buf.length + 1) [] fp



/-! ## interdedup_compress: diffs -/

/-- A patch: `(offset, bytes)`. -/
abbrev Patch := Nat × List Byte

/-- `ret.back().second += bytes` (nothing to extend in an empty vector; the scan only
does this after a first `push_back`). -/
def append_back : List Patch → List Byte → List Patch
  | [], _ => []
  | [p], bytes => [(p.1, p.2 ++ bytes)]
  | p :: q :: r, bytes => p :: append_back (q :: r) bytes

/-- `ret.back().second.size()`. -/
def back_size (ret : List Patch) : Nat :=
  match ret.getLast? with
  | none => 0
  | some p => p.2.length

/-- The local variables of the scan loop of `generate_patches`. -/
structure PatchScan where
  previ : Nat
  first : Bool
  samebytes : List Byte
  ret : List Patch
  deriving DecidableEq, Repr

/-- One iteration of the scan loop at index `i`, on `ref_page[i]` and `delta_page[i]`. -/
def generate_patches_step (i : Nat) (ref_byte delta_byte : Byte) (st : PatchScan) : PatchScan :=
  if ref_byte = delta_byte then { st with samebytes := st.samebytes ++ [delta_byte] }
  else if st.samebytes.length ≤ 2 ∧ st.first = false then
    { st with ret := append_back st.ret (st.samebytes ++ [delta_byte]), samebytes := [] }
  else if st.first then
    { previ := i, first := false, samebytes := [], ret := st.ret ++ [(i, [delta_byte])] }
  else
    { previ := i, first := false, samebytes := [],
      ret := st.ret ++ [(u32sub (u32sub i st.previ) (back_size st.ret), [delta_byte])] }

/-- The scan loop `for (i = 0; i < pagesize; i++)` of `generate_patches`, from index
`i` on; the lists are the bytes of the two pages from `i` on.  `pagesize` is the
size of `ref_page`; for pages of equal size `delta_page[i]` always exists (the
model reads the terminating NUL of the string otherwise). -/
def generate_patches_scan : Nat → List Byte → List Byte → PatchScan → PatchScan
  | _, [], _, st => st
  | i, r :: rs, [], st => generate_patches_scan (i + 1) rs [] (generate_patches_step i r 0 st)
  | i, r :: rs, d :: ds, st => generate_patches_scan (i + 1) rs ds (generate_patches_step i r d st)

/-- The second loop of `generate_patches`: patches longer than 2048 bytes are emitted
as `substr(0, 2048)` and `substr(2048, 2048)`. -/
def generate_patches_chunk : List Patch → List Patch
  | [] => []
  | (offset, bytes) :: rest =>
    if u32 bytes.length > 2048 then
      (offset, bytes.take 2048) :: (0, (bytes.drop 2048).take 2048) :: generate_patches_chunk rest
    else (offset, bytes) :: generate_patches_chunk rest

/-- `generate_patches(ref_page, delta_page, out)`: the patches appended to `out`.  The
loop bound `pagesize` is the size of `ref_page` narrowed to `uint32_t`. -/
def generate_patches (ref_page delta_page : List Byte) : List Patch :=
  generate_patches_chunk
    (generate_patches_scan 0 (ref_page.take (u32 ref_page.length)) delta_page
      { previ := 0, first := true, samebytes := [], ret := [] }).ret

/-- `patch_encode(offset, len)`. -/
def patch_encode (offset len : Nat) : List Byte :=
  let len := u32sub len 1
  if offset < 256 ∧ len < 128 then int_to_byte_BE len 1 ++ int_to_byte_BE offset 1
  else
    let len_off := u32 (len <<< 12) ||| offset
    let a := ((len_off &&& 0xFF0000) >>> 16) ||| 128
    int_to_byte_BE a 1 ++ int_to_byte_BE (len_off &&& 0xFFFF) 2

/-- The loop of `create_diff` over the patches: the bytes appended to `diff`. -/
def create_diff_loop : List Patch → List Byte
  | [] => []
  | (offset, bytes) :: rest =>
    patch_encode (u32 offset) (u32 bytes.length) ++ bytes ++ create_diff_loop rest

/-- `create_diff(ref_page, delta_page)`. -/
def create_diff (ref_page delta_page : List Byte) : List Byte :=
  let patches := generate_patches ref_page delta_page
  int_to_byte_LE (u32 patches.length) 2 ++ create_diff_loop patches

/-! ## interdedup_decompress: diffs -/

/-- `decode_patch(fp)`: the pair `(size, offset)`. -/
def decode_patch (fp : istream) : Except Fault ((Nat × Nat) × istream) := do
  let (firstB, fp) ← read_num_LE fp 1
  let (secB, fp) ← read_num_LE fp 1
  if firstB &&& 128 = 128 then do
    let (thirdB, fp) ← read_num_LE fp 1
    let firstB := firstB &&& 127
    let rebuildB := u32 ((firstB <<< 16) ||| (secB <<< 8) ||| thirdB)
    let size := u32 (1 + ((rebuildB &&& 0xFFF000) >>> 12))
    let offset := rebuildB &&& 0xFFF
    pure ((size, offset), fp)
  else pure ((u32 (firstB + 1), secB), fp)

/-- The loop of `parse_diff`: `k` patches are left.  The `assert` aborts the run; the
read buffer `readbuf` is a fresh, unwritten array in every iteration. -/
def parse_diff_loop : Nat → List Patch → istream → Except Fault (List Patch × istream)
  | 0, diff, fp => .ok (diff, fp)
  | k + 1, diff, fp => do
    let ((size, offset), fp) ← decode_patch fp
    if size > 2048 then .error .aborted
    else do
      let (patchbytes, fp) ← fp.read none size
      parse_diff_loop k (diff ++ [(offset, patchbytes)]) fp

/-- `parse_diff(fp)`. -/
def parse_diff (fp : istream) : Except Fault (List Patch × istream) := do
  let (patch_count, fp) ← read_num_LE fp 2
  parse_diff_loop patch_count [] fp

/-- `rebuild_page[idx] = b`: writing inside the string; writing the value 0 onto the
terminating NUL changes nothing; any other access is out of bounds. -/
def string_set (page : List Byte) (idx : Nat) (b : Byte) : Except Fault (List Byte) :=
  if idx < page.length then .ok (page.set idx b)
  else if idx = page.length ∧ b = 0 then .ok page
  else .error .undefined

/-- The inner loop of `apply_diff`: `rebuild_page[offset + i] = patchbytes[i]` from
index `i` on. -/
def apply_patch_bytes (offset : Nat) : Nat → List Byte → List Byte → Except Fault (List Byte)
  | _, [], page => .ok page
  | i, b :: bs, page => do
    let page ← string_set page (u32 (offset + i)) b
    apply_patch_bytes offset (i + 1) bs page

/-- The outer loop of `apply_diff` over the patches. -/
def apply_diff_loop : Nat → List Patch → List Byte → Except Fault (List Byte)
  | _, [], page => .ok page
  | offset, (o, patchbytes) :: rest, page => do
    let offset := u32 (offset + o)
    let page ← apply_patch_bytes offset 0 patchbytes page
    apply_diff_loop (u32 (offset + patchbytes.length)) rest page

/-- `apply_diff(refpage, diff)`. -/
def apply_diff (refpage : List Byte) (diff : List Patch) : Except Fault (List Byte) :=
  apply_diff_loop 0 diff refpage

/-! ## Notions used to state and prove the properties of diffs -/

/-- The number of bytes of a page that a list of patches walks over. -/
def patches_span : List Patch → Nat
  | [] => 0
  | (o, b) :: r => o + b.length + patches_span r

/-- The page a list of patches turns `x` into, cursor-relative: keep `offset` bytes,
replace the next ones by the patch bytes, go on behind them. -/
def patches_apply : List Patch → List Byte → List Byte
  | [], x => x
  | (o, b) :: r, x => x.take o ++ b ++ patches_apply r (x.drop (o + b.length))

/-- The invariant of the scan loop of `generate_patches` after the prefixes `rp` of
the reference page and `dp` of the delta page. -/
def ScanInv (rp dp : List Byte) (st : PatchScan) : Prop :=
  rp.length = dp.length ∧ (∀ p ∈ st.ret, p.2 ≠ []) ∧
  (st.first = true → st.ret = [] ∧ st.samebytes = dp ∧ rp = dp) ∧
  (st.first = false → st.ret ≠ [] ∧ ∃ pre_r pre_d : List Byte,
      rp = pre_r ++ st.samebytes ∧ dp = pre_d ++ st.samebytes ∧
      pre_r.length = patches_span st.ret ∧ patches_apply st.ret pre_r = pre_d ∧
      st.previ + back_size st.ret = patches_span st.ret)

/-! ## memdump -/

/-- The class `memdump`: `page_map_` maps a page content to the set of page numbers
holding it, `num_to_page_` is its lazily built inverse. -/
structure memdump where
  path_ : List Byte
  page_map_ : List (List Byte × List Nat)
  num_to_page_ : List (Nat × List Byte)
  deriving DecidableEq, Repr

/-- `memdump::memdump(path)`. -/
def memdump.new (path : List Byte) : memdump := ⟨path, [], []⟩

/-- `this->page_map_[content].insert(pagenr)`. -/
def page_map_insert (m : List (List Byte × List Nat)) (content : List Byte) (pagenr : Nat) :
    List (List Byte × List Nat) :=
  map_set m content (set_insert pagenr (map_get m content []))

/-- The loop `while (file.read(page_content, pagesize))` of `readDumpfile`.  A read of
fewer than `pagesize` bytes fails and ends the loop; with `pagesize = 0` every read
succeeds and the loop never ends, which is the only way to use up the fuel. -/
def readDumpfile_loop (pagesize : Nat) : Nat → List Byte → Nat → List (List Byte × List Nat) →
    Except Fault (List (List Byte × List Nat))
  | 0, _, _, _ => .error .diverges
  | fuel + 1, file, pagenr, m =>
    if pagesize ≤ file.length then
      readDumpfile_loop pagesize fuel (file.drop pagesize) (u32 (pagenr + 1))
        (page_map_insert m (file.take pagesize) pagenr)
    else .ok m

/-- `memdump::readDumpfile(pagesize)` on the file at `path_` (`none`: the file cannot
be opened): the return code and the object afterwards.  The failed read that ends
the loop always reaches the end of the file, so the `eof` check passes. -/
def memdump.readDumpfile (d : memdump) (file : Option (List Byte)) (pagesize : Nat) :
    Except Fault (Nat × memdump) :=
  match file with
  | none => .ok (1, d)
  | some bytes => do
    let m ← readDumpfile_loop pagesize (bytes.length + 1) bytes 0 d.page_map_
    pure (0, { d with page_map_ := m })

/-- The inner loop of `getNumToPage`: `num_to_page_[pagenum] = content` for every page
number of one content. -/
def num_to_page_fill (content : List Byte) : List Nat → List (Nat × List Byte) →
    List (Nat × List Byte)
  | [], m => m
  | pagenum :: rest, m => num_to_page_fill content rest (map_set m pagenum content)

/-- The outer loop of `getNumToPage` over `page_map_`. -/
def num_to_page_build : List (List Byte × List Nat) → List (Nat × List Byte) →
    List (Nat × List Byte)
  | [], m => m
  | (content, nums) :: rest, m => num_to_page_build rest (num_to_page_fill content nums m)

/-- `memdump::getNumToPage()`: the map and the object afterwards. -/
def memdump.getNumToPage (d : memdump) : List (Nat × List Byte) × memdump :=
  if d.num_to_page_.isEmpty then
    let m := num_to_page_build d.page_map_ d.num_to_page_
    (m, { d with num_to_page_ := m })
  else (d.num_to_page_, d)

/-! ## interdedup_compress -/

/-- `enum class compression`. -/
inductive compression where
  | ZIP7
  | GZIP
  | BZIP2
  | NOINNER
  deriving DecidableEq, Repr

/-- The boost stream filters (LZMA, gzip, bzip2) that `compress_file` and
`decompress_file` push; they are libraries outside this repository. -/
structure InnerCodec where
  compress : compression → List Byte → List Byte
  decompress : compression → List Byte → List Byte

/-- An inner codec is lossless when decompressing undoes compressing. -/
def InnerCodec.Lossless (codec : InnerCodec) : Prop :=
  ∀ (c : compression) (x : List Byte), codec.decompress c (codec.compress c x) = x

/-- The bytes of a string literal. -/
def ascii (s : String) : List Byte := s.toList.map (fun c => toByte c.toNat)

/-- `create_method(intra, diffing, inner)`. -/
def create_method (intra diffing : Bool) (inner : compression) : List Byte :=
  ascii "interdedup" ++ (if !intra then ascii "nointra" else [])
    ++ (if diffing then ascii "delta" else [])
    ++ (match inner with
        | .GZIP => ascii "gzip"
        | .ZIP7 => ascii "7zip"
        | .BZIP2 => ascii "bzip2"
        | .NOINNER => [])

/-- `create_header(method, uncompressed_size, majorversion, minorversion, magicnum,
pagesize)`. -/
def create_header (method : List Byte) (uncompressed_size majorversion minorversion : Nat)
    (magicnum : List Byte) (pagesize : Nat) : List Byte :=
  magicnum ++ [0] ++ method ++ [0] ++ int_to_byte_LE (u32 majorversion) 2
    ++ int_to_byte_LE (u32 minorversion) 2 ++ int_to_byte_LE (u32 pagesize) 4
    ++ int_to_byte_LE (uncompressed_size % 2 ^ 64) 8

/-- `compress_file(file_in, inner, file_out)`: the compressed body (the return code is
always 0). -/
def compress_file (codec : InnerCodec) (file_in : List Byte) (inner : compression) : List Byte :=
  match inner with
  | .NOINNER => file_in
  | c => codec.compress c file_in

/-- The containers filled by the classification loop of `interdedup_compress`. -/
structure Classification where
  diffs : List (Nat × List Byte)
  new_pagenrs : List Nat
  new_pages : List (Nat × List Byte)
  dedups : List (Nat × List Nat)
  dedup_pagenrs : List Nat
  diff_pagenrs : List Nat
  same_newpages : List (List Byte × List Nat)
  deriving DecidableEq, Repr

/-- The empty containers before the loop. -/
def Classification.empty : Classification := ⟨[], [], [], [], [], [], []⟩

/-- The loop over the page numbers of a source page that is not in the reference
dump. -/
def classify_new (diffing intra : Bool) (pagesize : Nat) (ref_num_to_page : List (Nat × List Byte))
    (srcpage : List Byte) : List Nat → Classification → Classification
  | [], cl => cl
  | pagenum :: rest, cl =>
    let diff := create_diff (map_get ref_num_to_page pagenum []) srcpage
    if diffing ∧ diff.length < pagesize then
      classify_new diffing intra pagesize ref_num_to_page srcpage rest
        { cl with diffs := map_set cl.diffs pagenum diff,
                  diff_pagenrs := set_insert pagenum cl.diff_pagenrs }
    else if intra then
      classify_new diffing intra pagesize ref_num_to_page srcpage rest
        { cl with same_newpages := page_map_insert cl.same_newpages srcpage pagenum }
    else
      classify_new diffing intra pagesize ref_num_to_page srcpage rest
        { cl with new_pagenrs := set_insert pagenum cl.new_pagenrs,
                  new_pages := map_set cl.new_pages pagenum srcpage }

/-- The body of the loop `for (key_value : *src_pages)` for one source content.  (The
sets in a `page_map_` are never empty, so `*begin()` exists.) -/
def classify_step (diffing intra : Bool) (pagesize : Nat)
    (ref_pages : List (List Byte × List Nat)) (ref_num_to_page : List (Nat × List Byte))
    (key_value : List Byte × List Nat) (cl : Classification) : Classification :=
  let srcpage := key_value.1
  match map_find ref_pages srcpage with
  | some ref_nums =>
    let dedup_pages := set_difference key_value.2 ref_nums
    if dedup_pages ≠ [] then
      let pagenr := ref_nums.headD 0
      { cl with dedups := map_set cl.dedups pagenr dedup_pages,
                dedup_pagenrs := set_insert pagenr cl.dedup_pagenrs }
    else cl
  | none => classify_new diffing intra pagesize ref_num_to_page srcpage key_value.2 cl

/-- The classification loop of `interdedup_compress` over the source `page_map_`. -/
def classify (diffing intra : Bool) (pagesize : Nat)
    (ref_pages : List (List Byte × List Nat)) (ref_num_to_page : List (Nat × List Byte)) :
    List (List Byte × List Nat) → Classification → Classification
  | [], cl => cl
  | key_value :: rest, cl =>
    classify diffing intra pagesize ref_pages ref_num_to_page rest
      (classify_step diffing intra pagesize ref_pages ref_num_to_page key_value cl)

/-- The interval lists of the deduplicated pages, one per representative. -/
def write_dedups (dedups : List (Nat × List Nat)) : List Nat → List Byte
  | [] => []
  | dedup_pnum :: rest =>
    (create_interval_list (intervalize (map_get dedups dedup_pnum []))).flatten
      ++ write_dedups dedups rest

/-- The diffs, in the order of `diff_pagenrs`. -/
def write_diffs (diffs : List (Nat × List Byte)) : List Nat → List Byte
  | [] => []
  | pagenum :: rest => map_get diffs pagenum [] ++ write_diffs diffs rest

/-- The new pages, in the order of `new_pagenrs`. -/
def write_new_pages (new_pages : List (Nat × List Byte)) : List Nat → List Byte
  | [] => []
  | pagenr :: rest => map_get new_pages pagenr [] ++ write_new_pages new_pages rest

/-- The interval lists of the intra-deduplicated pages, in the order of `intrapages`. -/
def write_intra_intervals (same_newpages : List (List Byte × List Nat)) :
    List (List Byte) → List Byte
  | [] => []
  | page :: rest =>
    (create_interval_list (intervalize (map_get same_newpages page []))).flatten
      ++ write_intra_intervals same_newpages rest

/-- The part of the body for the deduplicated pages: the page-number list of the
representatives and one interval list for each. -/
def write_fill_section (cl : Classification) : List Byte :=
  create_pagenr_list cl.dedup_pagenrs ++ write_dedups cl.dedups cl.dedup_pagenrs

/-- The part of the body for the diffs (`if (diffing)`): the page-number list of the
diffed pages and one diff for each. -/
def write_diff_section (diffing : Bool) (cl : Classification) : List Byte :=
  if diffing then create_pagenr_list cl.diff_pagenrs ++ write_diffs cl.diffs cl.diff_pagenrs
  else []

/-- The part of the body for the new pages (`if (intra) ... else ...`). -/
def write_new_section (intra : Bool) (cl : Classification) : List Byte :=
  if intra then
    let intrapages := cl.same_newpages.map Prod.fst
    int_to_byte_LE cl.same_newpages.length 4
      ++ write_intra_intervals cl.same_newpages intrapages
      ++ intrapages.flatten
  else
    (create_interval_list (intervalize cl.new_pagenrs)).flatten
      ++ write_new_pages cl.new_pages cl.new_pagenrs

/-- The body `tmpf` that `interdedup_compress` builds from the classification. -/
def compress_body (path : List Byte) (diffing intra : Bool) (cl : Classification) : List Byte :=
  path ++ [0] ++ write_fill_section cl ++ write_diff_section diffing cl
    ++ write_new_section intra cl

/-- The page size `ref_pages->begin()->first.size()` that `interdedup_compress` works
with; `begin()` of an empty reference `page_map_` does not exist. -/
def compress_pagesize (ref : memdump) : Except Fault Nat :=
  match ref.page_map_ with
  | [] => .error .undefined
  | (page, _) :: _ => .ok (u32 page.length)

/-- The classification that `interdedup_compress` computes for a reference and a
source dump. -/
def compress_classify (pagesize : Nat) (ref srcdump : memdump) (diffing intra : Bool) :
    Classification :=
  classify diffing intra pagesize ref.page_map_ ref.getNumToPage.1 srcdump.page_map_
    Classification.empty

/-- `interdedup_compress(ref, srcdump, out_filename, inner, diffing, intra)`: the
content of the file written to `out_filename`.  `filesize` is what `get_filesize`
returns for the path of the source dump. -/
def interdedup_compress (codec : InnerCodec) (ref srcdump : memdump) (filesize : Nat)
    (inner : compression) (diffing intra : Bool) : Except Fault (List Byte) := do
  let pagesize ← compress_pagesize ref
  let cl := compress_classify pagesize ref srcdump diffing intra
  let tmpf := compress_body ref.path_ diffing intra cl
  let tmpfile2 := compress_file codec tmpf inner
  let method := create_method intra diffing inner
  if filesize % 2 ^ 64 = 0 then .error .aborted
  else pure (create_header method filesize 2 1 (ascii "MBCR") pagesize ++ tmpfile2)

/-! ## interdedup_decompress -/

/-- `str_starts_with(str, prefix)`: `!str.compare(0, prefix.size(), prefix)`. -/
def str_starts_with (str pre : List Byte) : Bool := str.take pre.length == pre

/-- `str.find(pat) != npos`: `pat` occurs somewhere in `str`. -/
def str_contains (str pat : List Byte) : Bool :=
  (List.range (str.length + 1)).any (fun i => str_starts_with (str.drop i) pat)

/-- `decompress_file(file_in, inner, file_out)`: the decompressed body (the return code
is always 0). -/
def decompress_file (codec : InnerCodec) (file_in : List Byte) (inner : compression) :
    List Byte :=
  match inner with
  | .NOINNER => file_in
  | c => codec.decompress c file_in

/-- `read_header(file, method, pagesize, uncompressed_size)`: the return code 1 on a
magic number mismatch, else the three values read. -/
def read_header (file : istream) : Except Fault (Option (List Byte × Nat × Nat) × istream) := do
  let (magicnum, file) ← read_string file
  if magicnum ≠ ascii "MBCR" then pure (none, file)
  else do
    let (method, file) ← read_string file
    let (_major_version, file) ← read_num_LE file 2
    let (_minor_version, file) ← read_num_LE file 2
    let (pagesize, file) ← read_num_LE file 4
    let (uncompressed_size, file) ← read_num_LE file 8
    pure (some (method, u32 pagesize, uncompressed_size), file)

/-- `parse_method(method, inner, intra, diffing)`: `none` for the return code 1, else
`(inner, intra, diffing)`. -/
def parse_method (method : List Byte) : Option (compression × Bool × Bool) :=
  if !str_contains method (ascii "interdedup") then none
  else
    let method := method.drop (ascii "interdedup").length
    let intra := !str_starts_with method (ascii "nointra")
    let method := if intra then method else method.drop (ascii "nointra").length
    let diffing := str_starts_with method (ascii "delta")
    let method := if diffing then method.drop (ascii "delta").length else method
    if str_starts_with method (ascii "7zip") then some (.ZIP7, intra, diffing)
    else if str_starts_with method (ascii "gzip") then some (.GZIP, intra, diffing)
    else if str_starts_with method (ascii "bzip2") then some (.BZIP2, intra, diffing)
    else if method ≠ [] then none
    else some (.NOINNER, intra, diffing)

/-- The loop `for (uint32_t pagenr = left; pagenr <= right; ++pagenr) m[pagenr] = v`.
With `right = 2^32 - 1` the counter wraps and the loop never ends. -/
def fill_range {V : Type} (m : List (Nat × V)) (left right : Nat) (v : V) :
    Except Fault (List (Nat × V)) :=
  if right = 2 ^ 32 - 1 then .error .diverges
  else .ok ((List.range' left (right + 1 - left)).foldl (fun m pagenr => map_set m pagenr v) m)

/-- The loop over the intervals of one representative: every page number of an
interval is mapped to `ref_pagenr`; an interval with `left > right` makes
`interdedup_decompress` return. -/
def fill_intervals (ref_pagenr : Nat) : List (Nat × Nat) → List (Nat × Nat) →
    Except Fault (List (Nat × Nat))
  | [], fills => .ok fills
  | (left, right) :: rest, fills =>
    if left > right then .error .aborted
    else do
      let fills ← fill_range fills left right ref_pagenr
      fill_intervals ref_pagenr rest fills

/-- The loop over `ref_pagenrs`: one interval list per representative. -/
def parse_fills : List Nat → List (Nat × Nat) → istream →
    Except Fault (List (Nat × Nat) × istream)
  | [], fills, fp => .ok (fills, fp)
  | ref_pagenr :: rest, fills, fp => do
    let (iv_list, fp) ← parse_interval_list fp
    let fills ← fill_intervals ref_pagenr iv_list fills
    parse_fills rest fills fp

/-- The loop over `diffpages`: one diff per page number. -/
def parse_diffs : List Nat → List (Nat × List Patch) → istream →
    Except Fault (List (Nat × List Patch) × istream)
  | [], diffs, fp => .ok (diffs, fp)
  | pagenum :: rest, diffs, fp => do
    let (diff, fp) ← parse_diff fp
    parse_diffs rest (map_set diffs pagenum diff) fp

/-- The inner loop of the non-intra new pages: one page is read for every page number
of an interval.  `page_content` is the read buffer (`none` before the first read). -/
def read_new_pages (pagesize : Nat) : List Nat → Option (List Byte) → List (Nat × List Byte) →
    istream → Except Fault (Option (List Byte) × List (Nat × List Byte) × istream)
  | [], page_content, newpages, fp => .ok (page_content, newpages, fp)
  | pagenr :: rest, page_content, newpages, fp => do
    let (page, fp) ← fp.read page_content pagesize
    read_new_pages pagesize rest (some page) (map_set newpages pagenr page) fp

/-- The loop over the intervals of the non-intra new pages. -/
def parse_new_pages (pagesize : Nat) : List (Nat × Nat) → Option (List Byte) →
    List (Nat × List Byte) → istream → Except Fault (List (Nat × List Byte) × istream)
  | [], _, newpages, fp => .ok (newpages, fp)
  | (left, right) :: rest, page_content, newpages, fp =>
    if right = 2 ^ 32 - 1 then .error .diverges
    else do
      let (page_content, newpages, fp) ←
        read_new_pages pagesize (List.range' left (right + 1 - left)) page_content newpages fp
      parse_new_pages pagesize rest page_content newpages fp

/-- The loop that reads `page_count` interval lists (intra). -/
def parse_intra_intervals : Nat → List (List (Nat × Nat)) → istream →
    Except Fault (List (List (Nat × Nat)) × istream)
  | 0, intervals, fp => .ok (intervals, fp)
  | k + 1, intervals, fp => do
    let (iv, fp) ← parse_interval_list fp
    parse_intra_intervals k (intervals ++ [iv]) fp

/-- The loop over the intervals of one intra-deduplicated page. -/
def fill_new_page (page : List Byte) : List (Nat × Nat) → List (Nat × List Byte) →
    Except Fault (List (Nat × List Byte))
  | [], newpages => .ok newpages
  | (left, right) :: rest, newpages => do
    let newpages ← fill_range newpages left right page
    fill_new_page page rest newpages

/-- The loop that unfolds the intra-deduplication: one page per interval list. -/
def parse_intra_pages (pagesize : Nat) : List (List (Nat × Nat)) → Option (List Byte) →
    List (Nat × List Byte) → istream → Except Fault (List (Nat × List Byte) × istream)
  | [], _, newpages, fp => .ok (newpages, fp)
  | ivs :: rest, page_content, newpages, fp => do
    let (page, fp) ← fp.read page_content pagesize
    let newpages ← fill_new_page page ivs newpages
    parse_intra_pages pagesize rest (some page) newpages fp

/-- What `interdedup_decompress` parses from the body. -/
structure BodyTables where
  ref_dump_path : List Byte
  fills : List (Nat × Nat)
  diffs : List (Nat × List Patch)
  newpages : List (Nat × List Byte)
  deriving DecidableEq, Repr

/-- The part of the body parsing for the deduplicated pages: the page-number list of
the representatives and the fills of their interval lists. -/
def parse_fill_section (f_body : istream) : Except Fault (List (Nat × Nat) × istream) := do
  let (ref_pagenrs, f_body) ← parse_pagenr_list f_body
  parse_fills ref_pagenrs [] f_body

/-- The part of the body parsing for the diffs (`if (diffing)`). -/
def parse_diff_section (diffing : Bool) (f_body : istream) :
    Except Fault (List (Nat × List Patch) × istream) :=
  if diffing then do
    let (diffpages, f_body) ← parse_pagenr_list f_body
    parse_diffs diffpages [] f_body
  else pure ([], f_body)

/-- The part of the body parsing for the new pages (`if (!intra_used) ... else ...`). -/
def parse_new_section (pagesize : Nat) (intra_used : Bool) (f_body : istream) :
    Except Fault (List (Nat × List Byte) × istream) :=
  if !intra_used then do
    let (iv_newpages, f_body) ← parse_interval_list f_body
    parse_new_pages pagesize iv_newpages none [] f_body
  else do
    let (page_count, f_body) ← read_num_LE f_body 4
    let (intervals, f_body) ← parse_intra_intervals page_count [] f_body
    parse_intra_pages pagesize intervals none [] f_body

/-- The parsing of the body in `interdedup_decompress`: the tables and the stream
behind the last byte read. -/
def parse_body (pagesize : Nat) (intra_used diffing : Bool) (f_body : istream) :
    Except Fault (BodyTables × istream) := do
  let (ref_dump_path, f_body) ← read_string f_body
  if ref_dump_path = [] then .error .aborted
  else do
    let (fills, f_body) ← parse_fill_section f_body
    let (diffs, f_body) ← parse_diff_section diffing f_body
    let (newpages, f_body) ← parse_new_section pagesize intra_used f_body
    pure (⟨ref_dump_path, fills, diffs, newpages⟩, f_body)

/-- `f_out.write(page_content.c_str(), pagesize)`: the bytes written.  The buffer of
`c_str()` holds the string and a terminating NUL; reading further is out of
bounds. -/
def write_page (page_content : List Byte) (pagesize : Nat) : Except Fault (List Byte) :=
  if pagesize ≤ page_content.length + 1 then .ok ((page_content ++ [0]).take pagesize)
  else .error .undefined

/-- The body of the reconstruction loop for one page number: the bytes written to
the output file. -/
def reconstruct_page (pagesize : Nat) (diffing : Bool) (t : BodyTables)
    (ref_pages : List (Nat × List Byte)) (pagenr : Nat) : Except Fault (List Byte) :=
  match map_find t.fills pagenr with
  | some refnum => write_page (map_get ref_pages refnum []) pagesize
  | none =>
    match (if diffing then map_find t.diffs pagenr else none) with
    | some diff => do
      let page_content ← apply_diff (map_get ref_pages pagenr []) diff
      if page_content = [] then .error .aborted else write_page page_content pagesize
    | none =>
      match map_find t.newpages pagenr with
      | some page_content => write_page page_content pagesize
      | none => write_page (map_get ref_pages pagenr []) pagesize

/-- The reconstruction loop over the page numbers in `pagenrs`. -/
def reconstruct (pagesize : Nat) (diffing : Bool) (t : BodyTables)
    (ref_pages : List (Nat × List Byte)) : List Nat → Except Fault (List Byte)
  | [] => .ok []
  | pagenr :: rest => do
    let page ← reconstruct_page pagesize diffing t ref_pages pagenr
    let tail ← reconstruct pagesize diffing t ref_pages rest
    pure (page ++ tail)

/-- The loop `for (uint32_t pagenr = 0; pagenr < uncompressed_size / pagesize;
pagenr++)` of `interdedup_decompress`: the bytes written to the output file.  A
page size of 0 is a division by zero; a quotient of `2^32` or more is never
reached by the 32-bit counter. -/
def reconstruct_dump (pagesize uncompressed_size : Nat) (diffing : Bool) (t : BodyTables)
    (ref_pages : List (Nat × List Byte)) : Except Fault (List Byte) :=
  if pagesize = 0 then .error .undefined
  else if uncompressed_size / pagesize ≥ 2 ^ 32 then .error .diverges
  else reconstruct pagesize diffing t ref_pages (List.range (uncompressed_size / pagesize))

/-- `interdedup_decompress(nullptr, filename_in, out_filename)`: the content of the
file written to `out_filename`.  `file_in` is the content of `filename_in`
(`none`: it cannot be opened) and `fs` the content of the file at a path. -/
def interdedup_decompress (codec : InnerCodec) (fs : List Byte → Option (List Byte))
    (file_in : Option (List Byte)) : Except Fault (List Byte) :=
  match file_in with
  | none => .error .aborted
  | some bytes => do
    let (header, f_compressed) ← read_header (istream.ofBytes bytes)
    match header with
    | none => .error .aborted
    | some (method, pagesize, uncompressed_size) =>
      match parse_method method with
      | none => .error .aborted
      | some (compression_used, intra_used, diffing) => do
        let compressed_body := if f_compressed.failbit then [] else f_compressed.buf
        let file_body := decompress_file codec compressed_body compression_used
        if file_body = [] then .error .aborted
        else do
          let (t, _) ← parse_body pagesize intra_used diffing (istream.ofBytes file_body)
          let (_, refdump) ← (memdump.new t.ref_dump_path).readDumpfile (fs t.ref_dump_path) pagesize
          reconstruct_dump pagesize uncompressed_size diffing t refdump.getNumToPage.1

/-! ## Notions used to state and prove the properties of the codec -/

/-- A dump as the list of its pages. -/
abbrev Pages := List (List Byte)

/-- The page numbers at which `pages` holds the content `c`, ascending. -/
def occurrences (c : List Byte) (pages : Pages) : List Nat :=
  (List.range pages.length).filter (fun i => decide (pages[i]? = some c))

/-- A `page_map_` of the dump `pages`: one entry per distinct content, with the set
of the page numbers of that content, in any order. -/
def PageMapOf (m : List (List Byte × List Nat)) (pages : Pages) : Prop :=
  (m.map Prod.fst).Nodup ∧
  (∀ c nums, (c, nums) ∈ m → nums = occurrences c pages ∧ nums ≠ []) ∧
  (∀ c, c ∈ pages → c ∈ m.map Prod.fst)

/-- A `memdump` object holds the dump `pages` when its `page_map_` is one of `pages`
and `num_to_page_` is not built yet. -/
def memdump.Holds (d : memdump) (pages : Pages) : Prop :=
  d.num_to_page_ = [] ∧ PageMapOf d.page_map_ pages

/-- A sequence of assignments `m[k] = v`, first to last. -/
def map_set_all {K V : Type} [DecidableEq K] (m : List (K × V)) (kvs : List (K × V)) :
    List (K × V) :=
  kvs.foldl (fun m kv => map_set m kv.1 kv.2) m

/-- A sequence of `insert` calls on a set, first to last. -/
def set_insert_all (s : List Nat) (xs : List Nat) : List Nat :=
  xs.foldl (fun s x => set_insert x s) s

/-- Whether `interdedup_compress` keeps the diff of page `pagenum` with content
`srcpage`: diffing is on and the diff is shorter than a page. -/
def profitable (diffing : Bool) (pagesize : Nat) (ref_num_to_page : List (Nat × List Byte))
    (srcpage : List Byte) (pagenum : Nat) : Bool :=
  diffing && decide ((create_diff (map_get ref_num_to_page pagenum []) srcpage).length < pagesize)

/-- The diffs that the classification loop records for the entries of a `page_map_`,
in the order of recording: page number and diff. -/
def diff_targets (diffing : Bool) (pagesize : Nat) (ref_pages : List (List Byte × List Nat))
    (ref_num_to_page : List (Nat × List Byte)) (entries : List (List Byte × List Nat)) :
    List (Nat × List Byte) :=
  entries.flatMap (fun e =>
    if (map_find ref_pages e.1).isSome then []
    else (e.2.filter (profitable diffing pagesize ref_num_to_page e.1)).map
      (fun p => (p, create_diff (map_get ref_num_to_page p []) e.1)))

/-- The new pages that the classification loop records for the entries of a
`page_map_`, in the order of recording: page number and content. -/
def new_targets (diffing : Bool) (pagesize : Nat) (ref_pages : List (List Byte × List Nat))
    (ref_num_to_page : List (Nat × List Byte)) (entries : List (List Byte × List Nat)) :
    List (Nat × List Byte) :=
  entries.flatMap (fun e =>
    if (map_find ref_pages e.1).isSome then []
    else (e.2.filter (fun p => !profitable diffing pagesize ref_num_to_page e.1 p)).map
      (fun p => (p, e.1)))

/-- The deduplications that the classification loop records for the entries of a
`page_map_`, in the order of recording: representative and page numbers. -/
def dedup_targets (ref_pages : List (List Byte × List Nat))
    (entries : List (List Byte × List Nat)) : List (Nat × List Nat) :=
  entries.flatMap (fun e =>
    match map_find ref_pages e.1 with
    | some ref_nums =>
      if set_difference e.2 ref_nums ≠ [] then [(ref_nums.headD 0, set_difference e.2 ref_nums)]
      else []
    | none => [])

/-- A sequence of `page_map_[content].insert(pagenr)` calls, first to last. -/
def page_map_insert_all (m : List (List Byte × List Nat)) (ps : List (Nat × List Byte)) :
    List (List Byte × List Nat) :=
  ps.foldl (fun m pc => page_map_insert m pc.2 pc.1) m

/-- Page `p` of the source dump `S` is deduplicated against another page of the
reference dump `R`: its content occurs in `R`, but not at `p`. -/
def IsDeduped (R S : Pages) (p : Nat) : Prop :=
  ∃ c, S[p]? = some c ∧ c ∈ R ∧ R[p]? ≠ some c

/-- Page `p` of the source dump is diffed: its content does not occur in `R`, diffing
is on and the diff against `R[p]` is shorter than a page. -/
def IsDiffed (diffing : Bool) (pagesize : Nat) (R S : Pages) (p : Nat) : Prop :=
  ∃ c, S[p]? = some c ∧ c ∉ R ∧
    (diffing = true ∧ (create_diff (R.getD p []) c).length < pagesize)

/-- Page `p` of the source dump is new: its content does not occur in `R` and no diff
is kept for it. -/
def IsNew (diffing : Bool) (pagesize : Nat) (R S : Pages) (p : Nat) : Prop :=
  ∃ c, S[p]? = some c ∧ c ∉ R ∧
    ¬ (diffing = true ∧ (create_diff (R.getD p []) c).length < pagesize)

/-- The page numbers in the sets of `dedups`. -/
def Classification.InDedups (cl : Classification) (p : Nat) : Prop :=
  ∃ r D, map_find cl.dedups r = some D ∧ p ∈ D

/-- The keys of `diffs`. -/
def Classification.InDiffs (cl : Classification) (p : Nat) : Prop :=
  ∃ d, map_find cl.diffs p = some d

/-- The new-page numbers: the keys of `new_pages` and the page numbers in the sets of
`same_newpages`. -/
def Classification.InNew (cl : Classification) (p : Nat) : Prop :=
  (∃ c, map_find cl.new_pages p = some c) ∨
    ∃ c nums, map_find cl.same_newpages c = some nums ∧ p ∈ nums

/-- The page that the specification selects for page number `p`, in its words: the
reference page `R[fills[p]]` if a deduplication fill maps `p`; else, if diffing is
on and a diff is recorded for `p`, that diff applied to `R[p]`; else the parsed
new page for `p` if there is one; else `R[p]`.  `none` when that page does not
exist. -/
def selected_page (diffing : Bool) (t : BodyTables) (R : Pages) (p : Nat) :
    Option (List Byte) :=
  match map_find t.fills p with
  | some r => R[r]?
  | none =>
    match (if diffing then map_find t.diffs p else none) with
    | some diff =>
      match R[p]? with
      | some ref_page =>
        match apply_diff ref_page diff with
        | .ok page => some page
        | .error _ => none
      | none => none
    | none =>
      match map_find t.newpages p with
      | some page => some page
      | none => R[p]?

/-! ## Example dumps -/

/-- A reference dump of two pages of 8 bytes: "CCCCCCCC", "DDDDDDDD". -/
def exR : Pages := [[67, 67, 67, 67, 67, 67, 67, 67], [68, 68, 68, 68, 68, 68, 68, 68]]

/-- A source dump of two pages of 8 bytes: "XXXXXXXX", "CCCCCCCC". -/
def exS : Pages := [[88, 88, 88, 88, 88, 88, 88, 88], [67, 67, 67, 67, 67, 67, 67, 67]]

/-- The object that `readDumpfile` builds for `exR` at the path "r". -/
def exRef : memdump :=
  ⟨[114], [([67, 67, 67, 67, 67, 67, 67, 67], [0]), ([68, 68, 68, 68, 68, 68, 68, 68], [1])], []⟩

/-- The object that `readDumpfile` builds for `exS` at the path "s". -/
def exSrc : memdump :=
  ⟨[115], [([88, 88, 88, 88, 88, 88, 88, 88], [0]), ([67, 67, 67, 67, 67, 67, 67, 67], [1])], []⟩

/-- Example tables of a parsed body: page 1 is filled from reference page 0, page 0 is
the new page "XXXXXXXX". -/
def exTables : BodyTables :=
  ⟨[114], [(1, 0)], [], [(0, [88, 88, 88, 88, 88, 88, 88, 88])]⟩

/-- The page numbers covered by a list of inclusive intervals, in order. -/
def intervals_expand (ivs : List (Nat × Nat)) : List Nat :=
  ivs.flatMap (fun iv => List.range' iv.1 (iv.2 + 1 - iv.1))

/-- The setting in which the codec is used as intended: a reference dump `R` and a
source dump `S` of the same number of pages (at least one, at most `2^29`), all of
`P` bytes with `1 ≤ P < 2^32` and, when diffing is on, `P ≤ 4096`; `ref` and `src`
hold them; the path of the reference dump is a non-empty C string; and without
intra-deduplication at least one page of `S` is new. -/
structure Setting (P : Nat) (R S : Pages) (ref src : memdump) (diffing intra : Bool) :
    Prop where
  hP : 1 ≤ P
  hP32 : P < 2 ^ 32
  hdiffP : diffing = true → P ≤ 4096
  hR : ∀ pg ∈ R, pg.length = P
  hS : ∀ pg ∈ S, pg.length = P
  hlen : R.length = S.length
  hpos : 0 < R.length
  hcount : R.length ≤ 2 ^ 29
  href : ref.Holds R
  hsrc : src.Holds S
  hpath : ref.path_ ≠ [] ∧ ∀ x ∈ ref.path_, x ≠ 0
  hnew : intra = false → ∃ p, IsNew diffing P R S p

/-- The tables that the body of `interdedup_compress` stands for: the fills of the
deduplicated pages, the patches of the diffed pages and the new pages. -/
def expected_tables (R S : Pages) (path : List Byte) (diffing intra : Bool)
    (cl : Classification) : BodyTables :=
  ⟨path,
    map_set_all [] (cl.dedup_pagenrs.flatMap
      (fun r => (map_get cl.dedups r []).map (fun p => (p, r)))),
    if diffing then
      map_set_all [] (cl.diff_pagenrs.map
        (fun p => (p, generate_patches (R.getD p []) (S.getD p []))))
    else [],
    if intra then
      map_set_all [] ((cl.same_newpages.map Prod.fst).flatMap
        (fun c => (map_get cl.same_newpages c []).map (fun p => (p, c))))
    else map_set_all [] (cl.new_pagenrs.map (fun p => (p, S.getD p [])))⟩

/-- A stand-in for the inner codec that stores the bytes as they are. -/
def exCodec : InnerCodec := ⟨fun _ x => x, fun _ x => x⟩

/-- A reference dump of one page of 4098 zero bytes. -/
def exBigR : Pages := [List.replicate 4098 0]

/-- A source dump of one page of 4098 bytes: 4096 zero bytes, then 1, 1. -/
def exBigS : Pages := [List.replicate 4096 0 ++ [1, 1]]

/-- The object that `readDumpfile` builds for `exBigR` at the path "r". -/
def exBigRef : memdump := ⟨[114], [(List.replicate 4098 0, [0])], []⟩

/-- The object that `readDumpfile` builds for `exBigS` at the path "s". -/
def exBigSrc : memdump := ⟨[115], [(List.replicate 4096 0 ++ [1, 1], [0])], []⟩

/-- A dump of two pages of 8 zero bytes. -/
def exZero : Pages := [[0, 0, 0, 0, 0, 0, 0, 0], [0, 0, 0, 0, 0, 0, 0, 0]]

/-- The object that `readDumpfile` builds for `exZero` at the path "r". -/
def exZeroRef : memdump := ⟨[114], [([0, 0, 0, 0, 0, 0, 0, 0], [0, 1])], []⟩

/-- The object that `readDumpfile` builds for `exZero` at the path "s". -/
def exZeroSrc : memdump := ⟨[115], [([0, 0, 0, 0, 0, 0, 0, 0], [0, 1])], []⟩

/-- The method strings of the grammar
`"interdedup" ["nointra"] ["delta"] ("gzip" | "7zip" | "bzip2" | "")`. -/
def method_grammar : List (List Byte) :=
  [ascii "nointra", []].flatMap (fun a =>
    [ascii "delta", []].flatMap (fun b =>
      [ascii "gzip", ascii "7zip", ascii "bzip2", []].map (fun c =>
        ascii "interdedup" ++ a ++ b ++ c)))

/-- The deltas of the page numbers behind the first one, as the format describes them:
`d = p - prev - 1`, where `prev` is the page number before `p`. -/
def pagenr_deltas_from : Nat → List Nat → List Nat
  | _, [] => []
  | prev, p :: rest => (p - prev - 1) :: pagenr_deltas_from p rest

/-- The deltas of an ascending page-number list, as the format describes them: `d = p`
for the first number and `d = p - prev - 1` afterwards. -/
def pagenr_deltas : List Nat → List Nat
  | [] => []
  | p :: rest => p :: pagenr_deltas_from p rest

/-- One entry of a page-number list, as the format describes it: the single byte
`d | 0x80` when `d < 128`, else the four bytes of `d` in big-endian order. -/
def pagenr_entry (d : Nat) : List Byte :=
  if d < 128 then [toByte (d ||| 128)] else int_to_byte_BE d 4

/-- The size code of an interval, as the format describes it, from `r - l`. -/
def interval_code (delta : Nat) : Nat :=
  if delta = 0 then 0 else if delta < 2 ^ 8 then 1 else if delta < 2 ^ 16 then 2 else 3

/-- The number of bytes of `r - l` that follow the word of an interval with a size
code. -/
def interval_width (code : Nat) : Nat :=
  if code = 0 then 0 else if code = 1 then 1 else if code = 2 then 2 else 4

/-- The object for `exS` at the path "s" whose `page_map_` is iterated in the other
order. -/
def exSrcRev : memdump :=
  ⟨[115], [([67, 67, 67, 67, 67, 67, 67, 67], [1]), ([88, 88, 88, 88, 88, 88, 88, 88], [0])], []⟩

/-- The patches `ps` cover the pages `x` and `y` from their start to their end: every
patch is preceded by `offset` bytes on which the two pages agree (counted from the
start for the first patch, from the end of the patch before for the others), starts
at a byte where the pages differ, and consists of the bytes of `y` at its place. -/
def PatchesCover : List Patch → List Byte → List Byte → Prop
  | [], x, y => x = [] ∧ y = []
  | (o, b) :: rest, x, y =>
    ∃ (g b' x' y' : List Byte), x = g ++ b' ++ x' ∧ y = g ++ b ++ y' ∧ g.length = o
      ∧ b'.length = b.length ∧ b'.head? ≠ b.head? ∧ PatchesCover rest x' y'

/-- A body whose only interval is `[0, 2^32 - 1]`: the path "r", the page-number list
`[0]` and one interval with the last bit set, the size code 3, `left = 0` and the
4-byte delta `0xFFFFFFFF`. -/
def exWrapBody : List Byte :=
  [114, 0] ++ [1, 0, 0, 0, 128] ++ [0, 0, 0, 224, 255, 255, 255, 255]

/-- A reference dump of two pages of 8 bytes: "AAAAAAAA", "BBBBBBBB". -/
def exMixR : Pages := [[65, 65, 65, 65, 65, 65, 65, 65], [66, 66, 66, 66, 66, 66, 66, 66]]

/-- A source dump that holds the page "AAAAAAAC" twice. -/
def exMixS : Pages := [[65, 65, 65, 65, 65, 65, 65, 67], [65, 65, 65, 65, 65, 65, 65, 67]]

/-- The object that `readDumpfile` builds for `exMixR` at the path "r". -/
def exMixRef : memdump :=
  ⟨[114], [([65, 65, 65, 65, 65, 65, 65, 65], [0]), ([66, 66, 66, 66, 66, 66, 66, 66], [1])], []⟩

/-- The object that `readDumpfile` builds for `exMixS` at the path "s". -/
def exMixSrc : memdump := ⟨[115], [([65, 65, 65, 65, 65, 65, 65, 67], [0, 1])], []⟩

/-- A reference dump of eight pages of 2 bytes. -/
def exIntraR : Pages := [[1, 1], [2, 2], [3, 3], [4, 4], [5, 5], [6, 6], [7, 7], [8, 8]]

/-- The source dump for `exIntraR` in which the pages 3, 5 and 7 hold "XX". -/
def exIntraS : Pages :=
  [[1, 1], [2, 2], [3, 3], [88, 88], [5, 5], [88, 88], [7, 7], [88, 88]]

/-- The object that `readDumpfile` builds for `exIntraR` at the path "r". -/
def exIntraRef : memdump :=
  ⟨[114], [([1, 1], [0]), ([2, 2], [1]), ([3, 3], [2]), ([4, 4], [3]), ([5, 5], [4]),
    ([6, 6], [5]), ([7, 7], [6]), ([8, 8], [7])], []⟩

/-- The object that `readDumpfile` builds for `exIntraS` at the path "s". -/
def exIntraSrc : memdump :=
  ⟨[115], [([1, 1], [0]), ([2, 2], [1]), ([3, 3], [2]), ([88, 88], [3, 5, 7]), ([5, 5], [4]),
    ([7, 7], [6])], []⟩

/-! # Theorems -/

theorem toByte_val (n : Nat) : (toByte n).val = n % 256 := rfl

theorem or_128_of_lt : ∀ c < 128, c ||| 128 = c + 128 := by decide

theorem and_128_of_ge : ∀ c < 128, (c + 128) &&& 128 = 128 ∧ (c + 128) &&& 127 = c := by decide

theorem and_128_of_lt : ∀ c < 128, c &&& 128 ≠ 128 := by decide

theorem read_num_LE_1 (b : Byte) (rest : List Byte) :
    read_num_LE ⟨b :: rest, false⟩ 1 = .ok (b.val, ⟨rest, false⟩) := by
  simp [read_num_LE, read_num_LE_loop, istream.get]
  omega

theorem int_to_byte_LE_4 (n : Nat) : int_to_byte_LE n 4 =
    [toByte n, toByte (n >>> 8), toByte (n >>> 16), toByte (n >>> 24)] := rfl

theorem read_num_LE_4 (b0 b1 b2 b3 : Byte) (rest : List Byte) :
    read_num_LE ⟨b0 :: b1 :: b2 :: b3 :: rest, false⟩ 4
      = .ok (b0.val + b1.val * 2 ^ 8 + b2.val * 2 ^ 16 + b3.val * 2 ^ 24, ⟨rest, false⟩) := by
  simp [read_num_LE, read_num_LE_loop, istream.get, Nat.shiftLeft_eq]
  omega

theorem int_to_byte_LE_1 (n : Nat) : int_to_byte_LE n 1 = [toByte n] := rfl

theorem int_to_byte_LE_2 (n : Nat) : int_to_byte_LE n 2 = [toByte n, toByte (n >>> 8)] := rfl

theorem read_num_LE_2 (b0 b1 : Byte) (rest : List Byte) :
    read_num_LE ⟨b0 :: b1 :: rest, false⟩ 2 = .ok (b0.val + b1.val * 2 ^ 8, ⟨rest, false⟩) := by
  simp [read_num_LE, read_num_LE_loop, istream.get, Nat.shiftLeft_eq]
  omega

theorem read_num_LE_int_to_byte_LE_1 (n : Nat) (h : n < 2 ^ 8) (rest : List Byte) :
    read_num_LE ⟨int_to_byte_LE n 1 ++ rest, false⟩ 1 = .ok (n, ⟨rest, false⟩) := by
  simp only [int_to_byte_LE_1, List.cons_append, List.nil_append, read_num_LE_1, toByte_val]
  congr 2
  omega

theorem read_num_LE_int_to_byte_LE_2 (n : Nat) (h : n < 2 ^ 16) (rest : List Byte) :
    read_num_LE ⟨int_to_byte_LE n 2 ++ rest, false⟩ 2 = .ok (n, ⟨rest, false⟩) := by
  simp only [int_to_byte_LE_2, List.cons_append, List.nil_append, read_num_LE_2, toByte_val,
    Nat.shiftRight_eq_div_pow]
  congr 2
  omega

theorem read_num_LE_int_to_byte_LE_4 (n : Nat) (h : n < 2 ^ 32) (rest : List Byte) :
    read_num_LE ⟨int_to_byte_LE n 4 ++ rest, false⟩ 4 = .ok (n, ⟨rest, false⟩) := by
  simp only [int_to_byte_LE_4, List.cons_append, List.nil_append, read_num_LE_4, toByte_val,
    Nat.shiftRight_eq_div_pow]
  congr 2
  omega

theorem int_to_byte_BE_1 (n : Nat) : int_to_byte_BE n 1 = [toByte (u32 n)] := rfl

theorem int_to_byte_BE_4 (n : Nat) : int_to_byte_BE n 4 =
    [toByte (u32 n >>> 24), toByte (u32 n >>> 16), toByte (u32 n >>> 8), toByte (u32 n)] := rfl

/-- Reassembling four bytes with shifts and ors is positional notation. -/
theorem or_bytes (b0 b1 b2 b3 : Nat) (h1 : b1 < 256) (h2 : b2 < 256) (h3 : b3 < 256) :
    (b0 <<< 24) ||| (b1 <<< 16) ||| (b2 <<< 8) ||| b3
      = b0 * 2 ^ 24 + b1 * 2 ^ 16 + b2 * 2 ^ 8 + b3 := by
  have e3 : 2 ^ 8 * b2 ||| b3 = 2 ^ 8 * b2 + b3 := (Nat.mul_add_lt_is_or (by omega) b2).symm
  have e2 : 2 ^ 16 * b1 ||| (2 ^ 8 * b2 + b3) = 2 ^ 16 * b1 + (2 ^ 8 * b2 + b3) :=
    (Nat.mul_add_lt_is_or (by omega) b1).symm
  have e1 : 2 ^ 24 * b0 ||| (2 ^ 16 * b1 + (2 ^ 8 * b2 + b3))
      = 2 ^ 24 * b0 + (2 ^ 16 * b1 + (2 ^ 8 * b2 + b3)) :=
    (Nat.mul_add_lt_is_or (by omega) b0).symm
  rw [Nat.shiftLeft_eq, Nat.shiftLeft_eq, Nat.shiftLeft_eq, Nat.or_assoc, Nat.or_assoc,
    Nat.mul_comm b2, Nat.mul_comm b1, Nat.mul_comm b0, e3, e2, e1]
  omega

/-- The short form of an entry: one byte with the top bit set. -/
theorem parse_pagenr_list_loop_short (b : Byte) (h : 128 ≤ b.val) (rest : List Byte) (k : Nat)
    (first : Bool) (prev : Nat) (acc : List Nat) :
    parse_pagenr_list_loop (k + 1) first prev acc ⟨b :: rest, false⟩
      = parse_pagenr_list_loop k false (if first then b.val - 128 else u32 (prev + (b.val - 128) + 1))
          (acc ++ [if first then b.val - 128 else u32 (prev + (b.val - 128) + 1)])
          ⟨rest, false⟩ := by
  have hb := b.isLt
  have e := and_128_of_ge (b.val - 128) (by omega)
  have e' : b.val - 128 + 128 = b.val := by omega
  rw [e'] at e
  simp only [parse_pagenr_list_loop, read_num_LE_1, bind, Except.bind, e.1, e.2, if_true, pure,
    Except.pure]

/-- The long form of an entry: four big-endian bytes, the first with a clear top bit. -/
theorem parse_pagenr_list_loop_long (b0 b1 b2 b3 : Byte) (h : b0.val < 128) (rest : List Byte)
    (k : Nat) (first : Bool) (prev : Nat) (acc : List Nat) (num : Nat)
    (hnum : num = b0.val * 2 ^ 24 + b1.val * 2 ^ 16 + b2.val * 2 ^ 8 + b3.val) :
    parse_pagenr_list_loop (k + 1) first prev acc ⟨b0 :: b1 :: b2 :: b3 :: rest, false⟩
      = parse_pagenr_list_loop k false (if first then num else u32 (prev + num + 1))
          (acc ++ [if first then num else u32 (prev + num + 1)]) ⟨rest, false⟩ := by
  have e := and_128_of_lt b0.val h
  have e2 := or_bytes b0.val b1.val b2.val b3.val b1.isLt b2.isLt b3.isLt
  have e3 : u32 num = num := by
    have := b1.isLt; have := b2.isLt; have := b3.isLt
    simp only [u32]; omega
  simp only [parse_pagenr_list_loop, read_num_LE_1, bind, Except.bind, e, if_false, pure,
    Except.pure, e2, ← hnum, e3]

/-- Decoding one entry of a page-number list written by the encoder. -/
theorem parse_pagenr_entry (curr : Nat) (h : curr < 2 ^ 31) (rest : List Byte) (k : Nat)
    (first : Bool) (prev : Nat) (acc : List Nat) :
    parse_pagenr_list_loop (k + 1) first prev acc
        ⟨(if curr < 128 then int_to_byte_BE (curr ||| 128) 1 else int_to_byte_BE curr 4) ++ rest,
          false⟩
      = parse_pagenr_list_loop k false (if first then curr else u32 (prev + curr + 1))
          (acc ++ [if first then curr else u32 (prev + curr + 1)]) ⟨rest, false⟩ := by
  by_cases hc : curr < 128
  · have e1 := or_128_of_lt curr hc
    have hv : (toByte (u32 (curr + 128))).val = curr + 128 := by
      simp only [toByte_val, u32]; omega
    rw [if_pos hc, int_to_byte_BE_1, e1, List.cons_append, List.nil_append,
      parse_pagenr_list_loop_short _ (by omega), hv, Nat.add_sub_cancel]
  · rw [if_neg hc, int_to_byte_BE_4]
    simp only [List.cons_append, List.nil_append]
    apply parse_pagenr_list_loop_long
    · simp only [toByte_val, u32, Nat.shiftRight_eq_div_pow]; omega
    · simp only [toByte_val, u32, Nat.shiftRight_eq_div_pow]; omega

/-- An ascending list of numbers below `n` has at most `n` elements. -/
theorem length_le_of_sorted_lt (xs : List Nat) (n : Nat) (hs : xs.Sorted (· < ·))
    (hlt : ∀ x ∈ xs, x < n) : xs.length ≤ n := by
  have hnd : xs.Nodup := hs.imp (fun h => Nat.ne_of_lt h)
  have hsub : xs.toFinset ⊆ Finset.range n := by
    intro x hx
    simp only [List.mem_toFinset] at hx
    simpa using hlt x hx
  have := Finset.card_le_card hsub
  rwa [List.toFinset_card_of_nodup hnd, Finset.card_range] at this

/-- The decoder's loop undoes the encoder's loop after the first entry. -/
theorem parse_pagenr_list_loop_create (rest : List Byte) :
    ∀ (xs : List Nat) (prev : Nat) (acc : List Nat), List.Chain (· < ·) prev xs →
      (∀ x ∈ xs, x < 2 ^ 31) →
      parse_pagenr_list_loop xs.length false prev acc
          ⟨create_pagenr_list_loop false prev xs ++ rest, false⟩
        = .ok (acc ++ xs, ⟨rest, false⟩)
  | [], prev, acc, _, _ => by
    simp [parse_pagenr_list_loop, create_pagenr_list_loop]
  | x :: xs, prev, acc, hc, hlt => by
    have hx : x < 2 ^ 31 := hlt x (List.mem_cons_self _ _)
    have hpx : prev < x := (List.chain_cons.mp hc).1
    have hcurr : u32sub (u32sub x prev) 1 = x - prev - 1 := by
      simp only [u32sub]; omega
    have hback : u32 (prev + (x - prev - 1) + 1) = x := by
      simp only [u32]; omega
    have hux : u32 x = x := by simp only [u32]; omega
    simp only [create_pagenr_list_loop, List.length_cons, Bool.false_eq_true, if_false,
      List.append_assoc, hcurr, hux]
    rw [parse_pagenr_entry _ (by omega)]
    simp only [Bool.false_eq_true, if_false, hback]
    rw [parse_pagenr_list_loop_create rest xs x _ (List.chain_cons.mp hc).2
      (fun y hy => hlt y (List.mem_cons_of_mem _ hy))]
    simp

/-- Page-number lists round-trip: ascending page numbers below `2^31`. -/
theorem parse_pagenr_list_create (xs : List Nat) (rest : List Byte)
    (hs : xs.Sorted (· < ·)) (hlt : ∀ x ∈ xs, x < 2 ^ 31) :
    parse_pagenr_list ⟨create_pagenr_list xs ++ rest, false⟩ = .ok (xs, ⟨rest, false⟩) := by
  have hlen := length_le_of_sorted_lt xs (2 ^ 31) hs hlt
  have hul : u32 xs.length = xs.length := by simp only [u32]; omega
  simp only [parse_pagenr_list, create_pagenr_list, List.append_assoc, hul]
  rw [read_num_LE_int_to_byte_LE_4 _ (by omega)]
  simp only [bind, Except.bind]
  cases xs with
  | nil => simp [parse_pagenr_list_loop, create_pagenr_list_loop]
  | cons x xs =>
    have hx : x < 2 ^ 31 := hlt x (List.mem_cons_self _ _)
    have hux : u32 x = x := by simp only [u32]; omega
    have hch : List.Chain (· < ·) x xs := by
      have := List.chain'_iff_pairwise.mpr hs
      simpa [List.Chain'] using this
    simp only [create_pagenr_list_loop, if_true, List.length_cons, List.append_assoc, hux]
    rw [parse_pagenr_entry _ (by omega)]
    simp only [if_true]
    rw [parse_pagenr_list_loop_create rest xs x _ hch
      (fun y hy => hlt y (List.mem_cons_of_mem _ hy))]
    simp

/-- Claim C3: for every strictly ascending list `xs` of page numbers below `2^31`,
`parse_pagenr_list` applied to the bytes written by `create_pagenr_list xs` (whatever
follows them in the stream) returns exactly `xs` and leaves the stream just behind
those bytes, without a failure. -/
theorem pagenr_list_roundtrip (xs : List Nat) (rest : List Byte)
    (hs : xs.Sorted (· < ·)) (hlt : ∀ x ∈ xs, x < 2 ^ 31) :
    parse_pagenr_list ⟨create_pagenr_list xs ++ rest, false⟩ = .ok (xs, ⟨rest, false⟩) :=
  parse_pagenr_list_create xs rest hs hlt

/-- Claim C3 at the page numbers 0 and 70000. -/
theorem pagenr_list_roundtrip_witness :
    parse_pagenr_list ⟨create_pagenr_list [0, 70000] ++ [], false⟩
      = .ok ([0, 70000], ⟨[], false⟩) :=
  pagenr_list_roundtrip [0, 70000] [] (by simp) (by simp)

/-- The three top bits of a 32-bit word, as `parse_interval` extracts them. -/
theorem upper3b_eq (x : Nat) : (x &&& (7 <<< 29)) >>> 29 = x / 2 ^ 29 % 8 := by
  apply Nat.eq_of_testBit_eq
  intro i
  have h7 : (7 : Nat) = 2 ^ 3 - 1 := by decide
  have h8 : (8 : Nat) = 2 ^ 3 := by decide
  rw [h8, Nat.testBit_mod_two_pow, Nat.testBit_shiftRight, Nat.testBit_and, Nat.testBit_shiftLeft,
    h7, Nat.testBit_two_pow_sub_one, ← Nat.shiftRight_eq_div_pow, Nat.testBit_shiftRight]
  simp only [Nat.le_add_right, decide_True, Nat.add_sub_cancel_left, Bool.true_and]
  rw [Bool.and_comm]

/-- The low 29 bits of a word, as `parse_interval` extracts them. -/
theorem low29_eq (x : Nat) : x &&& ((1 <<< 29) - 1) = x % 2 ^ 29 := by
  rw [Nat.one_shiftLeft, Nat.and_pow_two_sub_one_eq_mod]

/-- The word written by `create_interval`: tag `t` above the 29 bits of `left`. -/
theorem interval_word (t left : Nat) (ht : t < 8) (hl : left < 2 ^ 29) :
    u32 (t <<< 29) ||| left = 2 ^ 29 * t + left := by
  have : u32 (t <<< 29) = 2 ^ 29 * t := by
    simp only [u32, Nat.shiftLeft_eq]; omega
  rw [this, ← Nat.mul_add_lt_is_or hl]

/-- What `parse_interval` does with a word `2^29 * t + left` followed by `tail`. -/
theorem parse_interval_word (t left : Nat) (ht : t < 8) (hl : left < 2 ^ 29) (tail : List Byte) :
    parse_interval ⟨int_to_byte_LE (2 ^ 29 * t + left) 4 ++ tail, false⟩
      = (if t % 4 = 0 then .ok ((decide (t / 4 = 1), left, left), ⟨tail, false⟩)
         else (read_num_LE ⟨tail, false⟩ (if t % 4 = 3 then 4 else t % 4)).bind
           (fun r => .ok ((decide (t / 4 = 1), left, u32 (left + r.1)), r.2))) := by
  have e1 : (2 ^ 29 * t + left) / 2 ^ 29 % 8 = t := by omega
  have e2 : (2 ^ 29 * t + left) % 2 ^ 29 = left := by omega
  have e3 : t &&& 3 = t % 4 := Nat.and_pow_two_sub_one_eq_mod t 2
  have e4 : t >>> 2 = t / 4 := Nat.shiftRight_eq_div_pow t 2
  simp only [parse_interval, bind, Except.bind]
  rw [read_num_LE_int_to_byte_LE_4 _ (by omega)]
  simp only [upper3b_eq, low29_eq, e1, e2, e3, e4]
  have h4 : t % 4 = 0 ∨ t % 4 = 1 ∨ t % 4 = 2 ∨ t % 4 = 3 := by omega
  rcases h4 with h | h | h | h <;> simp [h, pure, Except.pure]

/-- The tag `last | d` of an interval word. -/
theorem interval_tag (islast : Bool) (d : Nat) (hd : d < 4) :
    (if islast then 4 else 0) ||| d = (if islast then 4 else 0) + d := by
  cases islast <;> interval_cases d <;> rfl

/-- One interval: `parse_interval` undoes `create_interval`. -/
theorem parse_interval_create_interval (l r : Nat) (islast : Bool) (rest : List Byte)
    (hlr : l ≤ r) (hl : l < 2 ^ 29) (hr : r < 2 ^ 32) :
    parse_interval ⟨create_interval l r islast ++ rest, false⟩
      = .ok ((islast, l, r), ⟨rest, false⟩) := by
  have hnl : ¬ l ≥ 1 <<< 29 := by rw [Nat.one_shiftLeft]; omega
  have hd : u32sub r l = r - l := by simp only [u32sub]; omega
  have h8 : (1 <<< 8 : Nat) = 2 ^ 8 := Nat.one_shiftLeft 8
  have h16 : (1 <<< 16 : Nat) = 2 ^ 16 := Nat.one_shiftLeft 16
  have hback : u32 (l + (r - l)) = r := by simp only [u32]; omega
  simp only [create_interval, hnl, if_false, hd, h8, h16]
  by_cases e : l = r
  · subst e
    have hw := interval_word (if islast then 4 else 0) l (by cases islast <;> decide) hl
    rw [if_pos rfl, hw, parse_interval_word _ _ (by cases islast <;> decide) hl]
    cases islast <;> simp
  · rw [if_neg e]
    by_cases c1 : r - l < 2 ^ 8
    · rw [if_pos c1, interval_tag islast 1 (by decide),
        interval_word _ l (by cases islast <;> decide) hl, List.append_assoc,
        parse_interval_word _ _ (by cases islast <;> decide) hl]
      cases islast <;>
        simp [read_num_LE_int_to_byte_LE_1 _ c1, Except.bind, hback]
    · rw [if_neg c1]
      by_cases c2 : r - l < 2 ^ 16
      · rw [if_pos c2, interval_tag islast 2 (by decide),
          interval_word _ l (by cases islast <;> decide) hl, List.append_assoc,
          parse_interval_word _ _ (by cases islast <;> decide) hl]
        cases islast <;>
          simp [read_num_LE_int_to_byte_LE_2 _ c2, Except.bind, hback]
      · rw [if_neg c2, interval_tag islast 3 (by decide),
          interval_word _ l (by cases islast <;> decide) hl, List.append_assoc,
          parse_interval_word _ _ (by cases islast <;> decide) hl]
        have c4 : r - l < 2 ^ 32 := by omega
        cases islast <;>
          simp [read_num_LE_int_to_byte_LE_4 _ c4, Except.bind, hback]

theorem int_to_byte_LE_length (n k : Nat) : (int_to_byte_LE n k).length = k := by
  simp [int_to_byte_LE]

/-- An interval with a left end below `2^29` is written on at least four bytes. -/
theorem create_interval_length (l r : Nat) (islast : Bool) (hl : l < 2 ^ 29) :
    4 ≤ (create_interval l r islast).length := by
  have hnl : ¬ l ≥ 1 <<< 29 := by rw [Nat.one_shiftLeft]; omega
  simp only [create_interval, hnl, if_false]
  split
  · simp [int_to_byte_LE_length]
  · split
    · simp [int_to_byte_LE_length]
    · split <;> simp [int_to_byte_LE_length]

theorem create_interval_list_loop_length (len : Nat) :
    ∀ (ivs : List (Nat × Nat)) (i : Nat), (∀ iv ∈ ivs, iv.1 < 2 ^ 29) →
      ivs.length ≤ (create_interval_list_loop len i ivs).flatten.length
  | [], _, _ => by simp [create_interval_list_loop]
  | iv :: ivs, i, h => by
    have h1 := create_interval_length iv.1 iv.2 (decide (u32 (i + 1) = len))
      (h iv (List.mem_cons_self _ _))
    have h2 := create_interval_list_loop_length len ivs (i + 1)
      (fun x hx => h x (List.mem_cons_of_mem _ hx))
    simp only [create_interval_list_loop, List.flatten_cons, List.length_append, List.length_cons]
    omega

/-- The reader's loop undoes the writer's loop, given enough fuel. -/
theorem parse_interval_list_loop_create (len : Nat) (hlen : len < 2 ^ 32) (rest : List Byte) :
    ∀ (ivs : List (Nat × Nat)) (i fuel : Nat) (acc : List (Nat × Nat)), ivs ≠ [] →
      ivs.length ≤ fuel → i + ivs.length = len →
      (∀ iv ∈ ivs, iv.1 ≤ iv.2 ∧ iv.1 < 2 ^ 29 ∧ iv.2 < 2 ^ 32) →
      parse_interval_list_loop fuel acc
          ⟨(create_interval_list_loop len i ivs).flatten ++ rest, false⟩
        = .ok (acc ++ ivs, ⟨rest, false⟩)
  | [], _, _, _, hne, _, _, _ => absurd rfl hne
  | iv :: ivs, i, 0, _, _, hf, _, _ => by simp at hf
  | iv :: ivs, i, fuel + 1, acc, _, hf, hi, hv => by
    obtain ⟨h1, h2, h3⟩ := hv iv (List.mem_cons_self _ _)
    simp only [List.length_cons] at hf hi
    simp only [create_interval_list_loop, List.flatten_cons, List.append_assoc,
      parse_interval_list_loop, bind, Except.bind]
    rw [parse_interval_create_interval _ _ _ _ h1 h2 h3]
    cases ivs with
    | nil =>
      have : u32 (i + 1) = len := by simp only [u32]; simp at hi; omega
      simp [this, create_interval_list_loop, pure, Except.pure]
    | cons iv2 ivs2 =>
      have : ¬ u32 (i + 1) = len := by
        simp only [u32]; simp only [List.length_cons] at hi; omega
      simp only [this, decide_False, Bool.false_eq_true, if_false]
      rw [parse_interval_list_loop_create len hlen rest (iv2 :: ivs2) (i + 1) fuel _
        (by simp) (by omega) (by simp only [List.length_cons] at hi ⊢; omega)
        (fun x hx => hv x (List.mem_cons_of_mem _ hx))]
      simp

/-- Interval lists round-trip: any non-empty list of fewer than `2^32` intervals
`[l, r]` with `l ≤ r`, `l < 2^29` and `r < 2^32`. -/
theorem parse_interval_list_create (ivs : List (Nat × Nat)) (rest : List Byte) (hne : ivs ≠ [])
    (hlen : ivs.length < 2 ^ 32)
    (hv : ∀ iv ∈ ivs, iv.1 ≤ iv.2 ∧ iv.1 < 2 ^ 29 ∧ iv.2 < 2 ^ 32) :
    parse_interval_list ⟨(create_interval_list ivs).flatten ++ rest, false⟩
      = .ok (ivs, ⟨rest, false⟩) := by
  have hul : u32 ivs.length = ivs.length := by simp only [u32]; omega
  have hfuel := create_interval_list_loop_length ivs.length ivs 0 (fun iv h => (hv iv h).2.1)
  simp only [parse_interval_list, create_interval_list, hul]
  rw [parse_interval_list_loop_create ivs.length hlen rest ivs 0 _ [] hne
    (by simp only [List.length_append]; omega) (by omega) hv]
  simp

/-- Ascending, pairwise non-adjacent intervals below a bound are at most that many. -/
theorem length_le_of_intervals (n : Nat) :
    ∀ (ivs : List (Nat × Nat)), List.Chain' (fun a b => a.2 + 1 < b.1) ivs →
      (∀ iv ∈ ivs, iv.1 ≤ iv.2 ∧ iv.2 < n) → ivs.length ≤ n := by
  intro ivs hc hv
  have hs : (ivs.map Prod.snd).Sorted (· < ·) := by
    apply List.chain'_iff_pairwise.mp
    rw [List.chain'_map]
    refine List.Chain'.imp ?_ (List.Chain'.iff_mem.mp hc)
    intro a b hab
    have := (hv b hab.2.1).1
    have := hab.2.2
    omega
  have := length_le_of_sorted_lt (ivs.map Prod.snd) n hs (by
    intro x hx
    obtain ⟨iv, hiv, rfl⟩ := List.mem_map.mp hx
    exact (hv iv hiv).2)
  simpa using this

/-- Claim C4: for every non-empty list of intervals `[l, r]` with `l ≤ r < 2^29` that
is ascending and pairwise non-adjacent, `parse_interval_list` applied to the
concatenation of the strings of `create_interval_list` (whatever follows them)
returns exactly that list and leaves the stream just behind those bytes. -/
theorem interval_list_roundtrip (ivs : List (Nat × Nat)) (rest : List Byte)
    (hne : ivs ≠ []) (hv : ∀ iv ∈ ivs, iv.1 ≤ iv.2 ∧ iv.2 < 2 ^ 29)
    (hc : List.Chain' (fun a b => a.2 + 1 < b.1) ivs) :
    parse_interval_list ⟨(create_interval_list ivs).flatten ++ rest, false⟩
      = .ok (ivs, ⟨rest, false⟩) := by
  have hlen := length_le_of_intervals (2 ^ 29) ivs hc hv
  exact parse_interval_list_create ivs rest hne (by omega)
    (fun iv h => ⟨(hv iv h).1, by have := hv iv h; omega, by have := hv iv h; omega⟩)

/-- Claim C4 at the intervals `[3,3]`, `[5,300]`, `[302,70000]`. -/
theorem interval_list_roundtrip_witness :
    parse_interval_list
        ⟨(create_interval_list [(3, 3), (5, 300), (302, 70000)]).flatten ++ [], false⟩
      = .ok ([(3, 3), (5, 300), (302, 70000)], ⟨[], false⟩) :=
  interval_list_roundtrip [(3, 3), (5, 300), (302, 70000)] []
    (by simp) (by decide) (by simp)

/-! ### Patches -/

theorem append_back_concat (init : List Patch) (o : Nat) (b x : List Byte) :
    append_back (init ++ [(o, b)]) x = init ++ [(o, b ++ x)] := by
  induction init with
  | nil => rfl
  | cons p init ih =>
    cases init with
    | nil => rfl
    | cons q r =>
      simp only [List.cons_append] at ih ⊢
      simp only [append_back, ih]

theorem back_size_concat (init : List Patch) (o : Nat) (b : List Byte) :
    back_size (init ++ [(o, b)]) = b.length := by
  simp [back_size]

theorem patches_span_append (ps qs : List Patch) :
    patches_span (ps ++ qs) = patches_span ps + patches_span qs := by
  induction ps with
  | nil => simp [patches_span]
  | cons p ps ih =>
    obtain ⟨o, b⟩ := p
    simp only [List.cons_append, patches_span, List.append_eq, ih]
    omega

/-- Patches only touch the part of the page they walk over. -/
theorem patches_apply_append (qs : List Patch) :
    ∀ (ps : List Patch) (x y : List Byte), x.length = patches_span ps →
      patches_apply (ps ++ qs) (x ++ y) = patches_apply ps x ++ patches_apply qs y
  | [], x, y, h => by
    have : x = [] := List.eq_nil_of_length_eq_zero (by simpa [patches_span] using h)
    subst this
    simp [patches_apply]
  | (o, b) :: ps, x, y, h => by
    simp only [patches_span] at h
    have h1 : o ≤ x.length := by omega
    have h2 : o + b.length ≤ x.length := by omega
    have ih := patches_apply_append qs ps (x.drop (o + b.length)) y
      (by simp only [List.length_drop]; omega)
    simp only [List.cons_append, patches_apply, List.append_eq, List.take_append_of_le_length h1,
      List.drop_append_of_le_length h2, ih, List.append_assoc]

theorem patches_apply_length :
    ∀ (ps : List Patch) (x : List Byte), patches_span ps ≤ x.length →
      (patches_apply ps x).length = x.length
  | [], x, _ => rfl
  | (o, b) :: ps, x, h => by
    simp only [patches_span] at h
    have ih := patches_apply_length ps (x.drop (o + b.length))
      (by simp only [List.length_drop]; omega)
    simp only [patches_apply, List.length_append, List.length_take, ih, List.length_drop]
    omega

/-- The scan loop starts in a state that satisfies its invariant. -/
theorem scanInv_init : ScanInv [] [] { previ := 0, first := true, samebytes := [], ret := [] } := by
  simp [ScanInv]

/-- One iteration of the scan loop keeps the invariant. -/
theorem scanInv_step (rp dp : List Byte) (st : PatchScan) (r d : Byte)
    (hinv : ScanInv rp dp st) (hi : rp.length < 2 ^ 32) :
    ScanInv (rp ++ [r]) (dp ++ [d]) (generate_patches_step rp.length r d st) := by
  obtain ⟨hlen, hne, hfirst, hnot⟩ := hinv
  unfold generate_patches_step
  by_cases hrd : r = d
  · subst hrd
    rw [if_pos rfl]
    refine ⟨by simp [hlen], hne, ?_, ?_⟩
    · intro hf
      obtain ⟨h1, h2, h3⟩ := hfirst hf
      exact ⟨h1, by simp [h2], by simp [h3]⟩
    · intro hf
      obtain ⟨h1, pre_r, pre_d, h2, h3, h4, h5, h6⟩ := hnot hf
      exact ⟨h1, pre_r, pre_d, by simp [h2], by simp [h3], h4, h5, h6⟩
  · rw [if_neg hrd]
    by_cases hfuse : st.samebytes.length ≤ 2 ∧ st.first = false
    · rw [if_pos hfuse]
      obtain ⟨h1, pre_r, pre_d, h2, h3, h4, h5, h6⟩ := hnot hfuse.2
      obtain ⟨init, ⟨o, b⟩, hret⟩ : ∃ init p, st.ret = init ++ [p] := by
        rcases List.eq_nil_or_concat st.ret with h | ⟨init, p, h⟩
        · exact absurd h h1
        · exact ⟨init, p, by simpa using h⟩
      have hspan : patches_span st.ret = patches_span init + (o + b.length) := by
        rw [hret, patches_span_append]; simp [patches_span]
      have hx : pre_r = pre_r.take (patches_span init) ++ pre_r.drop (patches_span init) :=
        (List.take_append_drop _ _).symm
      have hlx : (pre_r.take (patches_span init)).length = patches_span init := by
        simp only [List.length_take]; omega
      have hly : (pre_r.drop (patches_span init)).length = o + b.length := by
        simp only [List.length_drop]; omega
      refine ⟨by simp [hlen], ?_, ?_, ?_⟩
      · intro p hp
        simp only [hret, append_back_concat, List.mem_append, List.mem_singleton] at hp
        rcases hp with hp | hp
        · exact hne p (by rw [hret]; exact List.mem_append_left _ hp)
        · subst hp; simp
      · intro hf; rw [hfuse.2] at hf; exact absurd hf (by simp)
      · intro _
        refine ⟨by simp [hret, append_back_concat], rp ++ [r], dp ++ [d], by simp, by simp, ?_, ?_, ?_⟩
        · simp only [hret, append_back_concat, patches_span_append, patches_span,
            List.length_append, List.length_singleton, h2]
          rw [hret, patches_span_append] at h4
          simp only [patches_span] at h4
          omega
        · simp only [hret, append_back_concat]
          rw [hret, hx, patches_apply_append _ _ _ _ hlx] at h5
          rw [h2, hx, List.append_assoc, List.append_assoc,
            patches_apply_append _ _ _ _ hlx, h3, ← h5]
          simp only [patches_apply, List.append_assoc, List.append_cancel_left_eq]
          have e1 : List.take o (pre_r.drop (patches_span init) ++ (st.samebytes ++ [r]))
              = List.take o (pre_r.drop (patches_span init)) :=
            List.take_append_of_le_length (by omega)
          have e2 : List.drop (o + (b ++ (st.samebytes ++ [d])).length)
              (pre_r.drop (patches_span init) ++ (st.samebytes ++ [r])) = [] := by
            apply List.drop_eq_nil_of_le
            simp only [List.length_append, List.length_singleton, hly]
            omega
          have e3 : List.drop (o + b.length) (pre_r.drop (patches_span init)) = [] :=
            List.drop_eq_nil_of_le (by omega)
          rw [e1, e2, e3]
          simp
        · simp only [hret, append_back_concat, back_size_concat, patches_span_append,
            patches_span, List.length_append, List.length_singleton]
          rw [hret, back_size_concat, patches_span_append] at h6
          simp only [patches_span] at h6
          omega
    · rw [if_neg hfuse]
      by_cases hf : st.first = true
      · rw [if_pos hf]
        obtain ⟨h1, h2, h3⟩ := hfirst hf
        refine ⟨by simp [hlen], ?_, by simp, ?_⟩
        · intro p hp
          simp only [h1, List.nil_append, List.mem_singleton] at hp
          subst hp; simp
        · intro _
          refine ⟨by simp, rp ++ [r], dp ++ [d], by simp, by simp, ?_, ?_, ?_⟩
          · simp [h1, patches_span]
          · simp [h1, patches_apply, h3]
          · simp [h1, patches_span, back_size]
      · rw [if_neg hf]
        have hff : st.first = false := by simpa using hf
        obtain ⟨h1, pre_r, pre_d, h2, h3, h4, h5, h6⟩ := hnot hff
        have hoff : u32sub (u32sub rp.length st.previ) (back_size st.ret)
            = st.samebytes.length := by
          have : rp.length = patches_span st.ret + st.samebytes.length := by
            rw [h2, List.length_append, h4]
          simp only [u32sub]
          omega
        rw [hoff]
        refine ⟨by simp [hlen], ?_, by simp, ?_⟩
        · intro p hp
          simp only [List.mem_append, List.mem_singleton] at hp
          rcases hp with hp | hp
          · exact hne p hp
          · subst hp; simp
        · intro _
          refine ⟨by simp, rp ++ [r], dp ++ [d], by simp, by simp, ?_, ?_, ?_⟩
          · simp only [patches_span_append, patches_span, List.length_append,
              List.length_singleton, h2]
            omega
          · rw [h2, List.append_assoc, patches_apply_append _ _ _ _ h4, h5, h3]
            simp [patches_apply]
          · simp only [back_size_concat, patches_span_append, patches_span,
              List.length_singleton]
            rw [h2, List.length_append] at *
            omega

/-- The scan loop keeps the invariant over the rest of the pages. -/
theorem scanInv_scan :
    ∀ (rs ds rp dp : List Byte) (st : PatchScan), rs.length ≤ ds.length → ScanInv rp dp st →
      rp.length + rs.length ≤ 2 ^ 32 →
      ScanInv (rp ++ rs) (dp ++ ds.take rs.length) (generate_patches_scan rp.length rs ds st)
  | [], ds, rp, dp, st, _, hinv, _ => by
    simpa [generate_patches_scan] using hinv
  | r :: rs, [], rp, dp, st, hl, _, _ => by simp at hl
  | r :: rs, d :: ds, rp, dp, st, hl, hinv, hb => by
    simp only [List.length_cons] at hl hb
    have hstep := scanInv_step rp dp st r d hinv (by omega)
    have ih := scanInv_scan rs ds (rp ++ [r]) (dp ++ [d]) _ (by omega) hstep
      (by simp only [List.length_append, List.length_singleton]; omega)
    simp only [List.length_append, List.length_singleton, List.append_assoc,
      List.singleton_append] at ih
    simpa [generate_patches_scan] using ih

/-- What the invariant says once the scan is over: the patches are non-empty, stay
inside the page and turn the reference page into the delta page. -/
theorem scanInv_final (rp dp : List Byte) (st : PatchScan) (hinv : ScanInv rp dp st) :
    (∀ p ∈ st.ret, p.2 ≠ []) ∧ patches_span st.ret ≤ rp.length ∧
      patches_apply st.ret rp = dp := by
  obtain ⟨_, hne, hfirst, hnot⟩ := hinv
  refine ⟨hne, ?_⟩
  cases hf : st.first with
  | true =>
    obtain ⟨h1, _, h3⟩ := hfirst hf
    simp [h1, patches_span, patches_apply, h3]
  | false =>
    obtain ⟨_, pre_r, pre_d, h2, h3, h4, h5, _⟩ := hnot hf
    refine ⟨by rw [h2, List.length_append]; omega, ?_⟩
    have := patches_apply_append [] st.ret pre_r st.samebytes h4
    rw [List.append_nil] at this
    rw [h2, this, h5, h3]
    simp [patches_apply]

/-- The patches found by the scan of `generate_patches` on pages of equal size. -/
theorem generate_patches_scan_spec (ref_page delta_page : List Byte)
    (hlen : ref_page.length ≤ delta_page.length) (hb : ref_page.length ≤ 2 ^ 32) :
    let ret := (generate_patches_scan 0 ref_page delta_page
      { previ := 0, first := true, samebytes := [], ret := [] }).ret
    (∀ p ∈ ret, p.2 ≠ []) ∧ patches_span ret ≤ ref_page.length ∧
      patches_apply ret ref_page = delta_page.take ref_page.length := by
  have h := scanInv_scan ref_page delta_page [] [] _ hlen scanInv_init (by simpa using hb)
  simpa using scanInv_final _ _ _ h

theorem length_le_patches_span (ps : List Patch) : ∀ p ∈ ps, p.2.length ≤ patches_span ps := by
  induction ps with
  | nil => simp
  | cons q ps ih =>
    obtain ⟨o, b⟩ := q
    intro p hp
    simp only [List.mem_cons] at hp
    rcases hp with rfl | hp
    · simp [patches_span]; omega
    · have := ih p hp
      simp only [patches_span]; omega

/-- Chunking emits patches of 1 to 2048 bytes when the scanned patches are non-empty
and shorter than `2^32` bytes. -/
theorem generate_patches_chunk_bounds :
    ∀ (ps : List Patch), (∀ p ∈ ps, p.2 ≠ [] ∧ p.2.length < 2 ^ 32) →
      ∀ q ∈ generate_patches_chunk ps, 1 ≤ q.2.length ∧ q.2.length ≤ 2048
  | [], _, q, hq => by simp [generate_patches_chunk] at hq
  | (o, b) :: ps, h, q, hq => by
    obtain ⟨hne, hlt⟩ := h (o, b) (List.mem_cons_self _ _)
    simp only at hne hlt
    have hpos : 1 ≤ b.length := Nat.one_le_iff_ne_zero.mpr (by simpa using hne)
    have hu : u32 b.length = b.length := by simp only [u32]; omega
    have ih := generate_patches_chunk_bounds ps (fun p hp => h p (List.mem_cons_of_mem _ hp))
    simp only [generate_patches_chunk, hu] at hq
    split at hq
    · simp only [List.mem_cons] at hq
      rcases hq with rfl | rfl | hq
      · simp only [List.length_take]; omega
      · simp only [List.length_take, List.length_drop]; omega
      · exact ih q hq
    · simp only [List.mem_cons] at hq
      rcases hq with rfl | hq
      · exact ⟨hpos, by simpa using ‹¬ b.length > 2048›⟩
      · exact ih q hq

/-- Every patch emitted by `generate_patches` on pages of equal length has between 1
and 2048 bytes. -/
theorem generate_patches_bounds (ref_page delta_page : List Byte)
    (hlen : ref_page.length = delta_page.length) :
    ∀ p ∈ generate_patches ref_page delta_page, 1 ≤ p.2.length ∧ p.2.length ≤ 2048 := by
  have hu : u32 ref_page.length < 2 ^ 32 := Nat.mod_lt _ (by decide)
  have hule : u32 ref_page.length ≤ ref_page.length := Nat.mod_le _ _
  have hspec := generate_patches_scan_spec (ref_page.take (u32 ref_page.length)) delta_page
    (by simp only [List.length_take]; omega) (by simp only [List.length_take]; omega)
  obtain ⟨hne, hspan, _⟩ := hspec
  apply generate_patches_chunk_bounds
  intro p hp
  refine ⟨hne p hp, ?_⟩
  have := length_le_patches_span _ p hp
  simp only [List.length_take] at hspan
  omega

/-- Claim C10: for every pair of pages of equal length, every patch emitted by
`generate_patches` has at least 1 and at most 2048 bytes. -/
theorem generate_patches_patch_length (ref_page delta_page : List Byte)
    (hlen : ref_page.length = delta_page.length) :
    ∀ p ∈ generate_patches ref_page delta_page, 1 ≤ p.2.length ∧ p.2.length ≤ 2048 :=
  generate_patches_bounds ref_page delta_page hlen

/-- Claim C10 at the pages "AAAAAAAA" and "ABBAABBA" and their one patch. -/
theorem generate_patches_patch_length_witness :
    ((1, [66, 66, 65, 65, 66, 66]) : Patch)
        ∈ generate_patches [65, 65, 65, 65, 65, 65, 65, 65] [65, 66, 66, 65, 65, 66, 66, 65]
      ∧ 1 ≤ ([66, 66, 65, 65, 66, 66] : List Byte).length
      ∧ ([66, 66, 65, 65, 66, 66] : List Byte).length ≤ 2048 :=
  ⟨by decide, generate_patches_patch_length [65, 65, 65, 65, 65, 65, 65, 65]
    [65, 66, 66, 65, 65, 66, 66, 65] rfl (1, [66, 66, 65, 65, 66, 66]) (by decide)⟩

/-! ### Patch headers -/

/-- Masking a bit field and shifting it down is a division and a remainder. -/
theorem and_shift_mask (x k s : Nat) : (x &&& ((2 ^ k - 1) <<< s)) >>> s = x / 2 ^ s % 2 ^ k := by
  apply Nat.eq_of_testBit_eq
  intro i
  rw [Nat.testBit_mod_two_pow, Nat.testBit_shiftRight, Nat.testBit_and, Nat.testBit_shiftLeft,
    Nat.testBit_two_pow_sub_one, ← Nat.shiftRight_eq_div_pow, Nat.testBit_shiftRight]
  simp only [Nat.le_add_right, decide_True, Nat.add_sub_cancel_left, Bool.true_and]
  rw [Bool.and_comm]

theorem int_to_byte_BE_2 (n : Nat) : int_to_byte_BE n 2 =
    [toByte (u32 n >>> 8), toByte (u32 n)] := rfl

theorem or_bytes3 (b0 b1 b2 : Nat) (h1 : b1 < 256) (h2 : b2 < 256) :
    (b0 <<< 16) ||| (b1 <<< 8) ||| b2 = b0 * 2 ^ 16 + b1 * 2 ^ 8 + b2 := by
  have e2 : 2 ^ 8 * b1 ||| b2 = 2 ^ 8 * b1 + b2 := (Nat.mul_add_lt_is_or (by omega) b1).symm
  have e1 : 2 ^ 16 * b0 ||| (2 ^ 8 * b1 + b2) = 2 ^ 16 * b0 + (2 ^ 8 * b1 + b2) :=
    (Nat.mul_add_lt_is_or (by omega) b0).symm
  rw [Nat.shiftLeft_eq, Nat.shiftLeft_eq, Nat.or_assoc, Nat.mul_comm b1, Nat.mul_comm b0, e2, e1]
  omega

/-- The short form of a patch header. -/
theorem decode_patch_short (b0 b1 : Byte) (h : b0.val < 128) (rest : List Byte) :
    decode_patch ⟨b0 :: b1 :: rest, false⟩ = .ok ((b0.val + 1, b1.val), ⟨rest, false⟩) := by
  have e := and_128_of_lt b0.val h
  have e2 : u32 (b0.val + 1) = b0.val + 1 := by simp only [u32]; omega
  simp only [decode_patch, read_num_LE_1, bind, Except.bind, e, if_false, pure, Except.pure, e2]

/-- The long form of a patch header. -/
theorem decode_patch_long (b0 b1 b2 : Byte) (h : 128 ≤ b0.val) (rest : List Byte) (w : Nat)
    (hw : w = (b0.val - 128) * 2 ^ 16 + b1.val * 2 ^ 8 + b2.val) :
    decode_patch ⟨b0 :: b1 :: b2 :: rest, false⟩
      = .ok ((1 + w / 2 ^ 12 % 2 ^ 12, w % 2 ^ 12), ⟨rest, false⟩) := by
  have hb0 := b0.isLt
  have hb1 := b1.isLt
  have hb2 := b2.isLt
  have e := and_128_of_ge (b0.val - 128) (by omega)
  have e' : b0.val - 128 + 128 = b0.val := by omega
  rw [e'] at e
  have e2 := or_bytes3 (b0.val - 128) b1.val b2.val hb1 hb2
  have e3 : u32 w = w := by simp only [u32]; omega
  have m1 : (0xFFF000 : Nat) = (2 ^ 12 - 1) <<< 12 := by norm_num [Nat.shiftLeft_eq]
  have m2 : (0xFFF : Nat) = 2 ^ 12 - 1 := by norm_num
  have e4 : u32 (1 + w / 2 ^ 12 % 2 ^ 12) = 1 + w / 2 ^ 12 % 2 ^ 12 := by
    simp only [u32]; omega
  simp only [decode_patch, read_num_LE_1, bind, Except.bind, e.1, e.2, if_true, pure,
    Except.pure, e2, ← hw, e3, m1, m2, and_shift_mask, Nat.and_pow_two_sub_one_eq_mod, e4]

/-- A patch header written by `patch_encode` is read back by `decode_patch`. -/
theorem decode_patch_patch_encode (o l : Nat) (hl1 : 1 ≤ l) (hl2 : l ≤ 2048) (ho : o < 2 ^ 12)
    (rest : List Byte) :
    decode_patch ⟨patch_encode o l ++ rest, false⟩ = .ok ((l, o), ⟨rest, false⟩) := by
  have hsub : u32sub l 1 = l - 1 := by simp only [u32sub]; omega
  simp only [patch_encode, hsub]
  by_cases hs : o < 256 ∧ l - 1 < 128
  · rw [if_pos hs, int_to_byte_BE_1, int_to_byte_BE_1]
    simp only [List.cons_append, List.nil_append]
    rw [decode_patch_short _ _ (by simp only [toByte_val, u32]; omega)]
    simp only [toByte_val, u32]
    refine congrArg Except.ok (Prod.ext (Prod.ext ?_ ?_) rfl) <;> simp only <;> omega
  · rw [if_neg hs]
    have hword : u32 ((l - 1) <<< 12) ||| o = 2 ^ 12 * (l - 1) + o := by
      have : u32 ((l - 1) <<< 12) = 2 ^ 12 * (l - 1) := by
        simp only [u32, Nat.shiftLeft_eq]; omega
      rw [this, ← Nat.mul_add_lt_is_or ho]
    have m1 : (0xFF0000 : Nat) = (2 ^ 8 - 1) <<< 16 := by norm_num [Nat.shiftLeft_eq]
    have m2 : (0xFFFF : Nat) = 2 ^ 16 - 1 := by norm_num
    have hhi : (2 ^ 12 * (l - 1) + o) / 2 ^ 16 % 2 ^ 8 < 128 := by omega
    rw [hword, m1, m2, and_shift_mask, Nat.and_pow_two_sub_one_eq_mod, or_128_of_lt _ hhi,
      int_to_byte_BE_1, int_to_byte_BE_2]
    simp only [List.cons_append, List.nil_append]
    rw [decode_patch_long _ _ _ (by simp only [toByte_val, u32]; omega) rest
      (2 ^ 12 * (l - 1) + o)
      (by simp only [toByte_val, u32, Nat.shiftRight_eq_div_pow]; omega)]
    refine congrArg Except.ok (Prod.ext (Prod.ext ?_ ?_) rfl) <;> simp only <;> omega

/-- Reading `n` bytes that are there. -/
theorem istream_read_append (bytes rest : List Byte) (old : Option (List Byte)) :
    istream.read ⟨bytes ++ rest, false⟩ old bytes.length = .ok (bytes, ⟨rest, false⟩) := by
  simp [istream.read]

/-- The loop of `parse_diff` reads back the patches written by the loop of
`create_diff`. -/
theorem parse_diff_loop_create (rest : List Byte) :
    ∀ (ps acc : List Patch),
      (∀ p ∈ ps, 1 ≤ p.2.length ∧ p.2.length ≤ 2048 ∧ p.1 < 2 ^ 12) →
      parse_diff_loop ps.length acc ⟨create_diff_loop ps ++ rest, false⟩
        = .ok (acc ++ ps, ⟨rest, false⟩)
  | [], acc, _ => by simp [parse_diff_loop, create_diff_loop]
  | (o, b) :: ps, acc, h => by
    obtain ⟨h1, h2, h3⟩ := h (o, b) (List.mem_cons_self _ _)
    simp only at h1 h2 h3
    have hu1 : u32 o = o := by simp only [u32]; omega
    have hu2 : u32 b.length = b.length := by simp only [u32]; omega
    simp only [create_diff_loop, List.length_cons, parse_diff_loop, List.append_assoc, hu1, hu2,
      bind, Except.bind]
    rw [decode_patch_patch_encode o b.length h1 h2 h3]
    simp only [if_neg (Nat.not_lt.mpr h2), istream_read_append]
    rw [parse_diff_loop_create rest ps _ (fun p hp => h p (List.mem_cons_of_mem _ hp))]
    simp

/-! ### Applying patches -/

theorem set_length_append (A : List Byte) (x b : Byte) (T : List Byte) :
    (A ++ x :: T).set A.length b = A ++ b :: T := by
  induction A with
  | nil => rfl
  | cons a A ih => simp only [List.cons_append, List.length_cons, List.set_cons_succ, ih]

/-- The inner loop of `apply_diff` overwrites the bytes behind the cursor. -/
theorem apply_patch_bytes_eq (offset : Nat) (C : List Byte) :
    ∀ (bs : List Byte) (i : Nat) (A B : List Byte), A.length = offset + i →
      B.length = bs.length → (A ++ B ++ C).length < 2 ^ 32 →
      apply_patch_bytes offset i bs (A ++ B ++ C) = .ok (A ++ bs ++ C)
  | [], i, A, B, _, hB, _ => by
    have : B = [] := List.eq_nil_of_length_eq_zero (by simpa using hB)
    subst this
    simp [apply_patch_bytes]
  | b :: bs, i, A, [], _, hB, _ => by simp at hB
  | b :: bs, i, A, x :: B, hA, hB, hlen => by
    simp only [List.length_append, List.length_cons] at hlen hB
    have hidx : u32 (offset + i) = A.length := by simp only [u32]; omega
    have hset : string_set (A ++ (x :: B) ++ C) A.length b = .ok (A ++ [b] ++ B ++ C) := by
      have hlt : A.length < (A ++ (x :: B) ++ C).length := by
        simp only [List.length_append, List.length_cons]; omega
      simp only [string_set, if_pos hlt]
      have := set_length_append A x b (B ++ C)
      simp only [List.append_assoc, List.cons_append, List.nil_append] at this ⊢
      rw [this]
    have ih := apply_patch_bytes_eq offset C bs (i + 1) (A ++ [b]) B
      (by simp only [List.length_append, List.length_singleton]; omega) (by omega)
      (by simp only [List.length_append, List.length_singleton]; omega)
    simp only [apply_patch_bytes, hidx, hset, bind, Except.bind, ih]
    simp

/-- On patches that stay inside the page, `apply_diff` computes `patches_apply`
behind the cursor. -/
theorem apply_diff_loop_eq :
    ∀ (ps : List Patch) (offset : Nat) (page : List Byte),
      offset + patches_span ps ≤ page.length → page.length < 2 ^ 32 →
      apply_diff_loop offset ps page
        = .ok (page.take offset ++ patches_apply ps (page.drop offset))
  | [], offset, page, _, _ => by simp [apply_diff_loop, patches_apply]
  | (o, b) :: ps, offset, page, h, hlen => by
    simp only [patches_span] at h
    have hoff : u32 (offset + o) = offset + o := by simp only [u32]; omega
    have hoff2 : u32 (offset + o + b.length) = offset + o + b.length := by
      simp only [u32]; omega
    have hpage : page = page.take (offset + o) ++ (page.drop (offset + o)).take b.length
        ++ page.drop (offset + o + b.length) := by
      have h1 := List.take_append_drop (offset + o) page
      have h2 := List.take_append_drop b.length (page.drop (offset + o))
      rw [List.drop_drop] at h2
      rw [List.append_assoc, h2, h1]
    have hstep := apply_patch_bytes_eq (offset + o) (page.drop (offset + o + b.length)) b 0
      (page.take (offset + o)) ((page.drop (offset + o)).take b.length)
      (by simp only [List.length_take]; omega)
      (by simp only [List.length_take, List.length_drop]; omega)
      (by rw [← hpage]; exact hlen)
    rw [← hpage] at hstep
    have ih := apply_diff_loop_eq ps (offset + o + b.length)
      (page.take (offset + o) ++ b ++ page.drop (offset + o + b.length))
      (by simp only [List.length_append, List.length_take, List.length_drop]; omega)
      (by simp only [List.length_append, List.length_take, List.length_drop]; omega)
    have hl : (page.take (offset + o) ++ b).length = offset + o + b.length := by
      simp only [List.length_append, List.length_take]; omega
    have hk1 : (page.take (offset + o) ++ b ++ page.drop (offset + o + b.length)).take
        (offset + o + b.length) = page.take (offset + o) ++ b := List.take_left' hl
    have hk2 : (page.take (offset + o) ++ b ++ page.drop (offset + o + b.length)).drop
        (offset + o + b.length) = page.drop (offset + o + b.length) := List.drop_left' hl
    have hk3 : page.take (offset + o) = page.take offset ++ (page.drop offset).take o :=
      List.take_add _ _ _
    have hk4 : (page.drop offset).drop (o + b.length) = page.drop (offset + o + b.length) := by
      rw [List.drop_drop, Nat.add_assoc]
    simp only [apply_diff_loop, hoff, hoff2, hstep, bind, Except.bind, ih, patches_apply, hk1,
      hk2, hk4]
    rw [hk3]
    simp only [List.append_assoc]

/-- Chunking leaves the meaning of patches of at most 4096 bytes unchanged. -/
theorem generate_patches_chunk_apply :
    ∀ (ps : List Patch) (x : List Byte), (∀ p ∈ ps, p.2.length ≤ 4096) →
      patches_apply (generate_patches_chunk ps) x = patches_apply ps x
        ∧ patches_span (generate_patches_chunk ps) = patches_span ps
  | [], x, _ => by simp [generate_patches_chunk]
  | (o, b) :: ps, x, h => by
    have hb : b.length ≤ 4096 := h (o, b) (List.mem_cons_self _ _)
    have hu : u32 b.length = b.length := by simp only [u32]; omega
    have ih := fun y => generate_patches_chunk_apply ps y
      (fun p hp => h p (List.mem_cons_of_mem _ hp))
    simp only [generate_patches_chunk, hu]
    split
    · have e1 : (b.drop 2048).take 2048 = b.drop 2048 :=
        List.take_of_length_le (by simp only [List.length_drop]; omega)
      have e2 : (b.take 2048).length + (b.drop 2048).length = b.length := by
        simp only [List.length_take, List.length_drop]; omega
      have e3 : b.take 2048 ++ b.drop 2048 = b := List.take_append_drop _ _
      simp only [patches_apply, patches_span, e1, (ih _).1, (ih x).2, List.drop_drop,
        List.take_zero, List.nil_append, Nat.zero_add]
      refine ⟨?_, by omega⟩
      rw [show o + (b.take 2048).length + (b.drop 2048).length = o + b.length by omega]
      simp only [List.append_assoc]
      rw [← List.append_assoc (b.take 2048) (b.drop 2048), e3]
    · simp only [patches_apply, patches_span, (ih _).1, (ih x).2, and_self]

theorem patch_le_patches_span (ps : List Patch) :
    ∀ p ∈ ps, p.1 + p.2.length ≤ patches_span ps := by
  induction ps with
  | nil => simp
  | cons q ps ih =>
    obtain ⟨o, b⟩ := q
    intro p hp
    simp only [List.mem_cons] at hp
    rcases hp with rfl | hp
    · simp [patches_span]
    · have := ih p hp
      simp only [patches_span]; omega

theorem length_le_patches_span_of_nonempty (ps : List Patch) (h : ∀ p ∈ ps, 1 ≤ p.2.length) :
    ps.length ≤ patches_span ps := by
  induction ps with
  | nil => simp
  | cons q ps ih =>
    obtain ⟨o, b⟩ := q
    have h1 : 1 ≤ b.length := h (o, b) (List.mem_cons_self _ _)
    have := ih (fun p hp => h p (List.mem_cons_of_mem _ hp))
    simp only [patches_span, List.length_cons]; omega

/-- The patches of `generate_patches` on two pages of the same size, at most 4096
bytes: between 1 and 2048 bytes each, offsets below `2^12`, inside the page, and
they turn the reference page into the delta page. -/
theorem generate_patches_spec (ref_page delta_page : List Byte)
    (hlen : ref_page.length = delta_page.length) (hP : ref_page.length ≤ 4096) :
    (∀ p ∈ generate_patches ref_page delta_page,
        1 ≤ p.2.length ∧ p.2.length ≤ 2048 ∧ p.1 < 2 ^ 12) ∧
      patches_span (generate_patches ref_page delta_page) ≤ ref_page.length ∧
      patches_apply (generate_patches ref_page delta_page) ref_page = delta_page ∧
      (generate_patches ref_page delta_page).length ≤ ref_page.length := by
  have hbounds := generate_patches_bounds ref_page delta_page hlen
  have hu : u32 ref_page.length = ref_page.length := by simp only [u32]; omega
  have htake : ref_page.take (u32 ref_page.length) = ref_page := by
    rw [hu]; exact List.take_of_length_le (Nat.le_refl _)
  have hspec := generate_patches_scan_spec ref_page delta_page (by omega) (by omega)
  obtain ⟨_, hspan, happ⟩ := hspec
  have hchunk := generate_patches_chunk_apply
    (generate_patches_scan 0 ref_page delta_page
      { previ := 0, first := true, samebytes := [], ret := [] }).ret ref_page
    (fun p hp => by have := length_le_patches_span _ p hp; omega)
  have hspan' : patches_span (generate_patches ref_page delta_page) ≤ ref_page.length := by
    simp only [generate_patches, htake, hchunk.2]; exact hspan
  refine ⟨?_, hspan', ?_, ?_⟩
  · intro p hp
    have h1 := hbounds p hp
    have h2 := patch_le_patches_span _ p hp
    exact ⟨h1.1, h1.2, by omega⟩
  · simp only [generate_patches, htake, hchunk.1, happ]
    rw [hlen]; exact List.take_of_length_le (Nat.le_refl _)
  · have := length_le_patches_span_of_nonempty _ (fun p hp => (hbounds p hp).1)
    omega

/-- The diff of two pages of the same size, at most 4096 bytes, is read back patch by
patch, and applying it to the reference page gives the delta page. -/
theorem diff_roundtrip (ref_page delta_page rest : List Byte)
    (hlen : ref_page.length = delta_page.length) (hP : ref_page.length ≤ 4096) :
    parse_diff ⟨create_diff ref_page delta_page ++ rest, false⟩
        = .ok (generate_patches ref_page delta_page, ⟨rest, false⟩)
      ∧ apply_diff ref_page (generate_patches ref_page delta_page) = .ok delta_page := by
  obtain ⟨hb, hspan, happ, hcount⟩ := generate_patches_spec ref_page delta_page hlen hP
  constructor
  · have hu : u32 (generate_patches ref_page delta_page).length
        = (generate_patches ref_page delta_page).length := by simp only [u32]; omega
    simp only [parse_diff, create_diff, hu, List.append_assoc, bind, Except.bind]
    rw [read_num_LE_int_to_byte_LE_2 _ (by omega)]
    simp only []
    rw [parse_diff_loop_create rest _ [] hb]
    simp
  · have := apply_diff_loop_eq (generate_patches ref_page delta_page) 0 ref_page
      (by omega) (by omega)
    simpa [apply_diff, happ] using this

/-- Claim C2, amended: for every page size `P ≤ 4096` and every two pages `R` and `S`
of exactly `P` bytes, `parse_diff` reads the blob `create_diff R S` back completely
(leaving the stream just behind it) and `apply_diff` of `R` with the parsed patches
equals `S`. -/
theorem diff_roundtrip_le_4096 (P : Nat) (R S rest : List Byte) (hR : R.length = P)
    (hS : S.length = P) (hP : P ≤ 4096) :
    ∃ d, parse_diff ⟨create_diff R S ++ rest, false⟩ = .ok (d, ⟨rest, false⟩)
      ∧ apply_diff R d = .ok S :=
  ⟨generate_patches R S, diff_roundtrip R S rest (by omega) (by omega)⟩

/-- Claim C2, amended, at the pages "ABCDEFGH" and "ABCDEXGH". -/
theorem diff_roundtrip_le_4096_witness :
    ∃ d, parse_diff ⟨create_diff [65, 66, 67, 68, 69, 70, 71, 72]
          [65, 66, 67, 68, 69, 88, 71, 72] ++ [], false⟩ = .ok (d, ⟨[], false⟩)
      ∧ apply_diff [65, 66, 67, 68, 69, 70, 71, 72] d
          = .ok [65, 66, 67, 68, 69, 88, 71, 72] :=
  diff_roundtrip_le_4096 8 [65, 66, 67, 68, 69, 70, 71, 72] [65, 66, 67, 68, 69, 88, 71, 72] []
    rfl rfl (by decide)

/-- The scan of `generate_patches` over a stretch where both pages agree only grows
`samebytes`. -/
theorem generate_patches_scan_same :
    ∀ (pre rs ds : List Byte) (i : Nat) (st : PatchScan),
      generate_patches_scan i (pre ++ rs) (pre ++ ds) st
        = generate_patches_scan (i + pre.length) rs ds
            { st with samebytes := st.samebytes ++ pre }
  | [], rs, ds, i, st => by simp
  | b :: pre, rs, ds, i, st => by
    simp only [List.cons_append, generate_patches_scan, generate_patches_step, if_true,
      List.append_eq]
    rw [generate_patches_scan_same pre rs ds (i + 1)]
    simp only [List.length_cons, List.append_assoc, List.singleton_append]
    rw [Nat.add_comm pre.length 1, Nat.add_assoc]

/-- The patches for a zero page of `n + 2` bytes and a page that differs from it in
its last two bytes. -/
theorem generate_patches_tail (n : Nat) (hn : n + 2 < 2 ^ 32) :
    generate_patches (List.replicate (n + 2) 0) (List.replicate n 0 ++ [1, 1])
      = [(n, [1, 1])] := by
  have hR : List.replicate (n + 2) (0 : Byte) = List.replicate n 0 ++ [0, 0] := by
    rw [List.replicate_add]; rfl
  have hu : u32 (List.replicate (n + 2) (0 : Byte)).length = n + 2 := by
    rw [List.length_replicate]; simp only [u32]; omega
  have htake : (List.replicate (n + 2) (0 : Byte)).take (n + 2) = List.replicate (n + 2) 0 :=
    List.take_of_length_le (by rw [List.length_replicate])
  have h01 : ¬ ((0 : Byte) = 1) := by decide
  rw [generate_patches, hu, htake, hR, generate_patches_scan_same]
  simp only [generate_patches_scan, generate_patches_step, h01, if_false, List.nil_append,
    List.length_replicate, Nat.zero_add, Bool.true_eq_false, and_false, if_true,
    List.length_nil, Nat.zero_le, and_self, append_back, generate_patches_chunk,
    List.length_cons, List.singleton_append]
  rw [if_neg (by simp only [u32]; omega)]

/-- Applying a patch of two bytes at offset 0 to a zero page. -/
theorem apply_diff_head (n : Nat) (hn : n + 2 < 2 ^ 32) :
    apply_diff (List.replicate (n + 2) 0) [(0, [1, 1])] = .ok ([1, 1] ++ List.replicate n 0) := by
  have := apply_diff_loop_eq [(0, [1, 1])] 0 (List.replicate (n + 2) 0)
    (by simp [patches_span]) (by rw [List.length_replicate]; exact hn)
  rw [apply_diff, this]
  simp only [List.take_zero, List.nil_append, patches_apply, List.drop_zero,
    List.length_cons, List.length_nil, List.drop_replicate, Nat.add_sub_cancel,
    List.append_assoc, List.singleton_append, List.cons_append]
  rw [show n + 2 - 0 - (0 + (0 + 1 + 1)) = n by omega]

theorem head_ne_of_replicate (n : Nat) :
    [1, 1] ++ List.replicate (n + 1) (0 : Byte) ≠ List.replicate (n + 1) 0 ++ [1, 1] := by
  rw [List.replicate_succ]
  intro h
  have := List.head_eq_of_cons_eq h
  exact absurd this (by decide)

/-- Claim C2 as stated fails at page size 4098: for `R` all zero and `S` differing
from it in the last two bytes, the patch `(4096, [1, 1])` is written with a header
that reads back as `(0, [1, 1])`, and applying it changes the first two bytes of
`R` instead of the last two. -/
theorem diff_roundtrip_fails_4098 :
    (List.replicate 4098 (0 : Byte)).length = 4098
      ∧ (List.replicate 4096 (0 : Byte) ++ [1, 1]).length = 4098
      ∧ parse_diff ⟨create_diff (List.replicate 4098 0) (List.replicate 4096 0 ++ [1, 1]), false⟩
          = .ok ([(0, [1, 1])], ⟨[], false⟩)
      ∧ apply_diff (List.replicate 4098 0) [(0, [1, 1])]
          = .ok ([1, 1] ++ List.replicate 4096 0)
      ∧ [1, 1] ++ List.replicate 4096 (0 : Byte) ≠ List.replicate 4096 0 ++ [1, 1] := by
  refine ⟨List.length_replicate _ _, ?_, ?_, apply_diff_head 4096 (by decide),
    head_ne_of_replicate 4095⟩
  · rw [List.length_append, List.length_replicate]; rfl
  · rw [create_diff, generate_patches_tail 4096 (by decide)]
    rfl

/-! ### Maps and sets -/

theorem map_find_map_set {K V : Type} [DecidableEq K] (m : List (K × V)) (k k' : K) (v : V) :
    map_find (map_set m k v) k' = if k = k' then some v else map_find m k' := by
  induction m with
  | nil => simp [map_set, map_find]
  | cons kv m ih =>
    obtain ⟨k0, v0⟩ := kv
    by_cases h : k0 = k
    · subst h
      simp only [map_set, if_true, map_find]
      by_cases h' : k0 = k' <;> simp [h']
    · simp only [map_set, if_neg h, map_find, ih]
      by_cases h' : k0 = k'
      · subst h'
        simp [h, Ne.symm h]
      · simp [h']

theorem map_set_all_nil {K V : Type} [DecidableEq K] (m : List (K × V)) :
    map_set_all m [] = m := rfl

theorem map_set_all_cons {K V : Type} [DecidableEq K] (m : List (K × V)) (kv : K × V)
    (kvs : List (K × V)) :
    map_set_all m (kv :: kvs) = map_set_all (map_set m kv.1 kv.2) kvs := rfl

theorem map_set_all_append {K V : Type} [DecidableEq K] (m : List (K × V))
    (xs ys : List (K × V)) :
    map_set_all m (xs ++ ys) = map_set_all (map_set_all m xs) ys := by
  simp [map_set_all, List.foldl_append]

/-- Looking up a key after a sequence of assignments whose values are a function of
the key. -/
theorem map_find_map_set_all {K V : Type} [DecidableEq K] (f : K → V) :
    ∀ (kvs : List (K × V)) (m : List (K × V)) (k : K), (∀ kv ∈ kvs, kv.2 = f kv.1) →
      map_find (map_set_all m kvs) k
        = if k ∈ kvs.map Prod.fst then some (f k) else map_find m k
  | [], m, k, _ => by simp [map_set_all]
  | kv :: kvs, m, k, h => by
    have ih := map_find_map_set_all f kvs (map_set m kv.1 kv.2) k
      (fun x hx => h x (List.mem_cons_of_mem _ hx))
    have h0 := h kv (List.mem_cons_self _ _)
    rw [map_set_all_cons, ih, map_find_map_set]
    by_cases h1 : k ∈ kvs.map Prod.fst
    · simp [h1]
    · by_cases h2 : kv.1 = k
      · subst h2; simp [h0]
      · have h3 : ¬ k = kv.1 := fun e => h2 e.symm
        simp [h1, h2, h3]

theorem map_find_mem {K V : Type} [DecidableEq K] :
    ∀ (m : List (K × V)) (k : K) (v : V), map_find m k = some v → (k, v) ∈ m
  | [], _, _, h => by simp [map_find] at h
  | (k0, v0) :: m, k, v, h => by
    simp only [map_find] at h
    by_cases e : k0 = k
    · subst e; simp only [if_true, Option.some.injEq] at h; subst h; exact List.mem_cons_self _ _
    · rw [if_neg e] at h
      exact List.mem_cons_of_mem _ (map_find_mem m k v h)

theorem map_find_eq_none {K V : Type} [DecidableEq K] :
    ∀ (m : List (K × V)) (k : K), map_find m k = none ↔ k ∉ m.map Prod.fst
  | [], _ => by simp [map_find]
  | (k0, v0) :: m, k => by
    simp only [map_find, List.map_cons, List.mem_cons, not_or]
    by_cases e : k0 = k
    · subst e; simp
    · rw [if_neg e, map_find_eq_none m k]
      constructor
      · intro h; exact ⟨fun e' => e e'.symm, h⟩
      · intro h; exact h.2

theorem map_find_of_mem {K V : Type} [DecidableEq K] :
    ∀ (m : List (K × V)) (k : K) (v : V), (m.map Prod.fst).Nodup → (k, v) ∈ m →
      map_find m k = some v
  | [], _, _, _, h => by simp at h
  | (k0, v0) :: m, k, v, hnd, h => by
    simp only [List.map_cons, List.nodup_cons] at hnd
    simp only [List.mem_cons, Prod.mk.injEq] at h
    simp only [map_find]
    rcases h with ⟨rfl, rfl⟩ | h
    · simp
    · have : k0 ≠ k := by
        intro e; subst e
        exact hnd.1 (List.mem_map.mpr ⟨(k0, v), h, rfl⟩)
      rw [if_neg this]
      exact map_find_of_mem m k v hnd.2 h

theorem mem_set_insert (x y : Nat) : ∀ (s : List Nat), y ∈ set_insert x s ↔ y = x ∨ y ∈ s
  | [] => by simp [set_insert]
  | z :: s => by
    simp only [set_insert]
    split
    · simp
    · split
      · subst_vars; simp
      · simp only [List.mem_cons, mem_set_insert x y s]
        constructor
        · rintro (h | h | h)
          · exact Or.inr (Or.inl h)
          · exact Or.inl h
          · exact Or.inr (Or.inr h)
        · rintro (h | h | h)
          · exact Or.inr (Or.inl h)
          · exact Or.inl h
          · exact Or.inr (Or.inr h)

theorem sorted_set_insert (x : Nat) :
    ∀ (s : List Nat), s.Sorted (· < ·) → (set_insert x s).Sorted (· < ·)
  | [], _ => by simp [set_insert]
  | z :: s, h => by
    have hz : ∀ y ∈ s, z < y := fun y hy => List.rel_of_sorted_cons h y hy
    have hs : s.Sorted (· < ·) := List.Sorted.of_cons h
    simp only [set_insert]
    split
    · rename_i hxz
      refine List.sorted_cons.mpr ⟨?_, h⟩
      intro y hy
      simp only [List.mem_cons] at hy
      rcases hy with rfl | hy
      · exact hxz
      · exact Nat.lt_trans hxz (hz y hy)
    · split
      · exact h
      · rename_i h1 h2
        refine List.sorted_cons.mpr ⟨?_, sorted_set_insert x s hs⟩
        intro y hy
        rcases (mem_set_insert x y s).mp hy with rfl | hy
        · omega
        · exact hz y hy

/-- Inserting a number above all elements appends it. -/
theorem set_insert_append (x : Nat) : ∀ (s : List Nat), (∀ y ∈ s, y < x) → set_insert x s = s ++ [x]
  | [], _ => rfl
  | z :: s, h => by
    have hz : z < x := h z (List.mem_cons_self _ _)
    have ih := set_insert_append x s (fun y hy => h y (List.mem_cons_of_mem _ hy))
    simp only [set_insert, if_neg (Nat.lt_asymm hz), if_neg (Nat.ne_of_gt hz), ih,
      List.cons_append]

theorem mem_set_insert_all (y : Nat) :
    ∀ (xs s : List Nat), y ∈ set_insert_all s xs ↔ y ∈ s ∨ y ∈ xs
  | [], s => by simp [set_insert_all]
  | x :: xs, s => by
    have ih := mem_set_insert_all y xs (set_insert x s)
    simp only [set_insert_all, List.foldl_cons] at ih ⊢
    rw [ih, mem_set_insert]
    simp only [List.mem_cons]
    tauto

theorem sorted_set_insert_all :
    ∀ (xs s : List Nat), s.Sorted (· < ·) → (set_insert_all s xs).Sorted (· < ·)
  | [], _, h => h
  | x :: xs, s, h => sorted_set_insert_all xs (set_insert x s) (sorted_set_insert x s h)

theorem keys_map_set_of_mem {K V : Type} [DecidableEq K] :
    ∀ (m : List (K × V)) (k : K) (v : V), k ∈ m.map Prod.fst →
      (map_set m k v).map Prod.fst = m.map Prod.fst
  | [], _, _, h => by simp at h
  | (k0, v0) :: m, k, v, h => by
    by_cases e : k0 = k
    · subst e; simp [map_set]
    · have : k ∈ m.map Prod.fst := by
        simp only [List.map_cons, List.mem_cons] at h
        rcases h with h | h
        · exact absurd h.symm e
        · exact h
      simp [map_set, e, keys_map_set_of_mem m k v this]

theorem map_set_of_not_mem {K V : Type} [DecidableEq K] :
    ∀ (m : List (K × V)) (k : K) (v : V), k ∉ m.map Prod.fst → map_set m k v = m ++ [(k, v)]
  | [], _, _, _ => rfl
  | (k0, v0) :: m, k, v, h => by
    simp only [List.map_cons, List.mem_cons, not_or] at h
    have e : ¬ k0 = k := fun e => h.1 e.symm
    simp [map_set, e, map_set_of_not_mem m k v h.2]

theorem mem_map_set {K V : Type} [DecidableEq K] :
    ∀ (m : List (K × V)) (k k' : K) (v v' : V), (m.map Prod.fst).Nodup →
      ((k', v') ∈ map_set m k v ↔ (k' = k ∧ v' = v) ∨ (k' ≠ k ∧ (k', v') ∈ m))
  | [], k, k', v, v', _ => by
    simp only [map_set, List.mem_singleton, Prod.mk.injEq, List.not_mem_nil, and_false,
      or_false]
  | (k0, v0) :: m, k, k', v, v', hnd => by
    simp only [List.map_cons, List.nodup_cons] at hnd
    by_cases e : k0 = k
    · subst e
      simp only [map_set, if_true, List.mem_cons, Prod.mk.injEq]
      constructor
      · rintro (h | h)
        · exact Or.inl h
        · refine Or.inr ⟨?_, Or.inr h⟩
          intro e; subst e
          exact hnd.1 (List.mem_map.mpr ⟨(k', v'), h, rfl⟩)
      · rintro (h | ⟨h1, h2 | h2⟩)
        · exact Or.inl h
        · exact absurd h2.1 h1
        · exact Or.inr h2
    · simp only [map_set, if_neg e, List.mem_cons, Prod.mk.injEq,
        mem_map_set m k k' v v' hnd.2]
      constructor
      · rintro (⟨rfl, rfl⟩ | h | h)
        · exact Or.inr ⟨e, Or.inl ⟨rfl, rfl⟩⟩
        · exact Or.inl h
        · exact Or.inr ⟨h.1, Or.inr h.2⟩
      · rintro (h | ⟨h1, h2 | h2⟩)
        · exact Or.inr (Or.inl h)
        · exact Or.inl h2
        · exact Or.inr (Or.inr ⟨h1, h2⟩)

/-! ### Dumps -/

theorem mem_occurrences (c : List Byte) (pages : Pages) (i : Nat) :
    i ∈ occurrences c pages ↔ pages[i]? = some c := by
  simp only [occurrences, List.mem_filter, List.mem_range, decide_eq_true_eq]
  constructor
  · exact fun h => h.2
  · intro h
    exact ⟨(List.getElem?_eq_some.mp h).1, h⟩

theorem sorted_occurrences (c : List Byte) (pages : Pages) :
    (occurrences c pages).Sorted (· < ·) := by
  unfold occurrences
  exact List.Pairwise.sublist (List.filter_sublist _) (List.pairwise_lt_range _)

theorem occurrences_lt (c : List Byte) (pages : Pages) :
    ∀ i ∈ occurrences c pages, i < pages.length := by
  intro i hi
  simp only [occurrences, List.mem_filter, List.mem_range] at hi
  exact hi.1

theorem occurrences_concat (c q : List Byte) (pages : Pages) :
    occurrences c (pages ++ [q])
      = occurrences c pages ++ (if q = c then [pages.length] else []) := by
  simp only [occurrences, List.length_append, List.length_singleton, List.range_succ,
    List.filter_append]
  congr 1
  · apply List.filter_congr
    intro i hi
    simp only [List.mem_range] at hi
    simp [List.getElem?_append_left hi]
  · by_cases h : q = c <;> simp [List.filter, h]

theorem occurrences_eq_nil (c : List Byte) (pages : Pages) (h : c ∉ pages) :
    occurrences c pages = [] := by
  apply List.eq_nil_iff_forall_not_mem.mpr
  intro i hi
  have := (mem_occurrences c pages i).mp hi
  exact h (List.getElem?_mem this)

theorem occurrences_ne_nil (c : List Byte) (pages : Pages) (h : c ∈ pages) :
    occurrences c pages ≠ [] := by
  obtain ⟨i, hi, hc⟩ := List.getElem_of_mem h
  have : i ∈ occurrences c pages :=
    (mem_occurrences c pages i).mpr (by rw [List.getElem?_eq_getElem hi, hc])
  exact List.ne_nil_of_mem this

theorem map_get_of_mem {K V : Type} [DecidableEq K] (m : List (K × V)) (k : K) (v dflt : V)
    (hnd : (m.map Prod.fst).Nodup) (h : (k, v) ∈ m) : map_get m k dflt = v := by
  simp [map_get, map_find_of_mem m k v hnd h]

theorem map_get_of_not_mem {K V : Type} [DecidableEq K] (m : List (K × V)) (k : K) (dflt : V)
    (h : k ∉ m.map Prod.fst) : map_get m k dflt = dflt := by
  simp [map_get, (map_find_eq_none m k).mpr h]

theorem pageMapOf_nil : PageMapOf [] [] := by
  simp [PageMapOf]

/-- Inserting the next page of a dump into its `page_map_`. -/
theorem pageMapOf_insert (m : List (List Byte × List Nat)) (done : Pages) (c : List Byte)
    (h : PageMapOf m done) : PageMapOf (page_map_insert m c done.length) (done ++ [c]) := by
  obtain ⟨hnd, hent, hcomp⟩ := h
  by_cases hc : c ∈ m.map Prod.fst
  · obtain ⟨⟨c0, nums⟩, hmem, hc0⟩ := List.mem_map.mp hc
    simp only at hc0
    subst hc0
    have hnums := (hent c0 nums hmem).1
    have hget : map_get m c0 [] = nums := map_get_of_mem m c0 nums [] hnd hmem
    have hins : set_insert done.length nums = nums ++ [done.length] :=
      set_insert_append _ _ (by rw [hnums]; exact occurrences_lt c0 done)
    simp only [page_map_insert, hget, hins]
    refine ⟨by rw [keys_map_set_of_mem m c0 _ hc]; exact hnd, ?_, ?_⟩
    · intro c' nums' hm
      rcases (mem_map_set m c0 c' _ nums' hnd).mp hm with ⟨rfl, rfl⟩ | ⟨hne, hm'⟩
      · simp [occurrences_concat, hnums]
      · have := hent c' nums' hm'
        rw [occurrences_concat, if_neg (fun e => hne e.symm), List.append_nil]
        exact this
    · intro c' hc'
      rw [keys_map_set_of_mem m c0 _ hc]
      simp only [List.mem_append, List.mem_singleton] at hc'
      rcases hc' with h | rfl
      · exact hcomp c' h
      · exact hc
  · have hget : map_get m c [] = [] := map_get_of_not_mem m c [] hc
    have hnotin : c ∉ done := fun h => hc (hcomp c h)
    simp only [page_map_insert, hget, set_insert, map_set_of_not_mem m c _ hc]
    refine ⟨?_, ?_, ?_⟩
    · simp only [List.map_append, List.map_cons, List.map_nil]
      refine List.Nodup.append hnd (List.nodup_singleton c) ?_
      intro a ha1 ha2
      simp only [List.mem_singleton] at ha2
      subst ha2
      exact hc ha1
    · intro c' nums' hm
      simp only [List.mem_append, List.mem_singleton, Prod.mk.injEq] at hm
      rcases hm with hm | ⟨rfl, rfl⟩
      · have hne : c ≠ c' := by
          intro e; subst e
          exact hc (List.mem_map.mpr ⟨(c, nums'), hm, rfl⟩)
        rw [occurrences_concat, if_neg hne, List.append_nil]
        exact hent c' nums' hm
      · simp [occurrences_concat, occurrences_eq_nil c' done hnotin]
    · intro c' hc'
      simp only [List.mem_append, List.mem_singleton] at hc'
      simp only [List.map_append, List.map_cons, List.map_nil, List.mem_append,
        List.mem_singleton]
      rcases hc' with h | rfl
      · exact Or.inl (hcomp c' h)
      · exact Or.inr rfl

/-- The loop of `readDumpfile` over a file made of pages of `P` bytes builds the
`page_map_` of those pages. -/
theorem readDumpfile_loop_pages (P : Nat) (hP : 1 ≤ P) :
    ∀ (rest done : Pages) (m : List (List Byte × List Nat)) (fuel : Nat),
      PageMapOf m done → (∀ pg ∈ rest, pg.length = P) → done.length + rest.length < 2 ^ 32 →
      rest.length < fuel →
      ∃ m', readDumpfile_loop P fuel rest.flatten done.length m = .ok m'
        ∧ PageMapOf m' (done ++ rest)
  | _, _, _, 0, _, _, _, hf => by simp at hf
  | [], done, m, fuel + 1, hm, _, _, _ => by
    refine ⟨m, ?_, by simpa using hm⟩
    simp only [readDumpfile_loop, List.flatten_nil, List.length_nil]
    rw [if_neg (by omega)]
  | pg :: rest, done, m, fuel + 1, hm, hpg, hlen, hf => by
    have hl : pg.length = P := hpg pg (List.mem_cons_self _ _)
    simp only [List.length_cons] at hlen hf
    have ih := readDumpfile_loop_pages P hP rest (done ++ [pg])
      (page_map_insert m pg done.length) fuel (pageMapOf_insert m done pg hm)
      (fun q hq => hpg q (List.mem_cons_of_mem _ hq))
      (by simp only [List.length_append, List.length_singleton]; omega) (by omega)
    obtain ⟨m', h1, h2⟩ := ih
    refine ⟨m', ?_, by simpa using h2⟩
    have hu : u32 (done.length + 1) = done.length + 1 := by simp only [u32]; omega
    simp only [readDumpfile_loop, List.flatten_cons, List.length_append]
    rw [if_pos (by omega)]
    have e1 : (pg ++ rest.flatten).take P = pg := by rw [← hl, List.take_left]
    have e2 : (pg ++ rest.flatten).drop P = rest.flatten := by rw [← hl, List.drop_left]
    rw [e1, e2, hu]
    simpa using h1

/-- `readDumpfile` on a file made of fewer than `2^32` pages of `P ≥ 1` bytes returns 0
and leaves an object that holds those pages. -/
theorem readDumpfile_holds (path : List Byte) (P : Nat) (pages : Pages) (hP : 1 ≤ P)
    (hpg : ∀ pg ∈ pages, pg.length = P) (hlen : pages.length < 2 ^ 32) :
    ∃ d, (memdump.new path).readDumpfile (some pages.flatten) P = .ok (0, d)
      ∧ d.path_ = path ∧ d.Holds pages := by
  have hfuel : pages.length < pages.flatten.length + 1 := by
    have : pages.length ≤ pages.flatten.length := by
      clear hlen
      induction pages with
      | nil => simp
      | cons pg pages ih =>
        have h1 := hpg pg (List.mem_cons_self _ _)
        have h2 := ih (fun q hq => hpg q (List.mem_cons_of_mem _ hq))
        simp only [List.flatten_cons, List.length_append, List.length_cons]
        omega
    omega
  obtain ⟨m', h1, h2⟩ := readDumpfile_loop_pages P hP pages [] [] (pages.flatten.length + 1)
    pageMapOf_nil hpg (by simpa using hlen) hfuel
  refine ⟨⟨path, m', []⟩, ?_, rfl, rfl, by simpa using h2⟩
  simp only [memdump.readDumpfile, memdump.new, List.length_nil] at h1 ⊢
  rw [h1]
  rfl

theorem num_to_page_fill_eq (content : List Byte) :
    ∀ (nums : List Nat) (m : List (Nat × List Byte)),
      num_to_page_fill content nums m = map_set_all m (nums.map (fun p => (p, content)))
  | [], m => rfl
  | p :: nums, m => by
    simp only [num_to_page_fill, List.map_cons, map_set_all_cons,
      num_to_page_fill_eq content nums]

theorem num_to_page_build_eq :
    ∀ (pm : List (List Byte × List Nat)) (m : List (Nat × List Byte)),
      num_to_page_build pm m
        = map_set_all m (pm.flatMap (fun e => e.2.map (fun p => (p, e.1))))
  | [], m => rfl
  | (c, nums) :: pm, m => by
    simp only [num_to_page_build, num_to_page_fill_eq, num_to_page_build_eq pm,
      List.flatMap_cons, map_set_all_append]

/-- The map of `getNumToPage` sends every page number of the dump to its page, and
has no other key. -/
theorem map_find_getNumToPage (d : memdump) (pages : Pages) (h : d.Holds pages) (p : Nat) :
    map_find d.getNumToPage.1 p = pages[p]? := by
  obtain ⟨hntp, _, hent, hcomp⟩ := h
  simp only [memdump.getNumToPage, hntp, List.isEmpty_nil, if_true, num_to_page_build_eq]
  have hkey : p ∈ (d.page_map_.flatMap (fun e => e.2.map (fun p => (p, e.1)))).map Prod.fst
      ↔ p < pages.length := by
    simp only [List.mem_map, List.mem_flatMap, Prod.exists]
    constructor
    · rintro ⟨p', c', ⟨c, nums, hm, q, hq, hqe⟩, rfl⟩
      simp only [Prod.mk.injEq] at hqe
      obtain ⟨rfl, rfl⟩ := hqe
      rw [(hent c nums hm).1] at hq
      exact occurrences_lt c pages q hq
    · intro hp
      have hc := hcomp pages[p] (List.getElem_mem hp)
      obtain ⟨⟨c, nums⟩, hm, hc'⟩ := List.mem_map.mp hc
      simp only at hc'
      have hpn : p ∈ nums := by
        rw [(hent c nums hm).1, mem_occurrences, hc', List.getElem?_eq_getElem hp]
      exact ⟨p, pages[p], ⟨c, nums, hm, p, hpn, by simp [hc']⟩, rfl⟩
  rw [map_find_map_set_all (fun p => pages.getD p [])]
  · by_cases hp : p < pages.length
    · rw [if_pos (hkey.mpr hp)]
      simp [List.getD, List.getElem?_eq_getElem hp]
    · rw [if_neg (fun h => hp (hkey.mp h)), List.getElem?_eq_none (by omega)]
      rfl
  · intro kv hkv
    simp only [List.mem_flatMap, List.mem_map] at hkv
    obtain ⟨⟨c, nums⟩, hm, q, hq, rfl⟩ := hkv
    rw [(hent c nums hm).1, mem_occurrences] at hq
    simp [List.getD, hq]

theorem map_get_getNumToPage (d : memdump) (pages : Pages) (h : d.Holds pages) (p : Nat) :
    map_get d.getNumToPage.1 p [] = pages.getD p [] := by
  simp [map_get, map_find_getNumToPage d pages h p, List.getD]

/-! ### The classification loop -/

theorem set_insert_all_append (s xs ys : List Nat) :
    set_insert_all s (xs ++ ys) = set_insert_all (set_insert_all s xs) ys := by
  simp [set_insert_all, List.foldl_append]

theorem page_map_insert_all_append (m : List (List Byte × List Nat))
    (xs ys : List (Nat × List Byte)) :
    page_map_insert_all m (xs ++ ys) = page_map_insert_all (page_map_insert_all m xs) ys := by
  simp [page_map_insert_all, List.foldl_append]

/-- The loop over the page numbers of a source page outside the reference dump, as
sequences of insertions. -/
theorem classify_new_eq (diffing intra : Bool) (pagesize : Nat)
    (ntp : List (Nat × List Byte)) (srcpage : List Byte) :
    ∀ (nums : List Nat) (cl : Classification),
      classify_new diffing intra pagesize ntp srcpage nums cl
        = { diffs := map_set_all cl.diffs
              ((nums.filter (profitable diffing pagesize ntp srcpage)).map
                (fun p => (p, create_diff (map_get ntp p []) srcpage))),
            new_pagenrs := if intra then cl.new_pagenrs else
              set_insert_all cl.new_pagenrs
                (nums.filter (fun p => !profitable diffing pagesize ntp srcpage p)),
            new_pages := if intra then cl.new_pages else
              map_set_all cl.new_pages
                ((nums.filter (fun p => !profitable diffing pagesize ntp srcpage p)).map
                  (fun p => (p, srcpage))),
            dedups := cl.dedups,
            dedup_pagenrs := cl.dedup_pagenrs,
            diff_pagenrs := set_insert_all cl.diff_pagenrs
              (nums.filter (profitable diffing pagesize ntp srcpage)),
            same_newpages := if intra then
              page_map_insert_all cl.same_newpages
                ((nums.filter (fun p => !profitable diffing pagesize ntp srcpage p)).map
                  (fun p => (p, srcpage)))
              else cl.same_newpages }
  | [], cl => by
    cases intra <;> simp [classify_new, map_set_all, set_insert_all, page_map_insert_all]
  | p :: nums, cl => by
    rw [classify_new]
    by_cases hp : profitable diffing pagesize ntp srcpage p = true
    · have hc : diffing = true ∧ (create_diff (map_get ntp p []) srcpage).length < pagesize := by
        simpa [profitable] using hp
      rw [if_pos hc, classify_new_eq diffing intra pagesize ntp srcpage nums]
      simp [List.filter_cons, hp, map_set_all, set_insert_all]
    · have hc : ¬ (diffing = true ∧ (create_diff (map_get ntp p []) srcpage).length < pagesize) := by
        simpa [profitable] using hp
      have hp' : profitable diffing pagesize ntp srcpage p = false := by simpa using hp
      rw [if_neg hc]
      cases intra
      · simp only [Bool.false_eq_true, if_false]
        rw [classify_new_eq diffing false pagesize ntp srcpage nums]
        simp [List.filter_cons, hp', map_set_all, set_insert_all]
      · simp only [if_true]
        rw [classify_new_eq diffing true pagesize ntp srcpage nums]
        simp [List.filter_cons, hp', page_map_insert_all]

/-- The classification loop, as sequences of insertions into its containers. -/
theorem classify_eq (diffing intra : Bool) (pagesize : Nat)
    (ref_pages : List (List Byte × List Nat)) (ntp : List (Nat × List Byte)) :
    ∀ (entries : List (List Byte × List Nat)) (cl : Classification),
      classify diffing intra pagesize ref_pages ntp entries cl
        = { diffs := map_set_all cl.diffs (diff_targets diffing pagesize ref_pages ntp entries),
            new_pagenrs := if intra then cl.new_pagenrs else
              set_insert_all cl.new_pagenrs
                ((new_targets diffing pagesize ref_pages ntp entries).map Prod.fst),
            new_pages := if intra then cl.new_pages else
              map_set_all cl.new_pages (new_targets diffing pagesize ref_pages ntp entries),
            dedups := map_set_all cl.dedups (dedup_targets ref_pages entries),
            dedup_pagenrs := set_insert_all cl.dedup_pagenrs
              ((dedup_targets ref_pages entries).map Prod.fst),
            diff_pagenrs := set_insert_all cl.diff_pagenrs
              ((diff_targets diffing pagesize ref_pages ntp entries).map Prod.fst),
            same_newpages := if intra then
              page_map_insert_all cl.same_newpages
                (new_targets diffing pagesize ref_pages ntp entries)
              else cl.same_newpages }
  | [], cl => by
    cases intra <;>
      simp [classify, diff_targets, new_targets, dedup_targets, map_set_all, set_insert_all,
        page_map_insert_all]
  | e :: entries, cl => by
    rw [classify, classify_eq diffing intra pagesize ref_pages ntp entries]
    simp only [diff_targets, new_targets, dedup_targets, List.flatMap_cons, map_set_all_append,
      set_insert_all_append, page_map_insert_all_append, List.map_append]
    cases hfind : map_find ref_pages e.1 with
    | some ref_nums =>
      simp only [classify_step, hfind, Option.isSome_some, if_true]
      by_cases hd : set_difference e.2 ref_nums = []
      · cases intra <;>
          simp [hd, map_set_all, set_insert_all, page_map_insert_all]
      · cases intra <;>
          simp [hd, map_set_all, set_insert_all, page_map_insert_all]
    | none =>
      simp only [classify_step, hfind, Option.isSome_none, Bool.false_eq_true, if_false,
        classify_new_eq]
      cases intra <;>
        simp [map_set_all, set_insert_all, page_map_insert_all, List.map_map, Function.comp_def]

theorem pageMapOf_find (m : List (List Byte × List Nat)) (pages : Pages) (h : PageMapOf m pages)
    (c : List Byte) :
    map_find m c = if c ∈ pages then some (occurrences c pages) else none := by
  obtain ⟨hnd, hent, hcomp⟩ := h
  by_cases hc : c ∈ pages
  · rw [if_pos hc]
    obtain ⟨⟨c', nums⟩, hm, rfl⟩ := List.mem_map.mp (hcomp c hc)
    rw [map_find_of_mem m c' nums hnd hm, (hent c' nums hm).1]
  · rw [if_neg hc, map_find_eq_none]
    intro hk
    obtain ⟨⟨c', nums⟩, hm, rfl⟩ := List.mem_map.mp hk
    obtain ⟨h1, h2⟩ := hent c' nums hm
    rw [h1] at h2
    exact h2 (occurrences_eq_nil c' pages hc)

theorem pageMapOf_mem (m : List (List Byte × List Nat)) (pages : Pages) (h : PageMapOf m pages)
    (c : List Byte) (nums : List Nat) :
    (c, nums) ∈ m ↔ c ∈ pages ∧ nums = occurrences c pages := by
  constructor
  · intro hm
    have := map_find_of_mem m c nums h.1 hm
    rw [pageMapOf_find m pages h c] at this
    by_cases hc : c ∈ pages
    · rw [if_pos hc] at this
      exact ⟨hc, (Option.some.inj this).symm⟩
    · rw [if_neg hc] at this
      exact absurd this (by simp)
  · rintro ⟨hc, rfl⟩
    apply map_find_mem
    rw [pageMapOf_find m pages h c, if_pos hc]

theorem profitable_iff (diffing : Bool) (P : Nat) (R : Pages) (ntp : List (Nat × List Byte))
    (hntp : ∀ p, map_get ntp p [] = R.getD p []) (c : List Byte) (p : Nat) :
    profitable diffing P ntp c p = true
      ↔ (diffing = true ∧ (create_diff (R.getD p []) c).length < P) := by
  simp [profitable, hntp]

theorem not_profitable_iff (diffing : Bool) (P : Nat) (R : Pages) (ntp : List (Nat × List Byte))
    (hntp : ∀ p, map_get ntp p [] = R.getD p []) (c : List Byte) (p : Nat) :
    (!profitable diffing P ntp c p) = true
      ↔ ¬ (diffing = true ∧ (create_diff (R.getD p []) c).length < P) := by
  rw [← profitable_iff diffing P R ntp hntp c p]
  simp

/-- The diffs recorded for a source dump `S` against a reference dump `R`. -/
theorem mem_diff_targets (diffing : Bool) (P : Nat) (R S : Pages)
    (ref_pages entries : List (List Byte × List Nat)) (ntp : List (Nat × List Byte))
    (hR : PageMapOf ref_pages R) (hS : PageMapOf entries S)
    (hntp : ∀ p, map_get ntp p [] = R.getD p []) (p : Nat) (d : List Byte) :
    (p, d) ∈ diff_targets diffing P ref_pages ntp entries
      ↔ ∃ c, S[p]? = some c ∧ c ∉ R ∧
          (diffing = true ∧ (create_diff (R.getD p []) c).length < P) ∧
          d = create_diff (R.getD p []) c := by
  simp only [diff_targets, List.mem_flatMap]
  constructor
  · rintro ⟨⟨c, nums⟩, hm, hp⟩
    obtain ⟨hc, rfl⟩ := (pageMapOf_mem entries S hS c nums).mp hm
    simp only [pageMapOf_find ref_pages R hR c] at hp
    by_cases hcR : c ∈ R
    · simp [hcR] at hp
    · simp only [hcR, if_false, Option.isSome_none, Bool.false_eq_true, List.mem_map,
        List.mem_filter, Prod.mk.injEq] at hp
      obtain ⟨q, ⟨hq1, hq2⟩, rfl, rfl⟩ := hp
      exact ⟨c, (mem_occurrences c S q).mp hq1, hcR,
        (profitable_iff diffing P R ntp hntp c q).mp hq2, by rw [hntp]⟩
  · rintro ⟨c, hc, hcR, hprof, rfl⟩
    refine ⟨(c, occurrences c S), (pageMapOf_mem entries S hS c _).mpr
      ⟨List.getElem?_mem hc, rfl⟩, ?_⟩
    simp only [pageMapOf_find ref_pages R hR c, hcR, if_false, Option.isSome_none,
      Bool.false_eq_true, List.mem_map, List.mem_filter, Prod.mk.injEq]
    exact ⟨p, ⟨(mem_occurrences c S p).mpr hc,
      (profitable_iff diffing P R ntp hntp c p).mpr hprof⟩, rfl, by rw [hntp]⟩

/-- The new pages recorded for a source dump `S` against a reference dump `R`. -/
theorem mem_new_targets (diffing : Bool) (P : Nat) (R S : Pages)
    (ref_pages entries : List (List Byte × List Nat)) (ntp : List (Nat × List Byte))
    (hR : PageMapOf ref_pages R) (hS : PageMapOf entries S)
    (hntp : ∀ p, map_get ntp p [] = R.getD p []) (p : Nat) (c : List Byte) :
    (p, c) ∈ new_targets diffing P ref_pages ntp entries
      ↔ S[p]? = some c ∧ c ∉ R ∧
          ¬ (diffing = true ∧ (create_diff (R.getD p []) c).length < P) := by
  simp only [new_targets, List.mem_flatMap]
  constructor
  · rintro ⟨⟨c', nums⟩, hm, hp⟩
    obtain ⟨hc, rfl⟩ := (pageMapOf_mem entries S hS c' nums).mp hm
    simp only [pageMapOf_find ref_pages R hR c'] at hp
    by_cases hcR : c' ∈ R
    · simp [hcR] at hp
    · simp only [hcR, if_false, Option.isSome_none, Bool.false_eq_true, List.mem_map,
        List.mem_filter, Prod.mk.injEq] at hp
      obtain ⟨q, ⟨hq1, hq2⟩, rfl, rfl⟩ := hp
      exact ⟨(mem_occurrences c' S q).mp hq1, hcR,
        (not_profitable_iff diffing P R ntp hntp c' q).mp hq2⟩
  · rintro ⟨hc, hcR, hprof⟩
    refine ⟨(c, occurrences c S), (pageMapOf_mem entries S hS c _).mpr
      ⟨List.getElem?_mem hc, rfl⟩, ?_⟩
    simp only [pageMapOf_find ref_pages R hR c, hcR, if_false, Option.isSome_none,
      Bool.false_eq_true, List.mem_map, List.mem_filter, Prod.mk.injEq]
    exact ⟨p, ⟨(mem_occurrences c S p).mpr hc,
      (not_profitable_iff diffing P R ntp hntp c p).mpr hprof⟩, rfl, trivial⟩

/-- The deduplications recorded for a source dump `S` against a reference dump `R`:
one per content of `S` that occurs in `R` and has a page number in `S` that it
does not have in `R`. -/
theorem mem_dedup_targets (R S : Pages) (ref_pages entries : List (List Byte × List Nat))
    (hR : PageMapOf ref_pages R) (hS : PageMapOf entries S) (r : Nat) (D : List Nat) :
    (r, D) ∈ dedup_targets ref_pages entries
      ↔ ∃ c, c ∈ S ∧ c ∈ R ∧ D = set_difference (occurrences c S) (occurrences c R) ∧ D ≠ [] ∧
          r = (occurrences c R).headD 0 := by
  simp only [dedup_targets, List.mem_flatMap]
  constructor
  · rintro ⟨⟨c, nums⟩, hm, hp⟩
    obtain ⟨hc, rfl⟩ := (pageMapOf_mem entries S hS c nums).mp hm
    simp only [pageMapOf_find ref_pages R hR c] at hp
    by_cases hcR : c ∈ R
    · simp only [hcR, if_true] at hp
      by_cases hd : set_difference (occurrences c S) (occurrences c R) = []
      · simp [hd] at hp
      · simp only [hd, ne_eq, not_false_eq_true, if_true, List.mem_singleton,
          Prod.mk.injEq] at hp
        exact ⟨c, hc, hcR, hp.2, by rw [hp.2]; exact hd, hp.1⟩
    · simp [hcR] at hp
  · rintro ⟨c, hc, hcR, rfl, hne, rfl⟩
    refine ⟨(c, occurrences c S), (pageMapOf_mem entries S hS c _).mpr ⟨hc, rfl⟩, ?_⟩
    simp only [pageMapOf_find ref_pages R hR c, hcR, if_true]
    simp [hne]

theorem map_find_map_set_all_nil_iff {K V : Type} [DecidableEq K] (f : K → V)
    (kvs : List (K × V)) (hf : ∀ kv ∈ kvs, kv.2 = f kv.1) (k : K) (v : V) :
    map_find (map_set_all [] kvs) k = some v ↔ (k, v) ∈ kvs := by
  rw [map_find_map_set_all f kvs [] k hf]
  constructor
  · intro h
    by_cases hk : k ∈ kvs.map Prod.fst
    · rw [if_pos hk] at h
      obtain ⟨⟨k', v'⟩, hm, rfl⟩ := List.mem_map.mp hk
      have := hf (k', v') hm
      simp only at this
      rw [← this] at h
      rw [← Option.some.inj h]
      exact hm
    · rw [if_neg hk] at h
      simp [map_find] at h
  · intro h
    have hk : k ∈ kvs.map Prod.fst := List.mem_map.mpr ⟨(k, v), h, rfl⟩
    rw [if_pos hk]
    have := hf (k, v) h
    simp only at this
    rw [this]

theorem nodup_keys_map_set {K V : Type} [DecidableEq K] (m : List (K × V)) (k : K) (v : V)
    (h : (m.map Prod.fst).Nodup) : ((map_set m k v).map Prod.fst).Nodup := by
  by_cases hk : k ∈ m.map Prod.fst
  · rw [keys_map_set_of_mem m k v hk]; exact h
  · rw [map_set_of_not_mem m k v hk]
    simp only [List.map_append, List.map_cons, List.map_nil]
    refine List.Nodup.append h (List.nodup_singleton k) ?_
    intro a ha1 ha2
    simp only [List.mem_singleton] at ha2
    subst ha2
    exact hk ha1

theorem mem_map_get {K : Type} [DecidableEq K] (m : List (K × List Nat)) (k : K) (q : Nat)
    (h : (m.map Prod.fst).Nodup) :
    q ∈ map_get m k [] ↔ ∃ nums, (k, nums) ∈ m ∧ q ∈ nums := by
  by_cases hk : k ∈ m.map Prod.fst
  · obtain ⟨⟨k', nums⟩, hm, rfl⟩ := List.mem_map.mp hk
    rw [map_get_of_mem m k' nums [] h hm]
    constructor
    · intro hq; exact ⟨nums, hm, hq⟩
    · rintro ⟨nums', hm', hq⟩
      have e1 := map_find_of_mem m k' nums h hm
      have e2 := map_find_of_mem m k' nums' h hm'
      rw [e1] at e2
      rw [Option.some.inj e2]; exact hq
  · rw [map_get_of_not_mem m k [] hk]
    constructor
    · intro hq; simp at hq
    · rintro ⟨nums, hm, _⟩
      exact absurd (List.mem_map.mpr ⟨(k, nums), hm, rfl⟩) hk

/-- The sets of a `page_map_`-like map are ascending and non-empty, its keys
distinct. -/
theorem page_map_insert_sets (m : List (List Byte × List Nat)) (c : List Byte) (p : Nat)
    (hnd : (m.map Prod.fst).Nodup)
    (hs : ∀ c' nums, (c', nums) ∈ m → nums.Sorted (· < ·) ∧ nums ≠ []) :
    ((page_map_insert m c p).map Prod.fst).Nodup ∧
      (∀ c' nums, (c', nums) ∈ page_map_insert m c p → nums.Sorted (· < ·) ∧ nums ≠ []) ∧
      (∀ c' q, (∃ nums, (c', nums) ∈ page_map_insert m c p ∧ q ∈ nums)
        ↔ (∃ nums, (c', nums) ∈ m ∧ q ∈ nums) ∨ (c' = c ∧ q = p)) := by
  have hsorted : (map_get m c []).Sorted (· < ·) := by
    by_cases hk : c ∈ m.map Prod.fst
    · obtain ⟨⟨k', nums⟩, hm, rfl⟩ := List.mem_map.mp hk
      rw [map_get_of_mem m k' nums [] hnd hm]
      exact (hs k' nums hm).1
    · rw [map_get_of_not_mem m c [] hk]; exact List.sorted_nil
  refine ⟨nodup_keys_map_set m c _ hnd, ?_, ?_⟩
  · intro c' nums hm
    rcases (mem_map_set m c c' _ nums hnd).mp hm with ⟨_, rfl⟩ | ⟨_, hm'⟩
    · refine ⟨sorted_set_insert p _ hsorted, ?_⟩
      exact List.ne_nil_of_mem ((mem_set_insert p p _).mpr (Or.inl rfl))
    · exact hs c' nums hm'
  · intro c' q
    constructor
    · rintro ⟨nums, hm, hq⟩
      rcases (mem_map_set m c c' _ nums hnd).mp hm with ⟨rfl, rfl⟩ | ⟨_, hm'⟩
      · rcases (mem_set_insert p q _).mp hq with rfl | hq'
        · exact Or.inr ⟨rfl, rfl⟩
        · exact Or.inl ((mem_map_get m c' q hnd).mp hq')
      · exact Or.inl ⟨nums, hm', hq⟩
    · rintro (⟨nums, hm, hq⟩ | ⟨rfl, rfl⟩)
      · by_cases e : c' = c
        · subst e
          refine ⟨_, (mem_map_set m c' c' _ _ hnd).mpr (Or.inl ⟨rfl, rfl⟩), ?_⟩
          exact (mem_set_insert p q _).mpr (Or.inr ((mem_map_get m c' q hnd).mpr ⟨nums, hm, hq⟩))
        · exact ⟨nums, (mem_map_set m c c' _ nums hnd).mpr (Or.inr ⟨e, hm⟩), hq⟩
      · exact ⟨_, (mem_map_set m c' c' _ _ hnd).mpr (Or.inl ⟨rfl, rfl⟩),
          (mem_set_insert q q _).mpr (Or.inl rfl)⟩

theorem page_map_insert_all_sets :
    ∀ (ps : List (Nat × List Byte)) (m : List (List Byte × List Nat)),
      (m.map Prod.fst).Nodup →
      (∀ c' nums, (c', nums) ∈ m → nums.Sorted (· < ·) ∧ nums ≠ []) →
      ((page_map_insert_all m ps).map Prod.fst).Nodup ∧
        (∀ c' nums, (c', nums) ∈ page_map_insert_all m ps → nums.Sorted (· < ·) ∧ nums ≠ []) ∧
        (∀ c' q, (∃ nums, (c', nums) ∈ page_map_insert_all m ps ∧ q ∈ nums)
          ↔ (∃ nums, (c', nums) ∈ m ∧ q ∈ nums) ∨ (q, c') ∈ ps)
  | [], m, hnd, hs => ⟨hnd, hs, fun c' q => by simp [page_map_insert_all]⟩
  | (p, c) :: ps, m, hnd, hs => by
    obtain ⟨h1, h2, h3⟩ := page_map_insert_sets m c p hnd hs
    obtain ⟨i1, i2, i3⟩ := page_map_insert_all_sets ps (page_map_insert m c p) h1 h2
    refine ⟨i1, i2, ?_⟩
    intro c' q
    have := i3 c' q
    simp only [page_map_insert_all, List.foldl_cons] at this ⊢
    rw [this, h3 c' q]
    simp only [List.mem_cons, Prod.mk.injEq]
    constructor
    · rintro ((h | ⟨e1, e2⟩) | h)
      · exact Or.inl h
      · exact Or.inr (Or.inl ⟨e2, e1⟩)
      · exact Or.inr (Or.inr h)
    · rintro (h | ⟨e1, e2⟩ | h)
      · exact Or.inl (Or.inl h)
      · exact Or.inl (Or.inr ⟨e2, e1⟩)
      · exact Or.inr h

theorem mem_set_insert_all_nil (xs : List Nat) (y : Nat) : y ∈ set_insert_all [] xs ↔ y ∈ xs := by
  rw [mem_set_insert_all]; simp

theorem sorted_set_insert_all_nil (xs : List Nat) : (set_insert_all [] xs).Sorted (· < ·) :=
  sorted_set_insert_all xs [] List.sorted_nil

/-- The diffs that `interdedup_compress` records. -/
theorem classify_diffs (diffing intra : Bool) (P : Nat) (R S : Pages) (ref src : memdump)
    (hR : ref.Holds R) (hS : src.Holds S) :
    (compress_classify P ref src diffing intra).diff_pagenrs.Sorted (· < ·) ∧
      (∀ p, p ∈ (compress_classify P ref src diffing intra).diff_pagenrs
        ↔ IsDiffed diffing P R S p) ∧
      (∀ p d, map_find (compress_classify P ref src diffing intra).diffs p = some d
        ↔ ∃ c, S[p]? = some c ∧ c ∉ R ∧
            (diffing = true ∧ (create_diff (R.getD p []) c).length < P) ∧
            d = create_diff (R.getD p []) c) := by
  have hntp := map_get_getNumToPage ref R hR
  have hmem := mem_diff_targets diffing P R S ref.page_map_ src.page_map_ ref.getNumToPage.1
    hR.2 hS.2 hntp
  simp only [compress_classify, classify_eq, Classification.empty]
  refine ⟨sorted_set_insert_all_nil _, ?_, ?_⟩
  · intro p
    rw [mem_set_insert_all_nil, List.mem_map]
    constructor
    · rintro ⟨⟨p', d⟩, hm, rfl⟩
      obtain ⟨c, h1, h2, h3, _⟩ := (hmem p' d).mp hm
      exact ⟨c, h1, h2, h3⟩
    · rintro ⟨c, h1, h2, h3⟩
      exact ⟨(p, _), (hmem p _).mpr ⟨c, h1, h2, h3, rfl⟩, rfl⟩
  · intro p d
    rw [map_find_map_set_all_nil_iff (fun p => create_diff (R.getD p []) (S.getD p [])) _ _ p d,
      hmem]
    intro kv hkv
    obtain ⟨c, h1, _, _, h4⟩ := (hmem kv.1 kv.2).mp hkv
    simp only [h4, List.getD_eq_getElem?_getD, h1, Option.getD_some]

/-- The new pages that `interdedup_compress` records without intra-deduplication. -/
theorem classify_new_pages (diffing : Bool) (P : Nat) (R S : Pages) (ref src : memdump)
    (hR : ref.Holds R) (hS : src.Holds S) :
    (compress_classify P ref src diffing false).new_pagenrs.Sorted (· < ·) ∧
      (∀ p, p ∈ (compress_classify P ref src diffing false).new_pagenrs
        ↔ IsNew diffing P R S p) ∧
      (∀ p c, map_find (compress_classify P ref src diffing false).new_pages p = some c
        ↔ S[p]? = some c ∧ c ∉ R ∧
            ¬ (diffing = true ∧ (create_diff (R.getD p []) c).length < P)) ∧
      (compress_classify P ref src diffing false).same_newpages = [] := by
  have hntp := map_get_getNumToPage ref R hR
  have hmem := mem_new_targets diffing P R S ref.page_map_ src.page_map_ ref.getNumToPage.1
    hR.2 hS.2 hntp
  simp only [compress_classify, classify_eq, Classification.empty, Bool.false_eq_true, if_false]
  refine ⟨sorted_set_insert_all_nil _, ?_, ?_, trivial⟩
  · intro p
    rw [mem_set_insert_all_nil, List.mem_map]
    constructor
    · rintro ⟨⟨p', c⟩, hm, rfl⟩
      exact ⟨c, (hmem p' c).mp hm⟩
    · rintro ⟨c, h⟩
      exact ⟨(p, c), (hmem p c).mpr h, rfl⟩
  · intro p c
    rw [map_find_map_set_all_nil_iff (fun p => S.getD p []) _ _ p c, hmem]
    intro kv hkv
    obtain ⟨h1, _, _⟩ := (hmem kv.1 kv.2).mp hkv
    simp only [List.getD_eq_getElem?_getD, h1, Option.getD_some]

/-- The new pages that `interdedup_compress` records with intra-deduplication. -/
theorem classify_same_newpages (diffing : Bool) (P : Nat) (R S : Pages) (ref src : memdump)
    (hR : ref.Holds R) (hS : src.Holds S) :
    (compress_classify P ref src diffing true).new_pagenrs = [] ∧
      (compress_classify P ref src diffing true).new_pages = [] ∧
      ((compress_classify P ref src diffing true).same_newpages.map Prod.fst).Nodup ∧
      (∀ c nums, (c, nums) ∈ (compress_classify P ref src diffing true).same_newpages →
        nums.Sorted (· < ·) ∧ nums ≠ []) ∧
      (∀ c p, (∃ nums, (c, nums) ∈ (compress_classify P ref src diffing true).same_newpages
          ∧ p ∈ nums)
        ↔ S[p]? = some c ∧ c ∉ R ∧
            ¬ (diffing = true ∧ (create_diff (R.getD p []) c).length < P)) := by
  have hntp := map_get_getNumToPage ref R hR
  have hmem := mem_new_targets diffing P R S ref.page_map_ src.page_map_ ref.getNumToPage.1
    hR.2 hS.2 hntp
  obtain ⟨h1, h2, h3⟩ := page_map_insert_all_sets
    (new_targets diffing P ref.page_map_ ref.getNumToPage.1 src.page_map_) []
    (by simp) (by simp)
  simp only [compress_classify, classify_eq, Classification.empty, if_true]
  refine ⟨trivial, trivial, h1, h2, ?_⟩
  intro c p
  rw [h3 c p, hmem]
  simp

/-- The deduplications that `interdedup_compress` records. -/
theorem classify_dedups (diffing intra : Bool) (P : Nat) (R S : Pages) (ref src : memdump)
    (hR : ref.Holds R) (hS : src.Holds S) :
    (compress_classify P ref src diffing intra).dedup_pagenrs.Sorted (· < ·) ∧
      (∀ r, r ∈ (compress_classify P ref src diffing intra).dedup_pagenrs
        ↔ ∃ D, map_find (compress_classify P ref src diffing intra).dedups r = some D) ∧
      (∀ r D, map_find (compress_classify P ref src diffing intra).dedups r = some D
        ↔ ∃ c, c ∈ S ∧ c ∈ R ∧ D = set_difference (occurrences c S) (occurrences c R) ∧
            D ≠ [] ∧ r = (occurrences c R).headD 0) := by
  have hmem := mem_dedup_targets R S ref.page_map_ src.page_map_ hR.2 hS.2
  have hfun : ∀ kv ∈ dedup_targets ref.page_map_ src.page_map_,
      kv.2 = (fun r => set_difference (occurrences (R.getD r []) S)
        (occurrences (R.getD r []) R)) kv.1 := by
    intro kv hkv
    obtain ⟨c, _, hcR, hD, _, hr⟩ := (hmem kv.1 kv.2).mp hkv
    have hhead : (occurrences c R).headD 0 ∈ occurrences c R := by
      have hne := occurrences_ne_nil c R hcR
      cases h : occurrences c R with
      | nil => exact absurd h hne
      | cons a l => simp
    have := (mem_occurrences c R _).mp hhead
    simp only [hr, List.getD_eq_getElem?_getD, this, Option.getD_some, hD]
  have hfind : ∀ r D, map_find (map_set_all [] (dedup_targets ref.page_map_ src.page_map_)) r
      = some D ↔ (r, D) ∈ dedup_targets ref.page_map_ src.page_map_ :=
    fun r D => map_find_map_set_all_nil_iff (fun r => set_difference
      (occurrences (R.getD r []) S) (occurrences (R.getD r []) R)) _ hfun r D
  simp only [compress_classify, classify_eq, Classification.empty]
  refine ⟨sorted_set_insert_all_nil _, ?_, ?_⟩
  · intro r
    rw [mem_set_insert_all_nil, List.mem_map]
    constructor
    · rintro ⟨⟨r', D⟩, hm, rfl⟩
      exact ⟨D, (hfind r' D).mpr hm⟩
    · rintro ⟨D, h⟩
      exact ⟨(r, D), (hfind r D).mp h, rfl⟩
  · intro r D
    rw [hfind, hmem]

theorem mem_set_difference (a b : List Nat) (x : Nat) :
    x ∈ set_difference a b ↔ x ∈ a ∧ x ∉ b := by
  simp [set_difference]

/-- The page numbers in the sets of `dedups` are the deduplicated pages. -/
theorem inDedups_iff (diffing intra : Bool) (P : Nat) (R S : Pages) (ref src : memdump)
    (hR : ref.Holds R) (hS : src.Holds S) (p : Nat) :
    (compress_classify P ref src diffing intra).InDedups p ↔ IsDeduped R S p := by
  obtain ⟨_, _, hfind⟩ := classify_dedups diffing intra P R S ref src hR hS
  simp only [Classification.InDedups, IsDeduped]
  constructor
  · rintro ⟨r, D, hD, hp⟩
    obtain ⟨c, _, hcR, rfl, _, _⟩ := (hfind r D).mp hD
    rw [mem_set_difference, mem_occurrences, mem_occurrences] at hp
    exact ⟨c, hp.1, hcR, hp.2⟩
  · rintro ⟨c, hc, hcR, hne⟩
    have hp : p ∈ set_difference (occurrences c S) (occurrences c R) := by
      rw [mem_set_difference, mem_occurrences, mem_occurrences]
      exact ⟨hc, hne⟩
    exact ⟨_, _, (hfind _ _).mpr ⟨c, List.getElem?_mem hc, hcR, rfl, List.ne_nil_of_mem hp, rfl⟩,
      hp⟩

/-- The keys of `diffs` are the diffed pages. -/
theorem inDiffs_iff (diffing intra : Bool) (P : Nat) (R S : Pages) (ref src : memdump)
    (hR : ref.Holds R) (hS : src.Holds S) (p : Nat) :
    (compress_classify P ref src diffing intra).InDiffs p ↔ IsDiffed diffing P R S p := by
  obtain ⟨_, _, hfind⟩ := classify_diffs diffing intra P R S ref src hR hS
  simp only [Classification.InDiffs, IsDiffed]
  constructor
  · rintro ⟨d, hd⟩
    obtain ⟨c, h1, h2, h3, _⟩ := (hfind p d).mp hd
    exact ⟨c, h1, h2, h3⟩
  · rintro ⟨c, h1, h2, h3⟩
    exact ⟨_, (hfind p _).mpr ⟨c, h1, h2, h3, rfl⟩⟩

/-- The new-page numbers are the new pages. -/
theorem inNew_iff (diffing intra : Bool) (P : Nat) (R S : Pages) (ref src : memdump)
    (hR : ref.Holds R) (hS : src.Holds S) (p : Nat) :
    (compress_classify P ref src diffing intra).InNew p ↔ IsNew diffing P R S p := by
  simp only [Classification.InNew, IsNew]
  cases intra with
  | false =>
    obtain ⟨_, _, hfind, hsame⟩ := classify_new_pages diffing P R S ref src hR hS
    rw [hsame]
    constructor
    · rintro (⟨c, h⟩ | ⟨c, nums, h, _⟩)
      · exact ⟨c, (hfind p c).mp h⟩
      · simp [map_find] at h
    · rintro ⟨c, h⟩
      exact Or.inl ⟨c, (hfind p c).mpr h⟩
  | true =>
    obtain ⟨_, hnp, hnd, _, hmem⟩ := classify_same_newpages diffing P R S ref src hR hS
    rw [hnp]
    constructor
    · rintro (⟨c, h⟩ | ⟨c, nums, hf, hp⟩)
      · simp [map_find] at h
      · exact ⟨c, (hmem c p).mp ⟨nums, map_find_mem _ _ _ hf, hp⟩⟩
    · rintro ⟨c, h⟩
      obtain ⟨nums, hm, hp⟩ := (hmem c p).mpr h
      exact Or.inr ⟨c, nums, map_find_of_mem _ _ _ hnd hm, hp⟩

/-- Claim C7: for the classification that `interdedup_compress` computes for a
reference dump `R` and a source dump `S`, the page numbers in the `dedups` sets,
the keys of `diffs` and the new-page numbers (`new_pages` or `same_newpages`) are
pairwise disjoint, and together with the page numbers at which `S` and `R` hold
the same content they are exactly the page numbers below the page count of `S`. -/
theorem classification_partition (diffing intra : Bool) (P : Nat) (R S : Pages)
    (ref src : memdump) (hR : ref.Holds R) (hS : src.Holds S) :
    (∀ p, ¬ ((compress_classify P ref src diffing intra).InDedups p
        ∧ (compress_classify P ref src diffing intra).InDiffs p)) ∧
      (∀ p, ¬ ((compress_classify P ref src diffing intra).InDedups p
        ∧ (compress_classify P ref src diffing intra).InNew p)) ∧
      (∀ p, ¬ ((compress_classify P ref src diffing intra).InDiffs p
        ∧ (compress_classify P ref src diffing intra).InNew p)) ∧
      (∀ p, ((compress_classify P ref src diffing intra).InDedups p
          ∨ (compress_classify P ref src diffing intra).InDiffs p
          ∨ (compress_classify P ref src diffing intra).InNew p
          ∨ (p < S.length ∧ S[p]? = R[p]?)) ↔ p < S.length) := by
  simp only [inDedups_iff diffing intra P R S ref src hR hS,
    inDiffs_iff diffing intra P R S ref src hR hS, inNew_iff diffing intra P R S ref src hR hS,
    IsDeduped, IsDiffed, IsNew]
  refine ⟨?_, ?_, ?_, ?_⟩
  · rintro p ⟨⟨c, h1, h2, _⟩, ⟨c', h1', h2', _⟩⟩
    rw [h1] at h1'
    exact h2' (Option.some.inj h1' ▸ h2)
  · rintro p ⟨⟨c, h1, h2, _⟩, ⟨c', h1', h2', _⟩⟩
    rw [h1] at h1'
    exact h2' (Option.some.inj h1' ▸ h2)
  · rintro p ⟨⟨c, h1, _, h3⟩, ⟨c', h1', _, h3'⟩⟩
    rw [h1] at h1'
    exact h3' (Option.some.inj h1' ▸ h3)
  · intro p
    constructor
    · rintro (⟨c, h1, _⟩ | ⟨c, h1, _⟩ | ⟨c, h1, _⟩ | ⟨h, _⟩)
      · exact (List.getElem?_eq_some.mp h1).1
      · exact (List.getElem?_eq_some.mp h1).1
      · exact (List.getElem?_eq_some.mp h1).1
      · exact h
    · intro hp
      have h1 : S[p]? = some S[p] := List.getElem?_eq_getElem hp
      by_cases hcR : S[p] ∈ R
      · by_cases hsame : R[p]? = some S[p]
        · exact Or.inr (Or.inr (Or.inr ⟨hp, by rw [h1, hsame]⟩))
        · exact Or.inl ⟨_, h1, hcR, hsame⟩
      · by_cases hprof : diffing = true ∧ (create_diff (R.getD p []) S[p]).length < P
        · exact Or.inr (Or.inl ⟨_, h1, hcR, hprof⟩)
        · exact Or.inr (Or.inr (Or.inl ⟨_, h1, hcR, hprof⟩))

/-- What `readDumpfile` leaves behind for a file of pages holds those pages. -/
theorem holds_of_readDumpfile (path : List Byte) (P : Nat) (pages : Pages) (d : memdump)
    (hP : 1 ≤ P) (hpg : ∀ pg ∈ pages, pg.length = P) (hlen : pages.length < 2 ^ 32)
    (h : (memdump.new path).readDumpfile (some pages.flatten) P = .ok (0, d)) :
    d.Holds pages := by
  obtain ⟨d', h1, _, h3⟩ := readDumpfile_holds path P pages hP hpg hlen
  rw [h1] at h
  injection h with h
  injection h with _ h
  rw [← h]; exact h3

theorem exRef_holds : exRef.Holds exR :=
  holds_of_readDumpfile [114] 8 exR exRef (by decide) (by decide) (by decide) (by rfl)

theorem exSrc_holds : exSrc.Holds exS :=
  holds_of_readDumpfile [115] 8 exS exSrc (by decide) (by decide) (by decide) (by rfl)

/-- Claim C7 at a reference dump with the pages C, D and a source dump with the pages
X, C. -/
theorem classification_partition_witness :
    (∀ p, ¬ ((compress_classify 8 exRef exSrc true false).InDedups p
        ∧ (compress_classify 8 exRef exSrc true false).InDiffs p)) ∧
      (∀ p, ¬ ((compress_classify 8 exRef exSrc true false).InDedups p
        ∧ (compress_classify 8 exRef exSrc true false).InNew p)) ∧
      (∀ p, ¬ ((compress_classify 8 exRef exSrc true false).InDiffs p
        ∧ (compress_classify 8 exRef exSrc true false).InNew p)) ∧
      (∀ p, ((compress_classify 8 exRef exSrc true false).InDedups p
          ∨ (compress_classify 8 exRef exSrc true false).InDiffs p
          ∨ (compress_classify 8 exRef exSrc true false).InNew p
          ∨ (p < exS.length ∧ exS[p]? = exR[p]?)) ↔ p < exS.length) :=
  classification_partition true false 8 exR exS exRef exSrc exRef_holds exSrc_holds

/-- Claim C8: for every content `c` that occurs in both `S` and `R`, with `D` the page
numbers of `c` in `S` that are not page numbers of `c` in `R`: if `D` is non-empty,
`dedups` maps the least page number of `c` in `R` to `D`; otherwise `dedups` has no
entry at any page number of `c` in `R`.  In particular, when `R` holds `c` only at
page 0 and `S` holds `c` only at page 1, `dedups[0] = {1}`. -/
theorem dedups_entry (diffing intra : Bool) (P : Nat) (R S : Pages) (ref src : memdump)
    (hR : ref.Holds R) (hS : src.Holds S) (c : List Byte) (hcS : c ∈ S) (hcR : c ∈ R) :
    (set_difference (occurrences c S) (occurrences c R) ≠ [] →
        ∀ r, r ∈ occurrences c R → (∀ x ∈ occurrences c R, r ≤ x) →
          map_find (compress_classify P ref src diffing intra).dedups r
            = some (set_difference (occurrences c S) (occurrences c R))) ∧
      (set_difference (occurrences c S) (occurrences c R) = [] →
        ∀ r, r ∈ occurrences c R →
          map_find (compress_classify P ref src diffing intra).dedups r = none) ∧
      (occurrences c R = [0] → occurrences c S = [1] →
        map_find (compress_classify P ref src diffing intra).dedups 0 = some [1]) := by
  obtain ⟨_, _, hfind⟩ := classify_dedups diffing intra P R S ref src hR hS
  have hmin : ∀ r, r ∈ occurrences c R → (∀ x ∈ occurrences c R, r ≤ x) →
      r = (occurrences c R).headD 0 := by
    intro r hr hle
    have hs := sorted_occurrences c R
    cases h : occurrences c R with
    | nil => rw [h] at hr; simp at hr
    | cons a l =>
      rw [h] at hr hle hs
      simp only [List.headD_cons]
      have h1 := hle a (List.mem_cons_self _ _)
      simp only [List.mem_cons] at hr
      rcases hr with rfl | hr
      · rfl
      · have := List.rel_of_sorted_cons hs r hr
        omega
  refine ⟨?_, ?_, ?_⟩
  · intro hD r hr hle
    exact (hfind r _).mpr ⟨c, hcS, hcR, rfl, hD, hmin r hr hle⟩
  · intro hD r hr
    cases hf : map_find (compress_classify P ref src diffing intra).dedups r with
    | none => rfl
    | some D' =>
      exfalso
      obtain ⟨c', _, hc'R, hD', hne, hr'⟩ := (hfind r D').mp hf
      have hhead : (occurrences c' R).headD 0 ∈ occurrences c' R := by
        have hne := occurrences_ne_nil c' R hc'R
        cases h : occurrences c' R with
        | nil => exact absurd h hne
        | cons a l => simp
      rw [← hr'] at hhead
      have e1 := (mem_occurrences c' R r).mp hhead
      have e2 := (mem_occurrences c R r).mp hr
      rw [e1] at e2
      have : c' = c := Option.some.inj e2
      subst this
      rw [hD] at hD'
      exact hne hD'
  · intro h0 h1
    have := (hfind 0 (set_difference (occurrences c S) (occurrences c R))).mpr
      ⟨c, hcS, hcR, rfl, by rw [h0, h1]; decide, by rw [h0]; rfl⟩
    rw [this, h0, h1]
    rfl

/-- Claim C8 at a reference dump with the pages C, D and a source dump with the pages
X, C, for the content C. -/
theorem dedups_entry_witness :
    map_find (compress_classify 8 exRef exSrc false false).dedups 0 = some [1] :=
  (dedups_entry false false 8 exR exS exRef exSrc exRef_holds exSrc_holds
    [67, 67, 67, 67, 67, 67, 67, 67] (by decide) (by decide)).2.2 (by decide) (by decide)

/-! ### The reconstruction loop -/

theorem write_page_eq (page : List Byte) (P : Nat) (h : page.length = P) :
    write_page page P = .ok page := by
  simp only [write_page]
  rw [if_pos (by omega), ← h, List.take_left]

theorem getD_of_getElem? (R : Pages) (p : Nat) (page : List Byte) (h : R[p]? = some page) :
    R.getD p [] = page := by
  simp only [List.getD_eq_getElem?_getD, h, Option.getD_some]

/-- One iteration of the reconstruction loop writes the page that the specification
selects, when that page exists and has `P` bytes. -/
theorem reconstruct_page_eq (P : Nat) (hP : 1 ≤ P) (diffing : Bool) (t : BodyTables)
    (R : Pages) (ref : memdump) (hR : ref.Holds R) (p : Nat) (page : List Byte)
    (hsel : selected_page diffing t R p = some page) (hlen : page.length = P) :
    reconstruct_page P diffing t ref.getNumToPage.1 p = .ok page := by
  have hntp := map_get_getNumToPage ref R hR
  simp only [selected_page] at hsel
  simp only [reconstruct_page]
  cases hf : map_find t.fills p with
  | some r =>
    simp only [hf] at hsel ⊢
    rw [hntp, getD_of_getElem? R r page hsel]
    exact write_page_eq page P hlen
  | none =>
    simp only [hf] at hsel ⊢
    cases hd : (if diffing then map_find t.diffs p else none) with
    | some diff =>
      simp only [hd] at hsel ⊢
      cases hr : R[p]? with
      | none => simp [hr] at hsel
      | some ref_page =>
        simp only [hr] at hsel
        rw [hntp, getD_of_getElem? R p ref_page hr]
        cases ha : apply_diff ref_page diff with
        | error e => simp [ha] at hsel
        | ok pg =>
          simp only [ha, Option.some.injEq] at hsel
          subst hsel
          have hne : pg ≠ [] := by
            intro e; rw [e] at hlen; simp at hlen; omega
          simp only [bind, Except.bind, if_neg hne]
          exact write_page_eq pg P hlen
    | none =>
      simp only [hd] at hsel ⊢
      cases hn : map_find t.newpages p with
      | some pg =>
        simp only [hn, Option.some.injEq] at hsel ⊢
        subst hsel
        exact write_page_eq pg P hlen
      | none =>
        simp only [hn] at hsel ⊢
        rw [hntp, getD_of_getElem? R p page hsel]
        exact write_page_eq page P hlen

/-- The reconstruction loop over a list of page numbers writes the selected pages one
after the other. -/
theorem reconstruct_eq (P : Nat) (hP : 1 ≤ P) (diffing : Bool) (t : BodyTables)
    (R : Pages) (ref : memdump) (hR : ref.Holds R) :
    ∀ (ps : List Nat),
      (∀ p ∈ ps, ∃ page, selected_page diffing t R p = some page ∧ page.length = P) →
      reconstruct P diffing t ref.getNumToPage.1 ps
        = .ok (ps.map (fun p => (selected_page diffing t R p).getD [])).flatten
  | [], _ => rfl
  | p :: ps, h => by
    obtain ⟨page, h1, h2⟩ := h p (List.mem_cons_self _ _)
    have ih := reconstruct_eq P hP diffing t R ref hR ps
      (fun q hq => h q (List.mem_cons_of_mem _ hq))
    simp only [reconstruct, reconstruct_page_eq P hP diffing t R ref hR p page h1 h2, ih, bind,
      Except.bind, pure, Except.pure, List.map_cons, List.flatten_cons, h1, Option.getD_some]

/-- Claim C9: for every page number `p` below `uncompressed_size / P`, the page that
the reconstruction loop of `interdedup_decompress` writes at position `p` is
`R[fills[p]]` if a deduplication fill maps `p`, else `apply_diff(R[p], diffs[p])`
if diffing is on and a diff is recorded for `p`, else the parsed new page for `p`
if there is one, else `R[p]` (whenever that page exists and has `P` bytes); and
exactly `uncompressed_size / P` pages are written. -/
theorem reconstruct_dump_spec (P uncompressed_size : Nat) (diffing : Bool) (t : BodyTables)
    (R : Pages) (ref : memdump) (hP : 1 ≤ P) (hcount : uncompressed_size / P < 2 ^ 32)
    (hR : ref.Holds R)
    (hsel : ∀ p, p < uncompressed_size / P →
      ∃ page, selected_page diffing t R p = some page ∧ page.length = P) :
    ∃ pages : Pages,
      reconstruct_dump P uncompressed_size diffing t ref.getNumToPage.1 = .ok pages.flatten
        ∧ pages.length = uncompressed_size / P
        ∧ (∀ pg ∈ pages, pg.length = P)
        ∧ ∀ p, p < uncompressed_size / P → pages[p]? = selected_page diffing t R p := by
  refine ⟨(List.range (uncompressed_size / P)).map
    (fun p => (selected_page diffing t R p).getD []), ?_, by simp, ?_, ?_⟩
  · simp only [reconstruct_dump]
    rw [if_neg (by omega), if_neg (by omega)]
    exact reconstruct_eq P hP diffing t R ref hR _
      (fun p hp => hsel p (List.mem_range.mp hp))
  · intro pg hpg
    obtain ⟨p, hp, rfl⟩ := List.mem_map.mp hpg
    obtain ⟨page, h1, h2⟩ := hsel p (List.mem_range.mp hp)
    rw [h1]; exact h2
  · intro p hp
    obtain ⟨page, h1, _⟩ := hsel p hp
    simp [List.getElem?_map, List.getElem?_range hp, h1]

/-- Claim C9 at the example tables, the reference dump C, D and an uncompressed size
of 16 bytes: the pages written are "XXXXXXXX" and "CCCCCCCC". -/
theorem reconstruct_dump_spec_witness :
    ∃ pages : Pages,
      reconstruct_dump 8 16 false exTables exRef.getNumToPage.1 = .ok pages.flatten
        ∧ pages.length = 16 / 8
        ∧ (∀ pg ∈ pages, pg.length = 8)
        ∧ ∀ p, p < 16 / 8 → pages[p]? = selected_page false exTables exR p :=
  reconstruct_dump_spec 8 16 false exTables exR exRef (by decide) (by decide) exRef_holds
    (by
      intro p hp
      have : p = 0 ∨ p = 1 := by omega
      rcases this with rfl | rfl
      · exact ⟨[88, 88, 88, 88, 88, 88, 88, 88], by decide, by decide⟩
      · exact ⟨[67, 67, 67, 67, 67, 67, 67, 67], by decide, by decide⟩)

/-! ### intervalize -/

theorem intervalize_loop_acc :
    ∀ (rest : List Nat) (curr : Nat × Nat) (result : List (Nat × Nat)),
      intervalize_loop curr result rest = result ++ intervalize_loop curr [] rest
  | [], curr, result => by simp [intervalize_loop]
  | x :: rest, curr, result => by
    simp only [intervalize_loop]
    split
    · exact intervalize_loop_acc rest (curr.1, x) result
    · rw [intervalize_loop_acc rest (x, x) (result ++ [curr]),
        intervalize_loop_acc rest (x, x) ([] ++ [curr])]
      simp

theorem intervals_expand_cons (iv : Nat × Nat) (ivs : List (Nat × Nat)) :
    intervals_expand (iv :: ivs) = List.range' iv.1 (iv.2 + 1 - iv.1) ++ intervals_expand ivs := by
  simp [intervals_expand]

/-- The loop of `intervalize` on ascending numbers: the intervals are well-formed, made
of numbers of the input, and cover exactly the current interval and the rest. -/
theorem intervalize_loop_spec :
    ∀ (rest : List Nat) (l r : Nat), l ≤ r → r + 1 < 2 ^ 32 → List.Chain (· < ·) r rest →
      (∀ x ∈ rest, x + 1 < 2 ^ 32) →
      intervals_expand (intervalize_loop (l, r) [] rest) = List.range' l (r + 1 - l) ++ rest
        ∧ (∀ iv ∈ intervalize_loop (l, r) [] rest,
            iv.1 ≤ iv.2 ∧ l ≤ iv.1 ∧ (iv.2 = r ∨ iv.2 ∈ rest))
        ∧ (intervalize_loop (l, r) [] rest).length ≤ rest.length + 1
        ∧ intervalize_loop (l, r) [] rest ≠ []
  | [], l, r, hlr, _, _, _ => by
    simp [intervalize_loop, intervals_expand, hlr]
  | x :: rest, l, r, hlr, hr, hc, hb => by
    have hrx : r < x := (List.chain_cons.mp hc).1
    have hc' : List.Chain (· < ·) x rest := (List.chain_cons.mp hc).2
    have hx : x + 1 < 2 ^ 32 := hb x (List.mem_cons_self _ _)
    have hb' : ∀ y ∈ rest, y + 1 < 2 ^ 32 := fun y hy => hb y (List.mem_cons_of_mem _ hy)
    have hu : u32 (r + 1) = r + 1 := by simp only [u32]; omega
    simp only [intervalize_loop, hu]
    by_cases e : r + 1 = x
    · rw [if_pos e]
      obtain ⟨h1, h2, h3, h4⟩ := intervalize_loop_spec rest l x (by omega) hx hc' hb'
      refine ⟨?_, ?_, by simp only [List.length_cons]; omega, h4⟩
      · rw [h1, ← e, show r + 1 + 1 - l = (r + 1 - l) + 1 by omega, List.range'_concat]
        simp only [List.append_assoc, List.singleton_append]
        rw [show l + 1 * (r + 1 - l) = r + 1 by omega]
      · intro iv hiv
        obtain ⟨a, b, c⟩ := h2 iv hiv
        refine ⟨a, b, Or.inr ?_⟩
        rcases c with c | c
        · rw [c]; exact List.mem_cons_self _ _
        · exact List.mem_cons_of_mem _ c
    · rw [if_neg e, intervalize_loop_acc]
      obtain ⟨h1, h2, h3, h4⟩ := intervalize_loop_spec rest x x (Nat.le_refl _) hx hc' hb'
      refine ⟨?_, ?_, ?_, by simp⟩
      · simp only [List.nil_append, List.singleton_append, intervals_expand_cons, h1]
        rw [show x + 1 - x = 1 by omega]
        simp
      · intro iv hiv
        simp only [List.nil_append, List.singleton_append, List.mem_cons] at hiv
        rcases hiv with rfl | hiv
        · exact ⟨hlr, Nat.le_refl _, Or.inl rfl⟩
        · obtain ⟨a, b, c⟩ := h2 iv hiv
          refine ⟨a, by omega, Or.inr ?_⟩
          rcases c with c | c
          · rw [c]; exact List.mem_cons_self _ _
          · exact List.mem_cons_of_mem _ c
      · simp only [List.nil_append, List.singleton_append, List.length_cons]
        omega

/-- `intervalize` on an ascending set of numbers below `2^32 - 1`: the intervals are
well-formed, end at numbers of the set, cover exactly the set, and are no more
than its elements; the result is empty only for the empty set. -/
theorem intervalize_spec (xs : List Nat) (hs : xs.Sorted (· < ·))
    (hb : ∀ x ∈ xs, x + 1 < 2 ^ 32) :
    intervals_expand (intervalize xs) = xs
      ∧ (∀ iv ∈ intervalize xs, iv.1 ≤ iv.2 ∧ iv.2 ∈ xs)
      ∧ (intervalize xs).length ≤ xs.length
      ∧ (xs ≠ [] → intervalize xs ≠ []) := by
  cases xs with
  | nil => simp [intervalize, intervals_expand]
  | cons x rest =>
    have hc : List.Chain (· < ·) x rest := by
      have := List.chain'_iff_pairwise.mpr hs
      simpa [List.Chain'] using this
    obtain ⟨h1, h2, h3, h4⟩ := intervalize_loop_spec rest x x (Nat.le_refl _)
      (hb x (List.mem_cons_self _ _)) hc (fun y hy => hb y (List.mem_cons_of_mem _ hy))
    simp only [intervalize]
    refine ⟨?_, ?_, by simpa using h3, fun _ => h4⟩
    · rw [h1, show x + 1 - x = 1 by omega]; simp
    · intro iv hiv
      obtain ⟨a, _, c⟩ := h2 iv hiv
      refine ⟨a, ?_⟩
      rcases c with c | c
      · rw [c]; exact List.mem_cons_self _ _
      · exact List.mem_cons_of_mem _ c

/-! ### The sections of the body -/

theorem fill_range_eq {V : Type} (m : List (Nat × V)) (l r : Nat) (v : V)
    (hr : r + 1 < 2 ^ 32) :
    fill_range m l r v = .ok (map_set_all m ((List.range' l (r + 1 - l)).map (fun p => (p, v)))) := by
  simp only [fill_range, map_set_all, List.foldl_map]
  rw [if_neg (by omega)]

theorem intervals_expand_nil : intervals_expand [] = [] := rfl

theorem fill_intervals_eq (ref_pagenr : Nat) :
    ∀ (ivs : List (Nat × Nat)) (fills : List (Nat × Nat)),
      (∀ iv ∈ ivs, iv.1 ≤ iv.2 ∧ iv.2 + 1 < 2 ^ 32) →
      fill_intervals ref_pagenr ivs fills
        = .ok (map_set_all fills ((intervals_expand ivs).map (fun p => (p, ref_pagenr))))
  | [], fills, _ => rfl
  | (l, r) :: ivs, fills, h => by
    obtain ⟨h1, h2⟩ := h (l, r) (List.mem_cons_self _ _)
    simp only at h1 h2
    simp only [fill_intervals, if_neg (Nat.not_lt.mpr h1), fill_range_eq fills l r ref_pagenr h2,
      bind, Except.bind, intervals_expand_cons, List.map_append, map_set_all_append]
    exact fill_intervals_eq ref_pagenr ivs _ (fun iv hiv => h iv (List.mem_cons_of_mem _ hiv))

theorem fill_new_page_eq (page : List Byte) :
    ∀ (ivs : List (Nat × Nat)) (newpages : List (Nat × List Byte)),
      (∀ iv ∈ ivs, iv.2 + 1 < 2 ^ 32) →
      fill_new_page page ivs newpages
        = .ok (map_set_all newpages ((intervals_expand ivs).map (fun p => (p, page))))
  | [], newpages, _ => rfl
  | (l, r) :: ivs, newpages, h => by
    have h2 : r + 1 < 2 ^ 32 := h (l, r) (List.mem_cons_self _ _)
    simp only [fill_new_page, fill_range_eq newpages l r page h2,
      bind, Except.bind, intervals_expand_cons, List.map_append, map_set_all_append]
    exact fill_new_page_eq page ivs _ (fun iv hiv => h iv (List.mem_cons_of_mem _ hiv))

/-- The interval list written for a non-empty ascending set of page numbers below
`2^29` is read back as the intervals of that set. -/
theorem parse_interval_list_intervalize (D : List Nat) (rest : List Byte)
    (hs : D.Sorted (· < ·)) (hne : D ≠ []) (hb : ∀ x ∈ D, x < 2 ^ 29) :
    parse_interval_list ⟨(create_interval_list (intervalize D)).flatten ++ rest, false⟩
      = .ok (intervalize D, ⟨rest, false⟩) := by
  obtain ⟨_, h2, h3, h4⟩ := intervalize_spec D hs (fun x hx => by have := hb x hx; omega)
  have hlen := length_le_of_sorted_lt D (2 ^ 29) hs hb
  apply parse_interval_list_create _ _ (h4 hne) (by omega)
  intro iv hiv
  obtain ⟨a, b⟩ := h2 iv hiv
  have := hb iv.2 b
  exact ⟨a, by omega, by omega⟩

/-- The fills parsed from the interval lists written for the representatives `rs`. -/
theorem parse_fills_write_dedups (dedups : List (Nat × List Nat)) :
    ∀ (rs : List Nat) (fills : List (Nat × Nat)) (rest : List Byte),
      (∀ r ∈ rs, (map_get dedups r []).Sorted (· < ·) ∧ map_get dedups r [] ≠ [] ∧
        ∀ x ∈ map_get dedups r [], x < 2 ^ 29) →
      parse_fills rs fills ⟨write_dedups dedups rs ++ rest, false⟩
        = .ok (map_set_all fills
            (rs.flatMap (fun r => (map_get dedups r []).map (fun p => (p, r)))),
          ⟨rest, false⟩)
  | [], fills, rest, _ => by simp [parse_fills, write_dedups, map_set_all]
  | r :: rs, fills, rest, h => by
    obtain ⟨h1, h2, h3⟩ := h r (List.mem_cons_self _ _)
    obtain ⟨e1, e2, _, _⟩ := intervalize_spec (map_get dedups r []) h1
      (fun x hx => by have := h3 x hx; omega)
    simp only [parse_fills, write_dedups, List.append_assoc, bind, Except.bind,
      parse_interval_list_intervalize _ _ h1 h2 h3]
    rw [fill_intervals_eq r _ fills (fun iv hiv => by
      obtain ⟨a, b⟩ := e2 iv hiv
      have := h3 iv.2 b
      exact ⟨a, by omega⟩)]
    simp only [e1]
    rw [parse_fills_write_dedups dedups rs _ rest
      (fun r' hr' => h r' (List.mem_cons_of_mem _ hr'))]
    simp only [List.flatMap_cons, map_set_all_append]

/-- The diffs parsed from the blobs written for the page numbers `ps`. -/
theorem parse_diffs_write_diffs (diffs : List (Nat × List Byte)) (Rf Sf : Nat → List Byte) :
    ∀ (ps : List Nat) (acc : List (Nat × List Patch)) (rest : List Byte),
      (∀ p ∈ ps, map_get diffs p [] = create_diff (Rf p) (Sf p) ∧
        (Rf p).length = (Sf p).length ∧ (Rf p).length ≤ 4096) →
      parse_diffs ps acc ⟨write_diffs diffs ps ++ rest, false⟩
        = .ok (map_set_all acc (ps.map (fun p => (p, generate_patches (Rf p) (Sf p)))),
          ⟨rest, false⟩)
  | [], acc, rest, _ => by simp [parse_diffs, write_diffs, map_set_all]
  | p :: ps, acc, rest, h => by
    obtain ⟨h1, h2, h3⟩ := h p (List.mem_cons_self _ _)
    simp only [parse_diffs, write_diffs, List.append_assoc, h1, bind, Except.bind,
      (diff_roundtrip (Rf p) (Sf p) _ h2 h3).1]
    rw [parse_diffs_write_diffs diffs Rf Sf ps _ rest
      (fun q hq => h q (List.mem_cons_of_mem _ hq))]
    simp only [List.map_cons, map_set_all_cons]

/-- Reading one page of `P` bytes per page number. -/
theorem read_new_pages_eq (P : Nat) (f : Nat → List Byte) :
    ∀ (qs : List Nat) (buf : Option (List Byte)) (np : List (Nat × List Byte))
      (rest : List Byte), (∀ q ∈ qs, (f q).length = P) →
      ∃ buf', read_new_pages P qs buf np ⟨(qs.map f).flatten ++ rest, false⟩
        = .ok (buf', map_set_all np (qs.map (fun q => (q, f q))), ⟨rest, false⟩)
  | [], buf, np, rest, _ => ⟨buf, by simp [read_new_pages, map_set_all]⟩
  | q :: qs, buf, np, rest, h => by
    have hq : (f q).length = P := h q (List.mem_cons_self _ _)
    obtain ⟨buf', ih⟩ := read_new_pages_eq P f qs (some (f q)) (map_set np q (f q)) rest
      (fun x hx => h x (List.mem_cons_of_mem _ hx))
    refine ⟨buf', ?_⟩
    have hread := istream_read_append (f q) ((qs.map f).flatten ++ rest) buf
    rw [hq] at hread
    simp only [read_new_pages, List.map_cons, List.flatten_cons, List.append_assoc, hread, bind,
      Except.bind, ih, map_set_all_cons]

/-- Reading the new pages of the intervals `ivs`, one page per covered page number. -/
theorem parse_new_pages_eq (P : Nat) (f : Nat → List Byte) :
    ∀ (ivs : List (Nat × Nat)) (buf : Option (List Byte)) (np : List (Nat × List Byte))
      (rest : List Byte), (∀ iv ∈ ivs, iv.2 + 1 < 2 ^ 32) →
      (∀ q ∈ intervals_expand ivs, (f q).length = P) →
      parse_new_pages P ivs buf np ⟨((intervals_expand ivs).map f).flatten ++ rest, false⟩
        = .ok (map_set_all np ((intervals_expand ivs).map (fun q => (q, f q))), ⟨rest, false⟩)
  | [], buf, np, rest, _, _ => by simp [parse_new_pages, intervals_expand, map_set_all]
  | (l, r) :: ivs, buf, np, rest, hb, hf => by
    have h2 : r + 1 < 2 ^ 32 := hb (l, r) (List.mem_cons_self _ _)
    rw [intervals_expand_cons] at hf
    obtain ⟨buf', h1⟩ := read_new_pages_eq P f (List.range' l (r + 1 - l)) buf np
      (((intervals_expand ivs).map f).flatten ++ rest)
      (fun q hq => hf q (List.mem_append_left _ hq))
    simp only [parse_new_pages, intervals_expand_cons, List.map_append, List.flatten_append,
      List.append_assoc, bind, Except.bind, map_set_all_append]
    rw [if_neg (by omega)]
    simp only [h1]
    exact parse_new_pages_eq P f ivs buf' _ rest
      (fun iv hiv => hb iv (List.mem_cons_of_mem _ hiv))
      (fun q hq => hf q (List.mem_append_right _ hq))

theorem write_new_pages_eq (new_pages : List (Nat × List Byte)) :
    ∀ (ps : List Nat),
      write_new_pages new_pages ps = (ps.map (fun p => map_get new_pages p [])).flatten
  | [] => rfl
  | p :: ps => by
    simp only [write_new_pages, write_new_pages_eq new_pages ps, List.map_cons,
      List.flatten_cons]

/-- The interval lists read back for the intra-deduplicated pages `keys`. -/
theorem parse_intra_intervals_eq (snp : List (List Byte × List Nat)) :
    ∀ (keys : List (List Byte)) (acc : List (List (Nat × Nat))) (rest : List Byte),
      (∀ c ∈ keys, (map_get snp c []).Sorted (· < ·) ∧ map_get snp c [] ≠ [] ∧
        ∀ x ∈ map_get snp c [], x < 2 ^ 29) →
      parse_intra_intervals keys.length acc ⟨write_intra_intervals snp keys ++ rest, false⟩
        = .ok (acc ++ keys.map (fun c => intervalize (map_get snp c [])), ⟨rest, false⟩)
  | [], acc, rest, _ => by simp [parse_intra_intervals, write_intra_intervals]
  | c :: keys, acc, rest, h => by
    obtain ⟨h1, h2, h3⟩ := h c (List.mem_cons_self _ _)
    simp only [List.length_cons, parse_intra_intervals, write_intra_intervals,
      List.append_assoc, bind, Except.bind, parse_interval_list_intervalize _ _ h1 h2 h3]
    rw [parse_intra_intervals_eq snp keys _ rest
      (fun c' hc' => h c' (List.mem_cons_of_mem _ hc'))]
    simp

/-- The new pages unfolded from the intra-deduplicated pages `keys` and their
interval lists. -/
theorem parse_intra_pages_eq (P : Nat) (nums : List Byte → List Nat) :
    ∀ (keys : List (List Byte)) (buf : Option (List Byte)) (np : List (Nat × List Byte))
      (rest : List Byte),
      (∀ c ∈ keys, c.length = P ∧ (nums c).Sorted (· < ·) ∧ ∀ x ∈ nums c, x < 2 ^ 29) →
      parse_intra_pages P (keys.map (fun c => intervalize (nums c))) buf np
          ⟨keys.flatten ++ rest, false⟩
        = .ok (map_set_all np (keys.flatMap (fun c => (nums c).map (fun p => (p, c)))),
          ⟨rest, false⟩)
  | [], buf, np, rest, _ => by simp [parse_intra_pages, map_set_all]
  | c :: keys, buf, np, rest, h => by
    obtain ⟨h1, h2, h3⟩ := h c (List.mem_cons_self _ _)
    obtain ⟨e1, e2, _, _⟩ := intervalize_spec (nums c) h2
      (fun x hx => by have := h3 x hx; omega)
    have hread := istream_read_append c (keys.flatten ++ rest) buf
    rw [h1] at hread
    simp only [List.map_cons, parse_intra_pages, List.flatten_cons, List.append_assoc, hread,
      bind, Except.bind]
    rw [fill_new_page_eq c _ np (fun iv hiv => by
      have := h3 iv.2 (e2 iv hiv).2
      omega)]
    simp only [e1]
    rw [parse_intra_pages_eq P nums keys _ _ rest
      (fun c' hc' => h c' (List.mem_cons_of_mem _ hc'))]
    simp only [List.flatMap_cons, map_set_all_append]

/-! ### The header -/

theorem read_string_loop_eq :
    ∀ (s : List Byte) (b : Byte) (rest acc : List Byte) (fuel : Nat),
      (∀ x ∈ b :: s, x ≠ 0) → s.length + 2 ≤ fuel →
      read_string_loop fuel (some b) ⟨s ++ 0 :: rest, false⟩ acc
        = .ok (acc ++ b :: s, ⟨rest, false⟩)
  | _, _, _, _, 0, _, hf => by omega
  | [], b, rest, acc, fuel + 1, h, hf => by
    have hb : b ≠ 0 := h b (List.mem_cons_self _ _)
    cases fuel with
    | zero => simp at hf
    | succ fuel =>
      simp [read_string_loop, hb, istream.get]
  | x :: s, b, rest, acc, fuel + 1, h, hf => by
    have hb : b ≠ 0 := h b (List.mem_cons_self _ _)
    simp only [List.length_cons] at hf
    have ih := read_string_loop_eq s x rest (acc ++ [b]) fuel
      (fun y hy => h y (List.mem_cons_of_mem _ hy)) (by omega)
    simp only [read_string_loop, hb, if_false, istream.get, List.cons_append,
      Bool.false_eq_true]
    rw [ih, List.append_assoc]
    rfl

/-- `read_string` on a string without NUL bytes, followed by a NUL byte. -/
theorem read_string_eq (s rest : List Byte) (h : ∀ x ∈ s, x ≠ 0) :
    read_string ⟨s ++ 0 :: rest, false⟩ = .ok (s, ⟨rest, false⟩) := by
  cases s with
  | nil => simp [read_string, istream.get, read_string_loop]
  | cons b s =>
    have := read_string_loop_eq s b rest [] ((b :: s ++ 0 :: rest).length + 1) h
      (by simp only [List.length_append, List.length_cons]; omega)
    simp only [read_string, istream.get, List.cons_append]
    simpa using this

theorem int_to_byte_LE_8 (n : Nat) : int_to_byte_LE n 8 =
    [toByte n, toByte (n >>> 8), toByte (n >>> 16), toByte (n >>> 24), toByte (n >>> 32),
      toByte (n >>> 40), toByte (n >>> 48), toByte (n >>> 56)] := rfl

theorem read_num_LE_8 (b0 b1 b2 b3 b4 b5 b6 b7 : Byte) (rest : List Byte) :
    read_num_LE ⟨b0 :: b1 :: b2 :: b3 :: b4 :: b5 :: b6 :: b7 :: rest, false⟩ 8
      = .ok (b0.val + b1.val * 2 ^ 8 + b2.val * 2 ^ 16 + b3.val * 2 ^ 24 + b4.val * 2 ^ 32
          + b5.val * 2 ^ 40 + b6.val * 2 ^ 48 + b7.val * 2 ^ 56, ⟨rest, false⟩) := by
  simp [read_num_LE, read_num_LE_loop, istream.get, Nat.shiftLeft_eq]
  omega

theorem read_num_LE_int_to_byte_LE_8 (n : Nat) (h : n < 2 ^ 64) (rest : List Byte) :
    read_num_LE ⟨int_to_byte_LE n 8 ++ rest, false⟩ 8 = .ok (n, ⟨rest, false⟩) := by
  simp only [int_to_byte_LE_8, List.cons_append, List.nil_append, read_num_LE_8, toByte_val,
    Nat.shiftRight_eq_div_pow]
  congr 2
  omega

set_option maxRecDepth 8192 in
theorem create_method_ne_zero (intra diffing : Bool) (inner : compression) :
    ∀ x ∈ create_method intra diffing inner, x ≠ 0 := by
  cases intra <;> cases diffing <;> cases inner <;> decide

set_option maxRecDepth 100000 in
theorem parse_method_create_method (intra diffing : Bool) (inner : compression) :
    parse_method (create_method intra diffing inner) = some (inner, intra, diffing) := by
  cases intra <;> cases diffing <;> cases inner <;> rfl

set_option maxRecDepth 8192 in
theorem magic_ne_zero : ∀ x ∈ ascii "MBCR", x ≠ 0 := by decide

/-- The header written by `create_header` is read back by `read_header`. -/
theorem read_header_create_header (method : List Byte) (size pagesize : Nat)
    (rest : List Byte) (hm : ∀ x ∈ method, x ≠ 0) (hs : size < 2 ^ 64)
    (hp : pagesize < 2 ^ 32) :
    read_header (istream.ofBytes (create_header method size 2 1 (ascii "MBCR") pagesize ++ rest))
      = .ok (some (method, pagesize, size), ⟨rest, false⟩) := by
  have hmagic := magic_ne_zero
  have hu : u32 pagesize = pagesize := by simp only [u32]; omega
  have hsz : size % 2 ^ 64 = size := Nat.mod_eq_of_lt hs
  simp only [read_header, create_header, istream.ofBytes, List.append_assoc,
    List.singleton_append, List.cons_append, List.nil_append, bind, Except.bind]
  rw [read_string_eq _ _ hmagic]
  simp only [ne_eq, not_true_eq_false, if_false]
  rw [read_string_eq _ _ hm]
  simp only [read_num_LE_int_to_byte_LE_2 _ (show u32 2 < 2 ^ 16 by decide),
    read_num_LE_int_to_byte_LE_2 _ (show u32 1 < 2 ^ 16 by decide), hu, hsz,
    read_num_LE_int_to_byte_LE_4 _ hp, read_num_LE_int_to_byte_LE_8 _ hs, pure, Except.pure]

/-! ### The classification in the intended setting -/

theorem headD_mem (xs : List Nat) (h : xs ≠ []) : xs.headD 0 ∈ xs := by
  cases xs with
  | nil => exact absurd rfl h
  | cons a l => simp

theorem sorted_set_difference (a b : List Nat) (h : a.Sorted (· < ·)) :
    (set_difference a b).Sorted (· < ·) :=
  List.Pairwise.sublist (List.filter_sublist _) h

theorem length_le_of_nodup_lt (xs : List Nat) (n : Nat) (hnd : xs.Nodup)
    (hlt : ∀ x ∈ xs, x < n) : xs.length ≤ n := by
  have hsub : xs.toFinset ⊆ Finset.range n := by
    intro x hx
    simp only [List.mem_toFinset] at hx
    simpa using hlt x hx
  have := Finset.card_le_card hsub
  rwa [List.toFinset_card_of_nodup hnd, Finset.card_range] at this

theorem getD_length (pages : Pages) (P p : Nat) (h : ∀ pg ∈ pages, pg.length = P)
    (hp : p < pages.length) : (pages.getD p []).length = P := by
  rw [getD_of_getElem? pages p pages[p] (List.getElem?_eq_getElem hp)]
  exact h _ (List.getElem_mem hp)

/-- The representatives and their sets, as the body writer needs them. -/
theorem setting_dedups (P : Nat) (R S : Pages) (ref src : memdump) (diffing intra : Bool)
    (h : Setting P R S ref src diffing intra) :
    (compress_classify P ref src diffing intra).dedup_pagenrs.Sorted (· < ·) ∧
      ∀ r ∈ (compress_classify P ref src diffing intra).dedup_pagenrs,
        r < 2 ^ 31 ∧
        (map_get (compress_classify P ref src diffing intra).dedups r []).Sorted (· < ·) ∧
        map_get (compress_classify P ref src diffing intra).dedups r [] ≠ [] ∧
        ∀ x ∈ map_get (compress_classify P ref src diffing intra).dedups r [], x < 2 ^ 29 := by
  obtain ⟨h1, h2, h3⟩ := classify_dedups diffing intra P R S ref src h.href h.hsrc
  refine ⟨h1, ?_⟩
  intro r hr
  obtain ⟨D, hD⟩ := (h2 r).mp hr
  obtain ⟨c, _, hcR, rfl, hne, rfl⟩ := (h3 r D).mp hD
  have hget : map_get (compress_classify P ref src diffing intra).dedups
      ((occurrences c R).headD 0) [] = set_difference (occurrences c S) (occurrences c R) := by
    simp only [map_get, hD, Option.getD_some]
  have hhead := occurrences_lt c R _ (headD_mem _ (occurrences_ne_nil c R hcR))
  have hc := h.hcount
  have hl := h.hlen
  rw [hget]
  refine ⟨by omega, sorted_set_difference _ _ (sorted_occurrences c S), hne, ?_⟩
  intro x hx
  have := occurrences_lt c S x ((mem_set_difference _ _ x).mp hx).1
  omega

/-- The diffed pages and their diffs, as the body writer needs them. -/
theorem setting_diffs (P : Nat) (R S : Pages) (ref src : memdump) (diffing intra : Bool)
    (h : Setting P R S ref src diffing intra) (hd : diffing = true) :
    (compress_classify P ref src diffing intra).diff_pagenrs.Sorted (· < ·) ∧
      ∀ p ∈ (compress_classify P ref src diffing intra).diff_pagenrs,
        p < 2 ^ 31 ∧
        map_get (compress_classify P ref src diffing intra).diffs p []
          = create_diff (R.getD p []) (S.getD p []) ∧
        (R.getD p []).length = (S.getD p []).length ∧ (R.getD p []).length ≤ 4096 := by
  obtain ⟨h1, h2, h3⟩ := classify_diffs diffing intra P R S ref src h.href h.hsrc
  refine ⟨h1, ?_⟩
  intro p hp
  obtain ⟨c, hc, hcR, hprof⟩ := (h2 p).mp hp
  have hpS : p < S.length := (List.getElem?_eq_some.mp hc).1
  have hpR : p < R.length := by rw [h.hlen]; exact hpS
  have hfind := (h3 p _).mpr ⟨c, hc, hcR, hprof, rfl⟩
  have hl1 := getD_length R P p h.hR hpR
  have hl2 := getD_length S P p h.hS hpS
  have hc29 := h.hcount
  have hP := h.hdiffP hd
  refine ⟨by omega, ?_, by omega, by omega⟩
  simp only [map_get, hfind, Option.getD_some, getD_of_getElem? S p c hc]

/-- The new pages without intra-deduplication, as the body writer needs them. -/
theorem setting_new_pages (P : Nat) (R S : Pages) (ref src : memdump) (diffing : Bool)
    (h : Setting P R S ref src diffing false) :
    (compress_classify P ref src diffing false).new_pagenrs.Sorted (· < ·) ∧
      (compress_classify P ref src diffing false).new_pagenrs ≠ [] ∧
      ∀ p ∈ (compress_classify P ref src diffing false).new_pagenrs,
        p < 2 ^ 29 ∧
        map_get (compress_classify P ref src diffing false).new_pages p [] = S.getD p [] ∧
        (S.getD p []).length = P := by
  obtain ⟨h1, h2, h3, _⟩ := classify_new_pages diffing P R S ref src h.href h.hsrc
  obtain ⟨p0, hp0⟩ := h.hnew rfl
  refine ⟨h1, List.ne_nil_of_mem ((h2 p0).mpr hp0), ?_⟩
  intro p hp
  obtain ⟨c, hc, hcR, hprof⟩ := (h2 p).mp hp
  have hpS : p < S.length := (List.getElem?_eq_some.mp hc).1
  have hfind := (h3 p c).mpr ⟨hc, hcR, hprof⟩
  have hc29 := h.hcount
  have hl := h.hlen
  refine ⟨by omega, ?_, getD_length S P p h.hS hpS⟩
  simp only [map_get, hfind, Option.getD_some, getD_of_getElem? S p c hc]

/-- The intra-deduplicated new pages, as the body writer needs them. -/
theorem setting_same_newpages (P : Nat) (R S : Pages) (ref src : memdump) (diffing : Bool)
    (h : Setting P R S ref src diffing true) :
    (compress_classify P ref src diffing true).same_newpages.length < 2 ^ 32 ∧
      ∀ c ∈ (compress_classify P ref src diffing true).same_newpages.map Prod.fst,
        c.length = P ∧
        (map_get (compress_classify P ref src diffing true).same_newpages c []).Sorted (· < ·) ∧
        map_get (compress_classify P ref src diffing true).same_newpages c [] ≠ [] ∧
        ∀ x ∈ map_get (compress_classify P ref src diffing true).same_newpages c [],
          x < 2 ^ 29 := by
  obtain ⟨_, _, hnd, hsets, hmem⟩ := classify_same_newpages diffing P R S ref src h.href h.hsrc
  have hc29 := h.hcount
  have hl := h.hlen
  have hkey : ∀ c nums, (c, nums) ∈ (compress_classify P ref src diffing true).same_newpages →
      ∀ x ∈ nums, S[x]? = some c := by
    intro c nums hm x hx
    exact ((hmem c x).mp ⟨nums, hm, hx⟩).1
  constructor
  · have hinj : ((compress_classify P ref src diffing true).same_newpages.map
        (fun e => e.2.headD 0)).Nodup := by
      rw [List.nodup_map_iff_inj_on (List.Nodup.of_map _ hnd)]
      intro e1 he1 e2 he2 heq
      have a1 := hkey e1.1 e1.2 he1 _ (headD_mem _ (hsets e1.1 e1.2 he1).2)
      have a2 := hkey e2.1 e2.2 he2 _ (headD_mem _ (hsets e2.1 e2.2 he2).2)
      rw [heq, a2] at a1
      have hk : e2.1 = e1.1 := Option.some.inj a1
      have f1 := map_find_of_mem _ _ _ hnd he1
      have f2 := map_find_of_mem _ _ _ hnd he2
      rw [hk, f1] at f2
      exact Prod.ext hk.symm (Option.some.inj f2)
    have := length_le_of_nodup_lt _ S.length hinj (by
      intro x hx
      obtain ⟨e, he, rfl⟩ := List.mem_map.mp hx
      have a1 := hkey e.1 e.2 he _ (headD_mem _ (hsets e.1 e.2 he).2)
      exact (List.getElem?_eq_some.mp a1).1)
    simp only [List.length_map] at this
    omega
  · intro c hc
    obtain ⟨⟨c', nums⟩, hm, rfl⟩ := List.mem_map.mp hc
    have hget := map_get_of_mem _ c' nums [] hnd hm
    obtain ⟨s1, s2⟩ := hsets c' nums hm
    simp only [hget]
    have a1 := hkey c' nums hm _ (headD_mem _ s2)
    refine ⟨h.hS c' (List.getElem?_mem a1), s1, s2, ?_⟩
    intro x hx
    have := (List.getElem?_eq_some.mp (hkey c' nums hm x hx)).1
    omega

/-! ### Parsing the body written by the compressor -/

/-- The section of the deduplicated pages is read back as the fills it stands for. -/
theorem parse_fill_section_eq (cl : Classification) (rest : List Byte)
    (h1 : cl.dedup_pagenrs.Sorted (· < ·))
    (h2 : ∀ r ∈ cl.dedup_pagenrs, r < 2 ^ 31 ∧ (map_get cl.dedups r []).Sorted (· < ·) ∧
      map_get cl.dedups r [] ≠ [] ∧ ∀ x ∈ map_get cl.dedups r [], x < 2 ^ 29) :
    parse_fill_section ⟨write_fill_section cl ++ rest, false⟩
      = .ok (map_set_all [] (cl.dedup_pagenrs.flatMap
          (fun r => (map_get cl.dedups r []).map (fun p => (p, r)))), ⟨rest, false⟩) := by
  simp only [parse_fill_section, write_fill_section, List.append_assoc, bind, Except.bind]
  rw [parse_pagenr_list_create _ _ h1 (fun r hr => (h2 r hr).1)]
  exact parse_fills_write_dedups cl.dedups cl.dedup_pagenrs [] rest (fun r hr => (h2 r hr).2)

/-- The section of the diffs is read back as the patches it stands for. -/
theorem parse_diff_section_eq (cl : Classification) (Rf Sf : Nat → List Byte)
    (rest : List Byte) (h1 : cl.diff_pagenrs.Sorted (· < ·))
    (h2 : ∀ p ∈ cl.diff_pagenrs, p < 2 ^ 31 ∧
      map_get cl.diffs p [] = create_diff (Rf p) (Sf p) ∧
      (Rf p).length = (Sf p).length ∧ (Rf p).length ≤ 4096) :
    parse_diff_section true ⟨write_diff_section true cl ++ rest, false⟩
      = .ok (map_set_all [] (cl.diff_pagenrs.map
          (fun p => (p, generate_patches (Rf p) (Sf p)))), ⟨rest, false⟩) := by
  unfold parse_diff_section write_diff_section
  rw [if_pos rfl, if_pos rfl]
  simp only [List.append_assoc, bind, Except.bind]
  rw [parse_pagenr_list_create _ _ h1 (fun r hr => (h2 r hr).1)]
  exact parse_diffs_write_diffs cl.diffs Rf Sf cl.diff_pagenrs [] rest
    (fun p hp => (h2 p hp).2)

theorem parse_diff_section_off (cl : Classification) (rest : List Byte) :
    parse_diff_section false ⟨write_diff_section false cl ++ rest, false⟩
      = .ok ([], ⟨rest, false⟩) := by
  unfold parse_diff_section write_diff_section
  rw [if_neg (by decide), if_neg (by decide)]
  rfl

/-- The section of the new pages without intra-deduplication is read back as the
pages it stands for. -/
theorem parse_new_section_nointra (P : Nat) (cl : Classification) (Sf : Nat → List Byte)
    (rest : List Byte) (h1 : cl.new_pagenrs.Sorted (· < ·)) (h2 : cl.new_pagenrs ≠ [])
    (h3 : ∀ p ∈ cl.new_pagenrs, p < 2 ^ 29 ∧ map_get cl.new_pages p [] = Sf p ∧
      (Sf p).length = P) :
    parse_new_section P false ⟨write_new_section false cl ++ rest, false⟩
      = .ok (map_set_all [] (cl.new_pagenrs.map (fun p => (p, Sf p))), ⟨rest, false⟩) := by
  obtain ⟨e1, e2, _, _⟩ := intervalize_spec _ h1 (fun x hx => by
    have := (h3 x hx).1; omega)
  have hnew := parse_new_pages_eq P Sf (intervalize cl.new_pagenrs) none [] rest
    (fun iv hiv => by have := (h3 iv.2 (e2 iv hiv).2).1; omega)
    (fun q hq => by rw [e1] at hq; exact (h3 q hq).2.2)
  rw [e1] at hnew
  have hwrite : write_new_pages cl.new_pages cl.new_pagenrs
      = (cl.new_pagenrs.map Sf).flatten := by
    rw [write_new_pages_eq]
    congr 1
    exact List.map_congr_left (fun p hp => (h3 p hp).2.1)
  unfold parse_new_section write_new_section
  rw [if_pos (by decide), if_neg (by decide)]
  simp only [List.append_assoc, bind, Except.bind, hwrite]
  rw [parse_interval_list_intervalize _ _ h1 h2 (fun x hx => (h3 x hx).1)]
  exact hnew

/-- The section of the intra-deduplicated new pages is read back as the pages it
stands for. -/
theorem parse_new_section_intra (P : Nat) (cl : Classification) (rest : List Byte)
    (h1 : cl.same_newpages.length < 2 ^ 32)
    (h2 : ∀ c ∈ cl.same_newpages.map Prod.fst, c.length = P ∧
      (map_get cl.same_newpages c []).Sorted (· < ·) ∧ map_get cl.same_newpages c [] ≠ [] ∧
      ∀ x ∈ map_get cl.same_newpages c [], x < 2 ^ 29) :
    parse_new_section P true ⟨write_new_section true cl ++ rest, false⟩
      = .ok (map_set_all [] ((cl.same_newpages.map Prod.fst).flatMap
          (fun c => (map_get cl.same_newpages c []).map (fun p => (p, c)))),
        ⟨rest, false⟩) := by
  have hiv := parse_intra_intervals_eq cl.same_newpages (cl.same_newpages.map Prod.fst) []
    ((cl.same_newpages.map Prod.fst).flatten ++ rest) (fun c hc => (h2 c hc).2)
  have hpg := parse_intra_pages_eq P (fun c => map_get cl.same_newpages c [])
    (cl.same_newpages.map Prod.fst) none [] rest
    (fun c hc => ⟨(h2 c hc).1, (h2 c hc).2.1, (h2 c hc).2.2.2⟩)
  simp only [List.length_map, List.nil_append] at hiv
  unfold parse_new_section write_new_section
  rw [if_neg (by decide), if_pos rfl]
  simp only [List.append_assoc, bind, Except.bind]
  rw [read_num_LE_int_to_byte_LE_4 _ h1]
  simp only [hiv]
  exact hpg

theorem parse_diff_section_setting (P : Nat) (R S : Pages) (ref src : memdump)
    (diffing intra : Bool) (h : Setting P R S ref src diffing intra) (rest : List Byte) :
    parse_diff_section diffing
      ⟨write_diff_section diffing (compress_classify P ref src diffing intra) ++ rest, false⟩
      = .ok ((expected_tables R S ref.path_ diffing intra
          (compress_classify P ref src diffing intra)).diffs, ⟨rest, false⟩) := by
  cases diffing with
  | false => exact parse_diff_section_off _ rest
  | true =>
    obtain ⟨hf1, hf2⟩ := setting_diffs P R S ref src true intra h rfl
    exact parse_diff_section_eq _ (fun p => R.getD p []) (fun p => S.getD p []) rest hf1 hf2

theorem parse_new_section_setting (P : Nat) (R S : Pages) (ref src : memdump)
    (diffing intra : Bool) (h : Setting P R S ref src diffing intra) (rest : List Byte) :
    parse_new_section P intra
      ⟨write_new_section intra (compress_classify P ref src diffing intra) ++ rest, false⟩
      = .ok ((expected_tables R S ref.path_ diffing intra
          (compress_classify P ref src diffing intra)).newpages, ⟨rest, false⟩) := by
  cases intra with
  | false =>
    obtain ⟨hn1, hn2, hn3⟩ := setting_new_pages P R S ref src diffing h
    exact parse_new_section_nointra P _ (fun p => S.getD p []) rest hn1 hn2 hn3
  | true =>
    obtain ⟨hs1, hs2⟩ := setting_same_newpages P R S ref src diffing h
    exact parse_new_section_intra P _ rest hs1 hs2

/-- The body of `interdedup_compress` is parsed completely, into the tables it stands
for. -/
theorem parse_body_compress_body (P : Nat) (R S : Pages) (ref src : memdump)
    (diffing intra : Bool) (h : Setting P R S ref src diffing intra) (rest : List Byte) :
    parse_body P intra diffing
        (istream.ofBytes (compress_body ref.path_ diffing intra
          (compress_classify P ref src diffing intra) ++ rest))
      = .ok (expected_tables R S ref.path_ diffing intra
          (compress_classify P ref src diffing intra), ⟨rest, false⟩) := by
  obtain ⟨hd1, hd2⟩ := setting_dedups P R S ref src diffing intra h
  have hfill := fun rest => parse_fill_section_eq
    (compress_classify P ref src diffing intra) rest hd1 hd2
  have hdiff := parse_diff_section_setting P R S ref src diffing intra h
  have hnew := parse_new_section_setting P R S ref src diffing intra h
  generalize compress_classify P ref src diffing intra = cl at hfill hdiff hnew ⊢
  unfold parse_body compress_body istream.ofBytes
  simp only [List.append_assoc, List.singleton_append, List.cons_append, bind, Except.bind]
  rw [read_string_eq _ _ h.hpath.2]
  dsimp only
  rw [if_neg h.hpath.1, List.nil_append, hfill]
  dsimp only
  rw [hdiff]
  dsimp only
  rw [hnew]
  rfl

/-! ### The tables of the body and the pages they select -/

/-- The fills of the body: the deduplicated pages, each mapped to a reference page with
its content. -/
theorem expected_fills (P : Nat) (R S : Pages) (ref src : memdump) (diffing intra : Bool)
    (h : Setting P R S ref src diffing intra) (p : Nat) :
    (IsDeduped R S p → ∃ r, map_find (expected_tables R S ref.path_ diffing intra
        (compress_classify P ref src diffing intra)).fills p = some r ∧ R[r]? = S[p]?) ∧
      (¬ IsDeduped R S p → map_find (expected_tables R S ref.path_ diffing intra
        (compress_classify P ref src diffing intra)).fills p = none) := by
  obtain ⟨_, h2, h3⟩ := classify_dedups diffing intra P R S ref src h.href h.hsrc
  have hin := inDedups_iff diffing intra P R S ref src h.href h.hsrc p
  have hkv : ∀ kv ∈ (compress_classify P ref src diffing intra).dedup_pagenrs.flatMap
      (fun r => (map_get (compress_classify P ref src diffing intra).dedups r []).map
        (fun p => (p, r))),
      ∃ c, S[kv.1]? = some c ∧ c ∈ R ∧ kv.2 = (occurrences c R).headD 0 ∧
        (compress_classify P ref src diffing intra).InDedups kv.1 := by
    intro kv hkv
    simp only [List.mem_flatMap, List.mem_map] at hkv
    obtain ⟨r, hr, q, hq, rfl⟩ := hkv
    obtain ⟨D, hD⟩ := (h2 r).mp hr
    have hget : map_get (compress_classify P ref src diffing intra).dedups r [] = D := by
      simp only [map_get, hD, Option.getD_some]
    rw [hget] at hq
    obtain ⟨c, _, hcR, hDe, _, hre⟩ := (h3 r D).mp hD
    rw [hDe, mem_set_difference, mem_occurrences] at hq
    exact ⟨c, hq.1, hcR, hre, r, D, hD, by rw [hDe, mem_set_difference, mem_occurrences]; exact hq⟩
  have hfun : ∀ kv ∈ (compress_classify P ref src diffing intra).dedup_pagenrs.flatMap
      (fun r => (map_get (compress_classify P ref src diffing intra).dedups r []).map
        (fun p => (p, r))),
      kv.2 = (fun p => (occurrences (S.getD p []) R).headD 0) kv.1 := by
    intro kv hm
    obtain ⟨c, hc, _, hr, _⟩ := hkv kv hm
    simp only [hr, getD_of_getElem? S kv.1 c hc]
  simp only [expected_tables]
  rw [map_find_map_set_all (fun p => (occurrences (S.getD p []) R).headD 0) _ _ _ hfun]
  constructor
  · intro hded
    obtain ⟨r, D, hD, hp⟩ := hin.mpr hded
    have hr : r ∈ (compress_classify P ref src diffing intra).dedup_pagenrs := (h2 r).mpr ⟨D, hD⟩
    have hget : map_get (compress_classify P ref src diffing intra).dedups r [] = D := by
      simp only [map_get, hD, Option.getD_some]
    have hmem : (p, r) ∈ (compress_classify P ref src diffing intra).dedup_pagenrs.flatMap
        (fun r => (map_get (compress_classify P ref src diffing intra).dedups r []).map
          (fun p => (p, r))) := by
      simp only [List.mem_flatMap, List.mem_map]
      exact ⟨r, hr, p, by rw [hget]; exact hp, rfl⟩
    rw [if_pos (List.mem_map.mpr ⟨(p, r), hmem, rfl⟩)]
    obtain ⟨c, hc, hcR, _, _⟩ := hkv (p, r) hmem
    simp only at hc
    refine ⟨_, rfl, ?_⟩
    rw [getD_of_getElem? S p c hc, hc]
    exact (mem_occurrences c R _).mp (headD_mem _ (occurrences_ne_nil c R hcR))
  · intro hnd
    rw [if_neg]
    · rfl
    · intro hk
      obtain ⟨kv, hm, rfl⟩ := List.mem_map.mp hk
      obtain ⟨_, _, _, _, hI⟩ := hkv kv hm
      exact hnd ((inDedups_iff diffing intra P R S ref src h.href h.hsrc kv.1).mp hI)

/-- The diffs of the body: the patches of the diffed pages. -/
theorem expected_diffs (P : Nat) (R S : Pages) (ref src : memdump) (intra : Bool)
    (h : Setting P R S ref src true intra) (p : Nat) :
    (IsDiffed true P R S p → map_find (expected_tables R S ref.path_ true intra
        (compress_classify P ref src true intra)).diffs p
          = some (generate_patches (R.getD p []) (S.getD p []))) ∧
      (¬ IsDiffed true P R S p → map_find (expected_tables R S ref.path_ true intra
        (compress_classify P ref src true intra)).diffs p = none) := by
  obtain ⟨_, h2, _⟩ := classify_diffs true intra P R S ref src h.href h.hsrc
  simp only [expected_tables, if_true]
  rw [map_find_map_set_all (fun p => generate_patches (R.getD p []) (S.getD p [])) _ _ _
    (by intro kv hkv; obtain ⟨q, _, rfl⟩ := List.mem_map.mp hkv; rfl)]
  have hk : p ∈ ((compress_classify P ref src true intra).diff_pagenrs.map
      (fun p => (p, generate_patches (R.getD p []) (S.getD p [])))).map Prod.fst
      ↔ IsDiffed true P R S p := by
    rw [← h2 p]
    simp only [List.map_map, Function.comp_def, List.map_id']
  constructor
  · intro hd; rw [if_pos (hk.mpr hd)]
  · intro hd; rw [if_neg (fun x => hd (hk.mp x))]; rfl

/-- The new pages of the body. -/
theorem expected_newpages (P : Nat) (R S : Pages) (ref src : memdump) (diffing intra : Bool)
    (h : Setting P R S ref src diffing intra) (p : Nat) :
    (IsNew diffing P R S p → map_find (expected_tables R S ref.path_ diffing intra
        (compress_classify P ref src diffing intra)).newpages p = some (S.getD p [])) ∧
      (¬ IsNew diffing P R S p → map_find (expected_tables R S ref.path_ diffing intra
        (compress_classify P ref src diffing intra)).newpages p = none) := by
  cases intra with
  | false =>
    obtain ⟨_, h2, _, _⟩ := classify_new_pages diffing P R S ref src h.href h.hsrc
    simp only [expected_tables, Bool.false_eq_true, if_false]
    rw [map_find_map_set_all (fun p => S.getD p []) _ _ _
      (by intro kv hkv; obtain ⟨q, _, rfl⟩ := List.mem_map.mp hkv; rfl)]
    have hk : p ∈ ((compress_classify P ref src diffing false).new_pagenrs.map
        (fun p => (p, S.getD p []))).map Prod.fst ↔ IsNew diffing P R S p := by
      rw [← h2 p]
      simp only [List.map_map, Function.comp_def, List.map_id']
    constructor
    · intro hd; rw [if_pos (hk.mpr hd)]
    · intro hd; rw [if_neg (fun x => hd (hk.mp x))]; rfl
  | true =>
    obtain ⟨_, _, hnd, _, hmem⟩ := classify_same_newpages diffing P R S ref src h.href h.hsrc
    have hkv : ∀ q c, (q, c) ∈ ((compress_classify P ref src diffing true).same_newpages.map
        Prod.fst).flatMap (fun c =>
          (map_get (compress_classify P ref src diffing true).same_newpages c []).map
            (fun p => (p, c)))
        ↔ S[q]? = some c ∧ c ∉ R ∧
            ¬ (diffing = true ∧ (create_diff (R.getD q []) c).length < P) := by
      intro q c
      rw [← hmem c q]
      simp only [List.mem_flatMap, List.mem_map, Prod.mk.injEq]
      constructor
      · rintro ⟨c', ⟨⟨c'', nums⟩, hm, rfl⟩, q', hq', rfl, rfl⟩
        exact ⟨nums, hm, by rw [map_get_of_mem _ _ nums [] hnd hm] at hq'; exact hq'⟩
      · rintro ⟨nums, hm, hq⟩
        exact ⟨c, ⟨(c, nums), hm, rfl⟩, q, by rw [map_get_of_mem _ _ nums [] hnd hm]; exact hq,
          rfl, rfl⟩
    simp only [expected_tables, if_true]
    rw [map_find_map_set_all (fun p => S.getD p []) _ _ _
      (by
        intro kv hm
        obtain ⟨hc, _, _⟩ := (hkv kv.1 kv.2).mp hm
        simp only [getD_of_getElem? S kv.1 kv.2 hc])]
    constructor
    · rintro ⟨c, hc⟩
      rw [if_pos (List.mem_map.mpr ⟨(p, c), (hkv p c).mpr hc, rfl⟩)]
    · intro hnew
      rw [if_neg]
      · rfl
      · intro hk
        obtain ⟨kv, hm, rfl⟩ := List.mem_map.mp hk
        exact hnew ⟨kv.2, (hkv kv.1 kv.2).mp hm⟩

/-- The page selected from the tables of the body for a page number of the source
dump is the page of the source dump. -/
theorem selected_page_expected (P : Nat) (R S : Pages) (ref src : memdump)
    (diffing intra : Bool) (h : Setting P R S ref src diffing intra) (p : Nat)
    (hp : p < S.length) :
    selected_page diffing (expected_tables R S ref.path_ diffing intra
      (compress_classify P ref src diffing intra)) R p = S[p]? := by
  obtain ⟨hf1, hf2⟩ := expected_fills P R S ref src diffing intra h p
  obtain ⟨hnew1, hnew2⟩ := expected_newpages P R S ref src diffing intra h p
  have hpR : p < R.length := by rw [h.hlen]; exact hp
  have hSp : S[p]? = some S[p] := List.getElem?_eq_getElem hp
  have hRp : R[p]? = some R[p] := List.getElem?_eq_getElem hpR
  simp only [selected_page]
  by_cases hded : IsDeduped R S p
  · obtain ⟨r, e1, e2⟩ := hf1 hded
    rw [e1]; exact e2
  · rw [hf2 hded]
    have hfall : ¬ IsNew diffing P R S p → ¬ IsDiffed diffing P R S p → R[p]? = S[p]? := by
      intro n1 n2
      by_cases hcR : S[p] ∈ R
      · by_cases hsame : R[p]? = some S[p]
        · rw [hsame, hSp]
        · exact absurd ⟨S[p], hSp, hcR, hsame⟩ hded
      · by_cases hprof : diffing = true ∧ (create_diff (R.getD p []) S[p]).length < P
        · exact absurd ⟨S[p], hSp, hcR, hprof⟩ n2
        · exact absurd ⟨S[p], hSp, hcR, hprof⟩ n1
    have hnewcase : (match map_find (expected_tables R S ref.path_ diffing intra
          (compress_classify P ref src diffing intra)).newpages p with
        | some page => some page
        | none => R[p]?) = S[p]? ∨ IsDiffed diffing P R S p := by
      by_cases hd : IsDiffed diffing P R S p
      · exact Or.inr hd
      · left
        by_cases hn : IsNew diffing P R S p
        · rw [hnew1 hn, getD_of_getElem? S p _ hSp, hSp]
        · rw [hnew2 hn]; exact hfall hn hd
    cases hdiffing : diffing with
    | false =>
      subst hdiffing
      have : ¬ IsDiffed false P R S p := by
        rintro ⟨c, _, _, hx, _⟩
        exact absurd hx (by decide)
      simp only [Bool.false_eq_true, if_false]
      rcases hnewcase with e | e
      · exact e
      · exact absurd e this
    | true =>
      subst hdiffing
      simp only [if_true]
      obtain ⟨hdf1, hdf2⟩ := expected_diffs P R S ref src intra h p
      by_cases hd : IsDiffed true P R S p
      · rw [hdf1 hd]
        simp only [hRp]
        have hl1 : R[p].length = P := h.hR _ (List.getElem_mem hpR)
        have hl2 : S[p].length = P := h.hS _ (List.getElem_mem hp)
        have hP := h.hdiffP rfl
        have := (diff_roundtrip R[p] S[p] [] (by omega) (by omega)).2
        rw [getD_of_getElem? R p _ hRp, getD_of_getElem? S p _ hSp, this, hSp]
      · rw [hdf2 hd]
        rcases hnewcase with e | e
        · exact e
        · exact absurd e hd

/-! ### The round trip -/

theorem flatten_length_of_pages (P : Nat) :
    ∀ (pages : Pages), (∀ pg ∈ pages, pg.length = P) → pages.flatten.length = pages.length * P
  | [], _ => by simp
  | pg :: pages, h => by
    have h1 := h pg (List.mem_cons_self _ _)
    have ih := flatten_length_of_pages P pages (fun q hq => h q (List.mem_cons_of_mem _ hq))
    simp only [List.flatten_cons, List.length_append, List.length_cons, h1, ih]
    rw [Nat.add_mul, Nat.one_mul, Nat.add_comm]

theorem map_getElem?_range (S : Pages) :
    (List.range S.length).map (fun p => (S[p]?).getD []) = S := by
  apply List.ext_getElem
  · simp
  · intro i h1 h2
    simp [List.getElem?_eq_getElem h2]

/-- In the intended setting `interdedup_compress` works with the page size `P`. -/
theorem compress_pagesize_setting (P : Nat) (R S : Pages) (ref src : memdump)
    (diffing intra : Bool) (h : Setting P R S ref src diffing intra) :
    compress_pagesize ref = .ok P := by
  have hu : u32 P = P := by have := h.hP32; simp only [u32]; omega
  have hpos := h.hpos
  have hmem : R[0] ∈ ref.page_map_.map Prod.fst :=
    h.href.2.2.2 _ (List.getElem_mem hpos)
  unfold compress_pagesize
  cases hpm : ref.page_map_ with
  | nil => rw [hpm] at hmem; simp at hmem
  | cons e rest =>
    obtain ⟨c, nums⟩ := e
    have hc : (c, nums) ∈ ref.page_map_ := by rw [hpm]; exact List.mem_cons_self _ _
    have := ((pageMapOf_mem ref.page_map_ R h.href.2 c nums).mp hc).1
    simp only [h.hR c this, hu]

theorem decompress_file_compress_file (codec : InnerCodec) (hcodec : codec.Lossless)
    (x : List Byte) (inner : compression) :
    decompress_file codec (compress_file codec x inner) inner = x := by
  cases inner <;> simp only [decompress_file, compress_file, hcodec _ x]

/-- In the intended setting and with a lossless inner codec, decompressing the file
written by `interdedup_compress` against the reference dump yields the bytes of
the source dump. -/
theorem roundtrip_setting (codec : InnerCodec) (hcodec : codec.Lossless) (P : Nat)
    (R S : Pages) (ref src : memdump) (diffing intra : Bool)
    (h : Setting P R S ref src diffing intra) (inner : compression)
    (fs : List Byte → Option (List Byte)) (hfs : fs ref.path_ = some R.flatten) :
    ∃ out, interdedup_compress codec ref src S.flatten.length inner diffing intra = .ok out
      ∧ interdedup_decompress codec fs (some out) = .ok S.flatten := by
  have hn29 := h.hcount
  have hnpos := h.hpos
  have hlen := h.hlen
  have hP := h.hP
  have hP32 := h.hP32
  have hsize : S.flatten.length = S.length * P := flatten_length_of_pages P S h.hS
  have hprod : S.length * P ≤ 2 ^ 29 * 2 ^ 32 :=
    Nat.mul_le_mul (by omega) (by omega)
  have hprodpos : 0 < S.length * P := Nat.mul_pos (by omega) (by omega)
  have hs64 : S.length * P < 2 ^ 64 := by omega
  have hmod : ¬ (S.length * P) % 2 ^ 64 = 0 := by
    rw [Nat.mod_eq_of_lt hs64]; omega
  have hdiv : S.length * P / P = S.length := Nat.mul_div_cancel _ (by omega)
  have hbody := parse_body_compress_body P R S ref src diffing intra h []
  rw [List.append_nil] at hbody
  have hne : compress_body ref.path_ diffing intra
      (compress_classify P ref src diffing intra) ≠ [] := by
    unfold compress_body
    simp
  obtain ⟨d, hread, _, hd⟩ := readDumpfile_holds ref.path_ P R hP h.hR (by omega)
  have hsel := selected_page_expected P R S ref src diffing intra h
  have hrec := reconstruct_eq P hP diffing
    (expected_tables R S ref.path_ diffing intra (compress_classify P ref src diffing intra))
    R d hd (List.range S.length)
    (fun p hp => by
      have hlt : p < S.length := List.mem_range.mp hp
      exact ⟨S[p], by rw [hsel p hlt, List.getElem?_eq_getElem hlt],
        h.hS _ (List.getElem_mem _)⟩)
  have hmap : (List.range S.length).map (fun p => (selected_page diffing
      (expected_tables R S ref.path_ diffing intra (compress_classify P ref src diffing intra))
      R p).getD []) = S := by
    have h1 : (List.range S.length).map (fun p => (selected_page diffing
        (expected_tables R S ref.path_ diffing intra (compress_classify P ref src diffing intra))
        R p).getD []) = (List.range S.length).map (fun p => (S[p]?).getD []) := by
      apply List.map_congr_left
      intro p hp
      rw [hsel p (List.mem_range.mp hp)]
    rw [h1, map_getElem?_range]
  rw [hmap] at hrec
  refine ⟨create_header (create_method intra diffing inner) (S.length * P) 2 1 (ascii "MBCR") P
    ++ compress_file codec (compress_body ref.path_ diffing intra
      (compress_classify P ref src diffing intra)) inner, ?_, ?_⟩
  · unfold interdedup_compress
    rw [compress_pagesize_setting P R S ref src diffing intra h, hsize]
    simp only [bind, Except.bind]
    rw [if_neg hmod]
    rfl
  · unfold interdedup_decompress
    dsimp only
    rw [read_header_create_header _ _ _ _ (create_method_ne_zero intra diffing inner) hs64 hP32]
    simp only [bind, Except.bind]
    rw [parse_method_create_method]
    dsimp only
    rw [if_neg (Bool.false_ne_true), decompress_file_compress_file codec hcodec, if_neg hne, hbody]
    dsimp only [expected_tables]
    rw [hfs, hread]
    dsimp only
    unfold reconstruct_dump
    rw [if_neg (by omega), hdiv, if_neg (by omega)]
    exact hrec

/-! ### The pipeline on dumps of a single page -/

theorem single_page_classify (P : Nat) (Z T d : List Byte) (hne : ¬ Z = T)
    (hd : create_diff Z T = d) (hdlen : d.length < P) :
    compress_classify P ⟨[114], [(Z, [0])], []⟩ ⟨[115], [(T, [0])], []⟩ true true
      = ⟨[(0, d)], [], [], [], [], [0], []⟩ := by
  simp [compress_classify, classify, classify_step, map_find, hne, classify_new,
    memdump.getNumToPage, num_to_page_build, num_to_page_fill, map_set, map_get, hd, hdlen,
    Classification.empty, set_insert]

theorem single_page_body (d : List Byte) :
    compress_body [114] true true ⟨[(0, d)], [], [], [], [], [0], []⟩
      = [114] ++ 0 :: (create_pagenr_list [] ++ (create_pagenr_list [0] ++ (d ++ [0, 0, 0, 0]))) := by
  simp [compress_body, write_fill_section, write_dedups, write_diff_section, write_diffs,
    write_new_section, write_intra_intervals, map_get, map_find]
  rfl

theorem single_page_parse_body (P : Nat) (d : List Byte) (ps : List Patch)
    (hparse : parse_diff ⟨d ++ [0, 0, 0, 0], false⟩ = .ok (ps, ⟨[0, 0, 0, 0], false⟩)) :
    parse_body P true true (istream.ofBytes
        (compress_body [114] true true ⟨[(0, d)], [], [], [], [], [0], []⟩))
      = .ok (⟨[114], [], [(0, ps)], []⟩, ⟨[], false⟩) := by
  rw [single_page_body]
  unfold parse_body istream.ofBytes
  rw [read_string_eq [114] _ (by intro x hx; rw [List.mem_singleton] at hx; subst hx; decide)]
  simp only [bind, Except.bind]
  rw [if_neg (by decide)]
  unfold parse_fill_section
  simp only [bind, Except.bind]
  rw [parse_pagenr_list_create [] _ (by simp) (by simp)]
  simp only [parse_fills]
  unfold parse_diff_section
  rw [if_pos rfl]
  simp only [bind, Except.bind]
  rw [parse_pagenr_list_create [0] _ (by simp) (by simp)]
  simp only [parse_diffs, bind, Except.bind, hparse, map_set]
  rfl

/-- The round trip on dumps of one page each, when the diff of the page is kept: the
decompressor writes the reference page with the parsed patches applied. -/
theorem single_page_pipeline (codec : InnerCodec) (hcodec : codec.Lossless)
    (inner : compression) (P : Nat) (Z T W d : List Byte) (ps : List Patch)
    (hP : 1 ≤ P) (hP32 : P < 2 ^ 32) (hZ : Z.length = P) (hW : W.length = P)
    (hne : ¬ Z = T) (hd : create_diff Z T = d) (hdlen : d.length < P)
    (hparse : parse_diff ⟨d ++ [0, 0, 0, 0], false⟩ = .ok (ps, ⟨[0, 0, 0, 0], false⟩))
    (happly : apply_diff Z ps = .ok W) :
    ∃ out, interdedup_compress codec ⟨[114], [(Z, [0])], []⟩ ⟨[115], [(T, [0])], []⟩ P
          inner true true = .ok out
      ∧ interdedup_decompress codec (fun _ => some [Z].flatten) (some out) = .ok W := by
  have hu : u32 P = P := by simp only [u32]; omega
  have hs64 : P < 2 ^ 64 := by omega
  have hmod : ¬ P % 2 ^ 64 = 0 := by rw [Nat.mod_eq_of_lt hs64]; omega
  have hcl := single_page_classify P Z T d hne hd hdlen
  have hbody := single_page_parse_body P d ps hparse
  have hne2 : compress_body [114] true true ⟨[(0, d)], [], [], [], [], [0], []⟩ ≠ [] := by
    unfold compress_body
    simp
  obtain ⟨r, hread, _, hr⟩ := readDumpfile_holds [114] P [Z] hP
    (by intro pg hpg; rw [List.mem_singleton] at hpg; rw [hpg]; exact hZ) (by simp)
  have hsel : selected_page true ⟨[114], [], [(0, ps)], []⟩ [Z] 0 = some W := by
    simp [selected_page, map_find, happly]
  have hrec := reconstruct_eq P hP true ⟨[114], [], [(0, ps)], []⟩ [Z] r hr [0]
    (fun p hp => by
      rw [List.mem_singleton] at hp
      subst hp
      exact ⟨W, hsel, hW⟩)
  simp only [List.map_cons, List.map_nil, hsel, Option.getD_some, List.flatten_cons,
    List.flatten_nil, List.append_nil] at hrec
  refine ⟨create_header (create_method true true inner) P 2 1 (ascii "MBCR") P
    ++ compress_file codec (compress_body [114] true true ⟨[(0, d)], [], [], [], [], [0], []⟩)
      inner, ?_, ?_⟩
  · unfold interdedup_compress
    simp only [compress_pagesize, hZ, hu, bind, Except.bind]
    rw [if_neg hmod, hcl]
    rfl
  · unfold interdedup_decompress
    dsimp only
    rw [read_header_create_header _ _ _ _ (create_method_ne_zero true true inner) hs64 hP32]
    simp only [bind, Except.bind]
    rw [parse_method_create_method]
    dsimp only
    rw [if_neg (Bool.false_ne_true), decompress_file_compress_file codec hcodec, if_neg hne2,
      hbody]
    dsimp only
    rw [hread]
    dsimp only
    unfold reconstruct_dump
    rw [if_neg (by omega), Nat.div_self (by omega), if_neg (by decide)]
    exact hrec

theorem exCodec_lossless : exCodec.Lossless := fun _ _ => rfl

theorem tail_ne_replicate (n : Nat) :
    ¬ List.replicate (n + 2) (0 : Byte) = List.replicate n 0 ++ [1, 1] := by
  intro h
  have h2 : List.replicate (n + 2) (0 : Byte) = List.replicate n 0 ++ [0, 0] := by
    rw [List.replicate_add]; rfl
  rw [h2] at h
  have := List.append_cancel_left h
  exact absurd this (by decide)

/-- Claim C1 as stated fails at page size 4098 with diffing: for a reference dump of
one zero page and a source dump that differs from it in the last two bytes, the
compressor keeps the diff, and the decompressor writes the page with the first two
bytes changed instead of the last two. -/
theorem interdedup_roundtrip_fails_4098 :
    exBigR.flatten.length = 4098 ∧ exBigS.flatten.length = 4098 ∧
    ∃ out, interdedup_compress exCodec exBigRef exBigSrc 4098 .NOINNER true true = .ok out
      ∧ interdedup_decompress exCodec (fun _ => some exBigR.flatten) (some out)
          = .ok ([1, 1] ++ List.replicate 4096 0)
      ∧ [1, 1] ++ List.replicate 4096 (0 : Byte) ≠ exBigS.flatten := by
  have eR : exBigR.flatten = List.replicate 4098 0 := by
    unfold exBigR
    rw [List.flatten_cons, List.flatten_nil, List.append_nil]
  have eS : exBigS.flatten = List.replicate 4096 0 ++ [1, 1] := by
    unfold exBigS
    rw [List.flatten_cons, List.flatten_nil, List.append_nil]
  have hd : create_diff (List.replicate 4098 0) (List.replicate 4096 0 ++ [1, 1])
      = int_to_byte_LE (u32 1) 2 ++ create_diff_loop [(4096, [1, 1])] := by
    rw [create_diff, generate_patches_tail 4096 (by decide)]
    rfl
  obtain ⟨out, h1, h2⟩ := single_page_pipeline exCodec exCodec_lossless .NOINNER 4098
    (List.replicate 4098 0) (List.replicate 4096 0 ++ [1, 1])
    ([1, 1] ++ List.replicate 4096 0) _ [(0, [1, 1])] (by decide) (by decide)
    (List.length_replicate _ _)
    (by rw [List.length_append, List.length_replicate]; rfl)
    (tail_ne_replicate 4096) hd (by decide) (by rfl) (apply_diff_head 4096 (by decide))
  rw [eR, eS]
  refine ⟨List.length_replicate _ _,
    by rw [List.length_append, List.length_replicate]; rfl, out, h1, ?_,
    head_ne_of_replicate 4095⟩
  have e1 : [List.replicate 4098 (0 : Byte)].flatten = List.replicate 4098 0 := eR
  rw [e1] at h2
  exact h2

/-! ### The round trip of the codec (claim C1) -/

theorem exPath_ok : ([114] : List Byte) ≠ [] ∧ ∀ x ∈ ([114] : List Byte), x ≠ 0 :=
  ⟨by decide, by intro x hx; rw [List.mem_singleton] at hx; subst hx; decide⟩

theorem exSetting : Setting 8 exR exS exRef exSrc true false where
  hP := by decide
  hP32 := by decide
  hdiffP := fun _ => by decide
  hR := by decide
  hS := by decide
  hlen := rfl
  hpos := by decide
  hcount := by decide
  href := exRef_holds
  hsrc := exSrc_holds
  hpath := exPath_ok
  hnew := fun _ => ⟨0, [88, 88, 88, 88, 88, 88, 88, 88], rfl, by decide, by decide⟩

/-- Claim C1 (amended): for a reference dump `R` and a source dump `S` of the same
number of pages (between 1 and `2^29`), all of `P` bytes with `1 ≤ P < 2^32` and,
with diffing, `P ≤ 4096`, for a reference path that is a non-empty C string, for a
lossless inner codec and every inner compression, and, without
intra-deduplication, when at least one page of `S` is new: `interdedup_compress`
writes a file, and `interdedup_decompress` on that file, with `R` stored at the
reference path, writes exactly the bytes of `S`. -/
theorem interdedup_roundtrip (codec : InnerCodec) (hcodec : codec.Lossless) (P : Nat)
    (R S : Pages) (ref src : memdump) (diffing intra : Bool)
    (h : Setting P R S ref src diffing intra) (inner : compression)
    (fs : List Byte → Option (List Byte)) (hfs : fs ref.path_ = some R.flatten) :
    ∃ out, interdedup_compress codec ref src S.flatten.length inner diffing intra = .ok out
      ∧ interdedup_decompress codec fs (some out) = .ok S.flatten :=
  roundtrip_setting codec hcodec P R S ref src diffing intra h inner fs hfs

/-- Claim C1 at the reference dump with the pages C, D and the source dump with the
pages X, C, with diffing, without intra-deduplication, with gzip as inner
compression. -/
theorem interdedup_roundtrip_witness :
    exCodec.Lossless ∧ Setting 8 exR exS exRef exSrc true false ∧
    ∃ out, interdedup_compress exCodec exRef exSrc exS.flatten.length .GZIP true false = .ok out
      ∧ interdedup_decompress exCodec (fun _ => some exR.flatten) (some out) = .ok exS.flatten :=
  ⟨exCodec_lossless, exSetting,
    interdedup_roundtrip exCodec exCodec_lossless 8 exR exS exRef exSrc true false exSetting
      .GZIP (fun _ => some exR.flatten) rfl⟩

/-! ### A source dump equal to the reference dump (claims C5 and C6) -/

theorem set_difference_self (a : List Nat) : set_difference a a = [] := by
  simp [set_difference]

theorem classify_same_aux (diffing intra : Bool) (P : Nat) (R : Pages)
    (ref_pages : List (List Byte × List Nat)) (hR : PageMapOf ref_pages R)
    (ntp : List (Nat × List Byte)) :
    ∀ (entries : List (List Byte × List Nat)),
      (∀ e ∈ entries, e.1 ∈ R ∧ e.2 = occurrences e.1 R) →
      ∀ cl, classify diffing intra P ref_pages ntp entries cl = cl
  | [], _, _ => rfl
  | e :: es, h, cl => by
    obtain ⟨h1, h2⟩ := h e (List.mem_cons_self _ _)
    have hstep : classify_step diffing intra P ref_pages ntp e cl = cl := by
      unfold classify_step
      dsimp only
      rw [pageMapOf_find ref_pages R hR e.1, if_pos h1]
      dsimp only
      rw [h2, set_difference_self]
      simp
    rw [classify, hstep]
    exact classify_same_aux diffing intra P R ref_pages hR ntp es
      (fun e' he' => h e' (List.mem_cons_of_mem _ he')) cl

/-- For a source dump equal to the reference dump the classification loop records
nothing. -/
theorem classify_same (P : Nat) (R : Pages) (ref src : memdump) (diffing intra : Bool)
    (href : ref.Holds R) (hsrc : src.Holds R) :
    compress_classify P ref src diffing intra = Classification.empty := by
  unfold compress_classify
  exact classify_same_aux diffing intra P R ref.page_map_ href.2 _ src.page_map_
    (fun e he => (pageMapOf_mem src.page_map_ R hsrc.2 e.1 e.2).mp he) _

theorem compress_body_empty (path : List Byte) (diffing intra : Bool) :
    compress_body path diffing intra Classification.empty
      = path ++ [0] ++ [0, 0, 0, 0] ++ (if diffing then [0, 0, 0, 0] else [])
          ++ (if intra then [0, 0, 0, 0] else []) := by
  cases diffing <;> cases intra <;> rfl

theorem exZeroRef_holds : exZeroRef.Holds exZero :=
  holds_of_readDumpfile [114] 8 exZero exZeroRef (by decide) (by decide) (by decide) (by rfl)

theorem exZeroSrc_holds : exZeroSrc.Holds exZero :=
  holds_of_readDumpfile [115] 8 exZero exZeroSrc (by decide) (by decide) (by decide) (by rfl)

theorem exZeroSetting : Setting 8 exZero exZero exZeroRef exZeroSrc true true where
  hP := by decide
  hP32 := by decide
  hdiffP := fun _ => by decide
  hR := by decide
  hS := by decide
  hlen := rfl
  hpos := by decide
  hcount := by decide
  href := exZeroRef_holds
  hsrc := exZeroSrc_holds
  hpath := exPath_ok
  hnew := fun h => absurd h (by decide)

/-- Claim C5 (amended): when the source dump equals the reference dump (in the
setting of the round trip, with intra-deduplication), the classification of
`interdedup_compress` is empty for either value of intra: no deduplication entry and
so no interval, no diffs, no new pages; the body is the reference path, a NUL, the
empty page-number list (the count 0 in 4 bytes), with diffing a second empty
page-number list, and with intra-deduplication the count 0 of new pages in 4 bytes;
and with intra-deduplication the decompressor gives back the dump. -/
theorem identity_body (codec : InnerCodec) (hcodec : codec.Lossless) (P : Nat) (R : Pages)
    (ref src : memdump) (diffing : Bool) (h : Setting P R R ref src diffing true)
    (inner : compression) (fs : List Byte → Option (List Byte))
    (hfs : fs ref.path_ = some R.flatten) :
    (∀ intra, compress_classify P ref src diffing intra = Classification.empty) ∧
    (∀ intra, compress_body ref.path_ diffing intra (compress_classify P ref src diffing intra)
      = ref.path_ ++ [0] ++ [0, 0, 0, 0] ++ (if diffing then [0, 0, 0, 0] else [])
          ++ (if intra then [0, 0, 0, 0] else [])) ∧
    (create_pagenr_list [] = [0, 0, 0, 0] ∧ int_to_byte_LE 0 4 = [0, 0, 0, 0]) ∧
    ∃ out, interdedup_compress codec ref src R.flatten.length inner diffing true = .ok out
      ∧ interdedup_decompress codec fs (some out) = .ok R.flatten :=
  ⟨fun intra => classify_same P R ref src diffing intra h.href h.hsrc,
    fun intra => by
      rw [classify_same P R ref src diffing intra h.href h.hsrc]
      exact compress_body_empty ref.path_ diffing intra,
    ⟨rfl, rfl⟩,
    roundtrip_setting codec hcodec P R R ref src diffing true h inner fs hfs⟩

/-- Claim C5 at the dump of two pages of 8 zero bytes, with diffing. -/
theorem identity_body_witness :
    Setting 8 exZero exZero exZeroRef exZeroSrc true true ∧
    (∀ intra, compress_classify 8 exZeroRef exZeroSrc true intra = Classification.empty) ∧
    (∀ intra, compress_body exZeroRef.path_ true intra
        (compress_classify 8 exZeroRef exZeroSrc true intra)
      = exZeroRef.path_ ++ [0] ++ [0, 0, 0, 0] ++ (if true then [0, 0, 0, 0] else [])
          ++ (if intra then [0, 0, 0, 0] else [])) ∧
    (create_pagenr_list [] = [0, 0, 0, 0] ∧ int_to_byte_LE 0 4 = [0, 0, 0, 0]) ∧
    ∃ out, interdedup_compress exCodec exZeroRef exZeroSrc exZero.flatten.length .NOINNER
          true true = .ok out
      ∧ interdedup_decompress exCodec (fun _ => some exZero.flatten) (some out)
          = .ok exZero.flatten :=
  ⟨exZeroSetting,
    identity_body exCodec exCodec_lossless 8 exZero exZeroRef exZeroSrc true exZeroSetting
      .NOINNER (fun _ => some exZero.flatten) rfl⟩

/-- Claim C5 as stated fails for two pages of 8 zero bytes without intra and diffing:
the body is the path "r", a NUL and the empty page-number list, and not the path, the
page-number list `[0]` and the interval `[0, 1]`; no deduplication entry is
recorded. -/
theorem identity_body_no_interval :
    compress_classify 8 exZeroRef exZeroSrc false false = Classification.empty ∧
    compress_body exZeroRef.path_ false false (compress_classify 8 exZeroRef exZeroSrc false false)
      = [114, 0, 0, 0, 0, 0] ∧
    exZeroRef.path_ ++ [0] ++ create_pagenr_list [0]
        ++ (create_interval_list [(0, 1)]).flatten = [114, 0, 1, 0, 0, 0, 128, 0, 0, 0, 160, 1] ∧
    compress_body exZeroRef.path_ false false (compress_classify 8 exZeroRef exZeroSrc false false)
      ≠ exZeroRef.path_ ++ [0] ++ create_pagenr_list [0]
          ++ (create_interval_list [(0, 1)]).flatten := by
  refine ⟨by rfl, by rfl, by rfl, ?_⟩
  decide

/-- Claim C6 fails for two pages of 8 zero bytes as reference and source dump
without intra and diffing: the writer emits no interval list for the new pages, the
body ends behind the empty page-number list, and the parser of the body calls
`parse_interval_list` at the end of the body, where it reads past the end. -/
theorem new_interval_list_missing :
    interdedup_compress exCodec exZeroRef exZeroSrc 16 .NOINNER false false
      = .ok (create_header (create_method false false .NOINNER) 16 2 1 (ascii "MBCR") 8
          ++ [114, 0, 0, 0, 0, 0]) ∧
    write_new_section false (compress_classify 8 exZeroRef exZeroSrc false false) = [] ∧
    (create_interval_list (intervalize
      (compress_classify 8 exZeroRef exZeroSrc false false).new_pagenrs)) = [] ∧
    parse_fill_section ⟨[0, 0, 0, 0], false⟩ = .ok ([], ⟨[], false⟩) ∧
    parse_interval_list ⟨[], false⟩ = .error .undefined ∧
    parse_body 8 false false (istream.ofBytes [114, 0, 0, 0, 0, 0]) = .error .undefined ∧
    interdedup_decompress exCodec (fun _ => some exZero.flatten)
      (some (create_header (create_method false false .NOINNER) 16 2 1 (ascii "MBCR") 8
          ++ [114, 0, 0, 0, 0, 0])) = .error .undefined := by
  refine ⟨by rfl, by rfl, by rfl, by rfl, by rfl, by rfl, ?_⟩
  rfl

/-! ### The diff of a page against itself (claim C11) -/

theorem generate_patches_self (R : List Byte) : generate_patches R R = [] := by
  have hsplit : R = R.take (u32 R.length) ++ R.drop (u32 R.length) :=
    (List.take_append_drop _ _).symm
  have h := generate_patches_scan_same (R.take (u32 R.length)) [] (R.drop (u32 R.length)) 0
    { previ := 0, first := true, samebytes := [], ret := [] }
  rw [List.append_nil, ← hsplit] at h
  unfold generate_patches
  rw [h]
  rfl

/-- Claim C11: for every page `R`, `create_diff(R, R)` is the two bytes of the patch
count 0 and nothing else, so it is exactly 2 bytes long. -/
theorem create_diff_self (R : List Byte) :
    create_diff R R = [0, 0] ∧ (create_diff R R).length = 2 := by
  have h : create_diff R R = [0, 0] := by
    unfold create_diff
    rw [generate_patches_self]
    rfl
  rw [h]
  exact ⟨rfl, rfl⟩

/-! ### intervalize is idempotent (claim C12) -/

/-- The loop of `intervalize` on ascending `uint32_t` numbers covers exactly the current
interval and the rest. -/
theorem intervals_expand_intervalize_loop :
    ∀ (rest : List Nat) (l r : Nat), l ≤ r → List.Chain (· < ·) r rest →
      (∀ x ∈ rest, x < 2 ^ 32) →
      intervals_expand (intervalize_loop (l, r) [] rest) = List.range' l (r + 1 - l) ++ rest
  | [], l, r, hlr, _, _ => by
    simp [intervalize_loop, intervals_expand, hlr]
  | x :: rest, l, r, hlr, hc, hb => by
    have hrx : r < x := (List.chain_cons.mp hc).1
    have hc' : List.Chain (· < ·) x rest := (List.chain_cons.mp hc).2
    have hx : x < 2 ^ 32 := hb x (List.mem_cons_self _ _)
    have hb' : ∀ y ∈ rest, y < 2 ^ 32 := fun y hy => hb y (List.mem_cons_of_mem _ hy)
    have hu : u32 (r + 1) = r + 1 := by simp only [u32]; omega
    simp only [intervalize_loop, hu]
    by_cases e : r + 1 = x
    · rw [if_pos e, intervals_expand_intervalize_loop rest l x (by omega) hc' hb', ← e,
        show r + 1 + 1 - l = (r + 1 - l) + 1 by omega, List.range'_concat]
      simp only [List.append_assoc, List.singleton_append]
      rw [show l + 1 * (r + 1 - l) = r + 1 by omega]
    · rw [if_neg e, intervalize_loop_acc]
      simp only [List.nil_append, List.singleton_append, intervals_expand_cons,
        intervals_expand_intervalize_loop rest x x (Nat.le_refl _) hc' hb']
      rw [show x + 1 - x = 1 by omega]
      simp

/-- The numbers covered by `intervalize(X)` are the numbers of `X`. -/
theorem intervals_expand_intervalize (X : List Nat) (hs : X.Sorted (· < ·))
    (hb : ∀ x ∈ X, x < 2 ^ 32) : intervals_expand (intervalize X) = X := by
  cases X with
  | nil => simp [intervalize, intervals_expand]
  | cons x rest =>
    have hc : List.Chain (· < ·) x rest := by
      have := List.chain'_iff_pairwise.mpr hs
      simpa [List.Chain'] using this
    simp only [intervalize]
    rw [intervals_expand_intervalize_loop rest x x (Nat.le_refl _) hc
      (fun y hy => hb y (List.mem_cons_of_mem _ hy)), show x + 1 - x = 1 by omega]
    simp

/-- Claim C12: for every set `X` of page numbers (an ascending list of `uint32_t`
values), the numbers covered by `intervalize(X)` are those of `X`, and `intervalize`
applied to them returns `intervalize(X)` again. -/
theorem intervalize_idempotent (X : List Nat) (hs : X.Sorted (· < ·))
    (hb : ∀ x ∈ X, x < 2 ^ 32) :
    intervals_expand (intervalize X) = X
      ∧ intervalize (intervals_expand (intervalize X)) = intervalize X := by
  have h := intervals_expand_intervalize X hs hb
  rw [h]
  exact ⟨rfl, rfl⟩

/-- Claim C12 at the set `{0, 1, 2, 5, 7, 8, 4294967295}`. -/
theorem intervalize_idempotent_witness :
    intervalize [0, 1, 2, 5, 7, 8, 4294967295] = [(0, 2), (5, 5), (7, 8), (4294967295, 4294967295)]
      ∧ intervals_expand (intervalize [0, 1, 2, 5, 7, 8, 4294967295])
          = [0, 1, 2, 5, 7, 8, 4294967295]
      ∧ intervalize (intervals_expand (intervalize [0, 1, 2, 5, 7, 8, 4294967295]))
          = intervalize [0, 1, 2, 5, 7, 8, 4294967295] :=
  ⟨by decide, intervalize_idempotent [0, 1, 2, 5, 7, 8, 4294967295] (by simp) (by decide)⟩

/-! ### apply_diff has no bounds check (claim C13) -/

theorem string_set_length (page : List Byte) (idx : Nat) (b : Byte) (page' : List Byte)
    (h : string_set page idx b = .ok page') : page'.length = page.length := by
  unfold string_set at h
  split at h
  · injection h with h
    rw [← h, List.length_set]
  · split at h
    · injection h with h
      rw [h]
    · exact absurd h (by simp)

theorem apply_patch_bytes_length (offset : Nat) :
    ∀ (bs : List Byte) (i : Nat) (page page' : List Byte),
      apply_patch_bytes offset i bs page = .ok page' → page'.length = page.length
  | [], _, page, page', h => by
    simp only [apply_patch_bytes] at h
    injection h with h
    rw [h]
  | b :: bs, i, page, page', h => by
    simp only [apply_patch_bytes, bind, Except.bind] at h
    cases h1 : string_set page (u32 (offset + i)) b with
    | error e => rw [h1] at h; exact absurd h (by simp)
    | ok p1 =>
      rw [h1] at h
      rw [apply_patch_bytes_length offset bs (i + 1) p1 page' h,
        string_set_length page _ b p1 h1]

theorem apply_diff_loop_length :
    ∀ (diff : List Patch) (offset : Nat) (page page' : List Byte),
      apply_diff_loop offset diff page = .ok page' → page'.length = page.length
  | [], _, page, page', h => by
    simp only [apply_diff_loop] at h
    injection h with h
    rw [h]
  | (o, bs) :: rest, offset, page, page', h => by
    simp only [apply_diff_loop, bind, Except.bind] at h
    cases h1 : apply_patch_bytes (u32 (offset + o)) 0 bs page with
    | error e => rw [h1] at h; exact absurd h (by simp)
    | ok p1 =>
      rw [h1] at h
      rw [apply_diff_loop_length rest _ p1 page' h,
        apply_patch_bytes_length _ bs 0 page p1 h1]

/-- Claim C13 fails: `apply_diff` has no check of `cursor + l > P`.  On the page
`[1, 2]` (`P = 2`) the patch at offset 2 with the one byte 0, as `parse_diff` reads
it from the bytes `1, 0, 0, 2, 0`, is written onto the terminating NUL of the string
and the page is returned unchanged; the patch at offset 1 with two bytes is written
behind the end of the string.  Whenever `apply_diff` returns, the result has the
size of the reference page: it is never the empty string that the caller takes as
the sign of an error. -/
theorem apply_diff_no_bounds_check :
    parse_diff ⟨[1, 0, 0, 2, 0], false⟩ = .ok ([(2, [0])], ⟨[], false⟩)
      ∧ apply_diff [1, 2] [(2, [0])] = .ok [1, 2]
      ∧ reconstruct_page 2 true ⟨[114], [], [(0, [(2, [0])])], []⟩ [(0, [1, 2])] 0 = .ok [1, 2]
      ∧ apply_diff [1, 2] [(1, [5, 6])] = .error .undefined
      ∧ (∀ (refpage : List Byte) (diff : List Patch) (page : List Byte),
          apply_diff refpage diff = .ok page → page.length = refpage.length) :=
  ⟨by rfl, by rfl, by rfl, by rfl,
    fun refpage diff page h => apply_diff_loop_length diff 0 refpage page h⟩

/-! ### The method string (claims C14 and C15) -/

/-- Claim C14: for every intra, diffing and inner compressor, `parse_method` on
`create_method(intra, diffing, inner)` returns 0 and recovers `(inner, intra,
diffing)`. -/
theorem parse_method_roundtrip (intra diffing : Bool) (inner : compression) :
    parse_method (create_method intra diffing inner) = some (inner, intra, diffing) :=
  parse_method_create_method intra diffing inner

/-- Claim C15 fails: `parse_method` checks that the whole string is consumed only when
no inner compressor is named, and looks for "interdedup" anywhere in the string.
The strings "interdedupgzipX" and "0123456789gzipinterdedup" are not in the grammar
and are accepted; "interdedupX" is refused. -/
theorem parse_method_accepts_trailing :
    ascii "interdedupgzipX" ∉ method_grammar
      ∧ parse_method (ascii "interdedupgzipX") = some (.GZIP, true, false)
      ∧ ascii "0123456789gzipinterdedup" ∉ method_grammar
      ∧ parse_method (ascii "0123456789gzipinterdedup") = some (.GZIP, true, false)
      ∧ parse_method (ascii "interdedupX") = none := by
  refine ⟨by decide, by rfl, by decide, by rfl, by rfl⟩

/-! ### The header (claims C16, C17 and C18) -/

/-- Reading back a header written by `create_header` with the magic number "MBCR", for
any version fields. -/
theorem read_header_any_version (method : List Byte) (size major minor pagesize : Nat)
    (rest : List Byte) (hm : ∀ x ∈ method, x ≠ 0) :
    read_header (istream.ofBytes
        (create_header method size major minor (ascii "MBCR") pagesize ++ rest))
      = .ok (some (method, u32 pagesize, size % 2 ^ 64), ⟨rest, false⟩) := by
  have hmagic := magic_ne_zero
  have hp : u32 pagesize < 2 ^ 32 := Nat.mod_lt _ (by decide)
  have hs : size % 2 ^ 64 < 2 ^ 64 := Nat.mod_lt _ (by decide)
  have huu : u32 (u32 pagesize) = u32 pagesize := by simp only [u32, Nat.mod_mod]
  simp only [read_header, create_header, istream.ofBytes, List.append_assoc,
    List.singleton_append, List.cons_append, List.nil_append, bind, Except.bind]
  rw [read_string_eq _ _ hmagic]
  simp only [ne_eq, not_true_eq_false, if_false]
  rw [read_string_eq _ _ hm]
  simp only [int_to_byte_LE_2, List.cons_append, List.nil_append, read_num_LE_2,
    read_num_LE_int_to_byte_LE_4 _ hp, read_num_LE_int_to_byte_LE_8 _ hs, huu, pure,
    Except.pure]

/-- Claim C16 as stated fails: a header with the major version 3 is read like any
other, and an artifact with that header is decompressed to the source dump. -/
theorem read_header_accepts_major_3 :
    read_header (istream.ofBytes
        (create_header (create_method true false .NOINNER) 16 3 1 (ascii "MBCR") 8
          ++ compress_body [114] false true (compress_classify 8 exRef exSrc false true)))
      = .ok (some (create_method true false .NOINNER, 8, 16),
          ⟨compress_body [114] false true (compress_classify 8 exRef exSrc false true), false⟩)
      ∧ interdedup_decompress exCodec (fun _ => some exR.flatten)
          (some (create_header (create_method true false .NOINNER) 16 3 1 (ascii "MBCR") 8
            ++ compress_body [114] false true (compress_classify 8 exRef exSrc false true)))
        = .ok exS.flatten :=
  ⟨by rfl, by rfl⟩

/-- Claim C16 (amended): the decoder does not look at the version fields.  For every
method string without a NUL byte and all values of the other fields, `read_header`
on a header with the magic number "MBCR" and any major and minor version returns
0 with the method, the page size and the uncompressed size, and
`interdedup_decompress` gives on an artifact with that header the same result as
on the artifact with the version 2.1. -/
theorem read_header_ignores_version (codec : InnerCodec)
    (fs : List Byte → Option (List Byte)) (method : List Byte) (hm : ∀ x ∈ method, x ≠ 0)
    (size major minor pagesize : Nat) (body : List Byte) :
    read_header (istream.ofBytes
        (create_header method size major minor (ascii "MBCR") pagesize ++ body))
      = .ok (some (method, u32 pagesize, size % 2 ^ 64), ⟨body, false⟩)
      ∧ interdedup_decompress codec fs
          (some (create_header method size major minor (ascii "MBCR") pagesize ++ body))
        = interdedup_decompress codec fs
          (some (create_header method size 2 1 (ascii "MBCR") pagesize ++ body)) := by
  refine ⟨read_header_any_version method size major minor pagesize body hm, ?_⟩
  unfold interdedup_decompress
  dsimp only
  rw [read_header_any_version method size major minor pagesize body hm,
    read_header_any_version method size 2 1 pagesize body hm]

/-- Claim C16 at the method string "interdedup" and the version 3.7. -/
theorem read_header_ignores_version_witness :
    (∀ x ∈ create_method true false .NOINNER, x ≠ 0)
      ∧ read_header (istream.ofBytes
          (create_header (create_method true false .NOINNER) 16 3 7 (ascii "MBCR") 8
            ++ [114, 0]))
        = .ok (some (create_method true false .NOINNER, u32 8, 16 % 2 ^ 64), ⟨[114, 0], false⟩)
      ∧ interdedup_decompress exCodec (fun _ => none)
          (some (create_header (create_method true false .NOINNER) 16 3 7 (ascii "MBCR") 8
            ++ [114, 0]))
        = interdedup_decompress exCodec (fun _ => none)
          (some (create_header (create_method true false .NOINNER) 16 2 1 (ascii "MBCR") 8
            ++ [114, 0])) :=
  ⟨create_method_ne_zero true false .NOINNER,
    read_header_ignores_version exCodec (fun _ => none) (create_method true false .NOINNER)
      (create_method_ne_zero true false .NOINNER) 16 3 7 8 [114, 0]⟩

theorem read_header_none (file f : istream) (h : read_header file = .ok (none, f)) :
    ∃ magicnum, read_string file = .ok (magicnum, f) ∧ magicnum ≠ ascii "MBCR" := by
  unfold read_header at h
  simp only [bind, Except.bind] at h
  cases h1 : read_string file with
  | error e => rw [h1] at h; exact absurd h (by simp)
  | ok v =>
    obtain ⟨magicnum, file1⟩ := v
    rw [h1] at h
    dsimp only at h
    by_cases hmag : magicnum = ascii "MBCR"
    · exfalso
      rw [if_neg (by simpa using hmag)] at h
      cases h2 : read_string file1 with
      | error e => rw [h2] at h; exact absurd h (by simp)
      | ok v2 =>
        rw [h2] at h
        dsimp only at h
        cases h3 : read_num_LE v2.2 2 with
        | error e => rw [h3] at h; exact absurd h (by simp)
        | ok v3 =>
          rw [h3] at h
          dsimp only at h
          cases h4 : read_num_LE v3.2 2 with
          | error e => rw [h4] at h; exact absurd h (by simp)
          | ok v4 =>
            rw [h4] at h
            dsimp only at h
            cases h5 : read_num_LE v4.2 4 with
            | error e => rw [h5] at h; exact absurd h (by simp)
            | ok v5 =>
              rw [h5] at h
              dsimp only at h
              cases h6 : read_num_LE v5.2 8 with
              | error e => rw [h6] at h; exact absurd h (by simp)
              | ok v6 =>
                rw [h6] at h
                simp [pure, Except.pure] at h
    · rw [if_pos hmag] at h
      simp only [pure, Except.pure] at h
      injection h with h
      injection h with _ h
      rw [h]
      exact ⟨magicnum, rfl, hmag⟩

/-- Claim C17: on a file that starts with a NUL-terminated string `s`, `read_header`
fails (returns 1) if and only if `s` is different from "MBCR"; it then has read
the string and its terminator and nothing else. -/
theorem read_header_fails_iff (s rest : List Byte) (hs : ∀ x ∈ s, x ≠ 0) :
    ((∃ f, read_header (istream.ofBytes (s ++ 0 :: rest)) = .ok (none, f))
        ↔ s ≠ ascii "MBCR")
      ∧ (s ≠ ascii "MBCR" →
          read_header (istream.ofBytes (s ++ 0 :: rest)) = .ok (none, ⟨rest, false⟩)) := by
  have hfail : s ≠ ascii "MBCR" →
      read_header (istream.ofBytes (s ++ 0 :: rest)) = .ok (none, ⟨rest, false⟩) := by
    intro hne
    unfold read_header istream.ofBytes
    simp only [bind, Except.bind]
    rw [read_string_eq s rest hs]
    dsimp only
    rw [if_pos hne]
    rfl
  refine ⟨⟨?_, fun hne => ⟨_, hfail hne⟩⟩, hfail⟩
  rintro ⟨f, hf⟩
  obtain ⟨magicnum, h1, h2⟩ := read_header_none _ f hf
  unfold istream.ofBytes at h1
  rw [read_string_eq s rest hs] at h1
  injection h1 with h1
  injection h1 with h1 _
  rw [h1]
  exact h2

set_option maxRecDepth 8192 in
theorem exMagic_ne_zero : ∀ x ∈ ascii "XBCR", x ≠ 0 := by decide

/-- Claim C17 at a file that starts with "XBCR". -/
theorem read_header_fails_iff_witness :
    (∀ x ∈ ascii "XBCR", x ≠ 0)
      ∧ ((∃ f, read_header (istream.ofBytes (ascii "XBCR" ++ 0 :: [1, 2])) = .ok (none, f))
          ↔ ascii "XBCR" ≠ ascii "MBCR")
      ∧ (ascii "XBCR" ≠ ascii "MBCR" →
          read_header (istream.ofBytes (ascii "XBCR" ++ 0 :: [1, 2]))
            = .ok (none, ⟨[1, 2], false⟩)) :=
  ⟨exMagic_ne_zero, read_header_fails_iff (ascii "XBCR") [1, 2] exMagic_ne_zero⟩

/-- Claim C18: for every method string without a NUL byte, every page size below
`2^32` and every uncompressed size below `2^64`, `read_header` on
`create_header(method, size, 2, 1, "MBCR", pagesize)` followed by any body returns 0
with exactly `(method, pagesize, size)` and leaves the stream at the first byte of
the body. -/
theorem header_roundtrip (method : List Byte) (size pagesize : Nat) (body : List Byte)
    (hm : ∀ x ∈ method, x ≠ 0) (hs : size < 2 ^ 64) (hp : pagesize < 2 ^ 32) :
    read_header (istream.ofBytes (create_header method size 2 1 (ascii "MBCR") pagesize ++ body))
      = .ok (some (method, pagesize, size), ⟨body, false⟩) :=
  read_header_create_header method size pagesize body hm hs hp

/-- Claim C18 at the method string "interdedupnointradeltagzip", the page size 4096,
the size `2^40` and a body of three bytes. -/
theorem header_roundtrip_witness :
    (∀ x ∈ create_method false true .GZIP, x ≠ 0) ∧ 2 ^ 40 < 2 ^ 64 ∧ 4096 < 2 ^ 32
      ∧ read_header (istream.ofBytes
          (create_header (create_method false true .GZIP) (2 ^ 40) 2 1 (ascii "MBCR") 4096
            ++ [114, 0, 7]))
        = .ok (some (create_method false true .GZIP, 4096, 2 ^ 40), ⟨[114, 0, 7], false⟩) :=
  ⟨create_method_ne_zero false true .GZIP, by decide, by decide,
    header_roundtrip (create_method false true .GZIP) (2 ^ 40) 4096 [114, 0, 7]
      (create_method_ne_zero false true .GZIP) (by decide) (by decide)⟩

/-! ### readDumpfile on any file (claim C19) -/

/-- The loop of `readDumpfile` over a file made of pages of `P` bytes and a shorter
tail builds the `page_map_` of those pages and drops the tail. -/
theorem readDumpfile_loop_tail (P : Nat) (hP : 1 ≤ P) (tail : List Byte)
    (htail : tail.length < P) :
    ∀ (rest done : Pages) (m : List (List Byte × List Nat)) (fuel : Nat),
      PageMapOf m done → (∀ pg ∈ rest, pg.length = P) → done.length + rest.length < 2 ^ 32 →
      rest.length < fuel →
      ∃ m', readDumpfile_loop P fuel (rest.flatten ++ tail) done.length m = .ok m'
        ∧ PageMapOf m' (done ++ rest)
  | _, _, _, 0, _, _, _, hf => by simp at hf
  | [], done, m, fuel + 1, hm, _, _, _ => by
    refine ⟨m, ?_, by simpa using hm⟩
    simp only [readDumpfile_loop, List.flatten_nil, List.nil_append]
    rw [if_neg (by omega)]
  | pg :: rest, done, m, fuel + 1, hm, hpg, hlen, hf => by
    have hl : pg.length = P := hpg pg (List.mem_cons_self _ _)
    simp only [List.length_cons] at hlen hf
    have ih := readDumpfile_loop_tail P hP tail htail rest (done ++ [pg])
      (page_map_insert m pg done.length) fuel (pageMapOf_insert m done pg hm)
      (fun q hq => hpg q (List.mem_cons_of_mem _ hq))
      (by simp only [List.length_append, List.length_singleton]; omega) (by omega)
    obtain ⟨m', h1, h2⟩ := ih
    refine ⟨m', ?_, by simpa using h2⟩
    have hu : u32 (done.length + 1) = done.length + 1 := by simp only [u32]; omega
    simp only [readDumpfile_loop, List.flatten_cons, List.length_append, List.append_assoc]
    rw [if_pos (by omega)]
    have e1 : (pg ++ (rest.flatten ++ tail)).take P = pg := by rw [← hl, List.take_left]
    have e2 : (pg ++ (rest.flatten ++ tail)).drop P = rest.flatten ++ tail := by
      rw [← hl, List.drop_left]
    rw [e1, e2, hu]
    simpa using h1

/-- Every file is a sequence of full pages of `P` bytes followed by fewer than `P`
bytes. -/
theorem exists_pages_tail (P : Nat) (hP : 1 ≤ P) :
    ∀ (n : Nat) (bytes : List Byte), bytes.length = n →
      ∃ (pages : Pages) (tail : List Byte), bytes = pages.flatten ++ tail
        ∧ (∀ pg ∈ pages, pg.length = P) ∧ tail.length < P
        ∧ pages.length = bytes.length / P := by
  intro n
  induction n using Nat.strong_induction_on with
  | _ n ih =>
    intro bytes hn
    by_cases hlt : bytes.length < P
    · exact ⟨[], bytes, by simp, by simp, hlt, by
        rw [Nat.div_eq_of_lt hlt]; rfl⟩
    · have hdrop : (bytes.drop P).length = n - P := by
        rw [List.length_drop, hn]
      obtain ⟨pages, tail, h1, h2, h3, h4⟩ := ih (n - P) (by omega) (bytes.drop P) hdrop
      refine ⟨bytes.take P :: pages, tail, ?_, ?_, h3, ?_⟩
      · rw [List.flatten_cons, List.append_assoc, ← h1, List.take_append_drop]
      · intro pg hpg
        rcases List.mem_cons.mp hpg with rfl | hpg
        · rw [List.length_take]; omega
        · exact h2 pg hpg
      · rw [List.length_cons, h4, hdrop, hn]
        have : n = (n - P) + P := by omega
        conv_rhs => rw [this]
        rw [Nat.add_div_right _ (by omega)]

theorem length_le_flatten_of_pages (P : Nat) (hP : 1 ≤ P) :
    ∀ (pages : Pages), (∀ pg ∈ pages, pg.length = P) → pages.length ≤ pages.flatten.length
  | [], _ => by simp
  | pg :: pages, h => by
    have h1 := h pg (List.mem_cons_self _ _)
    have h2 := length_le_flatten_of_pages P hP pages
      (fun q hq => h q (List.mem_cons_of_mem _ hq))
    simp only [List.flatten_cons, List.length_append, List.length_cons]
    omega

/-- Claim C19 as stated fails: `readDumpfile` returns 0 for an empty file, with an
empty `page_map_`, and for a file of 3 bytes at the page size 2, where it records
the page `[1, 2]` and drops the byte 3. -/
theorem readDumpfile_accepts_partial :
    (memdump.new [114]).readDumpfile (some []) 8 = .ok (0, memdump.new [114])
      ∧ (memdump.new [114]).readDumpfile (some [1, 2, 3]) 2
          = .ok (0, ⟨[114], [([1, 2], [0])], []⟩) :=
  ⟨by rfl, by rfl⟩

/-- Claim C19 (amended): `readDumpfile` returns 1 when the file cannot be opened.
For every file that can be opened, with a page size `P ≥ 1` and fewer than `2^32`
full pages, it returns 0: the file is a sequence of full pages of `P` bytes
followed by fewer than `P` bytes, the object holds exactly the full pages, and the
bytes behind them are dropped.  So it returns 0 also for an empty file and for a
size that is not a multiple of `P`. -/
theorem readDumpfile_returns_zero (path : List Byte) (P : Nat) (bytes : List Byte)
    (hP : 1 ≤ P) (hlen : bytes.length / P < 2 ^ 32) :
    (memdump.new path).readDumpfile none P = .ok (1, memdump.new path)
      ∧ ∃ (d : memdump) (pages : Pages) (tail : List Byte),
        bytes = pages.flatten ++ tail ∧ (∀ pg ∈ pages, pg.length = P) ∧ tail.length < P
          ∧ pages.length = bytes.length / P
          ∧ (memdump.new path).readDumpfile (some bytes) P = .ok (0, d)
          ∧ d.path_ = path ∧ d.Holds pages := by
  refine ⟨rfl, ?_⟩
  obtain ⟨pages, tail, h1, h2, h3, h4⟩ := exists_pages_tail P hP bytes.length bytes rfl
  have hfuel : pages.length < bytes.length + 1 := by
    have := length_le_flatten_of_pages P hP pages h2
    have hb : bytes.length = pages.flatten.length + tail.length := by
      conv_lhs => rw [h1]
      rw [List.length_append]
    omega
  obtain ⟨m', hm1, hm2⟩ := readDumpfile_loop_tail P hP tail h3 pages [] [] (bytes.length + 1)
    pageMapOf_nil h2 (by simp only [List.length_nil]; omega) hfuel
  simp only [List.length_nil, List.nil_append] at hm1 hm2
  rw [← h1] at hm1
  refine ⟨⟨path, m', []⟩, pages, tail, h1, h2, h3, h4, ?_, rfl, rfl, hm2⟩
  simp only [memdump.readDumpfile, memdump.new, hm1, bind, Except.bind, pure, Except.pure]

/-- Claim C19 at a file of 3 bytes and the page size 2. -/
theorem readDumpfile_returns_zero_witness :
    1 ≤ 2 ∧ ([1, 2, 3] : List Byte).length / 2 < 2 ^ 32
      ∧ (memdump.new [114]).readDumpfile none 2 = .ok (1, memdump.new [114])
      ∧ ∃ (d : memdump) (pages : Pages) (tail : List Byte),
        [1, 2, 3] = pages.flatten ++ tail ∧ (∀ pg ∈ pages, pg.length = 2) ∧ tail.length < 2
          ∧ pages.length = ([1, 2, 3] : List Byte).length / 2
          ∧ (memdump.new [114]).readDumpfile (some [1, 2, 3]) 2 = .ok (0, d)
          ∧ d.path_ = [114] ∧ d.Holds pages :=
  ⟨by decide, by decide, readDumpfile_returns_zero [114] 2 [1, 2, 3] (by decide) (by decide)⟩

/-! ### read_string without a terminator (claim C20) -/

/-- Once the stream has failed with a non-zero byte in `c`, the loop of `read_string`
returns for no amount of fuel. -/
theorem read_string_loop_failed (b : Byte) (hb : b ≠ 0) :
    ∀ (fuel : Nat) (buf result : List Byte),
      read_string_loop fuel (some b) ⟨buf, true⟩ result = .error .diverges
  | 0, _, _ => rfl
  | fuel + 1, buf, result => by
    simp only [read_string_loop, hb, if_false, istream.get, if_true]
    exact read_string_loop_failed b hb fuel buf (result ++ [b])

/-- On an input without a NUL byte the loop of `read_string` returns for no amount of
fuel. -/
theorem read_string_loop_no_terminator :
    ∀ (s : List Byte), (∀ x ∈ s, x ≠ 0) → ∀ (b : Byte), b ≠ 0 → ∀ (fuel : Nat)
      (result : List Byte),
      read_string_loop fuel (some b) ⟨s, false⟩ result = .error .diverges
  | _, _, _, _, 0, _ => rfl
  | [], _, b, hb, fuel + 1, result => by
    simp only [read_string_loop, hb, if_false, istream.get, Bool.false_eq_true]
    exact read_string_loop_failed b hb fuel [] (result ++ [b])
  | x :: s, hs, b, hb, fuel + 1, result => by
    simp only [read_string_loop, hb, if_false, istream.get, Bool.false_eq_true]
    exact read_string_loop_no_terminator s (fun y hy => hs y (List.mem_cons_of_mem _ hy)) x
      (hs x (List.mem_cons_self _ _)) fuel (result ++ [b])

/-- Claim C20 fails: on the input "AB" without a terminator, `read_string` does not
fail but runs forever: after the end of the input the local `char` keeps the
value 'B' and the loop `while (c != 0)` cannot exit, with any amount of fuel; the
same holds on every non-empty input without a NUL byte.  On the empty input the
loop tests a `char` that was never written. -/
theorem read_string_no_terminator :
    read_string (istream.ofBytes [65, 66]) = .error .diverges
      ∧ (∀ (fuel : Nat) (result : List Byte),
          read_string_loop fuel (some 66) ⟨[], true⟩ result = .error .diverges)
      ∧ (∀ (b : Byte) (s : List Byte), b ≠ 0 → (∀ x ∈ s, x ≠ 0) →
          read_string (istream.ofBytes (b :: s)) = .error .diverges
            ∧ ∀ (fuel : Nat), read_string_loop fuel (some b) ⟨s, false⟩ [] = .error .diverges)
      ∧ read_string (istream.ofBytes []) = .error .undefined :=
  ⟨by rfl, fun fuel result => read_string_loop_failed 66 (by decide) fuel [] result,
    fun b s hb hs =>
      ⟨read_string_loop_no_terminator s hs b hb _ [],
        fun fuel => read_string_loop_no_terminator s hs b hb fuel []⟩,
    by rfl⟩

/-! ### Integers in little- and big-endian order (claim C21) -/

theorem int_to_byte_LE_u32_4 (n : Nat) : int_to_byte_LE (u32 n) 4 = int_to_byte_LE n 4 := by
  simp only [int_to_byte_LE_4, u32, Nat.shiftRight_eq_div_pow, List.cons.injEq, and_true]
  refine ⟨?_, ?_, ?_, ?_⟩ <;> apply Fin.ext <;> simp only [toByte_val] <;> omega

/-- Claim C21: for `k` in `{1, 2, 4, 8}` and `n < 2^(8k)`, `read_num_LE` on the `k` bytes
of `int_to_byte_LE(n, k)` returns `n` and leaves what follows them; and for `k` in
`{1, 2, 4}`, `int_to_byte_BE(n, k)` is `int_to_byte_LE(n, k)` reversed. -/
theorem read_num_LE_roundtrip (k n : Nat) (rest : List Byte)
    (hk : k = 1 ∨ k = 2 ∨ k = 4 ∨ k = 8) (hn : n < 2 ^ (8 * k)) :
    read_num_LE ⟨int_to_byte_LE n k ++ rest, false⟩ k = .ok (n, ⟨rest, false⟩)
      ∧ (int_to_byte_LE n k).length = k
      ∧ (k ≠ 8 → int_to_byte_BE n k = (int_to_byte_LE n k).reverse) := by
  refine ⟨?_, int_to_byte_LE_length n k, ?_⟩
  · rcases hk with rfl | rfl | rfl | rfl
    · exact read_num_LE_int_to_byte_LE_1 n hn rest
    · exact read_num_LE_int_to_byte_LE_2 n hn rest
    · exact read_num_LE_int_to_byte_LE_4 n hn rest
    · exact read_num_LE_int_to_byte_LE_8 n hn rest
  · intro h8
    have hu : u32 n = n := by
      simp only [u32]
      apply Nat.mod_eq_of_lt
      rcases hk with rfl | rfl | rfl | rfl
      · exact Nat.lt_of_lt_of_le hn (by decide)
      · exact Nat.lt_of_lt_of_le hn (by decide)
      · exact hn
      · exact absurd rfl h8
    rcases hk with rfl | rfl | rfl | rfl
    · rw [int_to_byte_BE_1, int_to_byte_LE_1, hu]; rfl
    · rw [int_to_byte_BE_2, int_to_byte_LE_2, hu]; rfl
    · rw [int_to_byte_BE_4, int_to_byte_LE_4, hu]; rfl
    · exact absurd rfl h8

/-- Claim C21 at `k = 4` and `n = 0x01020304`. -/
theorem read_num_LE_roundtrip_witness :
    (4 = 1 ∨ 4 = 2 ∨ 4 = 4 ∨ 4 = 8) ∧ 16909060 < 2 ^ (8 * 4)
      ∧ int_to_byte_LE 16909060 4 = [4, 3, 2, 1]
      ∧ read_num_LE ⟨int_to_byte_LE 16909060 4 ++ [9], false⟩ 4 = .ok (16909060, ⟨[9], false⟩)
      ∧ (int_to_byte_LE 16909060 4).length = 4
      ∧ (4 ≠ 8 → int_to_byte_BE 16909060 4 = (int_to_byte_LE 16909060 4).reverse) :=
  ⟨by decide, by decide, by decide,
    read_num_LE_roundtrip 4 16909060 [9] (by decide) (by decide)⟩

/-! ### The format of a page-number list (claims C23 and C24) -/

/-- Claim C23 as stated fails: the last byte of the encoding of `{0, 70000}` is not
0x6E. -/
theorem create_pagenr_list_70000_not_6E :
    create_pagenr_list [0, 70000] ≠ [2, 0, 0, 0, 0x80, 0x00, 0x01, 0x11, 0x6E] := by
  decide

/-- Claim C23 (amended): `create_pagenr_list` on `{0, 70000}` gives the count 2 in four
little-endian bytes, the byte 0x80 for the page number 0, and the delta
`70000 - 0 - 1 = 69999 = 0x0001116F` in four big-endian bytes, `00 01 11 6F`. -/
theorem create_pagenr_list_70000 :
    create_pagenr_list [0, 70000] = [2, 0, 0, 0, 0x80, 0x00, 0x01, 0x11, 0x6F]
      ∧ int_to_byte_LE 2 4 = [2, 0, 0, 0]
      ∧ int_to_byte_BE (0 ||| 128) 1 = [0x80]
      ∧ 70000 - 0 - 1 = 69999
      ∧ int_to_byte_BE 69999 4 = [0x00, 0x01, 0x11, 0x6F] := by
  decide

theorem create_pagenr_list_loop_deltas :
    ∀ (rest : List Nat) (prev : Nat), prev < 2 ^ 32 → List.Chain (· < ·) prev rest →
      (∀ x ∈ rest, x < 2 ^ 32) →
      create_pagenr_list_loop false prev rest
        = (pagenr_deltas_from prev rest).flatMap pagenr_entry
  | [], _, _, _, _ => rfl
  | p :: rest, prev, hprev, hc, hb => by
    have hlt : prev < p := (List.chain_cons.mp hc).1
    have hp : p < 2 ^ 32 := hb p (List.mem_cons_self _ _)
    have hup : u32 p = p := by simp only [u32]; omega
    have hd : u32sub (u32sub p prev) 1 = p - prev - 1 := by
      simp only [u32sub]; omega
    simp only [create_pagenr_list_loop, pagenr_deltas_from, List.flatMap_cons, hd, hup,
      Bool.false_eq_true, if_false]
    rw [create_pagenr_list_loop_deltas rest p hp (List.chain_cons.mp hc).2
      (fun x hx => hb x (List.mem_cons_of_mem _ hx))]
    refine congrArg (fun l => l ++ _) ?_
    unfold pagenr_entry
    split
    · rw [int_to_byte_BE_1]
      have : u32 ((p - prev - 1) ||| 128) = (p - prev - 1) ||| 128 := by
        rw [or_128_of_lt _ (by assumption)]; simp only [u32]; omega
      rw [this]
    · rfl

/-- Claim C24: for every strictly ascending list of page numbers, `create_pagenr_list`
writes the count in 4 little-endian bytes and then, for every number, its delta
(`d = p` for the first, `d = p - prev - 1` afterwards) as the single byte
`d | 0x80` when `d < 128` and else as the 4 big-endian bytes of `d`; the first of
these four bytes has its top bit clear whenever `d < 2^31`. -/
theorem create_pagenr_list_format (xs : List Nat) (hs : xs.Sorted (· < ·))
    (hb : ∀ x ∈ xs, x < 2 ^ 32) :
    create_pagenr_list xs
        = int_to_byte_LE xs.length 4 ++ (pagenr_deltas xs).flatMap pagenr_entry
      ∧ (∀ d, d < 2 ^ 31 → ∃ b0 b1 b2 b3 : Byte,
          int_to_byte_BE d 4 = [b0, b1, b2, b3] ∧ b0.val < 128) := by
  constructor
  · unfold create_pagenr_list
    rw [int_to_byte_LE_u32_4]
    congr 1
    cases xs with
    | nil => rfl
    | cons p rest =>
      have hp : p < 2 ^ 32 := hb p (List.mem_cons_self _ _)
      have hup : u32 p = p := by simp only [u32]; omega
      have hc : List.Chain (· < ·) p rest := by
        have := List.chain'_iff_pairwise.mpr hs
        simpa [List.Chain'] using this
      simp only [create_pagenr_list_loop, pagenr_deltas, List.flatMap_cons, hup, if_true]
      rw [create_pagenr_list_loop_deltas rest p hp hc
        (fun x hx => hb x (List.mem_cons_of_mem _ hx))]
      refine congrArg (fun l => l ++ _) ?_
      unfold pagenr_entry
      split
      · rw [int_to_byte_BE_1]
        have : u32 (p ||| 128) = p ||| 128 := by
          rw [or_128_of_lt _ (by assumption)]; simp only [u32]; omega
        rw [this]
      · rfl
  · intro d hd
    refine ⟨_, _, _, _, int_to_byte_BE_4 d, ?_⟩
    simp only [toByte_val, u32, Nat.shiftRight_eq_div_pow]
    omega

/-- Claim C24 at the set `{3, 4, 200, 70000}`: the deltas are 3, 0, 195 and 69799. -/
theorem create_pagenr_list_format_witness :
    pagenr_deltas [3, 4, 200, 70000] = [3, 0, 195, 69799]
      ∧ create_pagenr_list [3, 4, 200, 70000]
        = int_to_byte_LE [3, 4, 200, 70000].length 4
            ++ (pagenr_deltas [3, 4, 200, 70000]).flatMap pagenr_entry
      ∧ (∀ d, d < 2 ^ 31 → ∃ b0 b1 b2 b3 : Byte,
          int_to_byte_BE d 4 = [b0, b1, b2, b3] ∧ b0.val < 128) :=
  ⟨by decide, create_pagenr_list_format [3, 4, 200, 70000] (by simp) (by decide)⟩

/-! ### The format of an interval (claim C25) -/

theorem interval_code_spec (d : Nat) :
    (interval_code d = 0 ↔ d = 0) ∧ (interval_code d = 1 ↔ 0 < d ∧ d < 2 ^ 8)
      ∧ (interval_code d = 2 ↔ 2 ^ 8 ≤ d ∧ d < 2 ^ 16) ∧ (interval_code d = 3 ↔ 2 ^ 16 ≤ d) := by
  unfold interval_code
  split_ifs <;> (refine ⟨?_, ?_, ?_, ?_⟩ <;> constructor <;> intro h) <;>
    first
      | contradiction
      | omega

/-- Claim C25: for `l < 2^29`, `r ≥ l` (a `uint32_t`) and a flag `islast`,
`create_interval(l, r, islast)` is the 4-byte little-endian word
`l + 2^29 * code + 2^31 * islast`, whose low 29 bits are `l`, whose bits 29-30 are
the size code of `r - l` and whose top bit is `islast`, followed by `r - l` in
little-endian order on 0, 1, 2 or 4 bytes. -/
theorem create_interval_format (l r : Nat) (islast : Bool) (hl : l < 2 ^ 29) (hlr : l ≤ r)
    (hr : r < 2 ^ 32) :
    create_interval l r islast
        = int_to_byte_LE (l + 2 ^ 29 * interval_code (r - l)
            + 2 ^ 31 * (if islast then 1 else 0)) 4
          ++ int_to_byte_LE (r - l) (interval_width (interval_code (r - l)))
      ∧ (l + 2 ^ 29 * interval_code (r - l) + 2 ^ 31 * (if islast then 1 else 0)) % 2 ^ 29 = l
      ∧ (l + 2 ^ 29 * interval_code (r - l) + 2 ^ 31 * (if islast then 1 else 0)) / 2 ^ 29 % 4
          = interval_code (r - l)
      ∧ (l + 2 ^ 29 * interval_code (r - l) + 2 ^ 31 * (if islast then 1 else 0)) / 2 ^ 31
          = (if islast then 1 else 0)
      ∧ (interval_code (r - l) = 0 ↔ r = l)
      ∧ (interval_code (r - l) = 1 ↔ 0 < r - l ∧ r - l < 2 ^ 8)
      ∧ (interval_code (r - l) = 2 ↔ 2 ^ 8 ≤ r - l ∧ r - l < 2 ^ 16)
      ∧ (interval_code (r - l) = 3 ↔ 2 ^ 16 ≤ r - l) := by
  have hnl : ¬ l ≥ 1 <<< 29 := by rw [Nat.one_shiftLeft]; omega
  have hdelta : u32sub r l = r - l := by simp only [u32sub]; omega
  have hlast : (if islast then 4 else 0 : Nat) < 8 := by cases islast <;> decide
  have hcode : interval_code (r - l) < 4 := by
    unfold interval_code; split_ifs <;> omega
  have hb : (if islast then 1 else 0 : Nat) ≤ 1 := by cases islast <;> decide
  have hword : ∀ c, c < 4 → u32 (((if islast then 4 else 0) ||| c) <<< 29) ||| l
      = l + 2 ^ 29 * c + 2 ^ 31 * (if islast then 1 else 0) := by
    intro c hc
    rw [interval_tag islast c hc, interval_word _ l (by cases islast <;> simp <;> omega) hl]
    cases islast <;> simp <;> omega
  have hword0 : u32 ((if islast then 4 else 0) <<< 29) ||| l
      = l + 2 ^ 29 * 0 + 2 ^ 31 * (if islast then 1 else 0) := by
    rw [interval_word _ l hlast hl]
    cases islast <;> simp
    omega
  refine ⟨?_, ?_, ?_, ?_, ?_, ?_, ?_, ?_⟩
  · unfold create_interval
    rw [if_neg hnl]
    dsimp only
    by_cases e : l = r
    · rw [if_pos e]
      have hc0 : interval_code (r - l) = 0 := by
        unfold interval_code; rw [if_pos (by omega)]
      rw [hc0, hword0]
      simp [interval_width, int_to_byte_LE]
    · rw [if_neg e, hdelta]
      by_cases h8 : r - l < 1 <<< 8
      · rw [if_pos h8]
        have hc1 : interval_code (r - l) = 1 := by
          unfold interval_code
          rw [if_neg (by omega), if_pos (by rw [Nat.one_shiftLeft] at h8; omega)]
        rw [hc1, hword 1 (by decide)]
        rfl
      · rw [if_neg h8]
        by_cases h16 : r - l < 1 <<< 16
        · rw [if_pos h16]
          have hc2 : interval_code (r - l) = 2 := by
            unfold interval_code
            rw [Nat.one_shiftLeft] at h8 h16
            rw [if_neg (by omega), if_neg (by omega), if_pos (by omega)]
          rw [hc2, hword 2 (by decide)]
          rfl
        · rw [if_neg h16]
          have hc3 : interval_code (r - l) = 3 := by
            unfold interval_code
            rw [Nat.one_shiftLeft] at h8 h16
            rw [if_neg (by omega), if_neg (by omega), if_neg (by omega)]
          rw [hc3, hword 3 (by decide)]
          rfl
  · omega
  · omega
  · omega
  · rw [(interval_code_spec (r - l)).1]; omega
  · exact (interval_code_spec (r - l)).2.1
  · exact (interval_code_spec (r - l)).2.2.1
  · exact (interval_code_spec (r - l)).2.2.2

/-- Claim C25 at the interval `[5, 300]`, not the last one: the word is
`5 + 2 * 2^29 = 0x40000005` and `295 = 0x0127` follows on two bytes. -/
theorem create_interval_format_witness :
    create_interval 5 300 false = [5, 0, 0, 64, 39, 1]
      ∧ create_interval 5 300 false
        = int_to_byte_LE (5 + 2 ^ 29 * interval_code (300 - 5)
            + 2 ^ 31 * (if false then 1 else 0)) 4
          ++ int_to_byte_LE (300 - 5) (interval_width (interval_code (300 - 5)))
      ∧ (5 + 2 ^ 29 * interval_code (300 - 5) + 2 ^ 31 * (if false then 1 else 0)) % 2 ^ 29 = 5
      ∧ (5 + 2 ^ 29 * interval_code (300 - 5) + 2 ^ 31 * (if false then 1 else 0)) / 2 ^ 29 % 4
          = interval_code (300 - 5)
      ∧ (5 + 2 ^ 29 * interval_code (300 - 5) + 2 ^ 31 * (if false then 1 else 0)) / 2 ^ 31
          = (if false then 1 else 0)
      ∧ (interval_code (300 - 5) = 0 ↔ 300 = 5)
      ∧ (interval_code (300 - 5) = 1 ↔ 0 < 300 - 5 ∧ 300 - 5 < 2 ^ 8)
      ∧ (interval_code (300 - 5) = 2 ↔ 2 ^ 8 ≤ 300 - 5 ∧ 300 - 5 < 2 ^ 16)
      ∧ (interval_code (300 - 5) = 3 ↔ 2 ^ 16 ≤ 300 - 5) :=
  ⟨by decide, create_interval_format 5 300 false (by decide) (by decide) (by decide)⟩

/-! ### The intervals of intervalize (claims C26 and C27) -/

theorem mem_intervals_expand (ivs : List (Nat × Nat)) (n : Nat) :
    n ∈ intervals_expand ivs ↔ ∃ iv ∈ ivs, iv.1 ≤ n ∧ n ≤ iv.2 := by
  simp only [intervals_expand, List.mem_flatMap, List.mem_range'_1]
  constructor
  · rintro ⟨iv, hiv, h1, h2⟩
    exact ⟨iv, hiv, h1, by omega⟩
  · rintro ⟨iv, hiv, h1, h2⟩
    exact ⟨iv, hiv, h1, by omega⟩

/-- Claim C26: for every set `X` of page numbers (an ascending list of `uint32_t`
values), the numbers covered by the inclusive intervals of `intervalize(X)` are
exactly the elements of `X`, in ascending order, and `intervalize` of the empty set
is the empty list. -/
theorem intervalize_covers (X : List Nat) (hs : X.Sorted (· < ·))
    (hb : ∀ x ∈ X, x < 2 ^ 32) :
    (∀ n, (∃ iv ∈ intervalize X, iv.1 ≤ n ∧ n ≤ iv.2) ↔ n ∈ X)
      ∧ intervals_expand (intervalize X) = X
      ∧ intervalize [] = [] := by
  have h := intervals_expand_intervalize X hs hb
  refine ⟨fun n => ?_, h, rfl⟩
  rw [← mem_intervals_expand, h]

/-- Claim C26 at the set `{0, 1, 2, 5, 7, 8}`. -/
theorem intervalize_covers_witness :
    intervalize [0, 1, 2, 5, 7, 8] = [(0, 2), (5, 5), (7, 8)]
      ∧ (∀ n, (∃ iv ∈ intervalize [0, 1, 2, 5, 7, 8], iv.1 ≤ n ∧ n ≤ iv.2)
          ↔ n ∈ [0, 1, 2, 5, 7, 8])
      ∧ intervals_expand (intervalize [0, 1, 2, 5, 7, 8]) = [0, 1, 2, 5, 7, 8]
      ∧ intervalize [] = [] :=
  ⟨by decide, intervalize_covers [0, 1, 2, 5, 7, 8] (by simp) (by decide)⟩

/-- The loop of `intervalize` on ascending `uint32_t` numbers: the first interval starts
at the left end of the current one, every interval is well-formed, and every
interval starts at least 2 above the end of the one before. -/
theorem intervalize_loop_gaps :
    ∀ (rest : List Nat) (l r : Nat), l ≤ r → List.Chain (· < ·) r rest →
      (∀ x ∈ rest, x < 2 ^ 32) →
      ∃ (r' : Nat) (tail : List (Nat × Nat)),
        intervalize_loop (l, r) [] rest = (l, r') :: tail ∧ r ≤ r'
          ∧ List.Chain (fun a b : Nat × Nat => a.2 + 2 ≤ b.1) (l, r') tail
          ∧ ∀ iv ∈ tail, iv.1 ≤ iv.2
  | [], l, r, _, _, _ => ⟨r, [], by simp [intervalize_loop], Nat.le_refl _, List.Chain.nil,
      by simp⟩
  | x :: rest, l, r, hlr, hc, hb => by
    have hrx : r < x := (List.chain_cons.mp hc).1
    have hc' : List.Chain (· < ·) x rest := (List.chain_cons.mp hc).2
    have hx : x < 2 ^ 32 := hb x (List.mem_cons_self _ _)
    have hb' : ∀ y ∈ rest, y < 2 ^ 32 := fun y hy => hb y (List.mem_cons_of_mem _ hy)
    have hu : u32 (r + 1) = r + 1 := by simp only [u32]; omega
    simp only [intervalize_loop, hu]
    by_cases e : r + 1 = x
    · rw [if_pos e]
      obtain ⟨r', tail, h1, h2, h3, h4⟩ := intervalize_loop_gaps rest l x (by omega) hc' hb'
      exact ⟨r', tail, h1, by omega, h3, h4⟩
    · rw [if_neg e, intervalize_loop_acc]
      obtain ⟨r', tail, h1, h2, h3, h4⟩ :=
        intervalize_loop_gaps rest x x (Nat.le_refl _) hc' hb'
      refine ⟨r, (x, r') :: tail, by rw [h1]; rfl, Nat.le_refl _,
        List.Chain.cons (by simp only; omega) h3, ?_⟩
      intro iv hiv
      rcases List.mem_cons.mp hiv with rfl | hiv
      · exact h2
      · exact h4 iv hiv

/-- Claim C27: for every set `X` of page numbers (an ascending list of `uint32_t`
values), the intervals of `intervalize(X)` satisfy `left ≤ right`, and every
interval starts at least 2 above the end of the one before it, so that they are
ascending, disjoint and never adjacent. -/
theorem intervalize_gaps (X : List Nat) (hs : X.Sorted (· < ·)) (hb : ∀ x ∈ X, x < 2 ^ 32) :
    (∀ iv ∈ intervalize X, iv.1 ≤ iv.2)
      ∧ (intervalize X).Chain' (fun a b : Nat × Nat => a.2 + 2 ≤ b.1)
      ∧ (intervalize X).Pairwise (fun a b : Nat × Nat => a.2 + 2 ≤ b.1) := by
  have key : (∀ iv ∈ intervalize X, iv.1 ≤ iv.2)
      ∧ (intervalize X).Chain' (fun a b : Nat × Nat => a.2 + 2 ≤ b.1) := by
    cases X with
    | nil => simp [intervalize]
    | cons x rest =>
      have hc : List.Chain (· < ·) x rest := by
        have := List.chain'_iff_pairwise.mpr hs
        simpa [List.Chain'] using this
      obtain ⟨r', tail, h1, h2, h3, h4⟩ := intervalize_loop_gaps rest x x (Nat.le_refl _) hc
        (fun y hy => hb y (List.mem_cons_of_mem _ hy))
      simp only [intervalize]
      rw [h1]
      refine ⟨?_, h3⟩
      intro iv hiv
      rcases List.mem_cons.mp hiv with rfl | hiv
      · exact h2
      · exact h4 iv hiv
  refine ⟨key.1, key.2, ?_⟩
  have hwf := key.1
  have hch := key.2
  generalize intervalize X = ivs at hwf hch
  induction ivs with
  | nil => exact List.Pairwise.nil
  | cons a ivs ih =>
    have hch' : ivs.Chain' (fun a b : Nat × Nat => a.2 + 2 ≤ b.1) := List.Chain'.tail hch
    have hwf' : ∀ iv ∈ ivs, iv.1 ≤ iv.2 := fun iv hiv => hwf iv (List.mem_cons_of_mem _ hiv)
    have ihp := ih hwf' hch'
    refine List.Pairwise.cons ?_ ihp
    intro b hb'
    cases ivs with
    | nil => simp at hb'
    | cons c ivs2 =>
      have hac : a.2 + 2 ≤ c.1 := (List.chain'_cons.mp hch).1
      rcases List.mem_cons.mp hb' with rfl | hb2
      · exact hac
      · have hcb := List.rel_of_pairwise_cons ihp hb2
        have hcc := hwf' c (List.mem_cons_self _ _)
        omega

/-- Claim C27 at the set `{0, 1, 2, 5, 7, 8}`. -/
theorem intervalize_gaps_witness :
    (∀ iv ∈ intervalize [0, 1, 2, 5, 7, 8], iv.1 ≤ iv.2)
      ∧ (intervalize [0, 1, 2, 5, 7, 8]).Chain' (fun a b : Nat × Nat => a.2 + 2 ≤ b.1)
      ∧ (intervalize [0, 1, 2, 5, 7, 8]).Pairwise (fun a b : Nat × Nat => a.2 + 2 ≤ b.1) :=
  intervalize_gaps [0, 1, 2, 5, 7, 8] (by simp) (by decide)

/-! ### The body does not depend on the iteration order of the source (claim C22) -/

theorem sorted_ext (a b : List Nat) (ha : a.Sorted (· < ·)) (hb : b.Sorted (· < ·))
    (h : ∀ x, x ∈ a ↔ x ∈ b) : a = b :=
  List.eq_of_perm_of_sorted ((List.perm_ext_iff_of_nodup ha.nodup hb.nodup).mpr h) ha hb

theorem map_get_congr {K V : Type} [DecidableEq K] (m1 m2 : List (K × V)) (dflt : V)
    (h : ∀ k v, map_find m1 k = some v ↔ map_find m2 k = some v) (k : K) :
    map_get m1 k dflt = map_get m2 k dflt := by
  have : map_find m1 k = map_find m2 k := by
    apply Option.ext
    intro v
    exact h k v
  simp only [map_get, this]

theorem write_dedups_congr (d1 d2 : List (Nat × List Nat))
    (h : ∀ r, map_get d1 r [] = map_get d2 r []) :
    ∀ (ps : List Nat), write_dedups d1 ps = write_dedups d2 ps
  | [] => rfl
  | p :: ps => by simp only [write_dedups, h p, write_dedups_congr d1 d2 h ps]

theorem write_diffs_congr (d1 d2 : List (Nat × List Byte))
    (h : ∀ r, map_get d1 r [] = map_get d2 r []) :
    ∀ (ps : List Nat), write_diffs d1 ps = write_diffs d2 ps
  | [] => rfl
  | p :: ps => by simp only [write_diffs, h p, write_diffs_congr d1 d2 h ps]

theorem write_new_pages_congr (d1 d2 : List (Nat × List Byte))
    (h : ∀ r, map_get d1 r [] = map_get d2 r []) :
    ∀ (ps : List Nat), write_new_pages d1 ps = write_new_pages d2 ps
  | [] => rfl
  | p :: ps => by simp only [write_new_pages, h p, write_new_pages_congr d1 d2 h ps]

/-- Without intra-deduplication the body is the same for two `page_map_`s of the same
source dump. -/
theorem compress_body_order (P : Nat) (R S : Pages) (ref src1 src2 : memdump)
    (diffing : Bool) (hR : ref.Holds R) (h1 : src1.Holds S) (h2 : src2.Holds S) :
    compress_body ref.path_ diffing false (compress_classify P ref src1 diffing false)
      = compress_body ref.path_ diffing false (compress_classify P ref src2 diffing false) := by
  obtain ⟨a1, a2, a3⟩ := classify_dedups diffing false P R S ref src1 hR h1
  obtain ⟨b1, b2, b3⟩ := classify_dedups diffing false P R S ref src2 hR h2
  obtain ⟨c1, c2, c3⟩ := classify_diffs diffing false P R S ref src1 hR h1
  obtain ⟨d1, d2, d3⟩ := classify_diffs diffing false P R S ref src2 hR h2
  obtain ⟨e1, e2, e3, _⟩ := classify_new_pages diffing P R S ref src1 hR h1
  obtain ⟨f1, f2, f3, _⟩ := classify_new_pages diffing P R S ref src2 hR h2
  have hdedups : ∀ r D, map_find (compress_classify P ref src1 diffing false).dedups r = some D
      ↔ map_find (compress_classify P ref src2 diffing false).dedups r = some D :=
    fun r D => (a3 r D).trans (b3 r D).symm
  have hdiffs : ∀ p d, map_find (compress_classify P ref src1 diffing false).diffs p = some d
      ↔ map_find (compress_classify P ref src2 diffing false).diffs p = some d :=
    fun p d => (c3 p d).trans (d3 p d).symm
  have hnew : ∀ p c, map_find (compress_classify P ref src1 diffing false).new_pages p = some c
      ↔ map_find (compress_classify P ref src2 diffing false).new_pages p = some c :=
    fun p c => (e3 p c).trans (f3 p c).symm
  have k1 : (compress_classify P ref src1 diffing false).dedup_pagenrs
      = (compress_classify P ref src2 diffing false).dedup_pagenrs :=
    sorted_ext _ _ a1 b1 (fun r => by
      rw [a2 r, b2 r]
      exact ⟨fun ⟨D, hD⟩ => ⟨D, (hdedups r D).mp hD⟩, fun ⟨D, hD⟩ => ⟨D, (hdedups r D).mpr hD⟩⟩)
  have k2 : (compress_classify P ref src1 diffing false).diff_pagenrs
      = (compress_classify P ref src2 diffing false).diff_pagenrs :=
    sorted_ext _ _ c1 d1 (fun p => (c2 p).trans (d2 p).symm)
  have k3 : (compress_classify P ref src1 diffing false).new_pagenrs
      = (compress_classify P ref src2 diffing false).new_pagenrs :=
    sorted_ext _ _ e1 f1 (fun p => (e2 p).trans (f2 p).symm)
  unfold compress_body write_fill_section write_diff_section write_new_section
  rw [k1, k2, k3,
    write_dedups_congr _ _ (map_get_congr _ _ [] hdedups),
    write_diffs_congr _ _ (map_get_congr _ _ [] hdiffs)]
  rw [if_neg (Bool.false_ne_true), if_neg (Bool.false_ne_true),
    write_new_pages_congr _ _ (map_get_congr _ _ [] hnew)]

/-- A permutation of a `page_map_` of a dump is a `page_map_` of the dump. -/
theorem pageMapOf_perm (m m' : List (List Byte × List Nat)) (pages : Pages)
    (h : PageMapOf m pages) (hp : m'.Perm m) : PageMapOf m' pages := by
  obtain ⟨h1, h2, h3⟩ := h
  refine ⟨((hp.map Prod.fst).nodup_iff).mpr h1, ?_, ?_⟩
  · intro c nums hc
    exact h2 c nums (hp.mem_iff.mp hc)
  · intro c hc
    exact ((hp.map Prod.fst).mem_iff).mpr (h3 c hc)

theorem exSrcRev_holds : exSrcRev.Holds exS :=
  ⟨rfl, pageMapOf_perm exSrc.page_map_ exSrcRev.page_map_ exS exSrc_holds.2
    (List.Perm.swap _ _ _)⟩

/-- Claim C22: with intra disabled, for a reference dump `R` and two objects that hold
the same source dump `S` with their `page_map_` in any two orders, the bodies that
`interdedup_compress` builds are identical, and so are the files it writes. -/
theorem body_order_independent (codec : InnerCodec) (P : Nat) (R S : Pages)
    (ref src1 src2 : memdump) (diffing : Bool) (filesize : Nat) (inner : compression)
    (hR : ref.Holds R) (h1 : src1.Holds S) (h2 : src2.Holds S) :
    compress_body ref.path_ diffing false (compress_classify P ref src1 diffing false)
        = compress_body ref.path_ diffing false (compress_classify P ref src2 diffing false)
      ∧ interdedup_compress codec ref src1 filesize inner diffing false
        = interdedup_compress codec ref src2 filesize inner diffing false := by
  refine ⟨compress_body_order P R S ref src1 src2 diffing hR h1 h2, ?_⟩
  unfold interdedup_compress
  cases hps : compress_pagesize ref with
  | error e => simp only [bind, Except.bind]
  | ok pagesize =>
    simp only [bind, Except.bind]
    rw [compress_body_order pagesize R S ref src1 src2 diffing hR h1 h2]

/-- Claim C22 at the reference dump with the pages C, D and the source dump with the
pages X, C, whose `page_map_` is visited as X, C and as C, X. -/
theorem body_order_independent_witness :
    exSrcRev.page_map_ = exSrc.page_map_.reverse
      ∧ compress_body exRef.path_ true false (compress_classify 8 exRef exSrc true false)
        = compress_body exRef.path_ true false (compress_classify 8 exRef exSrcRev true false)
      ∧ interdedup_compress exCodec exRef exSrc 16 .GZIP true false
        = interdedup_compress exCodec exRef exSrcRev 16 .GZIP true false :=
  ⟨rfl, body_order_independent exCodec 8 exR exS exRef exSrc exSrcRev true 16 .GZIP
    exRef_holds exSrc_holds exSrcRev_holds⟩

/-! ### Fusing and starting patches in the scan of generate_patches (claim C28) -/

/-- A mismatch after at most 2 matching bytes is appended, with the matching bytes, to
the last patch. -/
theorem generate_patches_scan_fuse (same rs ds : List Byte) (r d : Byte) (i previ : Nat)
    (init : List Patch) (o : Nat) (b : List Byte) (hrd : r ≠ d) (hlen : same.length ≤ 2) :
    generate_patches_scan i (same ++ r :: rs) (same ++ d :: ds)
        { previ := previ, first := false, samebytes := [], ret := init ++ [(o, b)] }
      = generate_patches_scan (i + same.length + 1) rs ds
        { previ := previ, first := false, samebytes := [],
          ret := init ++ [(o, b ++ (same ++ [d]))] } := by
  rw [generate_patches_scan_same]
  simp only [generate_patches_scan, generate_patches_step, if_neg hrd, List.nil_append,
    append_back_concat]
  rw [if_pos ⟨hlen, trivial⟩]

/-- A mismatch after 3 or more matching bytes starts a new patch. -/
theorem generate_patches_scan_new (same rs ds : List Byte) (r d : Byte) (i previ : Nat)
    (init : List Patch) (o : Nat) (b : List Byte) (hrd : r ≠ d) (hlen : 3 ≤ same.length) :
    generate_patches_scan i (same ++ r :: rs) (same ++ d :: ds)
        { previ := previ, first := false, samebytes := [], ret := init ++ [(o, b)] }
      = generate_patches_scan (i + same.length + 1) rs ds
        { previ := i + same.length, first := false, samebytes := [],
          ret := init ++ [(o, b)]
            ++ [(u32sub (u32sub (i + same.length) previ) b.length, [d])] } := by
  rw [generate_patches_scan_same]
  simp only [generate_patches_scan, generate_patches_step, if_neg hrd, List.nil_append,
    Bool.false_eq_true, if_false, back_size_concat]
  rw [if_neg (fun h => by omega)]

/-- The first mismatch starts the first patch, whatever the number of matching bytes
before it. -/
theorem generate_patches_scan_first (same rs ds : List Byte) (r d : Byte) (i : Nat)
    (hrd : r ≠ d) :
    generate_patches_scan i (same ++ r :: rs) (same ++ d :: ds)
        { previ := 0, first := true, samebytes := [], ret := [] }
      = generate_patches_scan (i + same.length + 1) rs ds
        { previ := i + same.length, first := false, samebytes := [],
          ret := [(i + same.length, [d])] } := by
  rw [generate_patches_scan_same]
  have h1 : ¬ (same.length ≤ 2 ∧ true = false) := by simp
  simp only [generate_patches_scan, generate_patches_step, if_neg hrd, List.nil_append,
    if_neg h1, if_true]

/-- Matching bytes at the end of the pages add nothing to the patches. -/
theorem generate_patches_scan_trailing (same : List Byte) (i : Nat) (st : PatchScan) :
    (generate_patches_scan i same same st).ret = st.ret := by
  have h := generate_patches_scan_same same [] [] i st
  rw [List.append_nil] at h
  rw [h]
  rfl

/-- Claim C28: in the scan of `generate_patches`, a mismatching byte that follows the
last mismatch after at most 2 matching bytes is appended, together with those
bytes, to the last patch; one that follows after 3 or more matching bytes starts a
new patch, and so does the first mismatch; matching bytes at the end are dropped.
For `R = "AAAAAAAA"` and `S = "ABBAABBA"` the result is the single patch
`(1, "BBAABB")`. -/
theorem generate_patches_fuse_rule :
    (∀ (same rs ds : List Byte) (r d : Byte) (i previ : Nat) (init : List Patch) (o : Nat)
        (b : List Byte), r ≠ d → same.length ≤ 2 →
        generate_patches_scan i (same ++ r :: rs) (same ++ d :: ds)
            { previ := previ, first := false, samebytes := [], ret := init ++ [(o, b)] }
          = generate_patches_scan (i + same.length + 1) rs ds
            { previ := previ, first := false, samebytes := [],
              ret := init ++ [(o, b ++ (same ++ [d]))] })
      ∧ (∀ (same rs ds : List Byte) (r d : Byte) (i previ : Nat) (init : List Patch) (o : Nat)
        (b : List Byte), r ≠ d → 3 ≤ same.length →
        generate_patches_scan i (same ++ r :: rs) (same ++ d :: ds)
            { previ := previ, first := false, samebytes := [], ret := init ++ [(o, b)] }
          = generate_patches_scan (i + same.length + 1) rs ds
            { previ := i + same.length, first := false, samebytes := [],
              ret := init ++ [(o, b)]
                ++ [(u32sub (u32sub (i + same.length) previ) b.length, [d])] })
      ∧ (∀ (same rs ds : List Byte) (r d : Byte) (i : Nat), r ≠ d →
        generate_patches_scan i (same ++ r :: rs) (same ++ d :: ds)
            { previ := 0, first := true, samebytes := [], ret := [] }
          = generate_patches_scan (i + same.length + 1) rs ds
            { previ := i + same.length, first := false, samebytes := [],
              ret := [(i + same.length, [d])] })
      ∧ (∀ (same : List Byte) (i : Nat) (st : PatchScan),
        (generate_patches_scan i same same st).ret = st.ret)
      ∧ generate_patches [65, 65, 65, 65, 65, 65, 65, 65] [65, 66, 66, 65, 65, 66, 66, 65]
          = [(1, [66, 66, 65, 65, 66, 66])] :=
  ⟨fun same rs ds r d i previ init o b hrd hlen =>
      generate_patches_scan_fuse same rs ds r d i previ init o b hrd hlen,
    fun same rs ds r d i previ init o b hrd hlen =>
      generate_patches_scan_new same rs ds r d i previ init o b hrd hlen,
    fun same rs ds r d i hrd => generate_patches_scan_first same rs ds r d i hrd,
    generate_patches_scan_trailing, by decide⟩

/-! ### The offsets of the patches (claim C29) -/

theorem patchesCover_length :
    ∀ (ps : List Patch) (x y : List Byte), PatchesCover ps x y →
      x.length = patches_span ps ∧ y.length = patches_span ps
  | [], x, y, h => by
    obtain ⟨h1, h2⟩ := h
    subst h1 h2
    exact ⟨rfl, rfl⟩
  | (o, b) :: ps, x, y, h => by
    obtain ⟨g, b', x', y', h1, h2, h3, h4, _, h6⟩ := h
    obtain ⟨i1, i2⟩ := patchesCover_length ps x' y' h6
    subst h1 h2
    simp only [List.length_append, patches_span]
    omega

theorem patchesCover_append (qs : List Patch) (x2 y2 : List Byte)
    (hq : PatchesCover qs x2 y2) :
    ∀ (ps : List Patch) (x y : List Byte), PatchesCover ps x y →
      PatchesCover (ps ++ qs) (x ++ x2) (y ++ y2)
  | [], x, y, h => by
    obtain ⟨h1, h2⟩ := h
    subst h1 h2
    exact hq
  | (o, b) :: ps, x, y, h => by
    obtain ⟨g, b', x', y', h1, h2, h3, h4, h5, h6⟩ := h
    refine ⟨g, b', x' ++ x2, y' ++ y2, ?_, ?_, h3, h4, h5,
      patchesCover_append qs x2 y2 hq ps x' y' h6⟩
    · rw [h1, List.append_assoc]
    · rw [h2, List.append_assoc]

theorem head?_append_of_head?_ne (a b e1 e2 : List Byte) (hl : a.length = b.length)
    (h : a.head? ≠ b.head?) : (a ++ e1).head? ≠ (b ++ e2).head? := by
  cases a with
  | nil =>
    cases b with
    | nil => exact absurd rfl h
    | cons y b => simp at hl
  | cons x a =>
    cases b with
    | nil => simp at hl
    | cons y b => simpa using h

/-- Extending the last patch by as many bytes as the pages are extended. -/
theorem patchesCover_extend (o : Nat) (b e1 e2 : List Byte) (he : e1.length = e2.length) :
    ∀ (init : List Patch) (x y : List Byte), PatchesCover (init ++ [(o, b)]) x y →
      PatchesCover (init ++ [(o, b ++ e2)]) (x ++ e1) (y ++ e2)
  | [], x, y, h => by
    obtain ⟨g, b', x', y', h1, h2, h3, h4, h5, h6, h7⟩ := h
    subst h6 h7
    refine ⟨g, b' ++ e1, [], [], ?_, ?_, h3, ?_, head?_append_of_head?_ne b' b e1 e2 h4 h5,
      rfl, rfl⟩
    · rw [h1]; simp
    · rw [h2]; simp
    · simp only [List.length_append, h4, he]
  | (o', c) :: init, x, y, h => by
    obtain ⟨g, b', x', y', h1, h2, h3, h4, h5, h6⟩ := h
    refine ⟨g, b', x' ++ e1, y' ++ e2, ?_, ?_, h3, h4, h5,
      patchesCover_extend o b e1 e2 he init x' y' h6⟩
    · rw [h1, List.append_assoc]
    · rw [h2, List.append_assoc]

theorem patchesCover_single (g : List Byte) (r d : Byte) (hrd : r ≠ d) :
    PatchesCover [(g.length, [d])] (g ++ [r]) (g ++ [d]) :=
  ⟨g, [r], [], [], by simp, by simp, rfl, rfl, by simpa using hrd, rfl, rfl⟩

/-- The second invariant of the scan loop: behind the first mismatch, the patches
cover the pages up to the matching bytes collected since the last mismatch. -/
theorem coverInv_step (rp dp : List Byte) (st : PatchScan) (r d : Byte)
    (hinv : ScanInv rp dp st) (hi : rp.length < 2 ^ 32)
    (hcov : st.first = false → ∃ pre_r pre_d : List Byte, rp = pre_r ++ st.samebytes
      ∧ dp = pre_d ++ st.samebytes ∧ PatchesCover st.ret pre_r pre_d) :
    (generate_patches_step rp.length r d st).first = false →
      ∃ pre_r pre_d : List Byte,
        rp ++ [r] = pre_r ++ (generate_patches_step rp.length r d st).samebytes
          ∧ dp ++ [d] = pre_d ++ (generate_patches_step rp.length r d st).samebytes
          ∧ PatchesCover (generate_patches_step rp.length r d st).ret pre_r pre_d := by
  obtain ⟨hlen, hne, hfirst, hnot⟩ := hinv
  unfold generate_patches_step
  by_cases hrd : r = d
  · subst hrd
    rw [if_pos rfl]
    intro hf
    obtain ⟨pre_r, pre_d, h1, h2, h3⟩ := hcov hf
    exact ⟨pre_r, pre_d, by simp [h1], by simp [h2], h3⟩
  · rw [if_neg hrd]
    by_cases hfuse : st.samebytes.length ≤ 2 ∧ st.first = false
    · rw [if_pos hfuse]
      intro _
      obtain ⟨pre_r, pre_d, h1, h2, h3⟩ := hcov hfuse.2
      obtain ⟨hret, _⟩ := hnot hfuse.2
      obtain ⟨init, ⟨o, b⟩, hret'⟩ : ∃ init p, st.ret = init ++ [p] := by
        rcases List.eq_nil_or_concat st.ret with h | ⟨init, p, h⟩
        · exact absurd h hret
        · exact ⟨init, p, by simpa using h⟩
      rw [hret'] at h3
      refine ⟨rp ++ [r], dp ++ [d], by simp, by simp, ?_⟩
      simp only [hret', append_back_concat]
      have := patchesCover_extend o b (st.samebytes ++ [r]) (st.samebytes ++ [d]) (by simp)
        init pre_r pre_d h3
      rw [h1, h2, List.append_assoc, List.append_assoc]
      exact this
    · rw [if_neg hfuse]
      by_cases hf : st.first = true
      · rw [if_pos hf]
        intro _
        obtain ⟨e1, e2, e3⟩ := hfirst hf
        refine ⟨rp ++ [r], dp ++ [d], by simp, by simp, ?_⟩
        simp only [e1, List.nil_append]
        rw [e3]
        rw [e3] at hlen
        exact patchesCover_single dp r d hrd
      · rw [if_neg hf]
        intro _
        have hff : st.first = false := by simpa using hf
        obtain ⟨h1', pre_r', pre_d', h2', h3', h4', h5', h6'⟩ := hnot hff
        obtain ⟨pre_r, pre_d, h1, h2, h3⟩ := hcov hff
        have hoff : u32sub (u32sub rp.length st.previ) (back_size st.ret)
            = st.samebytes.length := by
          have : rp.length = patches_span st.ret + st.samebytes.length := by
            rw [h2', List.length_append, h4']
          simp only [u32sub]
          omega
        rw [hoff]
        refine ⟨rp ++ [r], dp ++ [d], by simp, by simp, ?_⟩
        dsimp only
        have := patchesCover_append [(st.samebytes.length, [d])] (st.samebytes ++ [r])
          (st.samebytes ++ [d]) (patchesCover_single st.samebytes r d hrd) st.ret pre_r pre_d h3
        rw [h1, h2, List.append_assoc, List.append_assoc]
        exact this

theorem coverInv_scan :
    ∀ (rs ds rp dp : List Byte) (st : PatchScan), rs.length ≤ ds.length → ScanInv rp dp st →
      rp.length + rs.length ≤ 2 ^ 32 →
      (st.first = false → ∃ pre_r pre_d : List Byte, rp = pre_r ++ st.samebytes
        ∧ dp = pre_d ++ st.samebytes ∧ PatchesCover st.ret pre_r pre_d) →
      ((generate_patches_scan rp.length rs ds st).first = false →
        ∃ pre_r pre_d : List Byte,
          rp ++ rs = pre_r ++ (generate_patches_scan rp.length rs ds st).samebytes
            ∧ dp ++ ds.take rs.length
              = pre_d ++ (generate_patches_scan rp.length rs ds st).samebytes
            ∧ PatchesCover (generate_patches_scan rp.length rs ds st).ret pre_r pre_d)
  | [], ds, rp, dp, st, _, _, _, hcov => by
    simpa [generate_patches_scan] using hcov
  | r :: rs, [], rp, dp, st, hl, _, _, _ => by simp at hl
  | r :: rs, d :: ds, rp, dp, st, hl, hinv, hb, hcov => by
    simp only [List.length_cons] at hl hb
    have hstep := scanInv_step rp dp st r d hinv (by omega)
    have hcstep := coverInv_step rp dp st r d hinv (by omega) hcov
    have ih := coverInv_scan rs ds (rp ++ [r]) (dp ++ [d]) _ (by omega) hstep
      (by simp only [List.length_append, List.length_singleton]; omega) hcstep
    simp only [List.length_append, List.length_singleton, List.append_assoc,
      List.singleton_append] at ih
    simpa [generate_patches_scan] using ih

/-- The patches found by the scan of two pages of equal size cover the pages up to the
matching bytes at their end. -/
theorem generate_patches_scan_cover (R S : List Byte) (hlen : R.length = S.length)
    (hb : R.length ≤ 2 ^ 32) :
    ∃ pre_r pre_d same : List Byte, R = pre_r ++ same ∧ S = pre_d ++ same
      ∧ PatchesCover (generate_patches_scan 0 R S
          { previ := 0, first := true, samebytes := [], ret := [] }).ret pre_r pre_d := by
  have hinv := scanInv_scan R S [] [] _ (by omega) scanInv_init (by simpa using hb)
  have hcov := coverInv_scan R S [] []
    { previ := 0, first := true, samebytes := [], ret := [] } (by omega) scanInv_init
    (by simpa using hb) (by simp)
  simp only [List.length_nil, List.nil_append] at hinv hcov
  rw [hlen, List.take_length] at hinv hcov
  by_cases hf : (generate_patches_scan 0 R S
      { previ := 0, first := true, samebytes := [], ret := [] }).first = true
  · obtain ⟨_, _, hfirst, _⟩ := hinv
    obtain ⟨e1, _, e3⟩ := hfirst hf
    exact ⟨[], [], S, by rw [e3]; rfl, rfl, by rw [e1]; exact ⟨rfl, rfl⟩⟩
  · obtain ⟨pre_r, pre_d, h1, h2, h3⟩ := hcov (by simpa using hf)
    exact ⟨pre_r, pre_d, _, h1, h2, h3⟩

theorem patchesCover_split (qs : List Patch) :
    ∀ (pre : List Patch) (x y : List Byte), PatchesCover (pre ++ qs) x y →
      ∃ x1 y1 x2 y2 : List Byte, x = x1 ++ x2 ∧ y = y1 ++ y2
        ∧ x1.length = patches_span pre ∧ y1.length = patches_span pre
        ∧ PatchesCover qs x2 y2
  | [], x, y, h => ⟨[], [], x, y, rfl, rfl, rfl, rfl, h⟩
  | (o, b) :: pre, x, y, h => by
    obtain ⟨g, b', x', y', h1, h2, h3, h4, _, h6⟩ := h
    obtain ⟨x1, y1, x2, y2, i1, i2, i3, i4, i5⟩ := patchesCover_split qs pre x' y' h6
    refine ⟨g ++ b' ++ x1, g ++ b ++ y1, x2, y2, ?_, ?_, ?_, ?_, i5⟩
    · rw [h1, i1]; simp
    · rw [h2, i2]; simp
    · simp only [List.length_append, patches_span]; omega
    · simp only [List.length_append, patches_span]; omega

/-- Where a patch lies in the pages that a list of patches covers. -/
theorem patchesCover_at (pre post : List Patch) (o : Nat) (b x y tx ty : List Byte)
    (h : PatchesCover (pre ++ (o, b) :: post) x y) :
    (∀ j, patches_span pre ≤ j → j < patches_span pre + o →
        (x ++ tx)[j]? = (y ++ ty)[j]?)
      ∧ (x ++ tx)[patches_span pre + o]? ≠ (y ++ ty)[patches_span pre + o]?
      ∧ ((y ++ ty).drop (patches_span pre + o)).take b.length = b := by
  obtain ⟨x1, y1, x2, y2, i1, i2, i3, i4, i5⟩ := patchesCover_split _ pre x y h
  obtain ⟨g, b', x', y', h1, h2, h3, h4, h5, _⟩ := i5
  have ex : x ++ tx = (x1 ++ g) ++ (b' ++ (x' ++ tx)) := by rw [i1, h1]; simp
  have ey : y ++ ty = (y1 ++ g) ++ (b ++ (y' ++ ty)) := by rw [i2, h2]; simp
  have lx : (x1 ++ g).length = patches_span pre + o := by
    rw [List.length_append, i3, h3]
  have ly : (y1 ++ g).length = patches_span pre + o := by
    rw [List.length_append, i4, h3]
  refine ⟨?_, ?_, ?_⟩
  · intro j hj1 hj2
    have e1 : (x1 ++ g ++ (b' ++ (x' ++ tx)))[j]? = g[j - patches_span pre]? := by
      rw [List.getElem?_append_left (by rw [lx]; exact hj2),
        List.getElem?_append_right (by rw [i3]; exact hj1), i3]
    have e2 : (y1 ++ g ++ (b ++ (y' ++ ty)))[j]? = g[j - patches_span pre]? := by
      rw [List.getElem?_append_left (by rw [ly]; exact hj2),
        List.getElem?_append_right (by rw [i4]; exact hj1), i4]
    rw [ex, ey, e1, e2]
  · have e1 : (x1 ++ g ++ (b' ++ (x' ++ tx)))[patches_span pre + o]?
        = (b' ++ (x' ++ tx))[0]? := by
      rw [List.getElem?_append_right (by rw [lx]), lx, Nat.sub_self]
    have e2 : (y1 ++ g ++ (b ++ (y' ++ ty)))[patches_span pre + o]?
        = (b ++ (y' ++ ty))[0]? := by
      rw [List.getElem?_append_right (by rw [ly]), ly, Nat.sub_self]
    rw [ex, ey, e1, e2]
    have := head?_append_of_head?_ne b' b (x' ++ tx) (y' ++ ty) h4 h5
    rw [List.head?_eq_getElem?, List.head?_eq_getElem?] at this
    exact this
  · rw [ey, ← ly, List.drop_left, List.take_left]

/-- Claim C29: for two pages of equal size (below `2^32` bytes), the patches built by
the scan of `generate_patches` cover the pages up to the matching bytes at their
end; every patch lies in the delta page at the index `end + offset`, where `end` is
the index just past the last byte of the patch before it (0 for the first patch),
the pages agree from `end` up to that index and differ at it.  So the offset of the
first patch is the index of the first differing byte, and the offset of every
later patch is its start index minus the index just past the patch before. -/
theorem scan_patch_offsets (R S : List Byte) (hlen : R.length = S.length)
    (hb : R.length < 2 ^ 32) :
    (∃ pre_r pre_d same : List Byte, R = pre_r ++ same ∧ S = pre_d ++ same
        ∧ PatchesCover (generate_patches_scan 0 (R.take (u32 R.length)) S
            { previ := 0, first := true, samebytes := [], ret := [] }).ret pre_r pre_d)
      ∧ (∀ (pre post : List Patch) (o : Nat) (b : List Byte),
          (generate_patches_scan 0 (R.take (u32 R.length)) S
            { previ := 0, first := true, samebytes := [], ret := [] }).ret
              = pre ++ (o, b) :: post →
          (∀ j, patches_span pre ≤ j → j < patches_span pre + o → R[j]? = S[j]?)
            ∧ R[patches_span pre + o]? ≠ S[patches_span pre + o]?
            ∧ (S.drop (patches_span pre + o)).take b.length = b)
      ∧ (∀ (post : List Patch) (o : Nat) (b : List Byte),
          (generate_patches_scan 0 (R.take (u32 R.length)) S
            { previ := 0, first := true, samebytes := [], ret := [] }).ret = (o, b) :: post →
          (∀ j, j < o → R[j]? = S[j]?) ∧ R[o]? ≠ S[o]?) := by
  have hu : u32 R.length = R.length := by simp only [u32]; omega
  rw [hu, List.take_length]
  obtain ⟨pre_r, pre_d, same, h1, h2, h3⟩ := generate_patches_scan_cover R S hlen (by omega)
  have key : ∀ (pre post : List Patch) (o : Nat) (b : List Byte),
      (generate_patches_scan 0 R S
        { previ := 0, first := true, samebytes := [], ret := [] }).ret
          = pre ++ (o, b) :: post →
      (∀ j, patches_span pre ≤ j → j < patches_span pre + o → R[j]? = S[j]?)
        ∧ R[patches_span pre + o]? ≠ S[patches_span pre + o]?
        ∧ (S.drop (patches_span pre + o)).take b.length = b := by
    intro pre post o b hret
    rw [hret] at h3
    have := patchesCover_at pre post o b pre_r pre_d same same h3
    rw [← h1, ← h2] at this
    exact this
  refine ⟨⟨pre_r, pre_d, same, h1, h2, h3⟩, key, ?_⟩
  intro post o b hret
  obtain ⟨k1, k2, _⟩ := key [] post o b hret
  simp only [patches_span, Nat.zero_add, Nat.zero_le, true_implies] at k1 k2
  exact ⟨k1, k2⟩

/-- Claim C29 at two pages of 12 bytes that differ at the indices 1, 6 and 7: the
patches are `(1, "B")` and `(4, "BB")`, and `4 = 6 - (1 + 1)`. -/
theorem scan_patch_offsets_witness :
    (generate_patches_scan 0
        (([65, 65, 65, 65, 65, 65, 65, 65, 65, 65, 65, 65] : List Byte).take
          (u32 ([65, 65, 65, 65, 65, 65, 65, 65, 65, 65, 65, 65] : List Byte).length))
        [65, 66, 65, 65, 65, 65, 66, 66, 65, 65, 65, 65]
        { previ := 0, first := true, samebytes := [], ret := [] }).ret
        = [(1, [66]), (4, [66, 66])]
      ∧ (∀ (post : List Patch) (o : Nat) (b : List Byte),
          (generate_patches_scan 0
            (([65, 65, 65, 65, 65, 65, 65, 65, 65, 65, 65, 65] : List Byte).take
              (u32 ([65, 65, 65, 65, 65, 65, 65, 65, 65, 65, 65, 65] : List Byte).length))
            [65, 66, 65, 65, 65, 65, 66, 66, 65, 65, 65, 65]
            { previ := 0, first := true, samebytes := [], ret := [] }).ret = (o, b) :: post →
          (∀ j, j < o → ([65, 65, 65, 65, 65, 65, 65, 65, 65, 65, 65, 65] : List Byte)[j]?
              = ([65, 66, 65, 65, 65, 65, 66, 66, 65, 65, 65, 65] : List Byte)[j]?)
            ∧ ([65, 65, 65, 65, 65, 65, 65, 65, 65, 65, 65, 65] : List Byte)[o]?
              ≠ ([65, 66, 65, 65, 65, 65, 66, 66, 65, 65, 65, 65] : List Byte)[o]?) :=
  ⟨by decide,
    (scan_patch_offsets [65, 65, 65, 65, 65, 65, 65, 65, 65, 65, 65, 65]
      [65, 66, 65, 65, 65, 65, 66, 66, 65, 65, 65, 65] (by decide) (by decide)).2.2⟩

/-! ### Chunks of long patches (claim C30) -/

/-- The scan of `n` bytes that all differ, behind a mismatch, extends the last patch by
all of them. -/
theorem generate_patches_scan_differ (r d : Byte) (hrd : r ≠ d) (previ o : Nat) :
    ∀ (n i : Nat) (b : List Byte),
      generate_patches_scan i (List.replicate n r) (List.replicate n d)
          { previ := previ, first := false, samebytes := [], ret := [(o, b)] }
        = { previ := previ, first := false, samebytes := [],
            ret := [(o, b ++ List.replicate n d)] }
  | 0, i, b => by simp [generate_patches_scan]
  | n + 1, i, b => by
    have h := generate_patches_scan_fuse [] (List.replicate n r) (List.replicate n d) r d i
      previ [] o b hrd (by simp)
    simp only [List.nil_append, List.length_nil, Nat.add_zero] at h
    rw [List.replicate_succ, List.replicate_succ, h,
      generate_patches_scan_differ r d hrd previ o n (i + 1) (b ++ [d])]
    simp

/-- The patch found by the scan of two pages of `n + 1` bytes that differ everywhere. -/
theorem generate_patches_scan_all_differ (r d : Byte) (hrd : r ≠ d) (n : Nat) :
    (generate_patches_scan 0 (List.replicate (n + 1) r) (List.replicate (n + 1) d)
        { previ := 0, first := true, samebytes := [], ret := [] }).ret
      = [(0, List.replicate (n + 1) d)] := by
  have h := generate_patches_scan_first [] (List.replicate n r) (List.replicate n d) r d 0 hrd
  simp only [List.nil_append, List.length_nil, Nat.add_zero] at h
  rw [List.replicate_succ, List.replicate_succ, h,
    generate_patches_scan_differ r d hrd 0 0 n (0 + 1) [d]]
  rfl

/-- The chunks emitted for one patch. -/
theorem generate_patches_chunk_cons (o : Nat) (b : List Byte) (rest : List Patch)
    (hb : b.length < 2 ^ 32) :
    generate_patches_chunk ((o, b) :: rest)
      = if 2048 < b.length then
          (o, b.take 2048) :: (0, (b.drop 2048).take 2048) :: generate_patches_chunk rest
        else (o, b) :: generate_patches_chunk rest := by
  have hu : u32 b.length = b.length := by simp only [u32]; omega
  simp only [generate_patches_chunk, hu, gt_iff_lt]

theorem generate_patches_chunk_append (qs : List Patch) :
    ∀ (ps : List Patch),
      generate_patches_chunk (ps ++ qs) = generate_patches_chunk ps ++ generate_patches_chunk qs
  | [] => rfl
  | (o, b) :: ps => by
    have ih := generate_patches_chunk_append qs ps
    simp only [List.cons_append, generate_patches_chunk, List.append_eq, ih]
    split
    · rfl
    · rfl

/-- Claim C30 as stated fails for a patch of 4097 bytes: for two pages of 4097 bytes
that differ everywhere the scan finds the single patch of all 4097 bytes of the
delta page, and the chunks emitted are two of 2048 bytes each; the last byte of the
patch is in no chunk. -/
theorem generate_patches_chunk_loses_bytes :
    (generate_patches_scan 0
        ((List.replicate 4097 (0 : Byte)).take (u32 (List.replicate 4097 (0 : Byte)).length))
        (List.replicate 4097 1)
        { previ := 0, first := true, samebytes := [], ret := [] }).ret
        = [(0, List.replicate 4097 1)]
      ∧ generate_patches (List.replicate 4097 0) (List.replicate 4097 1)
        = [(0, List.replicate 2048 1), (0, List.replicate 2048 1)]
      ∧ List.replicate 2048 (1 : Byte) ++ List.replicate 2048 1 ≠ List.replicate 4097 1 := by
  have hu : u32 (List.replicate 4097 (0 : Byte)).length = 4097 := by
    rw [List.length_replicate]; rfl
  have htake : (List.replicate 4097 (0 : Byte)).take 4097 = List.replicate 4097 0 :=
    List.take_of_length_le (by rw [List.length_replicate])
  have hscan := generate_patches_scan_all_differ 0 1 (by decide) 4096
  have t1 : List.take 2048 (List.replicate 4097 (1 : Byte)) = List.replicate 2048 1 := by
    rw [List.take_replicate]; rfl
  have t2 : List.take 2048 (List.drop 2048 (List.replicate 4097 (1 : Byte)))
      = List.replicate 2048 1 := by
    rw [List.drop_replicate, List.take_replicate]; rfl
  have hl : 2048 < (List.replicate 4097 (1 : Byte)).length := by
    rw [List.length_replicate]; decide
  refine ⟨?_, ?_, ?_⟩
  · rw [hu, htake]
    exact hscan
  · unfold generate_patches
    rw [hu, htake]
    have hscan' : (generate_patches_scan 0 (List.replicate 4097 (0 : Byte))
        (List.replicate 4097 1)
        { previ := 0, first := true, samebytes := [], ret := [] }).ret
        = [(0, List.replicate 4097 1)] := hscan
    rw [hscan', generate_patches_chunk_cons 0 _ []
      (by rw [List.length_replicate]; decide), if_pos hl, t1, t2]
    rfl
  · intro h
    have := congrArg List.length h
    rw [List.length_append, List.length_replicate, List.length_replicate] at this
    exact absurd this (by decide)

/-- Claim C30 (amended): for every patch of more than 2048 and at most 4096 bytes in
the list found by the scan, `generate_patches` emits two chunks in its place: the
first 2048 bytes with the offset of the patch and the other bytes with the offset
0; each chunk has at most 2048 bytes and the bytes of the two chunks concatenated
are the bytes of the patch. -/
theorem generate_patches_chunk_two (pre rest : List Patch) (o : Nat) (b : List Byte)
    (h1 : 2048 < b.length) (h2 : b.length ≤ 4096) :
    generate_patches_chunk (pre ++ (o, b) :: rest)
        = generate_patches_chunk pre ++ (o, b.take 2048) :: (0, b.drop 2048)
            :: generate_patches_chunk rest
      ∧ (b.take 2048).length = 2048
      ∧ 1 ≤ (b.drop 2048).length ∧ (b.drop 2048).length ≤ 2048
      ∧ b.take 2048 ++ b.drop 2048 = b := by
  have ht : (b.drop 2048).take 2048 = b.drop 2048 :=
    List.take_of_length_le (by rw [List.length_drop]; omega)
  refine ⟨?_, ?_, ?_, ?_, List.take_append_drop _ _⟩
  · rw [generate_patches_chunk_append, generate_patches_chunk_cons o b rest (by omega),
      if_pos h1, ht]
  · rw [List.length_take]; omega
  · rw [List.length_drop]; omega
  · rw [List.length_drop]; omega

/-- Claim C30 at a patch of 2049 bytes with the offset 3. -/
theorem generate_patches_chunk_two_witness :
    2048 < (List.replicate 2049 (7 : Byte)).length
      ∧ (List.replicate 2049 (7 : Byte)).length ≤ 4096
      ∧ generate_patches_chunk ([] ++ (3, List.replicate 2049 (7 : Byte)) :: [])
        = generate_patches_chunk [] ++ (3, (List.replicate 2049 (7 : Byte)).take 2048)
            :: (0, (List.replicate 2049 (7 : Byte)).drop 2048) :: generate_patches_chunk []
      ∧ ((List.replicate 2049 (7 : Byte)).take 2048).length = 2048
      ∧ 1 ≤ ((List.replicate 2049 (7 : Byte)).drop 2048).length
      ∧ ((List.replicate 2049 (7 : Byte)).drop 2048).length ≤ 2048
      ∧ (List.replicate 2049 (7 : Byte)).take 2048 ++ (List.replicate 2049 (7 : Byte)).drop 2048
          = List.replicate 2049 7 :=
  ⟨by rw [List.length_replicate]; decide, by rw [List.length_replicate]; decide,
    generate_patches_chunk_two [] [] 3 (List.replicate 2049 7)
      (by rw [List.length_replicate]; decide) (by rw [List.length_replicate]; decide)⟩

/-! ### The header of a patch (claims C31 and C39) -/

/-- Claim C31: for a patch length `l` with `1 ≤ l ≤ 2048` and an offset `o < 2^12`,
`patch_encode(o, l)` is the two bytes `l - 1`, `o` when `o < 256` and `l - 1 < 128`,
and otherwise the three big-endian bytes of `w = ((l - 1) << 12) | o` with `0x80`
OR-ed into the first of them. -/
theorem patch_encode_format (o l : Nat) (hl1 : 1 ≤ l) (hl2 : l ≤ 2048) (ho : o < 2 ^ 12) :
    patch_encode o l
        = (if o < 256 ∧ l - 1 < 128 then [toByte (l - 1), toByte o]
          else [toByte (((((l - 1) <<< 12) ||| o) >>> 16) ||| 128),
            toByte ((((l - 1) <<< 12) ||| o) >>> 8), toByte (((l - 1) <<< 12) ||| o)])
      ∧ int_to_byte_BE (((l - 1) <<< 12) ||| o) 3
        = [toByte ((((l - 1) <<< 12) ||| o) >>> 16), toByte ((((l - 1) <<< 12) ||| o) >>> 8),
            toByte (((l - 1) <<< 12) ||| o)]
      ∧ (((l - 1) <<< 12) ||| o) >>> 16 < 128 := by
  have hsub : u32sub l 1 = l - 1 := by simp only [u32sub]; omega
  have hw : ((l - 1) <<< 12) ||| o = 2 ^ 12 * (l - 1) + o := by
    rw [Nat.shiftLeft_eq, Nat.mul_comm, ← Nat.mul_add_lt_is_or ho]
  have hword : u32 ((l - 1) <<< 12) ||| o = 2 ^ 12 * (l - 1) + o := by
    have : u32 ((l - 1) <<< 12) = 2 ^ 12 * (l - 1) := by
      simp only [u32, Nat.shiftLeft_eq]; omega
    rw [this, ← Nat.mul_add_lt_is_or ho]
  have hu : u32 (2 ^ 12 * (l - 1) + o) = 2 ^ 12 * (l - 1) + o := by
    simp only [u32]; omega
  refine ⟨?_, ?_, ?_⟩
  · simp only [patch_encode, hsub]
    by_cases hs : o < 256 ∧ l - 1 < 128
    · rw [if_pos hs, if_pos hs, int_to_byte_BE_1, int_to_byte_BE_1]
      have h1 : u32 (l - 1) = l - 1 := by simp only [u32]; omega
      have h2 : u32 o = o := by simp only [u32]; omega
      rw [h1, h2]
      rfl
    · rw [if_neg hs, if_neg hs]
      have m1 : (0xFF0000 : Nat) = (2 ^ 8 - 1) <<< 16 := by norm_num [Nat.shiftLeft_eq]
      have m2 : (0xFFFF : Nat) = 2 ^ 16 - 1 := by norm_num
      have hhi : (2 ^ 12 * (l - 1) + o) / 2 ^ 16 % 2 ^ 8 < 128 := by omega
      have hhi2 : (2 ^ 12 * (l - 1) + o) / 2 ^ 16 < 128 := by omega
      rw [hword, hw, m1, m2, and_shift_mask, Nat.and_pow_two_sub_one_eq_mod,
        or_128_of_lt _ hhi, Nat.shiftRight_eq_div_pow, or_128_of_lt _ hhi2,
        int_to_byte_BE_1, int_to_byte_BE_2]
      simp only [List.cons_append, List.nil_append, List.cons.injEq, and_true]
      refine ⟨?_, ?_, ?_⟩ <;> apply Fin.ext <;>
        simp only [toByte_val, u32, Nat.shiftRight_eq_div_pow] <;> omega
  · rw [hw]
    simp only [int_to_byte_BE, hu]
    rfl
  · rw [hw, Nat.shiftRight_eq_div_pow]
    omega

/-- Claim C31 at the offset 300 and the length 5 (long form, `w = 0x412C`) and at the
offset 5 and the length 1 (short form). -/
theorem patch_encode_format_witness :
    patch_encode 300 5 = [0x80, 0x41, 0x2C] ∧ patch_encode 5 1 = [0, 5]
      ∧ patch_encode 300 5
        = (if 300 < 256 ∧ 5 - 1 < 128 then [toByte (5 - 1), toByte 300]
          else [toByte (((((5 - 1) <<< 12) ||| 300) >>> 16) ||| 128),
            toByte ((((5 - 1) <<< 12) ||| 300) >>> 8), toByte (((5 - 1) <<< 12) ||| 300)])
      ∧ int_to_byte_BE (((5 - 1) <<< 12) ||| 300) 3
        = [toByte ((((5 - 1) <<< 12) ||| 300) >>> 16), toByte ((((5 - 1) <<< 12) ||| 300) >>> 8),
            toByte (((5 - 1) <<< 12) ||| 300)]
      ∧ (((5 - 1) <<< 12) ||| 300) >>> 16 < 128 :=
  ⟨by decide, by decide, patch_encode_format 300 5 (by decide) (by decide) (by decide)⟩

/-- What `decode_patch` returns, when it returns: a size between 1 and 2048 and an
offset below 4096. -/
theorem decode_patch_ok (fp fp' : istream) (size offset : Nat)
    (h : decode_patch fp = .ok ((size, offset), fp')) :
    1 ≤ size ∧ size ≤ 2048 ∧ offset < 4096 := by
  obtain ⟨buf, failbit⟩ := fp
  cases failbit with
  | true => simp [decode_patch, read_num_LE, read_num_LE_loop, istream.get, bind,
      Except.bind] at h
  | false =>
    match buf, h with
    | [], h =>
      simp [decode_patch, read_num_LE, read_num_LE_loop, istream.get, bind, Except.bind] at h
    | [b0], h =>
      simp [decode_patch, read_num_LE, read_num_LE_loop, istream.get, bind, Except.bind] at h
    | [b0, b1], h =>
      by_cases hb : b0.val < 128
      · rw [decode_patch_short b0 b1 hb []] at h
        injection h with h
        injection h with h _
        injection h with h1 h2
        have := b1.isLt
        omega
      · have e := and_128_of_ge (b0.val - 128) (by have := b0.isLt; omega)
        have e' : b0.val - 128 + 128 = b0.val := by omega
        rw [e'] at e
        simp [decode_patch, read_num_LE_1, bind, Except.bind, e.1, read_num_LE,
          read_num_LE_loop, istream.get] at h
        rw [Nat.mod_eq_of_lt (by have := b0.isLt; omega), e.1] at h
        simp at h
    | b0 :: b1 :: b2 :: rest, h =>
      have hb0 := b0.isLt
      have hb1 := b1.isLt
      have hb2 := b2.isLt
      by_cases hb : b0.val < 128
      · rw [decode_patch_short b0 b1 hb (b2 :: rest)] at h
        injection h with h
        injection h with h _
        injection h with h1 h2
        omega
      · rw [decode_patch_long b0 b1 b2 (by omega) rest _ rfl] at h
        injection h with h
        injection h with h _
        injection h with h1 h2
        omega

theorem read_num_LE_loop_error :
    ∀ (k i : Nat) (c : Option Byte) (number : Nat) (s : istream) (e : Fault),
      read_num_LE_loop k i c number s = .error e → e = .undefined
  | 0, _, _, _, _, _, h => by simp [read_num_LE_loop] at h
  | k + 1, i, c, number, s, e, h => by
    unfold read_num_LE_loop at h
    split at h
    · injection h with h
      exact h.symm
    · exact read_num_LE_loop_error k _ _ _ _ e h

theorem read_num_LE_error (s : istream) (k : Nat) (e : Fault)
    (h : read_num_LE s k = .error e) : e = .undefined :=
  read_num_LE_loop_error k 0 none 0 s e h

theorem istream_read_error (s : istream) (old : Option (List Byte)) (n : Nat) (e : Fault)
    (h : s.read old n = .error e) : e = .undefined := by
  unfold istream.read at h
  split at h
  · split at h
    · split at h
      · exact absurd h (by simp)
      · injection h with h; exact h.symm
    · exact absurd h (by simp)
  · split at h
    · exact absurd h (by simp)
    · split at h
      · injection h with h; exact h.symm
      · exact absurd h (by simp)

theorem decode_patch_error (fp : istream) (e : Fault) (h : decode_patch fp = .error e) :
    e = .undefined := by
  unfold decode_patch at h
  simp only [bind, Except.bind] at h
  cases h1 : read_num_LE fp 1 with
  | error e1 =>
    rw [h1] at h
    injection h with h
    rw [← h]
    exact read_num_LE_error fp 1 e1 h1
  | ok v1 =>
    rw [h1] at h
    dsimp only at h
    cases h2 : read_num_LE v1.2 1 with
    | error e2 =>
      rw [h2] at h
      injection h with h
      rw [← h]
      exact read_num_LE_error _ 1 e2 h2
    | ok v2 =>
      rw [h2] at h
      dsimp only at h
      split at h
      · cases h3 : read_num_LE v2.2 1 with
        | error e3 =>
          rw [h3] at h
          injection h with h
          rw [← h]
          exact read_num_LE_error _ 1 e3 h3
        | ok v3 =>
          rw [h3] at h
          exact absurd h (by simp [pure, Except.pure])
      · exact absurd h (by simp [pure, Except.pure])

/-- The `assert` of `parse_diff` never fires. -/
theorem parse_diff_loop_not_aborted :
    ∀ (k : Nat) (diff : List Patch) (fp : istream),
      parse_diff_loop k diff fp ≠ .error .aborted
  | 0, _, _ => by simp [parse_diff_loop]
  | k + 1, diff, fp => by
    unfold parse_diff_loop
    simp only [bind, Except.bind]
    cases h1 : decode_patch fp with
    | error e =>
      have := decode_patch_error fp e h1
      subst this
      simp
    | ok v =>
      obtain ⟨⟨size, offset⟩, fp'⟩ := v
      have hb := decode_patch_ok fp fp' size offset h1
      dsimp only
      rw [if_neg (by omega)]
      cases h2 : fp'.read none size with
      | error e =>
        have := istream_read_error fp' none size e h2
        subst this
        simp
      | ok v2 =>
        dsimp only
        exact parse_diff_loop_not_aborted k _ _

/-- Claim C39: on every input of at least three bytes `decode_patch` returns a size
between 1 and 2048 and an offset below 4096; whenever it returns, on any input,
these bounds hold; so the assertion `size <= 2048` of `parse_diff` holds on every
input (`parse_diff` never aborts) and a patch fits the read buffer of 2048 bytes. -/
theorem decode_patch_bounds :
    (∀ (b0 b1 b2 : Byte) (rest : List Byte), ∃ (size offset : Nat) (fp' : istream),
        decode_patch ⟨b0 :: b1 :: b2 :: rest, false⟩ = .ok ((size, offset), fp')
          ∧ 1 ≤ size ∧ size ≤ 2048 ∧ offset < 4096)
      ∧ (∀ (fp fp' : istream) (size offset : Nat),
        decode_patch fp = .ok ((size, offset), fp') → 1 ≤ size ∧ size ≤ 2048 ∧ offset < 4096)
      ∧ (∀ (fp : istream), parse_diff fp ≠ .error .aborted) := by
  refine ⟨?_, decode_patch_ok, ?_⟩
  · intro b0 b1 b2 rest
    by_cases hb : b0.val < 128
    · exact ⟨_, _, _, decode_patch_short b0 b1 hb (b2 :: rest),
        decode_patch_ok _ _ _ _ (decode_patch_short b0 b1 hb (b2 :: rest))⟩
    · exact ⟨_, _, _, decode_patch_long b0 b1 b2 (by omega) rest _ rfl,
        decode_patch_ok _ _ _ _ (decode_patch_long b0 b1 b2 (by omega) rest _ rfl)⟩
  · intro fp
    unfold parse_diff
    simp only [bind, Except.bind]
    cases h1 : read_num_LE fp 2 with
    | error e =>
      have := read_num_LE_error fp 2 e h1
      subst this
      simp
    | ok v => exact parse_diff_loop_not_aborted _ _ _

/-! ### The size code read by parse_interval (claim C40) -/

/-- Claim C40: for every 4-byte word `w` that `parse_interval` reads, the decoded size is
0, 1, 2 or 4 (`interval_width` of the two bits 29-30 of `w`): with the size 0 the
interval is `[left, left]`, else `right` is `left` plus the next 1, 2 or 4 bytes.
The branch for an invalid size is not taken; `left` and `right` are assigned
whenever the bytes of `r - l` are there. -/
theorem parse_interval_size (b0 b1 b2 b3 : Byte) (rest : List Byte) :
    parse_interval ⟨b0 :: b1 :: b2 :: b3 :: rest, false⟩
        = (if (b0.val + b1.val * 2 ^ 8 + b2.val * 2 ^ 16 + b3.val * 2 ^ 24) / 2 ^ 29 % 4 = 0 then
            .ok ((decide ((b0.val + b1.val * 2 ^ 8 + b2.val * 2 ^ 16 + b3.val * 2 ^ 24)
                / 2 ^ 29 / 4 = 1),
              (b0.val + b1.val * 2 ^ 8 + b2.val * 2 ^ 16 + b3.val * 2 ^ 24) % 2 ^ 29,
              (b0.val + b1.val * 2 ^ 8 + b2.val * 2 ^ 16 + b3.val * 2 ^ 24) % 2 ^ 29),
              ⟨rest, false⟩)
          else (read_num_LE ⟨rest, false⟩ (interval_width
              ((b0.val + b1.val * 2 ^ 8 + b2.val * 2 ^ 16 + b3.val * 2 ^ 24) / 2 ^ 29 % 4))).bind
            (fun r => .ok ((decide ((b0.val + b1.val * 2 ^ 8 + b2.val * 2 ^ 16
                + b3.val * 2 ^ 24) / 2 ^ 29 / 4 = 1),
              (b0.val + b1.val * 2 ^ 8 + b2.val * 2 ^ 16 + b3.val * 2 ^ 24) % 2 ^ 29,
              u32 ((b0.val + b1.val * 2 ^ 8 + b2.val * 2 ^ 16 + b3.val * 2 ^ 24) % 2 ^ 29
                + r.1)), r.2)))
      ∧ (interval_width ((b0.val + b1.val * 2 ^ 8 + b2.val * 2 ^ 16 + b3.val * 2 ^ 24)
            / 2 ^ 29 % 4) = 0
          ∨ interval_width ((b0.val + b1.val * 2 ^ 8 + b2.val * 2 ^ 16 + b3.val * 2 ^ 24)
            / 2 ^ 29 % 4) = 1
          ∨ interval_width ((b0.val + b1.val * 2 ^ 8 + b2.val * 2 ^ 16 + b3.val * 2 ^ 24)
            / 2 ^ 29 % 4) = 2
          ∨ interval_width ((b0.val + b1.val * 2 ^ 8 + b2.val * 2 ^ 16 + b3.val * 2 ^ 24)
            / 2 ^ 29 % 4) = 4) := by
  have hb0 := b0.isLt
  have hb1 := b1.isLt
  have hb2 := b2.isLt
  have hb3 := b3.isLt
  generalize hw : b0.val + b1.val * 2 ^ 8 + b2.val * 2 ^ 16 + b3.val * 2 ^ 24 = w
  have hw32 : w < 2 ^ 32 := by omega
  have hbytes : int_to_byte_LE (2 ^ 29 * (w / 2 ^ 29) + w % 2 ^ 29) 4 = [b0, b1, b2, b3] := by
    have : 2 ^ 29 * (w / 2 ^ 29) + w % 2 ^ 29 = w := Nat.div_add_mod w (2 ^ 29)
    rw [this, int_to_byte_LE_4]
    simp only [List.cons.injEq, and_true]
    refine ⟨?_, ?_, ?_, ?_⟩ <;> apply Fin.ext <;>
      simp only [toByte_val, Nat.shiftRight_eq_div_pow] <;> omega
  have key := parse_interval_word (w / 2 ^ 29) (w % 2 ^ 29) (by omega)
    (Nat.mod_lt _ (by decide)) rest
  rw [hbytes] at key
  have hwidth : ∀ t, t % 4 ≠ 0 → (if t % 4 = 3 then 4 else t % 4) = interval_width (t % 4) := by
    intro t ht
    unfold interval_width
    have : t % 4 = 1 ∨ t % 4 = 2 ∨ t % 4 = 3 := by omega
    rcases this with h | h | h <;> rw [h] <;> rfl
  constructor
  · simp only [List.cons_append, List.nil_append] at key
    rw [key]
    by_cases h0 : w / 2 ^ 29 % 4 = 0
    · rw [if_pos h0, if_pos h0]
    · rw [if_neg h0, if_neg h0, hwidth _ h0]
  · unfold interval_width
    split_ifs <;> simp

/-! ### The layout of a diff (claims C32 and C36) -/

theorem int_to_byte_LE_u32_2 (n : Nat) : int_to_byte_LE (u32 n) 2 = int_to_byte_LE n 2 := by
  simp only [int_to_byte_LE_2, u32, Nat.shiftRight_eq_div_pow, List.cons.injEq, and_true]
  refine ⟨?_, ?_⟩ <;> apply Fin.ext <;> simp only [toByte_val] <;> omega

theorem append_back_offsets :
    ∀ (ret : List Patch) (x : List Byte), ∀ p ∈ append_back ret x, ∃ q ∈ ret, q.1 = p.1
  | [], _, p, hp => by simp [append_back] at hp
  | [q], x, p, hp => by
    simp only [append_back, List.mem_singleton] at hp
    exact ⟨q, List.mem_singleton.mpr rfl, by rw [hp]⟩
  | q :: q2 :: r, x, p, hp => by
    simp only [append_back, List.mem_cons] at hp
    rcases hp with hp | hp
    · exact ⟨q, List.mem_cons_self _ _, by rw [hp]⟩
    · obtain ⟨q', hq', e⟩ := append_back_offsets (q2 :: r) x p (by simpa using hp)
      exact ⟨q', List.mem_cons_of_mem _ hq', e⟩

theorem generate_patches_step_offsets (i : Nat) (r d : Byte) (st : PatchScan)
    (hi : i < 2 ^ 32) (h : ∀ p ∈ st.ret, p.1 < 2 ^ 32) :
    ∀ p ∈ (generate_patches_step i r d st).ret, p.1 < 2 ^ 32 := by
  unfold generate_patches_step
  split
  · exact h
  · split
    · intro p hp
      obtain ⟨q, hq, e⟩ := append_back_offsets _ _ p hp
      rw [← e]
      exact h q hq
    · split
      · intro p hp
        simp only [List.mem_append, List.mem_singleton] at hp
        rcases hp with hp | hp
        · exact h p hp
        · rw [hp]; exact hi
      · intro p hp
        simp only [List.mem_append, List.mem_singleton] at hp
        rcases hp with hp | hp
        · exact h p hp
        · rw [hp]
          simp only [u32sub]
          exact Nat.mod_lt _ (by decide)

theorem generate_patches_scan_offsets :
    ∀ (rs ds : List Byte) (i : Nat) (st : PatchScan), i + rs.length ≤ 2 ^ 32 →
      (∀ p ∈ st.ret, p.1 < 2 ^ 32) →
      ∀ p ∈ (generate_patches_scan i rs ds st).ret, p.1 < 2 ^ 32
  | [], _, _, _, _, h => by simpa [generate_patches_scan] using h
  | r :: rs, [], i, st, hi, h => by
    simp only [List.length_cons] at hi
    simp only [generate_patches_scan]
    exact generate_patches_scan_offsets rs [] (i + 1) _ (by omega)
      (generate_patches_step_offsets i r 0 st (by omega) h)
  | r :: rs, d :: ds, i, st, hi, h => by
    simp only [List.length_cons] at hi
    simp only [generate_patches_scan]
    exact generate_patches_scan_offsets rs ds (i + 1) _ (by omega)
      (generate_patches_step_offsets i r d st (by omega) h)

theorem generate_patches_chunk_offsets :
    ∀ (ps : List Patch), (∀ p ∈ ps, p.1 < 2 ^ 32) →
      ∀ q ∈ generate_patches_chunk ps, q.1 < 2 ^ 32
  | [], _, q, hq => by simp [generate_patches_chunk] at hq
  | (o, b) :: ps, h, q, hq => by
    have ho : o < 2 ^ 32 := h (o, b) (List.mem_cons_self _ _)
    have ih := generate_patches_chunk_offsets ps (fun p hp => h p (List.mem_cons_of_mem _ hp))
    simp only [generate_patches_chunk] at hq
    split at hq
    · simp only [List.mem_cons] at hq
      rcases hq with hq | hq | hq
      · rw [hq]; exact ho
      · rw [hq]; exact Nat.pos_of_ne_zero (by decide)
      · exact ih q hq
    · simp only [List.mem_cons] at hq
      rcases hq with hq | hq
      · rw [hq]; exact ho
      · exact ih q hq

/-- The offsets of the patches of `generate_patches` are `uint32_t` values. -/
theorem generate_patches_offsets (R S : List Byte) :
    ∀ p ∈ generate_patches R S, p.1 < 2 ^ 32 := by
  unfold generate_patches
  apply generate_patches_chunk_offsets
  apply generate_patches_scan_offsets
  · rw [List.length_take, Nat.zero_add]
    have : u32 R.length < 2 ^ 32 := Nat.mod_lt _ (by decide)
    omega
  · simp

theorem create_diff_loop_eq :
    ∀ (ps : List Patch), (∀ p ∈ ps, p.1 < 2 ^ 32 ∧ p.2.length < 2 ^ 32) →
      create_diff_loop ps = ps.flatMap (fun p => patch_encode p.1 p.2.length ++ p.2)
  | [], _ => rfl
  | (o, b) :: ps, h => by
    obtain ⟨h1, h2⟩ := h (o, b) (List.mem_cons_self _ _)
    simp only at h1 h2
    have e1 : u32 o = o := by simp only [u32]; omega
    have e2 : u32 b.length = b.length := by simp only [u32]; omega
    simp only [create_diff_loop, List.flatMap_cons, e1, e2,
      create_diff_loop_eq ps (fun p hp => h p (List.mem_cons_of_mem _ hp))]

/-- Claim C32: for two pages of equal size, `create_diff` returns the number of the
patches of `generate_patches` in 2 little-endian bytes and then, for every patch in
order, its `patch_encode` header and its bytes. -/
theorem create_diff_layout (R S : List Byte) (hlen : R.length = S.length) :
    create_diff R S
      = int_to_byte_LE (generate_patches R S).length 2
        ++ (generate_patches R S).flatMap (fun p => patch_encode p.1 p.2.length ++ p.2) := by
  unfold create_diff
  dsimp only
  rw [int_to_byte_LE_u32_2, create_diff_loop_eq]
  intro p hp
  have := generate_patches_bounds R S hlen p hp
  exact ⟨generate_patches_offsets R S p hp, by omega⟩

/-- Claim C32 at `R = "ABCDEFGH"` and `S = "ABCDEXGH"`: the diff is `01 00 00 05 58`. -/
theorem create_diff_layout_witness :
    create_diff [65, 66, 67, 68, 69, 70, 71, 72] [65, 66, 67, 68, 69, 88, 71, 72]
        = [0x01, 0x00, 0x00, 0x05, 0x58]
      ∧ generate_patches [65, 66, 67, 68, 69, 70, 71, 72] [65, 66, 67, 68, 69, 88, 71, 72]
        = [(5, [0x58])]
      ∧ create_diff [65, 66, 67, 68, 69, 70, 71, 72] [65, 66, 67, 68, 69, 88, 71, 72]
        = int_to_byte_LE (generate_patches [65, 66, 67, 68, 69, 70, 71, 72]
            [65, 66, 67, 68, 69, 88, 71, 72]).length 2
          ++ (generate_patches [65, 66, 67, 68, 69, 70, 71, 72]
            [65, 66, 67, 68, 69, 88, 71, 72]).flatMap
              (fun p => patch_encode p.1 p.2.length ++ p.2) :=
  ⟨by decide, by decide,
    create_diff_layout [65, 66, 67, 68, 69, 70, 71, 72] [65, 66, 67, 68, 69, 88, 71, 72] rfl⟩

/-- Claim C36: for a page size `P` with `1 ≤ P ≤ 4096` and two pages `R` and `S` of `P`
bytes, every patch of `generate_patches` has an offset below `2^12` and between 1
and 2048 bytes, `parse_diff` reads `create_diff(R, S)` back as these patches, and
`apply_diff` of them on `R` is `S`. -/
theorem diff_roundtrip_bounds (P : Nat) (R S rest : List Byte) (hP1 : 1 ≤ P) (hP : P ≤ 4096)
    (hR : R.length = P) (hS : S.length = P) :
    (∀ p ∈ generate_patches R S, p.1 < 2 ^ 12 ∧ 1 ≤ p.2.length ∧ p.2.length ≤ 2048)
      ∧ parse_diff ⟨create_diff R S ++ rest, false⟩
          = .ok (generate_patches R S, ⟨rest, false⟩)
      ∧ apply_diff R (generate_patches R S) = .ok S := by
  have hlen : R.length = S.length := by rw [hR, hS]
  obtain ⟨h1, _, _, _⟩ := generate_patches_spec R S hlen (by omega)
  obtain ⟨h2, h3⟩ := diff_roundtrip R S rest hlen (by omega)
  exact ⟨fun p hp => ⟨(h1 p hp).2.2, (h1 p hp).1, (h1 p hp).2.1⟩, h2, h3⟩

/-- Claim C36 at the pages "ABCDEFGH" and "ABCDEXGH" of 8 bytes. -/
theorem diff_roundtrip_bounds_witness :
    (∀ p ∈ generate_patches [65, 66, 67, 68, 69, 70, 71, 72] [65, 66, 67, 68, 69, 88, 71, 72],
        p.1 < 2 ^ 12 ∧ 1 ≤ p.2.length ∧ p.2.length ≤ 2048)
      ∧ parse_diff ⟨create_diff [65, 66, 67, 68, 69, 70, 71, 72]
            [65, 66, 67, 68, 69, 88, 71, 72] ++ [9], false⟩
          = .ok (generate_patches [65, 66, 67, 68, 69, 70, 71, 72]
            [65, 66, 67, 68, 69, 88, 71, 72], ⟨[9], false⟩)
      ∧ apply_diff [65, 66, 67, 68, 69, 70, 71, 72]
          (generate_patches [65, 66, 67, 68, 69, 70, 71, 72] [65, 66, 67, 68, 69, 88, 71, 72])
        = .ok [65, 66, 67, 68, 69, 88, 71, 72] :=
  diff_roundtrip_bounds 8 [65, 66, 67, 68, 69, 70, 71, 72] [65, 66, 67, 68, 69, 88, 71, 72] [9]
    (by decide) (by decide) rfl rfl

/-! ### What apply_diff changes and what it keeps (claim C37) -/

/-- The bytes of a patch in the page that `patches_apply` builds. -/
theorem patches_apply_patch (post : List Patch) (o : Nat) (b : List Byte) :
    ∀ (pre : List Patch) (x : List Byte),
      patches_span (pre ++ (o, b) :: post) ≤ x.length →
      ∀ i, i < b.length →
        (patches_apply (pre ++ (o, b) :: post) x)[patches_span pre + o + i]? = b[i]?
  | [], x, h, i, hi => by
    simp only [List.nil_append, patches_span] at h
    simp only [List.nil_append, patches_apply, patches_span, Nat.zero_add]
    have htake : (x.take o).length = o := by rw [List.length_take]; omega
    rw [List.append_assoc, List.getElem?_append_right (by omega), htake,
      Nat.add_sub_cancel_left, List.getElem?_append_left hi]
  | (o', b') :: pre, x, h, i, hi => by
    simp only [List.cons_append, patches_span, List.append_eq] at h
    simp only [List.cons_append, patches_apply, patches_span, List.append_eq]
    have htake : (x.take o').length = o' := by rw [List.length_take]; omega
    have ih := patches_apply_patch post o b pre (x.drop (o' + b'.length))
      (by rw [List.length_drop]; omega) i hi
    rw [List.append_assoc, List.getElem?_append_right (by omega), htake,
      List.getElem?_append_right (by omega),
      show o' + b'.length + patches_span pre + o + i - o' - b'.length
        = patches_span pre + o + i by omega]
    exact ih

/-- The bytes outside the patches in the page that `patches_apply` builds. -/
theorem patches_apply_frame :
    ∀ (ps : List Patch) (x : List Byte), patches_span ps ≤ x.length → ∀ j,
      (∀ (pre post : List Patch) (o : Nat) (b : List Byte), ps = pre ++ (o, b) :: post →
        ¬ (patches_span pre + o ≤ j ∧ j < patches_span pre + o + b.length)) →
      (patches_apply ps x)[j]? = x[j]?
  | [], x, _, j, _ => rfl
  | (o, b) :: ps, x, h, j, hj => by
    simp only [patches_span] at h
    simp only [patches_apply]
    have htake : (x.take o).length = o := by rw [List.length_take]; omega
    have h0 := hj [] ps o b rfl
    simp only [patches_span, Nat.zero_add] at h0
    by_cases hlt : j < o
    · rw [List.append_assoc, List.getElem?_append_left (by omega),
        List.getElem?_take_of_lt hlt]
    · have hge : o + b.length ≤ j := by omega
      have ih := patches_apply_frame ps (x.drop (o + b.length))
        (by rw [List.length_drop]; omega) (j - (o + b.length))
        (fun pre post o2 b2 hps => by
          have := hj ((o, b) :: pre) post o2 b2 (by rw [hps]; rfl)
          simp only [patches_span] at this
          omega)
      rw [List.getElem?_append_right (by rw [List.length_append, htake]; omega),
        List.length_append, htake, ih, List.getElem?_drop]
      congr 1
      omega

/-- Claim C37: for a reference page (of less than `2^32` bytes) and a diff whose patches
stay inside the page (the offsets and lengths add up to at most the page size),
`apply_diff` returns a page of the same length that holds the byte of the patch at
every index covered by a patch and the byte of the reference page at every other
index. -/
theorem apply_diff_frame (refpage : List Byte) (diff : List Patch)
    (hin : patches_span diff ≤ refpage.length) (hlen : refpage.length < 2 ^ 32) :
    ∃ page, apply_diff refpage diff = .ok page ∧ page.length = refpage.length
      ∧ (∀ (pre post : List Patch) (o : Nat) (b : List Byte), diff = pre ++ (o, b) :: post →
          ∀ i, i < b.length → page[patches_span pre + o + i]? = b[i]?)
      ∧ (∀ j, (∀ (pre post : List Patch) (o : Nat) (b : List Byte),
            diff = pre ++ (o, b) :: post →
            ¬ (patches_span pre + o ≤ j ∧ j < patches_span pre + o + b.length)) →
          page[j]? = refpage[j]?) := by
  have h := apply_diff_loop_eq diff 0 refpage (by omega) hlen
  simp only [List.take_zero, List.nil_append, List.drop_zero] at h
  refine ⟨patches_apply diff refpage, h, patches_apply_length diff refpage hin, ?_, ?_⟩
  · intro pre post o b hd i hi
    subst hd
    exact patches_apply_patch post o b pre refpage hin i hi
  · intro j hj
    exact patches_apply_frame diff refpage hin j hj

/-- Claim C37 at the page "ABCDEFGH" and the patches `(1, "xy")` and `(2, "z")`: the
result is "AxyDEzGH". -/
theorem apply_diff_frame_witness :
    apply_diff [65, 66, 67, 68, 69, 70, 71, 72] [(1, [120, 121]), (2, [122])]
        = .ok [65, 120, 121, 68, 69, 122, 71, 72]
      ∧ ∃ page, apply_diff [65, 66, 67, 68, 69, 70, 71, 72] [(1, [120, 121]), (2, [122])]
          = .ok page
        ∧ page.length = ([65, 66, 67, 68, 69, 70, 71, 72] : List Byte).length
        ∧ (∀ (pre post : List Patch) (o : Nat) (b : List Byte),
            [(1, [120, 121]), (2, [122])] = pre ++ (o, b) :: post →
            ∀ i, i < b.length → page[patches_span pre + o + i]? = b[i]?)
        ∧ (∀ j, (∀ (pre post : List Patch) (o : Nat) (b : List Byte),
              [(1, [120, 121]), (2, [122])] = pre ++ (o, b) :: post →
              ¬ (patches_span pre + o ≤ j ∧ j < patches_span pre + o + b.length)) →
            page[j]? = ([65, 66, 67, 68, 69, 70, 71, 72] : List Byte)[j]?) :=
  ⟨by rfl, apply_diff_frame [65, 66, 67, 68, 69, 70, 71, 72] [(1, [120, 121]), (2, [122])]
    (by decide) (by decide)⟩

/-! ### The map from page numbers to pages (claim C35) -/

theorem pages_getElem?_flatten (P : Nat) :
    ∀ (pages : Pages), (∀ pg ∈ pages, pg.length = P) → ∀ k, k < pages.length →
      pages[k]? = some ((pages.flatten.drop (k * P)).take P)
  | [], _, k, hk => by simp at hk
  | pg :: pages, h, 0, _ => by
    have h1 : pg.length = P := h pg (List.mem_cons_self _ _)
    simp only [List.getElem?_cons_zero, Nat.zero_mul, List.drop_zero, List.flatten_cons]
    rw [← h1, List.take_left]
  | pg :: pages, h, k + 1, hk => by
    have h1 : pg.length = P := h pg (List.mem_cons_self _ _)
    simp only [List.length_cons] at hk
    have ih := pages_getElem?_flatten P pages (fun q hq => h q (List.mem_cons_of_mem _ hq)) k
      (by omega)
    simp only [List.getElem?_cons_succ, List.flatten_cons]
    rw [ih, show (k + 1) * P = pg.length + k * P by rw [h1, Nat.add_mul, Nat.one_mul,
      Nat.add_comm], ← List.drop_drop, List.drop_left]

theorem getNumToPage_twice (d : memdump) (h : d.num_to_page_ = []) :
    d.getNumToPage.2.getNumToPage.1 = d.getNumToPage.1 := by
  unfold memdump.getNumToPage
  rw [h]
  simp only [List.isEmpty_nil, if_true]
  cases hm : num_to_page_build d.page_map_ [] with
  | nil => simp [hm]
  | cons a l => simp

/-- Claim C35: after `readDumpfile` has loaded a file of `n * P` bytes (`P ≥ 1`,
`n < 2^32`), `getNumToPage` maps every page number `k < n` to the bytes
`[k * P, (k + 1) * P)` of the file and has no other key, and a second call returns
the same map. -/
theorem getNumToPage_file (path : List Byte) (P n : Nat) (file : List Byte) (hP : 1 ≤ P)
    (hn : n < 2 ^ 32) (hfile : file.length = n * P) :
    ∃ d, (memdump.new path).readDumpfile (some file) P = .ok (0, d)
      ∧ (∀ k, map_find d.getNumToPage.1 k
          = if k < n then some ((file.drop (k * P)).take P) else none)
      ∧ d.getNumToPage.2.getNumToPage.1 = d.getNumToPage.1 := by
  obtain ⟨pages, tail, h1, h2, h3, h4⟩ := exists_pages_tail P hP file.length file rfl
  have hcount : pages.length = n := by
    rw [h4, hfile, Nat.mul_div_cancel _ (by omega)]
  have hflat := flatten_length_of_pages P pages h2
  have htail : tail = [] := by
    apply List.eq_nil_of_length_eq_zero
    have : file.length = pages.flatten.length + tail.length := by
      conv_lhs => rw [h1]
      rw [List.length_append]
    rw [hflat, hcount, hfile] at this
    omega
  rw [htail, List.append_nil] at h1
  obtain ⟨d, hd1, _, hd3⟩ := readDumpfile_holds path P pages hP h2 (by omega)
  rw [← h1] at hd1
  refine ⟨d, hd1, ?_, getNumToPage_twice d hd3.1⟩
  intro k
  rw [map_find_getNumToPage d pages hd3 k]
  by_cases hk : k < n
  · rw [if_pos hk, pages_getElem?_flatten P pages h2 k (by omega), h1]
  · rw [if_neg hk]
    exact List.getElem?_eq_none (by omega)

/-- Claim C35 at a file of 3 pages of 2 bytes. -/
theorem getNumToPage_file_witness :
    1 ≤ 2 ∧ 3 < 2 ^ 32 ∧ ([1, 2, 3, 4, 1, 2] : List Byte).length = 3 * 2
      ∧ ∃ d, (memdump.new [114]).readDumpfile (some [1, 2, 3, 4, 1, 2]) 2 = .ok (0, d)
        ∧ (∀ k, map_find d.getNumToPage.1 k
            = if k < 3 then some ((([1, 2, 3, 4, 1, 2] : List Byte).drop (k * 2)).take 2)
              else none)
        ∧ d.getNumToPage.2.getNumToPage.1 = d.getNumToPage.1 :=
  ⟨by decide, by decide, by decide,
    getNumToPage_file [114] 2 3 [1, 2, 3, 4, 1, 2] (by decide) (by decide) (by decide)⟩

/-! ### Diffed pages and new pages (claim C33) -/

/-- Claim C33: with diffing enabled, a source page number `p` whose content `c` does
not occur in `R` is recorded in `diffs` if and only if `create_diff(R[p], c)` is
shorter than `P` bytes; then `diffs[p]` is that diff and `p` is not recorded as a
new page.  Every other such page number is recorded as new: in `same_newpages`
under its content when intra is on (and `new_pages` stays empty), in `new_pages`
with its content otherwise. -/
theorem diff_or_new (P : Nat) (R S : Pages) (ref src : memdump) (intra : Bool)
    (hR : ref.Holds R) (hS : src.Holds S) (p : Nat) (c : List Byte)
    (hc : S[p]? = some c) (hnot : c ∉ R) :
    ((compress_classify P ref src true intra).InDiffs p
        ↔ (create_diff (R.getD p []) c).length < P)
      ∧ ((compress_classify P ref src true intra).InDiffs p →
          map_find (compress_classify P ref src true intra).diffs p
              = some (create_diff (R.getD p []) c)
            ∧ ¬ (compress_classify P ref src true intra).InNew p)
      ∧ (¬ (compress_classify P ref src true intra).InDiffs p →
          (compress_classify P ref src true intra).InNew p
            ∧ (intra = true →
                (∃ nums, (c, nums) ∈ (compress_classify P ref src true intra).same_newpages
                  ∧ p ∈ nums)
                ∧ (compress_classify P ref src true intra).new_pages = [])
            ∧ (intra = false →
                map_find (compress_classify P ref src true intra).new_pages p = some c)) := by
  have hD := inDiffs_iff true intra P R S ref src hR hS p
  have hN := inNew_iff true intra P R S ref src hR hS p
  have hDi : (compress_classify P ref src true intra).InDiffs p
      ↔ (create_diff (R.getD p []) c).length < P := by
    rw [hD]
    constructor
    · rintro ⟨c', h1, _, _, h4⟩
      rw [hc] at h1
      injection h1 with h1
      rw [h1]
      exact h4
    · intro h
      exact ⟨c, hc, hnot, rfl, h⟩
  refine ⟨hDi, ?_, ?_⟩
  · intro hin
    have hshort := hDi.mp hin
    refine ⟨?_, ?_⟩
    · exact ((classify_diffs true intra P R S ref src hR hS).2.2 p _).mpr
        ⟨c, hc, hnot, ⟨rfl, hshort⟩, rfl⟩
    · rw [hN]
      rintro ⟨c', h1, _, h3⟩
      rw [hc] at h1
      injection h1 with h1
      rw [← h1] at h3
      exact h3 ⟨rfl, hshort⟩
  · intro hnin
    have hlong : ¬ (true = true ∧ (create_diff (R.getD p []) c).length < P) :=
      fun h => hnin (hDi.mpr h.2)
    refine ⟨hN.mpr ⟨c, hc, hnot, hlong⟩, ?_, ?_⟩
    · intro hi
      subst hi
      obtain ⟨_, k2, _, _, k5⟩ := classify_same_newpages true P R S ref src hR hS
      exact ⟨(k5 c p).mpr ⟨hc, hnot, hlong⟩, k2⟩
    · intro hi
      subst hi
      obtain ⟨_, _, k3, _⟩ := classify_new_pages true P R S ref src hR hS
      exact (k3 p c).mpr ⟨hc, hnot, hlong⟩

/-! ### Termination of the body parsing (claim C38) -/

theorem read_num_LE_loop_buf :
    ∀ (k i : Nat) (c : Option Byte) (number : Nat) (s s' : istream) (v : Nat),
      read_num_LE_loop k i c number s = .ok (v, s') → s'.buf.length ≤ s.buf.length
  | 0, _, _, _, s, s', v, h => by
    simp only [read_num_LE_loop, Except.ok.injEq, Prod.mk.injEq] at h
    rw [h.2]
  | k + 1, i, c, number, s, s', v, h => by
    unfold read_num_LE_loop at h
    split at h
    · exact absurd h (by simp)
    · rename_i b s1 hget
      have ih := read_num_LE_loop_buf k _ _ _ _ _ _ h
      have h1 : s1.buf.length ≤ s.buf.length := by
        unfold istream.get at hget
        split at hget
        · simp only [Prod.mk.injEq] at hget
          rw [← hget.2]
        · split at hget
          · simp only [Prod.mk.injEq] at hget
            rw [← hget.2]
            exact Nat.zero_le _
          · rename_i b0 r hb
            simp only [Prod.mk.injEq] at hget
            rw [← hget.2, hb]
            exact Nat.le_succ _
      omega

/-- A successful `read_num_LE` of at least one byte has consumed a byte. -/
theorem read_num_LE_consumes (s s' : istream) (k v : Nat)
    (h : read_num_LE s (k + 1) = .ok (v, s')) : s'.buf.length < s.buf.length := by
  unfold read_num_LE read_num_LE_loop at h
  split at h
  · exact absurd h (by simp)
  · rename_i b s1 hget
    have ih := read_num_LE_loop_buf k _ _ _ _ _ _ h
    have h1 : s1.buf.length < s.buf.length := by
      unfold istream.get at hget
      split at hget
      · simp at hget
      · split at hget
        · simp at hget
        · rename_i b0 r hb
          simp only [Prod.mk.injEq] at hget
          rw [← hget.2, hb]
          exact Nat.lt_succ_self _
    omega

theorem parse_interval_error (fp : istream) (e : Fault) (h : parse_interval fp = .error e) :
    e = .undefined := by
  unfold parse_interval at h
  simp only [bind, Except.bind] at h
  cases h1 : read_num_LE fp 4 with
  | error e1 =>
    rw [h1] at h
    injection h with h
    rw [← h]
    exact read_num_LE_error fp 4 e1 h1
  | ok v1 =>
    rw [h1] at h
    dsimp only at h
    generalize (if (v1.1 &&& 7 <<< 29) >>> 29 &&& 3 = 3 then 4
      else (v1.1 &&& 7 <<< 29) >>> 29 &&& 3) = sz at h
    by_cases h0 : sz = 0
    · rw [if_pos h0] at h
      exact absurd h (by simp [pure, Except.pure])
    · rw [if_neg h0] at h
      by_cases h3 : sz = 1 ∨ sz = 2 ∨ sz = 4
      · rw [if_pos h3] at h
        cases h2 : read_num_LE v1.2 sz with
        | error e2 =>
          rw [h2] at h
          injection h with h
          rw [← h]
          exact read_num_LE_error _ _ e2 h2
        | ok v2 =>
          rw [h2] at h
          exact absurd h (by simp [pure, Except.pure])
      · rw [if_neg h3] at h
        injection h with h
        exact h.symm

theorem parse_interval_consumes (fp fp' : istream) (r : Bool × Nat × Nat)
    (h : parse_interval fp = .ok (r, fp')) : fp'.buf.length < fp.buf.length := by
  unfold parse_interval at h
  simp only [bind, Except.bind] at h
  cases h1 : read_num_LE fp 4 with
  | error e1 =>
    rw [h1] at h
    exact absurd h (by simp)
  | ok v1 =>
    obtain ⟨w, s1⟩ := v1
    have c1 := read_num_LE_consumes fp s1 3 w h1
    rw [h1] at h
    dsimp only at h
    generalize (if (w &&& 7 <<< 29) >>> 29 &&& 3 = 3 then 4
      else (w &&& 7 <<< 29) >>> 29 &&& 3) = sz at h
    by_cases h0 : sz = 0
    · rw [if_pos h0] at h
      simp only [pure, Except.pure, Except.ok.injEq, Prod.mk.injEq] at h
      rw [← h.2]
      exact c1
    · rw [if_neg h0] at h
      by_cases h3 : sz = 1 ∨ sz = 2 ∨ sz = 4
      · rw [if_pos h3] at h
        cases h2 : read_num_LE s1 sz with
        | error e2 =>
          rw [h2] at h
          exact absurd h (by simp)
        | ok v2 =>
          obtain ⟨dl, s2⟩ := v2
          have c2 := read_num_LE_loop_buf _ _ _ _ _ _ _ h2
          rw [h2] at h
          simp only [pure, Except.pure, Except.ok.injEq, Prod.mk.injEq] at h
          rw [← h.2]
          omega
      · rw [if_neg h3] at h
        exact absurd h (by simp)

/-- The fuel of `parse_interval_list` is never used up. -/
theorem parse_interval_list_loop_fuel :
    ∀ (fuel : Nat) (intervals : List (Nat × Nat)) (fp : istream), fp.buf.length < fuel →
      parse_interval_list_loop fuel intervals fp ≠ .error .diverges
  | 0, _, _, h => by omega
  | fuel + 1, intervals, fp, h => by
    unfold parse_interval_list_loop
    simp only [bind, Except.bind]
    cases h1 : parse_interval fp with
    | error e =>
      have := parse_interval_error fp e h1
      subst this
      simp
    | ok v =>
      obtain ⟨⟨last, left, right⟩, fp'⟩ := v
      have c := parse_interval_consumes fp fp' _ h1
      dsimp only
      cases last with
      | true => simp [pure, Except.pure]
      | false =>
        simp only [Bool.false_eq_true, if_false]
        exact parse_interval_list_loop_fuel fuel _ fp' (by omega)

theorem parse_pagenr_list_loop_error :
    ∀ (k : Nat) (first : Bool) (prev : Nat) (l : List Nat) (fp : istream) (e : Fault),
      parse_pagenr_list_loop k first prev l fp = .error e → e = .undefined
  | 0, _, _, _, _, _, h => by simp [parse_pagenr_list_loop] at h
  | k + 1, first, prev, l, fp, e, h => by
    unfold parse_pagenr_list_loop at h
    simp only [bind, Except.bind] at h
    cases h1 : read_num_LE fp 1 with
    | error e1 =>
      rw [h1] at h
      injection h with h
      rw [← h]
      exact read_num_LE_error fp 1 e1 h1
    | ok v1 =>
      rw [h1] at h
      dsimp only at h
      split at h
      · exact parse_pagenr_list_loop_error k _ _ _ _ e h
      · cases h2 : read_num_LE v1.2 1 with
        | error e2 =>
          rw [h2] at h
          injection h with h
          rw [← h]
          exact read_num_LE_error _ 1 e2 h2
        | ok v2 =>
          rw [h2] at h
          dsimp only at h
          cases h3 : read_num_LE v2.2 1 with
          | error e3 =>
            rw [h3] at h
            injection h with h
            rw [← h]
            exact read_num_LE_error _ 1 e3 h3
          | ok v3 =>
            rw [h3] at h
            dsimp only at h
            cases h4 : read_num_LE v3.2 1 with
            | error e4 =>
              rw [h4] at h
              injection h with h
              rw [← h]
              exact read_num_LE_error _ 1 e4 h4
            | ok v4 =>
              rw [h4] at h
              exact parse_pagenr_list_loop_error k _ _ _ _ e h

theorem parse_diff_loop_error :
    ∀ (k : Nat) (diff : List Patch) (fp : istream) (e : Fault),
      parse_diff_loop k diff fp = .error e → e = .undefined
  | 0, _, _, _, h => by simp [parse_diff_loop] at h
  | k + 1, diff, fp, e, h => by
    unfold parse_diff_loop at h
    simp only [bind, Except.bind] at h
    cases h1 : decode_patch fp with
    | error e1 =>
      rw [h1] at h
      injection h with h
      rw [← h]
      exact decode_patch_error fp e1 h1
    | ok v =>
      obtain ⟨⟨size, offset⟩, fp'⟩ := v
      have hb := decode_patch_ok fp fp' size offset h1
      rw [h1] at h
      dsimp only at h
      rw [if_neg (by omega)] at h
      cases h2 : fp'.read none size with
      | error e2 =>
        rw [h2] at h
        injection h with h
        rw [← h]
        exact istream_read_error fp' none size e2 h2
      | ok v2 =>
        rw [h2] at h
        exact parse_diff_loop_error k _ _ e h

/-- Claim C38 fails on the body `exWrapBody`: its interval list is parsed as
`[0, 2^32 - 1]`, and the loop `for (uint32_t pagenr = left; pagenr <= right; ++pagenr)`
that unfolds this interval never ends, since `pagenr <= 0xFFFFFFFF` holds for every
`uint32_t`; the body parsing does not return, whatever the page size and the
flags.  The three parsers themselves never loop: `parse_interval_list` consumes a
byte in every iteration, `parse_pagenr_list` and `parse_diff` run a counted loop. -/
theorem body_parsing_wraps :
    parse_pagenr_list ⟨[1, 0, 0, 0, 128] ++ [0, 0, 0, 224, 255, 255, 255, 255], false⟩
        = .ok ([0], ⟨[0, 0, 0, 224, 255, 255, 255, 255], false⟩)
      ∧ parse_interval_list ⟨[0, 0, 0, 224, 255, 255, 255, 255], false⟩
        = .ok ([(0, 2 ^ 32 - 1)], ⟨[], false⟩)
      ∧ fill_intervals 0 [(0, 2 ^ 32 - 1)] [] = .error .diverges
      ∧ (∀ (pagesize : Nat) (intra_used diffing : Bool),
          parse_body pagesize intra_used diffing ⟨exWrapBody, false⟩ = .error .diverges)
      ∧ (∀ fp, parse_interval_list fp ≠ .error .diverges)
      ∧ (∀ fp, parse_pagenr_list fp ≠ .error .diverges)
      ∧ (∀ fp, parse_diff fp ≠ .error .diverges) := by
  refine ⟨by rfl, by rfl, by rfl, ?_, ?_, ?_, ?_⟩
  · intro pagesize intra_used diffing
    rfl
  · intro fp
    exact parse_interval_list_loop_fuel _ _ fp (Nat.lt_succ_self _)
  · intro fp h
    unfold parse_pagenr_list at h
    simp only [bind, Except.bind] at h
    cases h1 : read_num_LE fp 4 with
    | error e1 =>
      rw [h1] at h
      injection h with h
      have := read_num_LE_error fp 4 e1 h1
      rw [h] at this
      exact absurd this (by decide)
    | ok v =>
      rw [h1] at h
      exact absurd (parse_pagenr_list_loop_error _ _ _ _ _ _ h) (by decide)
  · intro fp h
    unfold parse_diff at h
    simp only [bind, Except.bind] at h
    cases h1 : read_num_LE fp 2 with
    | error e1 =>
      rw [h1] at h
      injection h with h
      have := read_num_LE_error fp 2 e1 h1
      rw [h] at this
      exact absurd this (by decide)
    | ok v =>
      rw [h1] at h
      exact absurd (parse_diff_loop_error _ _ _ _ h) (by decide)

/-! ### The section of the new pages with intra-deduplication (claim C34) -/

theorem exMixRef_holds : exMixRef.Holds exMixR :=
  holds_of_readDumpfile [114] 8 exMixR exMixRef (by decide) (by decide) (by decide) (by rfl)

theorem exMixSrc_holds : exMixSrc.Holds exMixS :=
  holds_of_readDumpfile [115] 8 exMixS exMixSrc (by decide) (by decide) (by decide) (by rfl)

theorem exIntraRef_holds : exIntraRef.Holds exIntraR :=
  holds_of_readDumpfile [114] 2 exIntraR exIntraRef (by decide) (by decide) (by decide) (by rfl)

theorem exIntraSrc_holds : exIntraSrc.Holds exIntraS :=
  holds_of_readDumpfile [115] 2 exIntraS exIntraSrc (by decide) (by decide) (by decide) (by rfl)

theorem write_intra_intervals_eq (snp : List (List Byte × List Nat)) :
    ∀ (keys : List (List Byte)), write_intra_intervals snp keys
      = (keys.map (fun c => (create_interval_list (intervalize (map_get snp c []))).flatten)).flatten
  | [] => rfl
  | c :: keys => by
    simp only [write_intra_intervals, List.map_cons, List.flatten_cons,
      write_intra_intervals_eq snp keys]

/-- The keys of `same_newpages` and their sets of page numbers, for dumps of at most
`2^29` pages. -/
theorem same_newpages_keys (P : Nat) (R S : Pages) (ref src : memdump) (diffing : Bool)
    (hR : ref.Holds R) (hS : src.Holds S) (hlen : S.length ≤ 2 ^ 29) :
    (compress_classify P ref src diffing true).same_newpages.length ≤ S.length ∧
      ∀ c ∈ (compress_classify P ref src diffing true).same_newpages.map Prod.fst,
        c ∈ S ∧ c ∉ R ∧
        (map_get (compress_classify P ref src diffing true).same_newpages c []).Sorted (· < ·) ∧
        map_get (compress_classify P ref src diffing true).same_newpages c [] ≠ [] ∧
        (∀ x ∈ map_get (compress_classify P ref src diffing true).same_newpages c [],
          x < 2 ^ 29) ∧
        ∀ p, p ∈ map_get (compress_classify P ref src diffing true).same_newpages c []
          ↔ S[p]? = some c
            ∧ ¬ (diffing = true ∧ (create_diff (R.getD p []) c).length < P) := by
  obtain ⟨_, _, hnd, hsets, hmem⟩ := classify_same_newpages diffing P R S ref src hR hS
  have hkey : ∀ c nums, (c, nums) ∈ (compress_classify P ref src diffing true).same_newpages →
      ∀ x ∈ nums, S[x]? = some c := by
    intro c nums hm x hx
    exact ((hmem c x).mp ⟨nums, hm, hx⟩).1
  constructor
  · have hinj : ((compress_classify P ref src diffing true).same_newpages.map
        (fun e => e.2.headD 0)).Nodup := by
      rw [List.nodup_map_iff_inj_on (List.Nodup.of_map _ hnd)]
      intro e1 he1 e2 he2 heq
      have a1 := hkey e1.1 e1.2 he1 _ (headD_mem _ (hsets e1.1 e1.2 he1).2)
      have a2 := hkey e2.1 e2.2 he2 _ (headD_mem _ (hsets e2.1 e2.2 he2).2)
      rw [heq, a2] at a1
      have hk : e2.1 = e1.1 := Option.some.inj a1
      have f1 := map_find_of_mem _ _ _ hnd he1
      have f2 := map_find_of_mem _ _ _ hnd he2
      rw [hk, f1] at f2
      exact Prod.ext hk.symm (Option.some.inj f2)
    have := length_le_of_nodup_lt _ S.length hinj (by
      intro x hx
      obtain ⟨e, he, rfl⟩ := List.mem_map.mp hx
      have a1 := hkey e.1 e.2 he _ (headD_mem _ (hsets e.1 e.2 he).2)
      exact (List.getElem?_eq_some.mp a1).1)
    simpa only [List.length_map] using this
  · intro c hc
    obtain ⟨⟨c', nums⟩, hm, rfl⟩ := List.mem_map.mp hc
    have hget := map_get_of_mem _ c' nums [] hnd hm
    obtain ⟨s1, s2⟩ := hsets c' nums hm
    simp only [hget]
    have a1 := hkey c' nums hm _ (headD_mem _ s2)
    have a2 := ((hmem c' _).mp ⟨nums, hm, headD_mem _ s2⟩).2.1
    refine ⟨List.getElem?_mem a1, a2, s1, s2, ?_, ?_⟩
    · intro x hx
      have := (List.getElem?_eq_some.mp (hkey c' nums hm x hx)).1
      omega
    · intro p
      constructor
      · intro hp
        have := (hmem c' p).mp ⟨nums, hm, hp⟩
        exact ⟨this.1, this.2.2⟩
      · rintro ⟨h1, h2⟩
        obtain ⟨nums', hm', hp'⟩ := (hmem c' p).mpr ⟨h1, a2, h2⟩
        have f1 := map_find_of_mem _ _ _ hnd hm
        have f2 := map_find_of_mem _ _ _ hnd hm'
        rw [f1] at f2
        rw [Option.some.inj f2]
        exact hp'

/-- Claim C34, amended: with intra enabled, the section of the new pages is the number
`n` of distinct new contents as 4 little-endian bytes (`n < 2^32`), then `n` interval
lists, then the `n` distinct contents, each of `P` bytes.  A content is listed when
it is absent from `R` and some page number holding it has no diff recorded; its
interval list covers exactly the page numbers that hold it and have no diff recorded
(all page numbers holding it when diffing is off), and the reader parses the list
back to these intervals. -/
theorem intra_new_section (P : Nat) (R S : Pages) (ref src : memdump) (diffing : Bool)
    (hR : ref.Holds R) (hS : src.Holds S) (hpg : ∀ pg ∈ S, pg.length = P)
    (hlen : S.length ≤ 2 ^ 29) :
    write_new_section true (compress_classify P ref src diffing true)
        = int_to_byte_LE
            ((compress_classify P ref src diffing true).same_newpages.map Prod.fst).length 4
          ++ (((compress_classify P ref src diffing true).same_newpages.map Prod.fst).map
              (fun c => (create_interval_list (intervalize
                (map_get (compress_classify P ref src diffing true).same_newpages c []))).flatten)).flatten
          ++ ((compress_classify P ref src diffing true).same_newpages.map Prod.fst).flatten
      ∧ ((compress_classify P ref src diffing true).same_newpages.map Prod.fst).length < 2 ^ 32
      ∧ ((compress_classify P ref src diffing true).same_newpages.map Prod.fst).Nodup
      ∧ (∀ c, c ∈ (compress_classify P ref src diffing true).same_newpages.map Prod.fst
          ↔ c ∉ R ∧ ∃ p, S[p]? = some c
              ∧ ¬ (diffing = true ∧ (create_diff (R.getD p []) c).length < P))
      ∧ (∀ c ∈ (compress_classify P ref src diffing true).same_newpages.map Prod.fst,
          c.length = P
          ∧ (∀ p, p ∈ intervals_expand (intervalize
                (map_get (compress_classify P ref src diffing true).same_newpages c []))
              ↔ S[p]? = some c
                ∧ ¬ (diffing = true ∧ (create_diff (R.getD p []) c).length < P))
          ∧ (diffing = false → ∀ p, p ∈ intervals_expand (intervalize
                (map_get (compress_classify P ref src diffing true).same_newpages c []))
              ↔ S[p]? = some c)
          ∧ ∀ rest, parse_interval_list ⟨(create_interval_list (intervalize
                (map_get (compress_classify P ref src diffing true).same_newpages c []))).flatten
                ++ rest, false⟩
              = .ok (intervalize
                (map_get (compress_classify P ref src diffing true).same_newpages c []),
                ⟨rest, false⟩)) := by
  obtain ⟨_, _, hnd, hsets, hmem⟩ := classify_same_newpages diffing P R S ref src hR hS
  obtain ⟨k1, k2⟩ := same_newpages_keys P R S ref src diffing hR hS hlen
  refine ⟨?_, ?_, hnd, ?_, ?_⟩
  · unfold write_new_section
    rw [if_pos rfl]
    dsimp only
    rw [write_intra_intervals_eq, List.length_map]
  · rw [List.length_map]
    omega
  · intro c
    constructor
    · intro hc
      obtain ⟨_, a2, _, a4, _, a6⟩ := k2 c hc
      refine ⟨a2, _, (a6 _).mp (headD_mem _ a4)⟩
    · rintro ⟨h1, p, h2, h3⟩
      obtain ⟨nums, hm, _⟩ := (hmem c p).mpr ⟨h2, h1, h3⟩
      exact List.mem_map.mpr ⟨(c, nums), hm, rfl⟩
  · intro c hc
    obtain ⟨a1, _, a3, a4, a5, a6⟩ := k2 c hc
    have hexp := intervals_expand_intervalize _ a3 (fun x hx => by have := a5 x hx; omega)
    refine ⟨hpg c a1, ?_, ?_, ?_⟩
    · intro p
      rw [hexp]
      exact a6 p
    · intro hd p
      rw [hexp, a6 p, hd]
      simp
    · intro rest
      exact parse_interval_list_intervalize _ rest a3 a4 a5

/-- Claim C34's example: the content "XX" at the pages 3, 5 and 7 of `exIntraS`, absent
from `exIntraR`, gives `n = 1`, the intervals `[3,3]`, `[5,5]`, `[7,7]` and one page
"XX". -/
theorem intra_new_section_witness :
    exIntraRef.Holds exIntraR ∧ exIntraSrc.Holds exIntraS
      ∧ (∀ pg ∈ exIntraS, pg.length = 2) ∧ exIntraS.length ≤ 2 ^ 29
      ∧ (compress_classify 2 exIntraRef exIntraSrc true true).same_newpages
          = [([88, 88], [3, 5, 7])]
      ∧ intervalize [3, 5, 7] = [(3, 3), (5, 5), (7, 7)]
      ∧ write_new_section true (compress_classify 2 exIntraRef exIntraSrc true true)
          = [1, 0, 0, 0] ++ ([3, 0, 0, 0] ++ [5, 0, 0, 0] ++ [7, 0, 0, 128]) ++ [88, 88]
      ∧ ((compress_classify 2 exIntraRef exIntraSrc true true).same_newpages.map Prod.fst).Nodup
      ∧ (∀ c ∈ (compress_classify 2 exIntraRef exIntraSrc true true).same_newpages.map Prod.fst,
          c.length = 2
          ∧ ∀ p, p ∈ intervals_expand (intervalize
                (map_get (compress_classify 2 exIntraRef exIntraSrc true true).same_newpages c []))
              ↔ exIntraS[p]? = some c
                ∧ ¬ (true = true ∧ (create_diff (exIntraR.getD p []) c).length < 2)) :=
  ⟨exIntraRef_holds, exIntraSrc_holds, by decide, by decide, by rfl, by rfl, by rfl,
    (intra_new_section 2 exIntraR exIntraS exIntraRef exIntraSrc true exIntraRef_holds
      exIntraSrc_holds (by decide) (by decide)).2.2.1,
    fun c hc => ⟨((intra_new_section 2 exIntraR exIntraS exIntraRef exIntraSrc true
      exIntraRef_holds exIntraSrc_holds (by decide) (by decide)).2.2.2.2 c hc).1,
      ((intra_new_section 2 exIntraR exIntraS exIntraRef exIntraSrc true
      exIntraRef_holds exIntraSrc_holds (by decide) (by decide)).2.2.2.2 c hc).2.1⟩⟩

/-- Claim C34 as stated fails with diffing on: in `exMixS` the pages 0 and 1 both hold
"AAAAAAAC", absent from `exMixR`; page 0 is recorded as a diff of 5 bytes against
"AAAAAAAA", page 1 is new (its diff against "BBBBBBBB" has 12 bytes), and the
interval list written for "AAAAAAAC" is `[1,1]`: it does not cover page 0. -/
theorem intra_interval_list_skips_diffed :
    exMixRef.Holds exMixR ∧ exMixSrc.Holds exMixS
      ∧ exMixS[0]? = some [65, 65, 65, 65, 65, 65, 65, 67]
      ∧ exMixS[1]? = some [65, 65, 65, 65, 65, 65, 65, 67]
      ∧ [65, 65, 65, 65, 65, 65, 65, 67] ∉ exMixR
      ∧ (compress_classify 8 exMixRef exMixSrc true true).diffs = [(0, [1, 0, 0, 7, 67])]
      ∧ (compress_classify 8 exMixRef exMixSrc true true).same_newpages
          = [([65, 65, 65, 65, 65, 65, 65, 67], [1])]
      ∧ write_new_section true (compress_classify 8 exMixRef exMixSrc true true)
          = [1, 0, 0, 0] ++ [1, 0, 0, 128] ++ [65, 65, 65, 65, 65, 65, 65, 67]
      ∧ parse_interval_list ⟨[1, 0, 0, 128], false⟩ = .ok ([(1, 1)], ⟨[], false⟩)
      ∧ 0 ∉ intervals_expand (intervalize
          (map_get (compress_classify 8 exMixRef exMixSrc true true).same_newpages
            [65, 65, 65, 65, 65, 65, 65, 67] [])) :=
  ⟨exMixRef_holds, exMixSrc_holds, by rfl, by rfl, by decide, by rfl, by rfl, by rfl, by rfl,
    by decide⟩

/-- Claim C33 at page 0 of `exMixS`: its content "AAAAAAAC" is absent from `exMixR`, the
diff against "AAAAAAAA" has 5 bytes, fewer than 8, so the page is recorded in `diffs`
and not as a new page. -/
theorem diff_or_new_witness :
    exMixRef.Holds exMixR ∧ exMixSrc.Holds exMixS
      ∧ exMixS[0]? = some [65, 65, 65, 65, 65, 65, 65, 67]
      ∧ [65, 65, 65, 65, 65, 65, 65, 67] ∉ exMixR
      ∧ ((compress_classify 8 exMixRef exMixSrc true true).InDiffs 0
        ↔ (create_diff (exMixR.getD 0 []) [65, 65, 65, 65, 65, 65, 65, 67]).length < 8)
      ∧ ((compress_classify 8 exMixRef exMixSrc true true).InDiffs 0 →
          map_find (compress_classify 8 exMixRef exMixSrc true true).diffs 0
              = some (create_diff (exMixR.getD 0 []) [65, 65, 65, 65, 65, 65, 65, 67])
            ∧ ¬ (compress_classify 8 exMixRef exMixSrc true true).InNew 0)
      ∧ (¬ (compress_classify 8 exMixRef exMixSrc true true).InDiffs 0 →
          (compress_classify 8 exMixRef exMixSrc true true).InNew 0
            ∧ (true = true →
                (∃ nums, ([65, 65, 65, 65, 65, 65, 65, 67], nums)
                    ∈ (compress_classify 8 exMixRef exMixSrc true true).same_newpages
                  ∧ 0 ∈ nums)
                ∧ (compress_classify 8 exMixRef exMixSrc true true).new_pages = [])
            ∧ (true = false →
                map_find (compress_classify 8 exMixRef exMixSrc true true).new_pages 0
                  = some [65, 65, 65, 65, 65, 65, 65, 67])) :=
  ⟨exMixRef_holds, exMixSrc_holds, by rfl, by decide,
    diff_or_new 8 exMixR exMixS exMixRef exMixSrc true exMixRef_holds exMixSrc_holds 0
      [65, 65, 65, 65, 65, 65, 65, 67] (by rfl) (by decide)⟩

end mscr
